import Mathlib

/-! The f32 five-loop GEMM driver and the Haswell sMx16 sup kernel.

A shallow embedding of

* `addon/aocl_gemm/frame/f32f32f32/lpgemm_f32f32f32.c`
  (`LPGEMM_5LOOP(float,float,float,f32f32f32of32)` and the two panel packers), and
* `kernels/haswell/3/sup/s6x16/bli_gemmsup_rv_haswell_asm_sMx16.c`
  (`bli_sgemmsup_rv_haswell_asm_6x16`: the edge-case dispatcher and the 6x16 assembly body).

Conventions.  Extents, indices and strides are natural numbers.  Pointers are element
indices (a byte address divided by `sizeof(float)`) into the memory of the operand they
point into; the operands `a`, `b`, `c` are `restrict`/`const` in the source and are kept
in separate memories.  Floating point values are elements of a commutative ring, every
fused multiply-add being the exact `x * y + z`.  A `for` loop is run with a fuel bound and
returns `none` when the bound is exhausted, so that a loop which never ends has no result.
-/

namespace Lpgemm

/-! ## Loops -/

/-- The loop `for ( i = i0; i < stop; i += step ) body`, run for at most `fuel` iterations.
The result is `none` when the fuel is used up before the loop condition fails, or when the
body has no result. -/
def forLoop {σ : Type} (stop step : Nat) (body : Nat → σ → Option σ) :
    Nat → Nat → σ → Option σ
  | 0, i, s => if i < stop then none else some s
  | fuel + 1, i, s =>
    if i < stop then (body i s).bind (forLoop stop step body fuel (i + step)) else some s

/-- The values taken by the loop variable of `for ( i = i0; i < stop; i += step )`,
listed for at most `fuel` iterations. -/
def loopStarts (stop step : Nat) : Nat → Nat → List Nat
  | 0, _ => []
  | fuel + 1, i => if i < stop then i :: loopStarts stop step fuel (i + step) else []

/-! ## Data model of the driver -/

/-- The operand tag `AOCL_MEMORY_TAG`.  The source names `PACK` and `REORDERED`; the third
value, used for an operand taken as given, is called NATIVE in the specification. -/
inductive AOCL_MEMORY_TAG
  | NATIVE
  | PACK
  | REORDERED
  deriving DecidableEq, Repr

/-- The memory a pointer handed to the micro-kernel points into: the caller's operand
(`a` or `b`) or the pack buffer obtained from the memory pool
(`pack_a_buffer_f32f32f32of32`, `pack_b_buffer_f32f32f32of32`). -/
inductive Region
  | operand
  | packbuf
  deriving DecidableEq, Repr

/-- A pointer to an A or B element: the memory it points into and the element index. -/
structure Ptr where
  region : Region
  addr : Nat
  deriving DecidableEq, Repr

/-- The attribute bundle `lpgemm_post_op_attr` handed to the micro-kernel by value.
`buf_downscale` is `none` for `NULL`. -/
structure lpgemm_post_op_attr where
  buf_downscale : Option Nat
  post_op_c_i : Nat
  post_op_c_j : Nat
  rs_c_downscale : Nat
  is_first_k : Bool
  is_last_k : Bool
  deriving DecidableEq, Repr

/-- The argument list of one call through `lcntx->kern_fun_ptr` (type `lpgemm_rowvar_f32`),
in the order of the source: `m0, n0, k0, a, rs_a, cs_a, ps_a, b, rs_b, cs_b, c, rs_c, cs_c,
alpha, beta, post_op_list, post_ops_attr`. -/
structure KernelCall (R L : Type) where
  m : Nat
  n : Nat
  k : Nat
  a : Ptr
  rs_a : Nat
  cs_a : Nat
  ps_a : Nat
  b : Ptr
  rs_b : Nat
  cs_b : Nat
  c : Nat
  rs_c : Nat
  cs_c : Nat
  alpha : R
  beta : R
  post_op_list : L
  post_ops_attr : lpgemm_post_op_attr

/-- The argument list of one call of `lpgemm_pack_a_f32f32f32of32` or
`lpgemm_pack_b_f32f32f32of32`: source pointer, offset of the destination in the pack
buffer, extent `mn` (rows of A, columns of B), `k`, the strides passed, the panel stride
`ps_p` and the micro-tile extent `MR` or `NR`. -/
structure PackCall where
  src : Nat
  dst : Nat
  mn : Nat
  k : Nat
  rs : Nat
  cs : Nat
  ps_p : Nat
  XR : Nat
  deriving DecidableEq, Repr

/-- The thread communicator a barrier is executed on: the one of the ic group
(`bli_thread_ocomm_id( &thread_ic )`) or the one of the jc group. -/
inductive Comm
  | ic
  | jc
  deriving DecidableEq, Repr

/-- What one thread does, in program order, during one call of the driver: the calls it
makes to its collaborators.  A `kernel` event also records the loop indices
`jc, pc, ic, jr` at which the call is made; they are not arguments of the call. -/
inductive Event (R L : Type)
  | alloc_b (size : Nat)
  | barrier (comm : Comm) (work_id : Nat)
  | pack_b (call : PackCall)
  | alloc_a (size : Nat)
  | pack_a (call : PackCall)
  | kernel (jc pc ic jr : Nat) (call : KernelCall R L)
  | release_b
  | release_a

/-- The cache block sizes queried from the context (`bli_cntx_get_l3_sup_blksz_def_dt`). -/
structure BlockSizes where
  NR : Nat
  MR : Nat
  NC : Nat
  MC : Nat
  KC : Nat
  deriving DecidableEq, Repr

/-- What the driver learns about the calling thread from `lpgemm_gen_thrinfo`,
`bli_thread_range_sub`, `bli_thread_am_ochief` and `bli_thread_work_id`: its column range
`[jc_start, jc_end)`, its row range `[ic_start, ic_end)`, whether it is the chief of its
ic group, the work id of its jc group, and the sub-range of a column block of width `nc0`
it packs (`bli_thread_range_sub( &thread_ic, nc0, NR, ... )`). -/
structure ThreadInfo where
  jc_start : Nat
  jc_end : Nat
  ic_start : Nat
  ic_end : Nat
  am_ochief : Bool
  jc_work_id : Nat
  packb_range : Nat → Nat × Nat

/-- The two helpers of `lpgemm_utils.h` used for a REORDERED B, which are not part of the
sources at hand and are taken as parameters.
`get_B_panel_reordered_start_offset_width jc n NC NR nc0` returns
`(jc_cur_loop, jc_cur_loop_rem, nc0, n_sub_updated)`;
`adjust_B_panel_reordered_jc jc jc_cur_loop` returns the new `jc`. -/
structure ReorderNav where
  get_B_panel_reordered_start_offset_width : Nat → Nat → Nat → Nat → Nat → Nat × Nat × Nat × Nat
  adjust_B_panel_reordered_jc : Nat → Nat → Nat

/-- The arguments of `LPGEMM_5LOOP(float,float,float,f32f32f32of32)`, together with the two
run-time flags read from `rntm` (`bli_rntm_pack_a`, `bli_rntm_pack_b`). -/
structure Args (R L : Type) where
  m : Nat
  n : Nat
  k : Nat
  a : Nat
  rs_a : Nat
  cs_a : Nat
  mtag_a : AOCL_MEMORY_TAG
  b : Nat
  rs_b : Nat
  cs_b : Nat
  mtag_b : AOCL_MEMORY_TAG
  c : Nat
  rs_c : Nat
  alpha : R
  beta : R
  should_pack_A : Bool
  should_pack_B : Bool
  post_op_list : L
  c_downscale : Bool

/-- Modelled from the spec: the helper `make_multiple_of_n` of `lpgemm_utils.h`, which
rounds an extent up to the next multiple of the micro-tile extent. -/
def make_multiple_of_n (k n : Nat) : Nat := ((k + n - 1) / n) * n

/-- The size in bytes of a `float`. -/
def sizeof_float : Nat := 4

/-! ## The five-loop driver -/

section driver

variable {R L : Type} [One R]

/-- The A pointer and strides in use for one row block (`a_use`, `rs_a_use`, `cs_a_use`,
`ps_a_use`). -/
structure AUse where
  a_use : Ptr
  rs_a_use : Nat
  cs_a_use : Nat
  ps_a_use : Nat
  deriving DecidableEq, Repr

/-- The B pointer and strides in use for one K-slice (`b_use`, `rs_b_use`, `cs_b_use`,
`ps_b_use`). -/
structure BUse where
  b_use : Ptr
  rs_b_use : Nat
  cs_b_use : Nat
  ps_b_use : Nat
  deriving DecidableEq, Repr

/-- The B part of the body of the `pc` loop (source lines 203-296): the events of the
on-the-fly packing of B, when it is done, and the B pointer and strides in use afterwards.
`rs_b_use` and `cs_b_use` start as `rs_b`, `cs_b` and are assigned only in the first two
branches, whose conditions do not change during a call; in the last branch they therefore
still hold `rs_b`, `cs_b`. -/
def b_select (blk : BlockSizes) (thr : ThreadInfo) (x : Args R L)
    (jc pc nc0 kc0 jc_cur_loop jc_cur_loop_rem n_sub_updated : Nat) :
    List (Event R L) × BUse :=
  if x.mtag_b = AOCL_MEMORY_TAG.PACK ∧ x.should_pack_B = true then
    let nc0_updated := make_multiple_of_n nc0 blk.NR
    let mem_b_size_req := sizeof_float * nc0_updated * kc0
    let alloc : List (Event R L) :=
      if thr.am_ochief = true then [Event.alloc_b mem_b_size_req] else []
    let rs_b_use := blk.NR
    let cs_b_use := 1
    let ps_b_use := kc0
    let jc_packb_start := (thr.packb_range nc0).1
    let jc_packb_end := (thr.packb_range nc0).2
    let pack : List (Event R L) :=
      if jc_packb_end > jc_packb_start ∧ jc_packb_start < jc + nc0 then
        [Event.pack_b
          { src := x.b + x.rs_b * pc + x.cs_b * jc + x.cs_b * jc_packb_start
            dst := jc_packb_start * kc0
            mn := jc_packb_end - jc_packb_start
            k := kc0
            rs := x.rs_b
            cs := x.cs_b
            ps_p := blk.NR * ps_b_use
            XR := blk.NR }]
      else []
    (alloc ++ [Event.barrier Comm.ic thr.jc_work_id] ++ pack
        ++ [Event.barrier Comm.ic thr.jc_work_id],
      { b_use := ⟨Region.packbuf, 0⟩
        rs_b_use := rs_b_use
        cs_b_use := cs_b_use
        ps_b_use := ps_b_use })
  else if x.mtag_b = AOCL_MEMORY_TAG.REORDERED then
    ([], { b_use := ⟨Region.operand,
                      x.b + jc_cur_loop * x.k + n_sub_updated * pc + jc_cur_loop_rem * kc0⟩
           rs_b_use := blk.NR
           cs_b_use := 1
           ps_b_use := kc0 })
  else
    ([], { b_use := ⟨Region.operand, x.b + pc * x.rs_b + jc * x.cs_b⟩
           rs_b_use := x.rs_b
           cs_b_use := x.cs_b
           ps_b_use := 1 })

/-- The A part of the body of the `ic` loop (source lines 306-348): the events of the
packing of A, when it is done, and the A pointer and strides in use afterwards.
`rs_a_use` and `cs_a_use` start as `rs_a`, `cs_a` and are assigned only in the first two
branches, whose conditions do not change during a call. -/
def a_select (blk : BlockSizes) (x : Args R L) (pc ic kc0 mc0 : Nat) :
    List (Event R L) × AUse :=
  if x.mtag_a = AOCL_MEMORY_TAG.REORDERED then
    let m_updated := ((x.m + blk.MR - 1) / blk.MR) * blk.MR
    ([], { a_use := ⟨Region.operand, x.a + pc * m_updated + kc0 * ic⟩
           rs_a_use := 1
           cs_a_use := blk.MR
           ps_a_use := blk.MR * kc0 })
  else if x.should_pack_A = true then
    let mc0_updated := ((mc0 + blk.MR - 1) / blk.MR) * blk.MR
    let mem_a_size_req := sizeof_float * mc0_updated * kc0
    let ps_a_use := blk.MR * kc0
    ([Event.alloc_a mem_a_size_req,
      Event.pack_a
        { src := x.a + x.rs_a * ic + pc
          dst := 0
          mn := mc0
          k := kc0
          rs := x.rs_a
          cs := x.cs_a
          ps_p := ps_a_use
          XR := blk.MR }],
     { a_use := ⟨Region.packbuf, 0⟩
       rs_a_use := 1
       cs_a_use := blk.MR
       ps_a_use := ps_a_use })
  else
    ([], { a_use := ⟨Region.operand, x.a + x.rs_a * ic + pc⟩
           rs_a_use := x.rs_a
           cs_a_use := x.cs_a
           ps_a_use := blk.MR * x.rs_a })

/-- The micro-kernel call of the `jr` loop (source lines 357-373). -/
def kernel_call (blk : BlockSizes) (x : Args R L) (au : AUse) (bu : BUse)
    (jc pc ic jr nc0 kc0 mc0 : Nat) : KernelCall R L :=
  let nr0 := min (nc0 - jr) blk.NR
  let beta0 : R := if pc = 0 then x.beta else 1
  let is_first_k : Bool := if pc = 0 then true else false
  let is_last_k : Bool := if pc + blk.KC ≥ x.k then true else false
  let c_use_jc := x.c + jc
  let c_use_ic := c_use_jc + x.rs_c * ic
  let cs_c_use := 1
  { m := mc0
    n := nr0
    k := kc0
    a := au.a_use
    rs_a := au.rs_a_use
    cs_a := au.cs_a_use
    ps_a := au.ps_a_use
    b := ⟨bu.b_use.region, bu.b_use.addr + jr * bu.ps_b_use⟩
    rs_b := bu.rs_b_use
    cs_b := bu.cs_b_use
    c := c_use_ic + jr
    rs_c := x.rs_c
    cs_c := cs_c_use
    alpha := x.alpha
    beta := beta0
    post_op_list := x.post_op_list
    post_ops_attr :=
      { buf_downscale := if x.c_downscale = true then some x.c else none
        post_op_c_i := ic
        post_op_c_j := jc + jr
        rs_c_downscale := x.rs_c
        is_first_k := is_first_k
        is_last_k := is_last_k } }

/-- The body of the `jr` loop (source lines 355-374). -/
def jr_body (blk : BlockSizes) (x : Args R L) (au : AUse) (bu : BUse)
    (jc pc ic nc0 kc0 mc0 : Nat) (jr : Nat) (evs : List (Event R L)) :
    Option (List (Event R L)) :=
  some (evs ++ [Event.kernel jc pc ic jr (kernel_call blk x au bu jc pc ic jr nc0 kc0 mc0)])

/-- The body of the `ic` loop (source lines 301-375). -/
def ic_body (blk : BlockSizes) (x : Args R L) (bu : BUse) (fuel : Nat)
    (jc pc nc0 kc0 : Nat) (ic_end : Nat) (ic : Nat) (evs : List (Event R L)) :
    Option (List (Event R L)) :=
  let mc0 := min (ic_end - ic) blk.MC
  let sel := a_select blk x pc ic kc0 mc0
  forLoop nc0 blk.NR (jr_body blk x sel.2 bu jc pc ic nc0 kc0 mc0) fuel 0 (evs ++ sel.1)

/-- The body of the `pc` loop (source lines 191-376). -/
def pc_body (blk : BlockSizes) (thr : ThreadInfo) (x : Args R L) (fuel : Nat)
    (jc nc0 jc_cur_loop jc_cur_loop_rem n_sub_updated : Nat) (pc : Nat)
    (evs : List (Event R L)) : Option (List (Event R L)) :=
  let kc0 := min (x.k - pc) blk.KC
  let sel := b_select blk thr x jc pc nc0 kc0 jc_cur_loop jc_cur_loop_rem n_sub_updated
  forLoop thr.ic_end blk.MC (ic_body blk x sel.2 fuel jc pc nc0 kc0 thr.ic_end) fuel
    thr.ic_start (evs ++ sel.1)

/-- The body of the `jc` loop (source lines 172-380), without the increment `jc += NC`:
the events added and the value of `jc` at the end of the body, which differs from the one
at its start only for a REORDERED B. -/
def jc_body (blk : BlockSizes) (nav : ReorderNav) (thr : ThreadInfo) (x : Args R L)
    (fuel : Nat) (jc : Nat) (evs : List (Event R L)) : Option (Nat × List (Event R L)) :=
  let nc0 := min (thr.jc_end - jc) blk.NC
  let r : Nat × Nat × Nat × Nat :=
    if x.mtag_b = AOCL_MEMORY_TAG.REORDERED then
      nav.get_B_panel_reordered_start_offset_width jc x.n blk.NC blk.NR nc0
    else (jc, 0, nc0, 0)
  let jc_cur_loop := r.1
  let jc_cur_loop_rem := r.2.1
  let nc0 := r.2.2.1
  let n_sub_updated := r.2.2.2
  (forLoop x.k blk.KC
      (pc_body blk thr x fuel jc nc0 jc_cur_loop jc_cur_loop_rem n_sub_updated) fuel 0 evs).map
    (fun evs1 =>
      (if x.mtag_b = AOCL_MEMORY_TAG.REORDERED then
          nav.adjust_B_panel_reordered_jc jc jc_cur_loop
        else jc,
       evs1))

/-- The `jc` loop `for ( jc = jc_start; jc < jc_end; jc += NC )` (source line 172), whose
body may itself assign `jc`. -/
def jc_loop (blk : BlockSizes) (nav : ReorderNav) (thr : ThreadInfo) (x : Args R L)
    (fuel : Nat) : Nat → Nat → List (Event R L) → Option (List (Event R L))
  | 0, jc, evs => if jc < thr.jc_end then none else some evs
  | f + 1, jc, evs =>
    if jc < thr.jc_end then
      (jc_body blk nav thr x fuel jc evs).bind
        (fun r => jc_loop blk nav thr x fuel f (r.1 + blk.NC) r.2)
    else some evs

/-- Whether the event is an acquisition of the B pack buffer. -/
def Event.is_alloc_b : Event R L → Bool
  | Event.alloc_b _ => true
  | _ => false

/-- Whether the event is an acquisition of the A pack buffer. -/
def Event.is_alloc_a : Event R L → Bool
  | Event.alloc_a _ => true
  | _ => false

/-- The release of the pack buffers after the loop nest (source lines 383-408), given the
events of the loop nest: `bli_mem_is_alloc` holds of a buffer once it was acquired. -/
def release_events (thr : ThreadInfo) (x : Args R L) (evs : List (Event R L)) :
    List (Event R L) :=
  (if x.mtag_b = AOCL_MEMORY_TAG.PACK then
      [Event.barrier Comm.jc thr.jc_work_id] ++
        (if thr.am_ochief = true ∧ evs.any Event.is_alloc_b = true then [Event.release_b]
         else [])
    else []) ++
  (if x.should_pack_A = true ∧ evs.any Event.is_alloc_a = true then [Event.release_a]
    else [])

/-- The driver `LPGEMM_5LOOP(float,float,float,f32f32f32of32)` run by one thread: the
events of the call in program order, or `none` when a loop does not end within `fuel`
iterations. -/
def lpgemm_rowvar_f32f32f32of32 (blk : BlockSizes) (nav : ReorderNav) (thr : ThreadInfo)
    (x : Args R L) (fuel : Nat) : Option (List (Event R L)) :=
  (jc_loop blk nav thr x fuel fuel thr.jc_start []).map
    (fun evs => evs ++ release_events thr x evs)

end driver

end Lpgemm

/-! ## Memory semantics of the events -/

namespace Lpgemm

section semantics

variable {R L : Type} [CommRing R]

/-- The memories a call of the driver works on besides the read-only operands A and B:
the destination C and the two pack buffers obtained from the memory pool. -/
structure MemState (R : Type) where
  C : Nat → R
  pack_a : Nat → R
  pack_b : Nat → R

/-- The stores of a list `(address, value)` done in order on a memory. -/
def apply_writes (ws : List (Nat × R)) (mem : Nat → R) : Nat → R :=
  ws.foldl (fun mem w => Function.update mem w.1 w.2) mem

/-- The sum `f 0 + f 1 + ... + f (k-1)`. -/
def sum_upto (k : Nat) (f : Nat → R) : R := ((List.range k).map f).sum

/-- Modelled from the spec: the panel packing kernel `packm_cxk` of the framework, which
is not part of the sources at hand.  It copies `panel_dim` x `panel_len` elements of the
source, scaled by `kappa`, into a panel with leading dimension `ldp`, element `(i, l)` of
the chunk going to `p + i + l*ldp`, and fills the rows `panel_dim .. panel_dim_max - 1`
of the panel with zeros. -/
def packm_cxk (panel_dim panel_dim_max panel_len : Nat) (kappa : R)
    (src : Nat → R) (a inca lda : Nat) (buf : Nat → R) (p ldp : Nat) : Nat → R :=
  apply_writes
    ((List.range panel_len).flatMap (fun l =>
      (List.range panel_dim_max).map (fun i =>
        (p + i + l * ldp,
          if i < panel_dim then kappa * src (a + i * inca + l * lda) else 0))))
    buf

/-- The function `lpgemm_pack_a_f32f32f32of32` (source lines 411-464): the pack buffer
after the call.  The loop runs `it = 0 .. m_iter - 1` with `ir = it * MR`. -/
def lpgemm_pack_a_f32f32f32of32 (src : Nat → R) (input_buf_addr_a : Nat)
    (buf : Nat → R) (reorder_buf_addr_a : Nat) (m k rs_a cs_a ps_p MR : Nat) : Nat → R :=
  let one_local : R := 1
  let m_iter := (m + MR - 1) / MR
  let cs_p := MR
  (List.range m_iter).foldl
    (fun buf it =>
      let ir := it * MR
      let panel_dim_i := min MR (m - ir)
      let a_use := input_buf_addr_a + ir * rs_a
      let p_use := reorder_buf_addr_a + it * ps_p
      packm_cxk panel_dim_i MR k one_local src a_use rs_a cs_a buf p_use cs_p)
    buf

/-- The function `lpgemm_pack_b_f32f32f32of32` (source lines 466-519): the pack buffer
after the call.  The loop runs `it = 0 .. n_iter - 1` with `jr = it * NR`. -/
def lpgemm_pack_b_f32f32f32of32 (src : Nat → R) (input_buf_addr_b : Nat)
    (buf : Nat → R) (reorder_buf_addr_b : Nat) (n k rs_b cs_b ps_p NR : Nat) : Nat → R :=
  let one_local : R := 1
  let n_iter := (n + NR - 1) / NR
  let rs_p := NR
  (List.range n_iter).foldl
    (fun buf it =>
      let jr := it * NR
      let panel_dim_i := min NR (n - jr)
      let b_use := input_buf_addr_b + jr * cs_b
      let p_use := reorder_buf_addr_b + it * ps_p
      packm_cxk panel_dim_i NR k one_local src b_use cs_b rs_b buf p_use rs_p)
    buf

/-- The value a pointer handed to the micro-kernel points at, `off` elements further:
in the caller's operand or in the pack buffer. -/
def read_at (operand packbuf : Nat → R) (p : Ptr) (off : Nat) : R :=
  match p.region with
  | Region.operand => operand (p.addr + off)
  | Region.packbuf => packbuf (p.addr + off)

/-- Modelled from the spec: the contract of the micro-kernel behind `lcntx->kern_fun_ptr`,
which is not part of the sources at hand, in exact arithmetic:
`C_tile := beta * C_tile + alpha * A_tile * B_tile` on the `m x n` tile at `c`.
Row `i` of the A block is row `i % MR` of the micro-panel `i / MR`, the micro-panels
being `ps_a` apart; element `(l, j)` of the B block is at `b + l*rs_b + j*cs_b`.
The stores of the call are listed with the values computed from the memory before the
call. -/
def kernel_writes (MR : Nat) (A B : Nat → R) (st : MemState R) (call : KernelCall R L) :
    List (Nat × R) :=
  (List.range call.m).flatMap (fun i =>
    (List.range call.n).map (fun j =>
      (call.c + i * call.rs_c + j * call.cs_c,
        call.beta * st.C (call.c + i * call.rs_c + j * call.cs_c) +
          call.alpha * sum_upto call.k (fun l =>
            read_at A st.pack_a call.a
                ((i / MR) * call.ps_a + (i % MR) * call.rs_a + l * call.cs_a) *
              read_at B st.pack_b call.b (l * call.rs_b + j * call.cs_b)))))

/-- The effect of one event on the memories: a micro-kernel call updates its C tile, a
pack call fills its pack buffer; acquiring or releasing a buffer and waiting at a barrier
change no memory content. -/
def exec_event (MR : Nat) (A B : Nat → R) (st : MemState R) : Event R L → MemState R
  | Event.kernel _ _ _ _ call =>
    { st with C := apply_writes (kernel_writes MR A B st call) st.C }
  | Event.pack_a call =>
    { st with pack_a := lpgemm_pack_a_f32f32f32of32 A call.src st.pack_a call.dst
                          call.mn call.k call.rs call.cs call.ps_p call.XR }
  | Event.pack_b call =>
    { st with pack_b := lpgemm_pack_b_f32f32f32of32 B call.src st.pack_b call.dst
                          call.mn call.k call.rs call.cs call.ps_p call.XR }
  | _ => st

/-- The memories after the events of a list, executed in order. -/
def exec_events (MR : Nat) (A B : Nat → R) (evs : List (Event R L)) (st : MemState R) :
    MemState R :=
  evs.foldl (exec_event MR A B) st

/-- The destination C after one call of the driver by one thread, or `none` when a loop
does not end within `fuel` iterations. -/
def lpgemm_result (blk : BlockSizes) (nav : ReorderNav) (thr : ThreadInfo) (x : Args R L)
    (fuel : Nat) (A B : Nat → R) (st : MemState R) : Option (Nat → R) :=
  (lpgemm_rowvar_f32f32f32of32 blk nav thr x fuel).map
    (fun evs => (exec_events blk.MR A B evs st).C)

/-- The thread that owns the whole of the ranges `[0, n)` and `[0, m)`: the only thread of
a call that runs on one thread. -/
def single_thread (m n : Nat) : ThreadInfo :=
  { jc_start := 0
    jc_end := n
    ic_start := 0
    ic_end := m
    am_ochief := true
    jc_work_id := 0
    packb_range := fun nc0 => (0, nc0) }

end semantics

end Lpgemm

/-! ## The Haswell sup kernel `bli_sgemmsup_rv_haswell_asm_6x16` -/

namespace Haswell

/-! ### The edge-case dispatcher (source lines 83-191) -/

/-- The kernels registered in `kmap`: the assembly kernels
`bli_sgemmsup_rv_haswell_asm_MxN` and the reference kernels
`bli_sgemmsup_r_haswell_ref_MxN`, named by their nominal shape. -/
inductive SupKernel
  | rv_haswell_asm (m n : Nat)
  | r_haswell_ref (m n : Nat)
  deriving DecidableEq, Repr

/-- The array `mrs` (source line 88). -/
def mrs : List Nat := [6, 4, 2, 1]

/-- The array `nrs` (source line 89). -/
def nrs : List Nat := [16, 12, 8, 4, 2, 1]

/-- The table `kmap[NUM_MR][NUM_NR]` (source lines 90-96). -/
def kmap : List (List SupKernel) :=
  [ [ .rv_haswell_asm 6 16, .rv_haswell_asm 6 12, .rv_haswell_asm 6 8, .rv_haswell_asm 6 4,
      .rv_haswell_asm 6 2, .r_haswell_ref 6 1 ],
    [ .rv_haswell_asm 4 16, .rv_haswell_asm 4 12, .rv_haswell_asm 4 8, .rv_haswell_asm 4 4,
      .rv_haswell_asm 4 2, .r_haswell_ref 4 1 ],
    [ .rv_haswell_asm 2 16, .rv_haswell_asm 2 12, .rv_haswell_asm 2 8, .rv_haswell_asm 2 4,
      .rv_haswell_asm 2 2, .r_haswell_ref 2 1 ],
    [ .rv_haswell_asm 1 16, .rv_haswell_asm 1 12, .rv_haswell_asm 1 8, .rv_haswell_asm 1 4,
      .rv_haswell_asm 1 2, .r_haswell_ref 1 1 ] ]

/-- The arguments of `bli_sgemmsup_rv_haswell_asm_6x16`.  `alpha` and `beta` are the values
pointed to; `a`, `b`, `c` are element indices into the memories of A, B and C; `data` and
`cntx` are the two pointers handed through. -/
structure SupArgs (R : Type) where
  conja : Bool
  conjb : Bool
  m0 : Nat
  n0 : Nat
  k0 : Nat
  alpha : R
  a : Nat
  rs_a0 : Nat
  cs_a0 : Nat
  b : Nat
  rs_b0 : Nat
  cs_b0 : Nat
  beta : R
  c : Nat
  rs_c0 : Nat
  cs_c0 : Nat
  data : Nat
  cntx : Nat

/-- One call `ker_fp( ... )` of the edge path (source lines 171-176): the kernel selected
and its argument list.  The fields `i`, `j`, `r`, `s` are not arguments: they record the
indices into `mrs` and `nrs` and the row and column of the tile at which the chunk
starts (the sums of the chunk sizes used before it). -/
structure SubCall (R : Type) where
  ker_fp : SupKernel
  conja : Bool
  conjb : Bool
  m : Nat
  n : Nat
  k : Nat
  alpha : R
  a : Nat
  rs_a : Nat
  cs_a : Nat
  b : Nat
  rs_b : Nat
  cs_b : Nat
  beta : R
  c : Nat
  rs_c : Nat
  cs_c : Nat
  data : Nat
  cntx : Nat
  i : Nat
  j : Nat
  r : Nat
  s : Nat

section edge

variable {R : Type}

/-- The loop `for ( dim_t i = 0; m_left != 0; ++i )` (source lines 158-182) from the
iteration `i` on, for the column chunk `j`.  The first argument holds the entries
`mrs[i], mrs[i+1], ...` not yet visited; reading `mrs[i]` past the end of the array, or
`kmap` out of bounds, has no defined result (`none`). -/
def edge_m_loop (x : SupArgs R) (j nr_cur bj s : Nat) :
    List Nat → Nat → Nat → Nat → Nat → Nat → Option (List (SubCall R))
  | [], _, m_left, _, _, _ => if m_left = 0 then some [] else none
  | mr_cur :: rest, i, m_left, cij, ai, r =>
    if m_left = 0 then some []
    else if mr_cur ≤ m_left then
      match (kmap.get? i).bind (fun row => row.get? j) with
      | none => none
      | some ker_fp =>
        (edge_m_loop x j nr_cur bj s rest (i + 1) (m_left - mr_cur)
            (cij + mr_cur * x.rs_c0) (ai + mr_cur * x.rs_a0) (r + mr_cur)).map
          (fun calls =>
            { ker_fp := ker_fp
              conja := x.conja
              conjb := x.conjb
              m := mr_cur
              n := nr_cur
              k := x.k0
              alpha := x.alpha
              a := ai
              rs_a := x.rs_a0
              cs_a := x.cs_a0
              b := bj
              rs_b := x.rs_b0
              cs_b := x.cs_b0
              beta := x.beta
              c := cij
              rs_c := x.rs_c0
              cs_c := x.cs_c0
              data := x.data
              cntx := x.cntx
              i := i
              j := j
              r := r
              s := s } :: calls)
    else edge_m_loop x j nr_cur bj s rest (i + 1) m_left cij ai r

/-- The loop `for ( dim_t j = 0; n_left != 0; ++j )` (source lines 144-188) from the
iteration `j` on.  The first argument holds the entries `nrs[j], nrs[j+1], ...` not yet
visited.  The result lists, for every column chunk used, the column `s` at which it
starts, its width `nr_cur` and the calls made for it. -/
def edge_n_loop (x : SupArgs R) :
    List Nat → Nat → Nat → Nat → Nat → Nat → Option (List (Nat × Nat × List (SubCall R)))
  | [], _, n_left, _, _, _ => if n_left = 0 then some [] else none
  | nr_cur :: rest, j, n_left, cj, bj, s =>
    if n_left = 0 then some []
    else if nr_cur ≤ n_left then
      match edge_m_loop x j nr_cur bj s mrs 0 x.m0 cj x.a 0 with
      | none => none
      | some calls =>
        (edge_n_loop x rest (j + 1) (n_left - nr_cur) (cj + nr_cur * x.cs_c0)
            (bj + nr_cur * x.cs_b0) (s + nr_cur)).map
          (fun cols => (s, nr_cur, calls) :: cols)
    else edge_n_loop x rest (j + 1) n_left cj bj s

/-- The column chunks of the edge path and the calls made for each of them. -/
def edge_cols (x : SupArgs R) : Option (List (Nat × Nat × List (SubCall R))) :=
  edge_n_loop x nrs 0 x.n0 x.c x.b 0

/-- The edge path of `bli_sgemmsup_rv_haswell_asm_6x16` (source lines 127-190): the calls
it makes, in order, or `none` when an array is read out of bounds. -/
def edge_path (x : SupArgs R) : Option (List (SubCall R)) :=
  (edge_cols x).map (fun cols => cols.flatMap (fun col => col.2.2))

end edge

/-! ### The assembly body for a full 6x16 tile (source lines 196-924)

Addresses and strides are counted in elements: the byte offsets and byte strides of the
source are four times the ones used here (`lea(mem(, r8, 4), r8)` etc.).  A vector
register is the function from the lane number to the value of the lane; a `ymm` register
has the lanes 0-7 and its `xmm` part the lanes 0-3; the lanes 4-7 of the result of a
128-bit instruction, which the hardware clears and the code never reads, are not
modelled.  For the instructions the operands
are written in the order of the source (AT&T order, destination last), the destination
being the result.  Prefetches change no value and are left out. -/

section asm

variable {R : Type} [Zero R] [Add R] [Mul R]

/-- A vector register: the value of each lane. -/
abbrev Vec (R : Type) := Nat → R

/-- Load `vmovups(mem(p), ymm)` / `vmovups(mem(p), xmm)`: lane `q` is the element at
`p + q`. -/
def vmovups_load (M : Nat → R) (p : Nat) : Vec R := fun q => M (p + q)

/-- Store `vmovups(ymm, mem(p))` of the eight lanes of a `ymm` register. -/
def vmovups_store8 (M : Nat → R) (p : Nat) (v : Vec R) : Nat → R :=
  fun a => if p ≤ a ∧ a < p + 8 then v (a - p) else M a

/-- Store `vmovups(xmm, mem(p))` of the four lanes of an `xmm` register. -/
def vmovups_store4 (M : Nat → R) (p : Nat) (v : Vec R) : Nat → R :=
  fun a => if p ≤ a ∧ a < p + 4 then v (a - p) else M a

/-- Load `vbroadcastss(mem(p), ymm)`: every lane is the element at `p`. -/
def vbroadcastss (M : Nat → R) (p : Nat) : Vec R := fun _ => M p

/-- The instruction `vfmadd231ps(x, y, dst)`: `dst := y * x + dst` in every lane. -/
def vfmadd231ps (x y dst : Vec R) : Vec R := fun q => y q * x q + dst q

/-- The instruction `vmulps(x, y, dst)`: `dst := y * x` in every lane. -/
def vmulps (x y : Vec R) : Vec R := fun q => y q * x q

/-- The instruction `vunpcklps(src2, src1, dst)`: in each 128-bit half the lanes
`src1[0], src2[0], src1[1], src2[1]`. -/
def vunpcklps (src2 src1 : Vec R) : Vec R := fun q =>
  match q with
  | 0 => src1 0
  | 1 => src2 0
  | 2 => src1 1
  | 3 => src2 1
  | 4 => src1 4
  | 5 => src2 4
  | 6 => src1 5
  | 7 => src2 5
  | _ => 0

/-- The instruction `vunpckhps(src2, src1, dst)`: in each 128-bit half the lanes
`src1[2], src2[2], src1[3], src2[3]`. -/
def vunpckhps (src2 src1 : Vec R) : Vec R := fun q =>
  match q with
  | 0 => src1 2
  | 1 => src2 2
  | 2 => src1 3
  | 3 => src2 3
  | 4 => src1 6
  | 5 => src2 6
  | 6 => src1 7
  | 7 => src2 7
  | _ => 0

/-- The instruction `vshufps(imm, src2, src1, dst)`: in each 128-bit half the lanes
`src1[imm[1:0]], src1[imm[3:2]], src2[imm[5:4]], src2[imm[7:6]]`. -/
def vshufps (imm : Nat) (src2 src1 : Vec R) : Vec R := fun q =>
  match q % 4 with
  | 0 => src1 (q / 4 * 4 + imm % 4)
  | 1 => src1 (q / 4 * 4 + imm / 4 % 4)
  | 2 => src2 (q / 4 * 4 + imm / 16 % 4)
  | _ => src2 (q / 4 * 4 + imm / 64 % 4)

/-- The instruction `vblendps(imm, src2, src1, dst)`: lane `q` is taken from `src2` when
bit `q` of `imm` is set and from `src1` otherwise. -/
def vblendps (imm : Nat) (src2 src1 : Vec R) : Vec R := fun q =>
  if imm.testBit q then src2 q else src1 q

/-- The instruction `vextractf128(imm(0x1), ymm, xmm)`: the upper half of `ymm`. -/
def vextractf128_1 (src : Vec R) : Vec R := fun q => src (q + 4)

/-- Load `vmovlpd(mem(p), src, dst)`: the lanes 0-1 from memory, the lanes 2-3 from `src`. -/
def vmovlpd_load (M : Nat → R) (p : Nat) (src : Vec R) : Vec R := fun q =>
  if q < 2 then M (p + q) else src q

/-- Load `vmovhpd(mem(p), src, dst)`: the lanes 2-3 from memory, the lanes 0-1 from `src`. -/
def vmovhpd_load (M : Nat → R) (p : Nat) (src : Vec R) : Vec R := fun q =>
  if q < 2 then src q else M (p + (q - 2))

/-- Store `vmovlpd(xmm, mem(p))` of the lanes 0-1. -/
def vmovlpd_store (M : Nat → R) (p : Nat) (v : Vec R) : Nat → R :=
  fun a => if p ≤ a ∧ a < p + 2 then v (a - p) else M a

/-- Store `vmovhpd(xmm, mem(p))` of the lanes 2-3. -/
def vmovhpd_store (M : Nat → R) (p : Nat) (v : Vec R) : Nat → R :=
  fun a => if p ≤ a ∧ a < p + 2 then v (a - p + 2) else M a

/-- The accumulators `ymm4 .. ymm15` and the pointers `rax` (into A) and `rbx` (into B)
during the loops over `k`. -/
structure Acc (R : Type) where
  ymm4 : Vec R
  ymm5 : Vec R
  ymm6 : Vec R
  ymm7 : Vec R
  ymm8 : Vec R
  ymm9 : Vec R
  ymm10 : Vec R
  ymm11 : Vec R
  ymm12 : Vec R
  ymm13 : Vec R
  ymm14 : Vec R
  ymm15 : Vec R
  rax : Nat
  rbx : Nat

/-- One rank-1 update: the instruction block of one value of `k`, which the source
repeats, with the same registers, as `iteration 0` .. `iteration 3` of `.SLOOPKITER`
(lines 308-431) and as the body of `.SLOOPKLEFT` (lines 458-482). -/
def rank1_update (A B : Nat → R) (r8 r9 r10 r13 r15 : Nat) (s : Acc R) : Acc R :=
  let ymm0 := vmovups_load B (s.rbx + 0)
  let ymm1 := vmovups_load B (s.rbx + 8)
  let rbx := s.rbx + r10
  let ymm2 := vbroadcastss A s.rax
  let ymm3 := vbroadcastss A (s.rax + r8 * 1)
  let ymm4 := vfmadd231ps ymm0 ymm2 s.ymm4
  let ymm5 := vfmadd231ps ymm1 ymm2 s.ymm5
  let ymm6 := vfmadd231ps ymm0 ymm3 s.ymm6
  let ymm7 := vfmadd231ps ymm1 ymm3 s.ymm7
  let ymm2 := vbroadcastss A (s.rax + r8 * 2)
  let ymm3 := vbroadcastss A (s.rax + r13 * 1)
  let ymm8 := vfmadd231ps ymm0 ymm2 s.ymm8
  let ymm9 := vfmadd231ps ymm1 ymm2 s.ymm9
  let ymm10 := vfmadd231ps ymm0 ymm3 s.ymm10
  let ymm11 := vfmadd231ps ymm1 ymm3 s.ymm11
  let ymm2 := vbroadcastss A (s.rax + r8 * 4)
  let ymm3 := vbroadcastss A (s.rax + r15 * 1)
  let rax := s.rax + r9
  let ymm12 := vfmadd231ps ymm0 ymm2 s.ymm12
  let ymm13 := vfmadd231ps ymm1 ymm2 s.ymm13
  let ymm14 := vfmadd231ps ymm0 ymm3 s.ymm14
  let ymm15 := vfmadd231ps ymm1 ymm3 s.ymm15
  { ymm4 := ymm4, ymm5 := ymm5, ymm6 := ymm6, ymm7 := ymm7, ymm8 := ymm8, ymm9 := ymm9,
    ymm10 := ymm10, ymm11 := ymm11, ymm12 := ymm12, ymm13 := ymm13, ymm14 := ymm14,
    ymm15 := ymm15, rax := rax, rbx := rbx }

/-- A loop `label(.L) body dec(rsi) jne(.L)` entered with the counter `rsi`: the source
enters it only with `rsi != 0`, and the body then runs `rsi` times. -/
def dec_jne_loop {σ : Type} (body : σ → σ) : Nat → σ → σ
  | 0, s => s
  | rsi + 1, s => dec_jne_loop body rsi (body s)

/-- The body of `.SLOOPKITER`: four rank-1 updates. -/
def sloopkiter_body (A B : Nat → R) (r8 r9 r10 r13 r15 : Nat) (s : Acc R) : Acc R :=
  rank1_update A B r8 r9 r10 r13 r15
    (rank1_update A B r8 r9 r10 r13 r15
      (rank1_update A B r8 r9 r10 r13 r15
        (rank1_update A B r8 r9 r10 r13 r15 s)))

/-- The code from `vzeroall()` to `.SPOSTACCUM` (source lines 212-490): the accumulators
after the main loop and the cleanup loop. -/
def accumulate (x : SupArgs R) (A B : Nat → R) : Acc R :=
  let k_iter := x.k0 / 4
  let k_left := x.k0 % 4
  let rs_a := x.rs_a0
  let cs_a := x.cs_a0
  let rs_b := x.rs_b0
  let zero : Vec R := fun _ => 0
  let rax := x.a
  let r8 := rs_a
  let r9 := cs_a
  let r13 := r8 + r8 * 2
  let r15 := r8 + r8 * 4
  let rbx := x.b
  let r10 := rs_b
  let s0 : Acc R :=
    { ymm4 := zero, ymm5 := zero, ymm6 := zero, ymm7 := zero, ymm8 := zero, ymm9 := zero,
      ymm10 := zero, ymm11 := zero, ymm12 := zero, ymm13 := zero, ymm14 := zero,
      ymm15 := zero, rax := rax, rbx := rbx }
  let s1 := if k_iter = 0 then s0
            else dec_jne_loop (sloopkiter_body A B r8 r9 r10 r13 r15) k_iter s0
  if k_left = 0 then s1
  else dec_jne_loop (rank1_update A B r8 r9 r10 r13 r15) k_left s1

/-- The code of `.SROWSTORED` for one row (e.g. source lines 545-550):
two `vfmadd231ps(mem, ymm3, ymm)` each followed by the store of the result. -/
def srowstored_row (C : Nat → R) (rcx : Nat) (ymm3 ya yb : Vec R) : Nat → R :=
  let ya := vfmadd231ps (vmovups_load C (rcx + 0)) ymm3 ya
  let C := vmovups_store8 C (rcx + 0) ya
  let yb := vfmadd231ps (vmovups_load C (rcx + 8)) ymm3 yb
  vmovups_store8 C (rcx + 8) yb

/-- The code of `.SROWSTORED` (source lines 542-593). -/
def srowstored (C : Nat → R) (rcx rdi : Nat) (ymm3 : Vec R) (s : Acc R) : Nat → R :=
  let C := srowstored_row C rcx ymm3 s.ymm4 s.ymm5
  let rcx := rcx + rdi
  let C := srowstored_row C rcx ymm3 s.ymm6 s.ymm7
  let rcx := rcx + rdi
  let C := srowstored_row C rcx ymm3 s.ymm8 s.ymm9
  let rcx := rcx + rdi
  let C := srowstored_row C rcx ymm3 s.ymm10 s.ymm11
  let rcx := rcx + rdi
  let C := srowstored_row C rcx ymm3 s.ymm12 s.ymm13
  let rcx := rcx + rdi
  srowstored_row C rcx ymm3 s.ymm14 s.ymm15

/-- The code of `.SROWSTORBZ` (source lines 750-783). -/
def srowstorbz (C : Nat → R) (rcx rdi : Nat) (s : Acc R) : Nat → R :=
  let C := vmovups_store8 C (rcx + 0) s.ymm4
  let C := vmovups_store8 C (rcx + 8) s.ymm5
  let rcx := rcx + rdi
  let C := vmovups_store8 C (rcx + 0) s.ymm6
  let C := vmovups_store8 C (rcx + 8) s.ymm7
  let rcx := rcx + rdi
  let C := vmovups_store8 C (rcx + 0) s.ymm8
  let C := vmovups_store8 C (rcx + 8) s.ymm9
  let rcx := rcx + rdi
  let C := vmovups_store8 C (rcx + 0) s.ymm10
  let C := vmovups_store8 C (rcx + 8) s.ymm11
  let rcx := rcx + rdi
  let C := vmovups_store8 C (rcx + 0) s.ymm12
  let C := vmovups_store8 C (rcx + 8) s.ymm13
  let rcx := rcx + rdi
  let C := vmovups_store8 C (rcx + 0) s.ymm14
  vmovups_store8 C (rcx + 8) s.ymm15

/-- The code of `.SCOLSTORED` for the rows 0-3 of eight columns (source lines 600-634 with
`ymm4, ymm6, ymm8, ymm10`, and lines 669-703 with `ymm5, ymm7, ymm9, ymm11`): the memory
and the register `xmm1` at its end. -/
def scolstored_rows03 (C : Nat → R) (rcx rsi rax rbx rbp : Nat) (ymm3 y0 y1 y2 y3 : Vec R) :
    (Nat → R) × Vec R :=
  let ymm0 := vunpcklps y1 y0
  let ymm1 := vunpcklps y3 y2
  let ymm2 := vshufps 0x4e ymm1 ymm0
  let ymm0 := vblendps 0xcc ymm2 ymm0
  let ymm1 := vblendps 0x33 ymm2 ymm1
  let xmm2 := vextractf128_1 ymm0
  let xmm0 := vfmadd231ps (vmovups_load C rcx) ymm3 ymm0
  let xmm2 := vfmadd231ps (vmovups_load C (rcx + rsi * 4)) ymm3 xmm2
  let C := vmovups_store4 C rcx xmm0
  let C := vmovups_store4 C (rcx + rsi * 4) xmm2
  let xmm2 := vextractf128_1 ymm1
  let xmm1 := vfmadd231ps (vmovups_load C (rcx + rsi * 1)) ymm3 ymm1
  let xmm2 := vfmadd231ps (vmovups_load C (rcx + rbx * 1)) ymm3 xmm2
  let C := vmovups_store4 C (rcx + rsi * 1) xmm1
  let C := vmovups_store4 C (rcx + rbx * 1) xmm2
  let ymm0 := vunpckhps y1 y0
  let ymm1 := vunpckhps y3 y2
  let ymm2 := vshufps 0x4e ymm1 ymm0
  let ymm0 := vblendps 0xcc ymm2 ymm0
  let ymm1 := vblendps 0x33 ymm2 ymm1
  let xmm2 := vextractf128_1 ymm0
  let xmm0 := vfmadd231ps (vmovups_load C (rcx + rsi * 2)) ymm3 ymm0
  let xmm2 := vfmadd231ps (vmovups_load C (rcx + rax * 2)) ymm3 xmm2
  let C := vmovups_store4 C (rcx + rsi * 2) xmm0
  let C := vmovups_store4 C (rcx + rax * 2) xmm2
  let xmm2 := vextractf128_1 ymm1
  let xmm1 := vfmadd231ps (vmovups_load C (rcx + rax * 1)) ymm3 ymm1
  let xmm2 := vfmadd231ps (vmovups_load C (rcx + rbp * 1)) ymm3 xmm2
  let C := vmovups_store4 C (rcx + rax * 1) xmm1
  let C := vmovups_store4 C (rcx + rbp * 1) xmm2
  (C, xmm1)

/-- The code of `.SCOLSTORED` for the rows 4-5 of eight columns (source lines 639-663 with
`ymm12, ymm14`, and lines 708-732 with `ymm13, ymm15`).  `xmm1` is the value the register
holds on entry. -/
def scolstored_rows45 (C : Nat → R) (rdx rsi rax rbx rbp : Nat) (ymm3 xmm1 y4 y5 : Vec R) :
    Nat → R :=
  let ymm0 := vunpcklps y5 y4
  let xmm2 := vextractf128_1 ymm0
  let xmm1 := vmovlpd_load C rdx xmm1
  let xmm1 := vmovhpd_load C (rdx + rsi * 1) xmm1
  let xmm0 := vfmadd231ps xmm1 ymm3 ymm0
  let C := vmovlpd_store C rdx xmm0
  let C := vmovhpd_store C (rdx + rsi * 1) xmm0
  let xmm1 := vmovlpd_load C (rdx + rsi * 4) xmm1
  let xmm1 := vmovhpd_load C (rdx + rbx * 1) xmm1
  let xmm2 := vfmadd231ps xmm1 ymm3 xmm2
  let C := vmovlpd_store C (rdx + rsi * 4) xmm2
  let C := vmovhpd_store C (rdx + rbx * 1) xmm2
  let ymm0 := vunpckhps y5 y4
  let xmm2 := vextractf128_1 ymm0
  let xmm1 := vmovlpd_load C (rdx + rsi * 2) xmm1
  let xmm1 := vmovhpd_load C (rdx + rax * 1) xmm1
  let xmm0 := vfmadd231ps xmm1 ymm3 ymm0
  let C := vmovlpd_store C (rdx + rsi * 2) xmm0
  let C := vmovhpd_store C (rdx + rax * 1) xmm0
  let xmm1 := vmovlpd_load C (rdx + rax * 2) xmm1
  let xmm1 := vmovhpd_load C (rdx + rbp * 1) xmm1
  let xmm2 := vfmadd231ps xmm1 ymm3 xmm2
  let C := vmovlpd_store C (rdx + rax * 2) xmm2
  vmovhpd_store C (rdx + rbp * 1) xmm2

/-- The code of `.SCOLSTORED` (source lines 597-737). -/
def scolstored (C : Nat → R) (rcx rdx rsi rax rbx rbp : Nat) (ymm3 : Vec R) (s : Acc R) :
    Nat → R :=
  let r := scolstored_rows03 C rcx rsi rax rbx rbp ymm3 s.ymm4 s.ymm6 s.ymm8 s.ymm10
  let C := r.1
  let xmm1 := r.2
  let rcx := rcx + rsi * 8
  let C := scolstored_rows45 C rdx rsi rax rbx rbp ymm3 xmm1 s.ymm12 s.ymm14
  let rdx := rdx + rsi * 8
  let r := scolstored_rows03 C rcx rsi rax rbx rbp ymm3 s.ymm5 s.ymm7 s.ymm9 s.ymm11
  let C := r.1
  let xmm1 := r.2
  scolstored_rows45 C rdx rsi rax rbx rbp ymm3 xmm1 s.ymm13 s.ymm15

/-- The code of `.SCOLSTORBZ` for the rows 0-3 of eight columns (source lines 791-817 and
840-866). -/
def scolstorbz_rows03 (C : Nat → R) (rcx rsi rax rbx rbp : Nat) (y0 y1 y2 y3 : Vec R) :
    Nat → R :=
  let ymm0 := vunpcklps y1 y0
  let ymm1 := vunpcklps y3 y2
  let ymm2 := vshufps 0x4e ymm1 ymm0
  let ymm0 := vblendps 0xcc ymm2 ymm0
  let ymm1 := vblendps 0x33 ymm2 ymm1
  let xmm2 := vextractf128_1 ymm0
  let C := vmovups_store4 C rcx ymm0
  let C := vmovups_store4 C (rcx + rsi * 4) xmm2
  let xmm2 := vextractf128_1 ymm1
  let C := vmovups_store4 C (rcx + rsi * 1) ymm1
  let C := vmovups_store4 C (rcx + rbx * 1) xmm2
  let ymm0 := vunpckhps y1 y0
  let ymm1 := vunpckhps y3 y2
  let ymm2 := vshufps 0x4e ymm1 ymm0
  let ymm0 := vblendps 0xcc ymm2 ymm0
  let ymm1 := vblendps 0x33 ymm2 ymm1
  let xmm2 := vextractf128_1 ymm0
  let C := vmovups_store4 C (rcx + rsi * 2) ymm0
  let C := vmovups_store4 C (rcx + rax * 2) xmm2
  let xmm2 := vextractf128_1 ymm1
  let C := vmovups_store4 C (rcx + rax * 1) ymm1
  vmovups_store4 C (rcx + rbp * 1) xmm2

/-- The code of `.SCOLSTORBZ` for the rows 4-5 of eight columns (source lines 822-834 and
871-883). -/
def scolstorbz_rows45 (C : Nat → R) (rdx rsi rax rbx rbp : Nat) (y4 y5 : Vec R) : Nat → R :=
  let ymm0 := vunpcklps y5 y4
  let xmm2 := vextractf128_1 ymm0
  let C := vmovlpd_store C rdx ymm0
  let C := vmovhpd_store C (rdx + rsi * 1) ymm0
  let C := vmovlpd_store C (rdx + rsi * 4) xmm2
  let C := vmovhpd_store C (rdx + rbx * 1) xmm2
  let ymm0 := vunpckhps y5 y4
  let xmm2 := vextractf128_1 ymm0
  let C := vmovlpd_store C (rdx + rsi * 2) ymm0
  let C := vmovhpd_store C (rdx + rax * 1) ymm0
  let C := vmovlpd_store C (rdx + rax * 2) xmm2
  vmovhpd_store C (rdx + rbp * 1) xmm2

/-- The code of `.SCOLSTORBZ` (source lines 787-885). -/
def scolstorbz (C : Nat → R) (rcx rdx rsi rax rbx rbp : Nat) (s : Acc R) : Nat → R :=
  let C := scolstorbz_rows03 C rcx rsi rax rbx rbp s.ymm4 s.ymm6 s.ymm8 s.ymm10
  let rcx := rcx + rsi * 8
  let C := scolstorbz_rows45 C rdx rsi rax rbx rbp s.ymm12 s.ymm14
  let rdx := rdx + rsi * 8
  let C := scolstorbz_rows03 C rcx rsi rax rbx rbp s.ymm5 s.ymm7 s.ymm9 s.ymm11
  scolstorbz_rows45 C rdx rsi rax rbx rbp s.ymm13 s.ymm15

/-- The code from `.SPOSTACCUM` to `.SDONE` (source lines 490-890): scaling by `alpha`,
the test of `beta` against zero, the test of `rs_c` against one, and the four ways of
storing the tile. -/
def spostaccum [DecidableEq R] (x : SupArgs R) (C : Nat → R) (s : Acc R) : Nat → R :=
  let rcx := x.c
  let rdi := x.rs_c0
  let ymm0 : Vec R := fun _ => x.alpha
  let ymm3 : Vec R := fun _ => x.beta
  let s : Acc R :=
    { ymm4 := vmulps ymm0 s.ymm4, ymm5 := vmulps ymm0 s.ymm5, ymm6 := vmulps ymm0 s.ymm6,
      ymm7 := vmulps ymm0 s.ymm7, ymm8 := vmulps ymm0 s.ymm8, ymm9 := vmulps ymm0 s.ymm9,
      ymm10 := vmulps ymm0 s.ymm10, ymm11 := vmulps ymm0 s.ymm11,
      ymm12 := vmulps ymm0 s.ymm12, ymm13 := vmulps ymm0 s.ymm13,
      ymm14 := vmulps ymm0 s.ymm14, ymm15 := vmulps ymm0 s.ymm15,
      rax := s.rax, rbx := s.rbx }
  let rsi := x.cs_c0
  let rdx := rcx + rdi * 4
  let rax := rsi + rsi * 2
  let rbx := rsi + rsi * 4
  let rbp := rax + rsi * 4
  if x.beta = 0 then
    if rdi = 1 then scolstorbz C rcx rdx rsi rax rbx rbp s
    else srowstorbz C rcx rdi s
  else
    if rdi = 1 then scolstored C rcx rdx rsi rax rbx rbp ymm3 s
    else srowstored C rcx rdi ymm3 s

/-- The assembly body: the destination C after the call on a full 6x16 tile. -/
def asm_6x16 [DecidableEq R] (x : SupArgs R) (A B C : Nat → R) : Nat → R :=
  spostaccum x C (accumulate x A B)

/-- What a call of `bli_sgemmsup_rv_haswell_asm_6x16` does: on an edge case the calls it
makes to other kernels, otherwise the update of C by its own assembly body. -/
inductive Outcome (R : Type)
  | edge (calls : Option (List (SubCall R)))
  | full (C : Nat → R)

/-- The function `bli_sgemmsup_rv_haswell_asm_6x16` (source lines 99-924). -/
def bli_sgemmsup_rv_haswell_asm_6x16 [DecidableEq R] (x : SupArgs R) (A B C : Nat → R) :
    Outcome R :=
  if x.m0 < 6 ∨ x.n0 < 16 then Outcome.edge (edge_path x)
  else Outcome.full (asm_6x16 x A B C)

end asm

end Haswell

/-! ## The two panel packers as loops over their micro-panels -/

namespace Lpgemm

/-- The conjugation flag `conj_t` of the framework. -/
inductive conj_t
  | BLIS_NO_CONJUGATE
  | BLIS_CONJUGATE
  deriving DecidableEq, Repr

/-- The transposition flag `trans_t` of the framework. -/
inductive trans_t
  | BLIS_NO_TRANSPOSE
  | BLIS_TRANSPOSE
  | BLIS_CONJ_NO_TRANSPOSE
  | BLIS_CONJ_TRANSPOSE
  deriving DecidableEq, Repr

/-- The two values of the pack schema `pack_t` the packers use. -/
inductive pack_t
  | BLIS_PACKED_ROW_PANELS
  | BLIS_PACKED_COL_PANELS
  deriving DecidableEq, Repr

/-- Modelled from the spec: the helper `bli_extract_conj` of the framework, which is not
part of the sources at hand.  It keeps the conjugation part of a transposition value. -/
def bli_extract_conj : trans_t → conj_t
  | trans_t.BLIS_NO_TRANSPOSE => conj_t.BLIS_NO_CONJUGATE
  | trans_t.BLIS_TRANSPOSE => conj_t.BLIS_NO_CONJUGATE
  | trans_t.BLIS_CONJ_NO_TRANSPOSE => conj_t.BLIS_CONJUGATE
  | trans_t.BLIS_CONJ_TRANSPOSE => conj_t.BLIS_CONJUGATE

/-- The argument list of one call of `packm_cxk` (source lines 448-460 and 503-515), in the
order of the source: `conjc, schema, panel_dim, panel_dim_max, panel_len, panel_len_max,
kappa, a, inca, lda, p, ldp`.  `kappa` is the value pointed to; `cntx` is left out. -/
structure PackmCxkCall (R : Type) where
  conjc : conj_t
  schema : pack_t
  panel_dim : Nat
  panel_dim_max : Nat
  panel_len : Nat
  panel_len_max : Nat
  kappa : R
  a : Nat
  inca : Nat
  lda : Nat
  p : Nat
  ldp : Nat

/-- The variables a packer changes in its loop: the second loop variable `ir` (`jr` in the
packer of B), the destination `p_temp`, and the calls of `packm_cxk` made so far. -/
structure PackLoop (R : Type) where
  ir : Nat
  p_temp : Nat
  calls : List (PackmCxkCall R)

section packloop

variable {R : Type} [One R]

/-- The body of the loop of `lpgemm_pack_a_f32f32f32of32` (source lines 442-463), with the
increments `ir += MR` of the loop header and `p_temp += ps_p`. -/
def pack_a_body (input_buf_addr_a m k rs_a cs_a ps_p MR : Nat) (_it : Nat)
    (s : PackLoop R) : Option (PackLoop R) :=
  let one_local : R := 1
  let schema := pack_t.BLIS_PACKED_ROW_PANELS
  let transc := trans_t.BLIS_NO_TRANSPOSE
  let conjc := bli_extract_conj transc
  let cs_p := MR
  let panel_dim_i := min MR (m - s.ir)
  let a_use := input_buf_addr_a + s.ir * rs_a
  let p_use := s.p_temp
  some
    { ir := s.ir + MR
      p_temp := s.p_temp + ps_p
      calls := s.calls ++
        [{ conjc := conjc
           schema := schema
           panel_dim := panel_dim_i
           panel_dim_max := MR
           panel_len := k
           panel_len_max := k
           kappa := one_local
           a := a_use
           inca := rs_a
           lda := cs_a
           p := p_use
           ldp := cs_p }] }

/-- The loop `for ( ir = 0, it = 0; it < m_iter; ir += MR, it += 1 )` of
`lpgemm_pack_a_f32f32f32of32` (source lines 433-463): the calls of `packm_cxk` it makes, in
order, or `none` when the loop does not end within `fuel` iterations. -/
def pack_a_run (input_buf_addr_a reorder_buf_addr_a m k rs_a cs_a ps_p MR : Nat)
    (fuel : Nat) : Option (List (PackmCxkCall R)) :=
  let m_iter := (m + MR - 1) / MR
  (forLoop m_iter 1 (pack_a_body input_buf_addr_a m k rs_a cs_a ps_p MR) fuel 0
      { ir := 0, p_temp := reorder_buf_addr_a, calls := [] }).map
    (fun s => s.calls)

/-- The body of the loop of `lpgemm_pack_b_f32f32f32of32` (source lines 497-518), with the
increments `jr += NR` of the loop header and `p_temp += ps_p`. -/
def pack_b_body (input_buf_addr_b n k rs_b cs_b ps_p NR : Nat) (_it : Nat)
    (s : PackLoop R) : Option (PackLoop R) :=
  let one_local : R := 1
  let schema := pack_t.BLIS_PACKED_COL_PANELS
  let transc := trans_t.BLIS_NO_TRANSPOSE
  let conjc := bli_extract_conj transc
  let rs_p := NR
  let panel_dim_i := min NR (n - s.ir)
  let b_use := input_buf_addr_b + s.ir * cs_b
  let p_use := s.p_temp
  some
    { ir := s.ir + NR
      p_temp := s.p_temp + ps_p
      calls := s.calls ++
        [{ conjc := conjc
           schema := schema
           panel_dim := panel_dim_i
           panel_dim_max := NR
           panel_len := k
           panel_len_max := k
           kappa := one_local
           a := b_use
           inca := cs_b
           lda := rs_b
           p := p_use
           ldp := rs_p }] }

/-- The loop `for ( jr = 0, it = 0; it < n_iter; jr += NR, it += 1 )` of
`lpgemm_pack_b_f32f32f32of32` (source lines 488-518): the calls of `packm_cxk` it makes, in
order, or `none` when the loop does not end within `fuel` iterations. -/
def pack_b_run (input_buf_addr_b reorder_buf_addr_b n k rs_b cs_b ps_p NR : Nat)
    (fuel : Nat) : Option (List (PackmCxkCall R)) :=
  let n_iter := (n + NR - 1) / NR
  (forLoop n_iter 1 (pack_b_body input_buf_addr_b n k rs_b cs_b ps_p NR) fuel 0
      { ir := 0, p_temp := reorder_buf_addr_b, calls := [] }).map
    (fun s => s.calls)

end packloop

end Lpgemm

/-! ## The calls of the edge path up to the point where a loop leaves its table -/

namespace Haswell

section edge_trace

variable {R : Type}

/-- The loop `for ( dim_t i = 0; m_left != 0; ++i )` (source lines 158-182) from the
iteration `i` on, as `edge_m_loop`, but keeping the calls made before `mrs[i]` or `kmap` is
read out of bounds: the calls made, in order, and whether the loop ended with
`m_left == 0` (`true`) or read past a table (`false`). -/
def edge_m_trace (x : SupArgs R) (j nr_cur bj s : Nat) :
    List Nat → Nat → Nat → Nat → Nat → Nat → List (SubCall R) × Bool
  | [], _, m_left, _, _, _ => ([], decide (m_left = 0))
  | mr_cur :: rest, i, m_left, cij, ai, r =>
    if m_left = 0 then ([], true)
    else if mr_cur ≤ m_left then
      match (kmap.get? i).bind (fun row => row.get? j) with
      | none => ([], false)
      | some ker_fp =>
        let t := edge_m_trace x j nr_cur bj s rest (i + 1) (m_left - mr_cur)
          (cij + mr_cur * x.rs_c0) (ai + mr_cur * x.rs_a0) (r + mr_cur)
        ({ ker_fp := ker_fp
           conja := x.conja
           conjb := x.conjb
           m := mr_cur
           n := nr_cur
           k := x.k0
           alpha := x.alpha
           a := ai
           rs_a := x.rs_a0
           cs_a := x.cs_a0
           b := bj
           rs_b := x.rs_b0
           cs_b := x.cs_b0
           beta := x.beta
           c := cij
           rs_c := x.rs_c0
           cs_c := x.cs_c0
           data := x.data
           cntx := x.cntx
           i := i
           j := j
           r := r
           s := s } :: t.1, t.2)
    else edge_m_trace x j nr_cur bj s rest (i + 1) m_left cij ai r

/-- The loop `for ( dim_t j = 0; n_left != 0; ++j )` (source lines 144-188) from the
iteration `j` on, as `edge_n_loop`, but keeping the column chunks and calls made before a
table is read out of bounds, and whether the loop ended with `n_left == 0`. -/
def edge_n_trace (x : SupArgs R) :
    List Nat → Nat → Nat → Nat → Nat → Nat → List (Nat × Nat × List (SubCall R)) × Bool
  | [], _, n_left, _, _, _ => ([], decide (n_left = 0))
  | nr_cur :: rest, j, n_left, cj, bj, s =>
    if n_left = 0 then ([], true)
    else if nr_cur ≤ n_left then
      let t := edge_m_trace x j nr_cur bj s mrs 0 x.m0 cj x.a 0
      if t.2 = true then
        let u := edge_n_trace x rest (j + 1) (n_left - nr_cur) (cj + nr_cur * x.cs_c0)
          (bj + nr_cur * x.cs_b0) (s + nr_cur)
        ((s, nr_cur, t.1) :: u.1, u.2)
      else ([(s, nr_cur, t.1)], false)
    else edge_n_trace x rest (j + 1) n_left cj bj s

/-- The column chunks and calls the edge path makes until it returns or reads a table out
of bounds, and whether it returns. -/
def edge_trace (x : SupArgs R) : List (Nat × Nat × List (SubCall R)) × Bool :=
  edge_n_trace x nrs 0 x.n0 x.c x.b 0

/-- The calls the edge path makes, in order, until it returns or reads a table out of
bounds. -/
def edge_calls_made (x : SupArgs R) : List (SubCall R) :=
  (edge_trace x).1.flatMap (fun col => col.2.2)

end edge_trace

end Haswell

/-! ## The loops over `k` of the six kernels `bli_sgemmsup_rv_haswell_asm_Mx16`

The kernels `6x16, 5x16, 4x16, 3x16, 2x16, 1x16` of the file share the code around their
loops over `k`: `k_iter = k0 / 4` and `k_left = k0 % 4`, the test of `k_iter`, the loop
`.SLOOPKITER` whose body holds the instruction block of one value of `k` four times
(`iteration 0` .. `iteration 3`), the test of `k_left`, and the loop `.SLOOPKLEFT` whose
body holds the block once.  They differ in the block, which updates the accumulators of
`M` rows. -/

namespace Haswell

section kloops

variable {R : Type} [CommRing R]

/-- The code from `mov(var(k_iter), rsi)` to `.SPOSTACCUM` (e.g. source lines 293-490),
for the instruction block `body` of one value of `k`: `k_iter` runs of the four-fold
unrolled body, entered only when `k_iter != 0`, then `k_left` runs of the body, entered
only when `k_left != 0`. -/
def k_loops {σ : Type} (k0 : Nat) (body : σ → σ) (s0 : σ) : σ :=
  let k_iter := k0 / 4
  let k_left := k0 % 4
  let s1 := if k_iter = 0 then s0
            else dec_jne_loop (fun s => body (body (body (body s)))) k_iter s0
  if k_left = 0 then s1
  else dec_jne_loop body k_left s1

/-- The registers after `vzeroall()` and the loads of the addresses of `a` and `b`
(e.g. source lines 212-223). -/
def acc_init (x : SupArgs R) : Acc R :=
  { ymm4 := fun _ => 0, ymm5 := fun _ => 0, ymm6 := fun _ => 0, ymm7 := fun _ => 0,
    ymm8 := fun _ => 0, ymm9 := fun _ => 0, ymm10 := fun _ => 0, ymm11 := fun _ => 0,
    ymm12 := fun _ => 0, ymm13 := fun _ => 0, ymm14 := fun _ => 0, ymm15 := fun _ => 0,
    rax := x.a, rbx := x.b }

/-- One rank-1 update of the kernel `5x16`: the instruction block of one value of `k`
(source lines 1054-1075, repeated up to line 1165, and lines 1192-1213). -/
def rank1_update_5x16 (A B : Nat → R) (r8 r9 r10 r13 : Nat) (s : Acc R) : Acc R :=
  let ymm0 := vmovups_load B (s.rbx + 0)
  let ymm1 := vmovups_load B (s.rbx + 8)
  let rbx := s.rbx + r10
  let ymm2 := vbroadcastss A s.rax
  let ymm3 := vbroadcastss A (s.rax + r8 * 1)
  let ymm4 := vfmadd231ps ymm0 ymm2 s.ymm4
  let ymm5 := vfmadd231ps ymm1 ymm2 s.ymm5
  let ymm6 := vfmadd231ps ymm0 ymm3 s.ymm6
  let ymm7 := vfmadd231ps ymm1 ymm3 s.ymm7
  let ymm2 := vbroadcastss A (s.rax + r8 * 2)
  let ymm3 := vbroadcastss A (s.rax + r13 * 1)
  let ymm8 := vfmadd231ps ymm0 ymm2 s.ymm8
  let ymm9 := vfmadd231ps ymm1 ymm2 s.ymm9
  let ymm10 := vfmadd231ps ymm0 ymm3 s.ymm10
  let ymm11 := vfmadd231ps ymm1 ymm3 s.ymm11
  let ymm2 := vbroadcastss A (s.rax + r8 * 4)
  let rax := s.rax + r9
  let ymm12 := vfmadd231ps ymm0 ymm2 s.ymm12
  let ymm13 := vfmadd231ps ymm1 ymm2 s.ymm13
  { s with ymm4 := ymm4, ymm5 := ymm5, ymm6 := ymm6, ymm7 := ymm7, ymm8 := ymm8,
           ymm9 := ymm9, ymm10 := ymm10, ymm11 := ymm11, ymm12 := ymm12, ymm13 := ymm13,
           rax := rax, rbx := rbx }

/-- One rank-1 update of the kernel `4x16` (source lines 1811-1828, repeated up to line
1906, and lines 1933-1950). -/
def rank1_update_4x16 (A B : Nat → R) (r8 r9 r10 r13 : Nat) (s : Acc R) : Acc R :=
  let ymm0 := vmovups_load B (s.rbx + 0)
  let ymm1 := vmovups_load B (s.rbx + 8)
  let rbx := s.rbx + r10
  let ymm2 := vbroadcastss A s.rax
  let ymm3 := vbroadcastss A (s.rax + r8 * 1)
  let ymm4 := vfmadd231ps ymm0 ymm2 s.ymm4
  let ymm5 := vfmadd231ps ymm1 ymm2 s.ymm5
  let ymm6 := vfmadd231ps ymm0 ymm3 s.ymm6
  let ymm7 := vfmadd231ps ymm1 ymm3 s.ymm7
  let ymm2 := vbroadcastss A (s.rax + r8 * 2)
  let ymm3 := vbroadcastss A (s.rax + r13 * 1)
  let rax := s.rax + r9
  let ymm8 := vfmadd231ps ymm0 ymm2 s.ymm8
  let ymm9 := vfmadd231ps ymm1 ymm2 s.ymm9
  let ymm10 := vfmadd231ps ymm0 ymm3 s.ymm10
  let ymm11 := vfmadd231ps ymm1 ymm3 s.ymm11
  { s with ymm4 := ymm4, ymm5 := ymm5, ymm6 := ymm6, ymm7 := ymm7, ymm8 := ymm8,
           ymm9 := ymm9, ymm10 := ymm10, ymm11 := ymm11, rax := rax, rbx := rbx }

/-- One rank-1 update of the kernel `3x16` (source lines 2397-2411, repeated up to line
2480, and lines 2507-2521). -/
def rank1_update_3x16 (A B : Nat → R) (r8 r9 r10 : Nat) (s : Acc R) : Acc R :=
  let ymm0 := vmovups_load B (s.rbx + 0)
  let ymm1 := vmovups_load B (s.rbx + 8)
  let rbx := s.rbx + r10
  let ymm2 := vbroadcastss A s.rax
  let ymm3 := vbroadcastss A (s.rax + r8 * 1)
  let ymm4 := vfmadd231ps ymm0 ymm2 s.ymm4
  let ymm5 := vfmadd231ps ymm1 ymm2 s.ymm5
  let ymm6 := vfmadd231ps ymm0 ymm3 s.ymm6
  let ymm7 := vfmadd231ps ymm1 ymm3 s.ymm7
  let ymm2 := vbroadcastss A (s.rax + r8 * 2)
  let rax := s.rax + r9
  let ymm8 := vfmadd231ps ymm0 ymm2 s.ymm8
  let ymm9 := vfmadd231ps ymm1 ymm2 s.ymm9
  { s with ymm4 := ymm4, ymm5 := ymm5, ymm6 := ymm6, ymm7 := ymm7, ymm8 := ymm8,
           ymm9 := ymm9, rax := rax, rbx := rbx }

/-- One rank-1 update of the kernel `2x16` (source lines 3039-3049, repeated up to line
3106, and lines 3133-3143). -/
def rank1_update_2x16 (A B : Nat → R) (r8 r9 r10 : Nat) (s : Acc R) : Acc R :=
  let ymm0 := vmovups_load B (s.rbx + 0)
  let ymm1 := vmovups_load B (s.rbx + 8)
  let rbx := s.rbx + r10
  let ymm2 := vbroadcastss A s.rax
  let ymm3 := vbroadcastss A (s.rax + r8 * 1)
  let rax := s.rax + r9
  let ymm4 := vfmadd231ps ymm0 ymm2 s.ymm4
  let ymm5 := vfmadd231ps ymm1 ymm2 s.ymm5
  let ymm6 := vfmadd231ps ymm0 ymm3 s.ymm6
  let ymm7 := vfmadd231ps ymm1 ymm3 s.ymm7
  { s with ymm4 := ymm4, ymm5 := ymm5, ymm6 := ymm6, ymm7 := ymm7, rax := rax, rbx := rbx }

/-- One rank-1 update of the kernel `1x16` (source lines 3508-3515, repeated up to line
3563, and lines 3590-3597). -/
def rank1_update_1x16 (A B : Nat → R) (r9 r10 : Nat) (s : Acc R) : Acc R :=
  let ymm0 := vmovups_load B (s.rbx + 0)
  let ymm1 := vmovups_load B (s.rbx + 8)
  let rbx := s.rbx + r10
  let ymm2 := vbroadcastss A s.rax
  let rax := s.rax + r9
  let ymm4 := vfmadd231ps ymm0 ymm2 s.ymm4
  let ymm5 := vfmadd231ps ymm1 ymm2 s.ymm5
  { s with ymm4 := ymm4, ymm5 := ymm5, rax := rax, rbx := rbx }

/-- The code of `bli_sgemmsup_rv_haswell_asm_5x16` from `vzeroall()` to `.SPOSTACCUM`
(source lines 947-1221). -/
def accumulate_5x16 (x : SupArgs R) (A B : Nat → R) : Acc R :=
  let rs_a := x.rs_a0
  let cs_a := x.cs_a0
  let rs_b := x.rs_b0
  let r8 := rs_a
  let r9 := cs_a
  let r13 := r8 + r8 * 2
  let r10 := rs_b
  k_loops x.k0 (rank1_update_5x16 A B r8 r9 r10 r13) (acc_init x)

/-- The code of `bli_sgemmsup_rv_haswell_asm_4x16` from `vzeroall()` to `.SPOSTACCUM`
(source lines 1705-1958). -/
def accumulate_4x16 (x : SupArgs R) (A B : Nat → R) : Acc R :=
  let rs_a := x.rs_a0
  let cs_a := x.cs_a0
  let rs_b := x.rs_b0
  let r8 := rs_a
  let r9 := cs_a
  let r13 := r8 + r8 * 2
  let r10 := rs_b
  k_loops x.k0 (rank1_update_4x16 A B r8 r9 r10 r13) (acc_init x)

/-- The code of `bli_sgemmsup_rv_haswell_asm_3x16` from `vzeroall()` to `.SPOSTACCUM`
(source lines 2292-2529). -/
def accumulate_3x16 (x : SupArgs R) (A B : Nat → R) : Acc R :=
  let rs_a := x.rs_a0
  let cs_a := x.cs_a0
  let rs_b := x.rs_b0
  let r8 := rs_a
  let r9 := cs_a
  let r10 := rs_b
  k_loops x.k0 (rank1_update_3x16 A B r8 r9 r10) (acc_init x)

/-- The code of `bli_sgemmsup_rv_haswell_asm_2x16` from `vzeroall()` to `.SPOSTACCUM`
(source lines 2935-3151). -/
def accumulate_2x16 (x : SupArgs R) (A B : Nat → R) : Acc R :=
  let rs_a := x.rs_a0
  let cs_a := x.cs_a0
  let rs_b := x.rs_b0
  let r8 := rs_a
  let r9 := cs_a
  let r10 := rs_b
  k_loops x.k0 (rank1_update_2x16 A B r8 r9 r10) (acc_init x)

/-- The code of `bli_sgemmsup_rv_haswell_asm_1x16` from `vzeroall()` to `.SPOSTACCUM`
(source lines 3405-3605). -/
def accumulate_1x16 (x : SupArgs R) (A B : Nat → R) : Acc R :=
  let cs_a := x.cs_a0
  let rs_b := x.rs_b0
  let r9 := cs_a
  let r10 := rs_b
  k_loops x.k0 (rank1_update_1x16 A B r9 r10) (acc_init x)

end kloops

end Haswell

/-! ## Auxiliary definitions used to state and prove the properties -/

namespace Lpgemm

/-- The values taken by the loop variable of `for ( x = i; x < stop; x += step )`. -/
def starts (i stop step : Nat) : List Nat := loopStarts stop step (stop - i) i

/-- The extent of the block that starts at `b` in a loop up to `stop` with nominal block
size `step`: `bli_min( stop - b, step )`. -/
def blockLen (stop step b : Nat) : Nat := min (stop - b) step

/-- Whether `x` lies in the block `[b, b + bli_min( stop - b, step ))`. -/
def inBlock (stop step b x : Nat) : Prop := b ≤ x ∧ x < b + blockLen stop step b

instance (stop step b x : Nat) : Decidable (inBlock stop step b x) := by
  unfold inBlock; infer_instance

section trace

variable {R L : Type} [One R]

/-- The events of one run of the `jr` loop. -/
def jr_events (blk : BlockSizes) (x : Args R L) (au : AUse) (bu : BUse)
    (jc pc ic nc0 kc0 mc0 : Nat) : List (Event R L) :=
  (starts 0 nc0 blk.NR).map
    (fun jr => Event.kernel jc pc ic jr (kernel_call blk x au bu jc pc ic jr nc0 kc0 mc0))

/-- The events of one iteration of the `ic` loop. -/
def ic_events (blk : BlockSizes) (x : Args R L) (bu : BUse)
    (jc pc nc0 kc0 ic_end ic : Nat) : List (Event R L) :=
  (a_select blk x pc ic kc0 (min (ic_end - ic) blk.MC)).1 ++
    jr_events blk x (a_select blk x pc ic kc0 (min (ic_end - ic) blk.MC)).2 bu
      jc pc ic nc0 kc0 (min (ic_end - ic) blk.MC)

/-- The events of one iteration of the `pc` loop. -/
def pc_events (blk : BlockSizes) (thr : ThreadInfo) (x : Args R L)
    (jc nc0 jc_cur_loop jc_cur_loop_rem n_sub_updated pc : Nat) : List (Event R L) :=
  (b_select blk thr x jc pc nc0 (min (x.k - pc) blk.KC)
      jc_cur_loop jc_cur_loop_rem n_sub_updated).1 ++
    (starts thr.ic_start thr.ic_end blk.MC).flatMap
      (ic_events blk x
        (b_select blk thr x jc pc nc0 (min (x.k - pc) blk.KC)
          jc_cur_loop jc_cur_loop_rem n_sub_updated).2
        jc pc nc0 (min (x.k - pc) blk.KC) thr.ic_end)

/-- The events of one iteration of the `jc` loop when B is not REORDERED. -/
def jc_events (blk : BlockSizes) (thr : ThreadInfo) (x : Args R L) (jc : Nat) :
    List (Event R L) :=
  (starts 0 x.k blk.KC).flatMap
    (pc_events blk thr x jc (min (thr.jc_end - jc) blk.NC) jc 0 0)

/-- The events of the loop nest when B is not REORDERED. -/
def loop_events (blk : BlockSizes) (thr : ThreadInfo) (x : Args R L) : List (Event R L) :=
  (starts thr.jc_start thr.jc_end blk.NC).flatMap (jc_events blk thr x)

end trace

section native

variable {R L : Type}

/-- A is used as given: neither REORDERED nor packed by this call. -/
def a_native (x : Args R L) : Prop :=
  x.mtag_a ≠ AOCL_MEMORY_TAG.REORDERED ∧ x.should_pack_A = false

/-- B is used as given: neither REORDERED nor packed by this call. -/
def b_native (x : Args R L) : Prop :=
  x.mtag_b ≠ AOCL_MEMORY_TAG.REORDERED ∧
    ¬ (x.mtag_b = AOCL_MEMORY_TAG.PACK ∧ x.should_pack_B = true)

/-- The part of the inner product of row `i` of A and column `j` of B that belongs to the
K-slice `[pc, pc + kc0)`, for a row-major A and B with unit column stride. -/
def slice_dot [CommRing R] (A B : Nat → R) (x : Args R L) (i j pc kc0 : Nat) : R :=
  sum_upto kc0 (fun l => A (x.a + i * x.rs_a + (pc + l)) * B (x.b + (pc + l) * x.rs_b + j))

/-- The update of one element of C by the micro-kernel call of the K-slice
`[pc, pc + kc0)`: scaled by `beta` on the slice `pc = 0` and by one afterwards. -/
def elem_update [CommRing R] (A B : Nat → R) (x : Args R L) (i j pc kc0 : Nat) (v : R) : R :=
  (if pc = 0 then x.beta else 1) * v + x.alpha * slice_dot A B x i j pc kc0

end native

section cover

variable {R L : Type}

/-- Whether the event is a micro-kernel call of the K-slice that starts at `pc` whose
rectangle `[ic, ic + m) x [jc + jr, jc + jr + n)` contains the element `(i, j)` of C. -/
def Event.covers (pc i j : Nat) : Event R L → Bool
  | Event.kernel jc pc1 ic jr call =>
    decide (pc1 = pc ∧ (ic ≤ i ∧ i < ic + call.m) ∧ jc + jr ≤ j ∧ j < jc + jr + call.n)
  | _ => false

/-- One update of an element of C by a micro-kernel call: the K-slice `[pc, pc + kc0)`,
the `beta` handed to the call and the two flags of the slice. -/
structure SliceUpdate (R : Type) where
  pc : Nat
  kc0 : Nat
  beta0 : R
  is_first_k : Bool
  is_last_k : Bool

/-- The update of the element `(i, j)` of C by an event: that of the micro-kernel call
when the rectangle of the call contains `(i, j)`, none otherwise. -/
def Event.update_of (i j : Nat) : Event R L → Option (SliceUpdate R)
  | Event.kernel jc pc ic jr call =>
    if (ic ≤ i ∧ i < ic + call.m) ∧ jc + jr ≤ j ∧ j < jc + jr + call.n then
      some { pc := pc
             kc0 := call.k
             beta0 := call.beta
             is_first_k := call.post_ops_attr.is_first_k
             is_last_k := call.post_ops_attr.is_last_k }
    else none
  | _ => none

/-- The update of the K-slice that starts at `pc`, as a function of the arguments of the
driver and of the block size `KC` alone. -/
def slice_update [One R] (blk : BlockSizes) (x : Args R L) (pc : Nat) : SliceUpdate R :=
  { pc := pc
    kc0 := min (x.k - pc) blk.KC
    beta0 := if pc = 0 then x.beta else 1
    is_first_k := decide (pc = 0)
    is_last_k := decide (x.k ≤ pc + blk.KC) }

end cover

section abstract_kernel

variable {R L : Type}

/-- Whether the address `a` belongs to the C tile of a micro-kernel call: the `m x n`
elements at `c + i*rs_c + j*cs_c`. -/
def in_tile (call : KernelCall R L) (a : Nat) : Prop :=
  ∃ i, i < call.m ∧ ∃ j, j < call.n ∧ a = call.c + i * call.rs_c + j * call.cs_c

/-- The destination C after the events of a list, for a given effect `step` of one event
on C. -/
def run_c (step : Event R L → (Nat → R) → (Nat → R)) (evs : List (Event R L))
    (M : Nat → R) : Nat → R :=
  evs.foldl (fun M e => step e M) M

/-- The assumptions on the effect of the events on C, for an arbitrary micro-kernel:
only a micro-kernel call changes C; a call writes only inside its tile; what it writes
depends on the content of C only through its own tile; and for `beta = 0` it does not
depend on the content of C at all (the tile is not read). -/
structure KernelReadsOwnTile [Zero R] (step : Event R L → (Nat → R) → (Nat → R)) : Prop where
  other : ∀ e M, (∀ jc pc ic jr call, e ≠ Event.kernel jc pc ic jr call) → step e M = M
  writes_tile : ∀ jc pc ic jr call M a, ¬ in_tile call a →
    step (Event.kernel jc pc ic jr call) M a = M a
  reads_tile : ∀ jc pc ic jr call M1 M2, (∀ a, in_tile call a → M1 a = M2 a) →
    ∀ a, in_tile call a →
      step (Event.kernel jc pc ic jr call) M1 a = step (Event.kernel jc pc ic jr call) M2 a
  beta_zero : ∀ jc pc ic jr call M1 M2, call.beta = 0 →
    ∀ a, in_tile call a →
      step (Event.kernel jc pc ic jr call) M1 a = step (Event.kernel jc pc ic jr call) M2 a

/-- The effect on C of one event when the micro-kernel is the one of the contract and the
pack buffers hold `pack_a`, `pack_b`. -/
def contract_step [CommRing R] (MR : Nat) (A B pack_a pack_b : Nat → R) (e : Event R L)
    (M : Nat → R) : Nat → R :=
  (exec_event MR A B { C := M, pack_a := pack_a, pack_b := pack_b } e).C

end abstract_kernel

section threads

variable {R L : Type}

/-- Whether the thread owns the element `(i, j)` of C: `i` in its row range and `j` in its
column range. -/
def owns (thr : ThreadInfo) (i j : Nat) : Prop :=
  (thr.ic_start ≤ i ∧ i < thr.ic_end) ∧ (thr.jc_start ≤ j ∧ j < thr.jc_end)

instance (thr : ThreadInfo) (i j : Nat) : Decidable (owns thr i j) := by
  unfold owns; infer_instance

/-- The ranges `r 0, ..., r (T-1)` returned by the Work Partitioner to the `T` members of a
group partition `[0, n)`: they lie inside `[0, n)` and every index below `n` is in the
range of exactly one member.  A member may have an empty range. -/
def IsRangePartition (r : Nat → Nat × Nat) (T n : Nat) : Prop :=
  (∀ t, t < T → (r t).2 ≤ n) ∧
  ∀ x, x < n → ∃ t, t < T ∧ ((r t).1 ≤ x ∧ x < (r t).2) ∧
    ∀ t2, t2 < T → ((r t2).1 ≤ x ∧ x < (r t2).2) → t2 = t

/-- A micro-kernel whose result on an element of C depends on the element, on the K-slice
update and on the value of the element before the call, and not on the shape of the tile:
its effect on C, seen as a matrix, for one event. -/
def elem_step (g : Nat → Nat → SliceUpdate R → R → R) (e : Event R L)
    (C : Nat → Nat → R) : Nat → Nat → R :=
  fun i j =>
    match e.update_of i j with
    | some u => g i j u (C i j)
    | none => C i j

/-- The matrix C after the events of the threads of a group, each event tagged with the
member `(tj, ti)` that executes it, in the order in which they happen. -/
def run_threads (g : Nat → Nat → SliceUpdate R → R → R)
    (E : List ((Nat × Nat) × Event R L)) (C : Nat → Nat → R) : Nat → Nat → R :=
  E.foldl (fun C p => elem_step g p.2 C) C

end threads

/-! ### Concrete inputs -/

/-- A navigator for REORDERED B that leaves the column block as it is. -/
def nav_id : ReorderNav :=
  { get_B_panel_reordered_start_offset_width := fun jc _ _ _ nc0 => (jc, 0, nc0, 0)
    adjust_B_panel_reordered_jc := fun jc _ => jc }

/-- Block sizes `NR = 16, MR = 6, NC = 64, MC = 72, KC = 256`. -/
def blk_6x16 : BlockSizes := { NR := 16, MR := 6, NC := 64, MC := 72, KC := 256 }

/-- The call `M = N = K = 1`, `alpha = 2`, `beta = 1` on NATIVE row-major operands. -/
def args_1x1 : Args Int Unit :=
  { m := 1, n := 1, k := 1
    a := 0, rs_a := 1, cs_a := 1, mtag_a := AOCL_MEMORY_TAG.NATIVE
    b := 0, rs_b := 1, cs_b := 1, mtag_b := AOCL_MEMORY_TAG.NATIVE
    c := 0, rs_c := 1
    alpha := 2, beta := 1
    should_pack_A := false, should_pack_B := false
    post_op_list := (), c_downscale := false }

/-- Memories with `C = [5]` and empty pack buffers. -/
def mem_1x1 : MemState Int := { C := fun _ => 5, pack_a := fun _ => 0, pack_b := fun _ => 0 }

/-- Small block sizes `NR = 2, MR = 2, NC = 4, MC = 2, KC = 3`, with which a small
problem already has several blocks in every loop. -/
def blk_small : BlockSizes := { NR := 2, MR := 2, NC := 4, MC := 2, KC := 3 }

/-- The call `M = 3, N = 5, K = 4`, `alpha = 2`, `beta = 1` on NATIVE row-major operands. -/
def args_3x5 : Args Int Unit :=
  { m := 3, n := 5, k := 4
    a := 0, rs_a := 4, cs_a := 1, mtag_a := AOCL_MEMORY_TAG.NATIVE
    b := 0, rs_b := 5, cs_b := 1, mtag_b := AOCL_MEMORY_TAG.NATIVE
    c := 0, rs_c := 5
    alpha := 2, beta := 1
    should_pack_A := false, should_pack_B := false
    post_op_list := (), c_downscale := false }

/-- The call `M = 3, N = 5, K = 4` of `args_3x5` with `beta = 0`. -/
def args_3x5_beta0 : Args Int Unit := { args_3x5 with beta := 0 }

/-- The two members of a `2 x 1` thread group for `M = 3, N = 5`: columns `[0, 2)` and
`[2, 5)`, all three rows. -/
def threads_2x1 (tj _ti : Nat) : ThreadInfo :=
  { jc_start := if tj = 0 then 0 else 2
    jc_end := if tj = 0 then 2 else 5
    ic_start := 0
    ic_end := 3
    am_ochief := true
    jc_work_id := tj
    packb_range := fun nc0 => (0, nc0) }

/-- The column ranges of the two members of the jc group of `threads_2x1`. -/
def jc_ranges_2 (tj : Nat) : Nat × Nat := if tj = 0 then (0, 2) else (2, 5)

/-- A micro-kernel result on one element that depends on the update and on the previous
value only. -/
def elem_kernel_example (i j : Nat) (u : SliceUpdate Int) (v : Int) : Int :=
  u.beta0 * v + (u.kc0 : Int) * ((i : Int) + (j : Int))

/-- The element `(i, l)` of the A block as the micro-kernel of the contract reads it
(`kernel_writes`): row `i % MR` of the micro-panel `i / MR`, through the pointer and the
strides in use. -/
def a_elem {R : Type} (MR : Nat) (A packbuf : Nat → R) (au : AUse) (i l : Nat) : R :=
  read_at A packbuf au.a_use
    ((i / MR) * au.ps_a_use + (i % MR) * au.rs_a_use + l * au.cs_a_use)

/-- The call `M = 3, N = 5, K = 4` of `args_3x5` with A packed by the driver. -/
def args_3x5_pack_a : Args Int Unit := { args_3x5 with should_pack_A := true }

/-- The call `M = 3, N = 5, K = 4` of `args_3x5` with B packed on the fly. -/
def args_3x5_pack_b : Args Int Unit :=
  { args_3x5 with mtag_b := AOCL_MEMORY_TAG.PACK, should_pack_B := true }

/-- The two threads of an ic group that pack a column block of width 4 with `NR = 2`:
the first packs the columns `[0, 2)`, the second the columns `[2, 4)`. -/
def pack_threads_2 (t : Nat) : ThreadInfo :=
  { single_thread 3 5 with
    am_ochief := decide (t = 0)
    packb_range := fun _ => if t = 0 then (0, 2) else (2, 4) }

/-- The driver called for a C operand whose column stride is `cs_c`.  The body of the
driver (source lines 90-409) never refers to a column stride of the caller's C: it has no
test of the layout of C and no early return, and the only column stride of C it uses is
the local constant `cs_c_use = 1` (source line 121).  Its events are therefore those of
`lpgemm_rowvar_f32f32f32of32`, whatever `cs_c` is. -/
def lpgemm_rowvar_on_layout {R L : Type} [One R] (_cs_c : Nat) (blk : BlockSizes)
    (nav : ReorderNav) (thr : ThreadInfo) (x : Args R L) (fuel : Nat) :
    Option (List (Event R L)) :=
  lpgemm_rowvar_f32f32f32of32 blk nav thr x fuel

/-- Block sizes `NR = 2, MR = 2, NC = 4, MC = 2, KC = 1`: every value of `k` is a K-slice
of its own. -/
def blk_kc1 : BlockSizes := { NR := 2, MR := 2, NC := 4, MC := 2, KC := 1 }

/-- The call `M = 2, N = 1, K = 2`, `alpha = 1`, `beta = 0` with a column-major `2 x 2`
matrix A (`rs_a = 1`, `cs_a = 2`) used NATIVE. -/
def args_colmajor_a : Args Int Unit :=
  { m := 2, n := 1, k := 2
    a := 0, rs_a := 1, cs_a := 2, mtag_a := AOCL_MEMORY_TAG.NATIVE
    b := 0, rs_b := 1, cs_b := 1, mtag_b := AOCL_MEMORY_TAG.NATIVE
    c := 0, rs_c := 1
    alpha := 1, beta := 0
    should_pack_A := false, should_pack_B := false
    post_op_list := (), c_downscale := false }

/-- The call of `args_colmajor_a` with A packed by the driver. -/
def args_colmajor_a_pack : Args Int Unit := { args_colmajor_a with should_pack_A := true }

/-- The memory of the column-major matrix `A = [[1, 3], [2, 4]]`: the element at the
address `p` is `p + 1`. -/
def mem_colmajor_a : Nat → Int := fun p => (p : Int) + 1

/-- Memories with a zero C and zero pack buffers. -/
def mem_zero : MemState Int := { C := fun _ => 0, pack_a := fun _ => 0, pack_b := fun _ => 0 }

/-- The A pointer of a micro-kernel call event, with the loop indices of the call. -/
def Event.a_info {R L : Type} : Event R L → Option (Nat × Nat × Nat × Nat × Ptr × Nat × Nat)
  | Event.kernel jc pc ic jr call => some (jc, pc, ic, jr, call.a, call.rs_a, call.cs_a)
  | _ => none

/-- The C pointer and the C strides of a micro-kernel call event, with the loop indices of
the call. -/
def Event.c_info {R L : Type} : Event R L → Option (Nat × Nat × Nat × Nat × Nat × Nat × Nat)
  | Event.kernel jc pc ic jr call => some (jc, pc, ic, jr, call.c, call.rs_c, call.cs_c)
  | _ => none

/-- The source pointer and the strides of a call of `lpgemm_pack_a_f32f32f32of32`. -/
def Event.pack_a_info {R L : Type} : Event R L → Option (Nat × Nat × Nat)
  | Event.pack_a call => some (call.src, call.rs, call.cs)
  | _ => none

end Lpgemm

namespace Haswell

/-- Whether the rectangle `[r, r + m) x [s, s + n)` of a call of the edge path contains
the element `(i, j)` of the tile. -/
def SubCall.covers {R : Type} (i j : Nat) (c : SubCall R) : Bool :=
  decide ((c.r ≤ i ∧ i < c.r + c.m) ∧ (c.s ≤ j ∧ j < c.s + c.n))

/-- The inner product of the first `t` elements of row `i` of A and of column `j` of B,
A being read at `a + i*rs_a + l*cs_a` and B at `b + l*rs_b + j`. -/
def dot_upto {R : Type} [CommRing R] (x : SupArgs R) (A B : Nat → R) (i j t : Nat) : R :=
  Lpgemm.sum_upto t
    (fun l => A (x.a + i * x.rs_a0 + l * x.cs_a0) * B (x.b + l * x.rs_b0 + j))

/-- The accumulators hold the inner products of the first `t` values of `k`, and the
pointers into A and B have advanced `t` times: `ymm(4 + 2i)` holds the columns 0-7 and
`ymm(5 + 2i)` the columns 8-15 of row `i`. -/
structure AccIs {R : Type} [CommRing R] (x : SupArgs R) (A B : Nat → R) (t : Nat)
    (s : Acc R) : Prop where
  rax : s.rax = x.a + t * x.cs_a0
  rbx : s.rbx = x.b + t * x.rs_b0
  ymm4 : ∀ q, s.ymm4 q = dot_upto x A B 0 q t
  ymm5 : ∀ q, s.ymm5 q = dot_upto x A B 0 (8 + q) t
  ymm6 : ∀ q, s.ymm6 q = dot_upto x A B 1 q t
  ymm7 : ∀ q, s.ymm7 q = dot_upto x A B 1 (8 + q) t
  ymm8 : ∀ q, s.ymm8 q = dot_upto x A B 2 q t
  ymm9 : ∀ q, s.ymm9 q = dot_upto x A B 2 (8 + q) t
  ymm10 : ∀ q, s.ymm10 q = dot_upto x A B 3 q t
  ymm11 : ∀ q, s.ymm11 q = dot_upto x A B 3 (8 + q) t
  ymm12 : ∀ q, s.ymm12 q = dot_upto x A B 4 q t
  ymm13 : ∀ q, s.ymm13 q = dot_upto x A B 4 (8 + q) t
  ymm14 : ∀ q, s.ymm14 q = dot_upto x A B 5 q t
  ymm15 : ∀ q, s.ymm15 q = dot_upto x A B 5 (8 + q) t

/-- The accumulator lane that belongs to the element `(i, j)` of the tile: `ymm(4 + 2i)`
holds the columns 0-7 and `ymm(5 + 2i)` the columns 8-15 of row `i`. -/
def Acc.lane {R : Type} (s : Acc R) (i j : Nat) : R :=
  match i with
  | 0 => if j < 8 then s.ymm4 j else s.ymm5 (j - 8)
  | 1 => if j < 8 then s.ymm6 j else s.ymm7 (j - 8)
  | 2 => if j < 8 then s.ymm8 j else s.ymm9 (j - 8)
  | 3 => if j < 8 then s.ymm10 j else s.ymm11 (j - 8)
  | 4 => if j < 8 then s.ymm12 j else s.ymm13 (j - 8)
  | _ => if j < 8 then s.ymm14 j else s.ymm15 (j - 8)

/-- The accumulators after the scaling by `alpha` (source lines 494-508). -/
def Acc.scale {R : Type} [Mul R] (alpha : R) (s : Acc R) : Acc R :=
  { ymm4 := vmulps (fun _ => alpha) s.ymm4, ymm5 := vmulps (fun _ => alpha) s.ymm5,
    ymm6 := vmulps (fun _ => alpha) s.ymm6, ymm7 := vmulps (fun _ => alpha) s.ymm7,
    ymm8 := vmulps (fun _ => alpha) s.ymm8, ymm9 := vmulps (fun _ => alpha) s.ymm9,
    ymm10 := vmulps (fun _ => alpha) s.ymm10, ymm11 := vmulps (fun _ => alpha) s.ymm11,
    ymm12 := vmulps (fun _ => alpha) s.ymm12, ymm13 := vmulps (fun _ => alpha) s.ymm13,
    ymm14 := vmulps (fun _ => alpha) s.ymm14, ymm15 := vmulps (fun _ => alpha) s.ymm15,
    rax := s.rax, rbx := s.rbx }

/-- A full-tile call `m0 = 6`, `n0 = 16`, `k0 = 4`, `alpha = 1`, `beta = 0` on row-major
operands and a row-stored C. -/
def args_6x16 : SupArgs Int :=
  { conja := false, conjb := false
    m0 := 6, n0 := 16, k0 := 4
    alpha := 1
    a := 0, rs_a0 := 4, cs_a0 := 1
    b := 0, rs_b0 := 16, cs_b0 := 1
    beta := 0
    c := 0, rs_c0 := 16, cs_c0 := 1
    data := 0, cntx := 0 }

/-- The full-tile call of `args_6x16` on a column-stored C (`rs_c = 1`, `cs_c = 6`). -/
def args_6x16_col : SupArgs Int := { args_6x16 with rs_c0 := 1, cs_c0 := 6 }

/-- The nominal shape `M x N` of a kernel registered in `kmap`, read off its name. -/
def SupKernel.shape : SupKernel → Nat × Nat
  | .rv_haswell_asm m n => (m, n)
  | .r_haswell_ref m n => (m, n)

/-- Whether the kernel is one of the reference kernels `bli_sgemmsup_r_haswell_ref_MxN`. -/
def SupKernel.is_ref : SupKernel → Bool
  | .rv_haswell_asm _ _ => false
  | .r_haswell_ref _ _ => true

/-- What identifies a call of the edge path apart from the pointers and scalars handed
through: the kernel, the chunk `(m, n)`, the table indices `(i, j)` and the origin
`(r, s)` of the chunk in the tile. -/
abbrev CallInfo := SupKernel × (Nat × Nat) × (Nat × Nat) × (Nat × Nat)

/-- The kernel, chunk, table indices and origin of a call of the edge path. -/
def SubCall.info {R : Type} (c : SubCall R) : CallInfo :=
  (c.ker_fp, (c.m, c.n), (c.i, c.j), (c.r, c.s))

/-- The column chunks of the edge path with the kernel, chunk, table indices and origin of
each of their calls. -/
def cols_info {R : Type} (cols : List (Nat × Nat × List (SubCall R))) :
    List (Nat × Nat × List CallInfo) :=
  cols.map (fun col => (col.1, col.2.1, col.2.2.map SubCall.info))

/-- Arguments with the tile extents `m0`, `n0` and nothing else of interest. -/
def shape_args (m0 n0 : Nat) : SupArgs Unit :=
  { conja := false, conjb := false, m0 := m0, n0 := n0, k0 := 0, alpha := (),
    a := 0, rs_a0 := 0, cs_a0 := 0, b := 0, rs_b0 := 0, cs_b0 := 0, beta := (),
    c := 0, rs_c0 := 0, cs_c0 := 0, data := 0, cntx := 0 }

/-- The column chunks and calls of the edge path for a tile of `m0 x n0`, computed on
`shape_args m0 n0`. -/
def edge_plan (m0 n0 : Nat) : Option (List (Nat × Nat × List CallInfo)) :=
  (edge_cols (shape_args m0 n0)).map cols_info

/-- A call of the edge path for a tile of `m0 x n0` goes to the entry of `kmap` at its
indices, its chunk is the pair of the entries of `mrs` and `nrs` at these indices and the
nominal shape of the kernel, the kernel is a reference kernel when the chunk is one column
wide, and in each dimension the chunk is the largest entry of the table that does not
exceed what is left from the origin of the chunk on. -/
def ChunkOk (m0 n0 : Nat) (e : CallInfo) : Prop :=
  (kmap.get? e.2.2.1.1).bind (fun row => row.get? e.2.2.1.2) = some e.1 ∧
  mrs.get? e.2.2.1.1 = some e.2.1.1 ∧
  nrs.get? e.2.2.1.2 = some e.2.1.2 ∧
  e.1.shape = (e.2.1.1, e.2.1.2) ∧
  (e.2.1.2 = 1 → e.1.is_ref = true) ∧
  (e.2.1.1 ≤ m0 - e.2.2.2.1 ∧ ∀ v ∈ mrs, v ≤ m0 - e.2.2.2.1 → v ≤ e.2.1.1) ∧
  (e.2.1.2 ≤ n0 - e.2.2.2.2 ∧ ∀ v ∈ nrs, v ≤ n0 - e.2.2.2.2 → v ≤ e.2.1.2)

instance (m0 n0 : Nat) (e : CallInfo) : Decidable (ChunkOk m0 n0 e) := by
  unfold ChunkOk; infer_instance

/-- Every call of the plan satisfies `ChunkOk`, and every column chunk has the same row
decomposition (table index, first row and height of each call). -/
def PlanOk (m0 n0 : Nat) (plan : List (Nat × Nat × List CallInfo)) : Prop :=
  (∀ col ∈ plan, ∀ e ∈ col.2.2, ChunkOk m0 n0 e) ∧
  ∀ col1 ∈ plan, ∀ col2 ∈ plan,
    col1.2.2.map (fun e => (e.2.2.1.1, e.2.2.2.1, e.2.1.1))
      = col2.2.2.map (fun e => (e.2.2.1.1, e.2.2.2.1, e.2.1.1))

instance (m0 n0 : Nat) (plan : List (Nat × Nat × List CallInfo)) :
    Decidable (PlanOk m0 n0 plan) := by
  unfold PlanOk; infer_instance

/-- The full-tile call of `args_6x16_col` (column-stored C, `rs_c = 1`, `cs_c = 6`) with
`beta = 2`. -/
def args_6x16_col_beta : SupArgs Int := { args_6x16_col with beta := 2 }

/-- A memory holding the value `16*i + j` at the place `a = i*16 + j` of the element
`(i, j)` of a row-stored tile with `rs_c = 16`: the value at `a` is `a`. -/
def mem_tile_rows : Nat → Int := fun a => (a : Int)

/-- A memory holding the value `16*i + j` at the place `a = i + j*6` of the element
`(i, j)` of a column-stored tile with `cs_c = 6`. -/
def mem_tile_cols : Nat → Int := fun a => (((a % 6) * 16 + a / 6 : Nat) : Int)

/-- An edge-case call with `m0 = 14`, `n0 = 1`: more rows than the entries of `mrs` add up
to. -/
def args_14x1 : SupArgs Int :=
  { conja := false, conjb := false
    m0 := 14, n0 := 1, k0 := 4
    alpha := 1
    a := 0, rs_a0 := 4, cs_a0 := 1
    b := 0, rs_b0 := 1, cs_b0 := 1
    beta := 0
    c := 0, rs_c0 := 1, cs_c0 := 1
    data := 0, cntx := 0 }

/-- An edge-case call with `m0 = 13`, `n0 = 1`. -/
def args_13x1 : SupArgs Int := { args_14x1 with m0 := 13 }

/-- An edge-case call with `m0 = 5`, `n0 = 15`, `k0 = 4`. -/
def args_5x15 : SupArgs Int :=
  { conja := false, conjb := false
    m0 := 5, n0 := 15, k0 := 4
    alpha := 1
    a := 0, rs_a0 := 4, cs_a0 := 1
    b := 0, rs_b0 := 16, cs_b0 := 1
    beta := 0
    c := 0, rs_c0 := 16, cs_c0 := 1
    data := 0, cntx := 0 }

end Haswell

/-! ## Auxiliary definitions for termination, counting and path selection -/

namespace Lpgemm

/-- The quotient `ceil(a / b)` as the source computes it: `( a + b - 1 ) / b`. -/
def ceil_div (a b : Nat) : Nat := (a + b - 1) / b

/-- Whether the event is a micro-kernel call. -/
def Event.is_kernel {R L : Type} : Event R L → Bool
  | Event.kernel _ _ _ _ _ => true
  | _ => false

/-- Whether the event is a call of `bli_thrcomm_barrier`. -/
def Event.is_barrier {R L : Type} : Event R L → Bool
  | Event.barrier _ _ => true
  | _ => false

/-- The call of `packm_cxk` for the chunk `it` of A: the rows `it*MR ..` of the source,
read from `input_buf_addr_a + it*MR*rs_a` and written to `reorder_buf_addr_a + it*ps_p`,
of height `min(MR, m - it*MR)`. -/
def pack_a_chunk {R : Type} [One R]
    (input_buf_addr_a reorder_buf_addr_a m k rs_a cs_a ps_p MR it : Nat) : PackmCxkCall R :=
  { conjc := conj_t.BLIS_NO_CONJUGATE
    schema := pack_t.BLIS_PACKED_ROW_PANELS
    panel_dim := min MR (m - it * MR)
    panel_dim_max := MR
    panel_len := k
    panel_len_max := k
    kappa := 1
    a := input_buf_addr_a + it * MR * rs_a
    inca := rs_a
    lda := cs_a
    p := reorder_buf_addr_a + it * ps_p
    ldp := MR }

/-- The call of `packm_cxk` for the chunk `it` of B: the columns `it*NR ..` of the source,
read from `input_buf_addr_b + it*NR*cs_b` and written to `reorder_buf_addr_b + it*ps_p`,
of width `min(NR, n - it*NR)`. -/
def pack_b_chunk {R : Type} [One R]
    (input_buf_addr_b reorder_buf_addr_b n k rs_b cs_b ps_p NR it : Nat) : PackmCxkCall R :=
  { conjc := conj_t.BLIS_NO_CONJUGATE
    schema := pack_t.BLIS_PACKED_COL_PANELS
    panel_dim := min NR (n - it * NR)
    panel_dim_max := NR
    panel_len := k
    panel_len_max := k
    kappa := 1
    a := input_buf_addr_b + it * NR * cs_b
    inca := cs_b
    lda := rs_b
    p := reorder_buf_addr_b + it * ps_p
    ldp := NR }

/-- The variables of the loop of `lpgemm_pack_a_f32f32f32of32` after one more iteration:
the result of `pack_a_body`, which never fails. -/
def pack_a_next {R : Type} [One R] (input_buf_addr_a m k rs_a cs_a MR ps_p : Nat)
    (s : PackLoop R) : PackLoop R :=
  { ir := s.ir + MR
    p_temp := s.p_temp + ps_p
    calls := s.calls ++
      [{ conjc := conj_t.BLIS_NO_CONJUGATE
         schema := pack_t.BLIS_PACKED_ROW_PANELS
         panel_dim := min MR (m - s.ir)
         panel_dim_max := MR
         panel_len := k
         panel_len_max := k
         kappa := 1
         a := input_buf_addr_a + s.ir * rs_a
         inca := rs_a
         lda := cs_a
         p := s.p_temp
         ldp := MR }] }

/-- The variables of the loop of `lpgemm_pack_b_f32f32f32of32` after one more iteration:
the result of `pack_b_body`, which never fails. -/
def pack_b_next {R : Type} [One R] (input_buf_addr_b n k rs_b cs_b NR ps_p : Nat)
    (s : PackLoop R) : PackLoop R :=
  { ir := s.ir + NR
    p_temp := s.p_temp + ps_p
    calls := s.calls ++
      [{ conjc := conj_t.BLIS_NO_CONJUGATE
         schema := pack_t.BLIS_PACKED_COL_PANELS
         panel_dim := min NR (n - s.ir)
         panel_dim_max := NR
         panel_len := k
         panel_len_max := k
         kappa := 1
         a := input_buf_addr_b + s.ir * cs_b
         inca := cs_b
         lda := rs_b
         p := s.p_temp
         ldp := NR }] }

/-- The effect of one call of `packm_cxk` on the pack buffer, by the contract `packm_cxk`. -/
def PackmCxkCall.apply {R : Type} [CommRing R] (src : Nat → R) (buf : Nat → R)
    (c : PackmCxkCall R) : Nat → R :=
  packm_cxk c.panel_dim c.panel_dim_max c.panel_len c.kappa src c.a c.inca c.lda buf c.p c.ldp

/-- Two threads of one jc group for `M = 3, N = 5`: both have the columns `[0, 5)`; the
first has the rows `[0, 3)` and packs the whole column block, the second has no row and
packs nothing. -/
def threads_empty_ic (t : Nat) : ThreadInfo :=
  { jc_start := 0
    jc_end := 5
    ic_start := if t = 0 then 0 else 3
    ic_end := 3
    am_ochief := decide (t = 0)
    jc_work_id := 0
    packb_range := fun nc0 => if t = 0 then (0, nc0) else (nc0, nc0) }

/-- Whether the event is a call of `lpgemm_pack_a_f32f32f32of32`. -/
def Event.is_pack_a {R L : Type} : Event R L → Bool
  | Event.pack_a _ => true
  | _ => false

/-- Whether the event is a call of `lpgemm_pack_b_f32f32f32of32`. -/
def Event.is_pack_b {R L : Type} : Event R L → Bool
  | Event.pack_b _ => true
  | _ => false

/-- The call `M = N = K = 1` of `args_1x1` with both operands tagged PACK and both pack
flags unset. -/
def args_1x1_tag_pack : Args Int Unit :=
  { args_1x1 with mtag_a := AOCL_MEMORY_TAG.PACK, mtag_b := AOCL_MEMORY_TAG.PACK }

/-- The call `M = N = K = 1` of `args_1x1`, both operands tagged NATIVE, with the pack-A
flag set. -/
def args_1x1_flag_a : Args Int Unit := { args_1x1 with should_pack_A := true }

/-- The call `M = 3, N = 5, K = 4` of `args_3x5` with A packed by the driver and B packed
on the fly. -/
def args_3x5_pack_ab : Args Int Unit := { args_3x5_pack_b with should_pack_A := true }

/-- Modelled from the spec: the layout of a REORDERED A that stores the K-blocks one after
the other and, per K-block, `ceil(m/MR)` consecutive micro-panels of `MR x kc0` elements,
`kc0 = min(k - t*KC, KC)` being the width of the K-block `t`.  The value is the offset,
from the start of A, of the micro-panel `q` (the rows `q*MR ..`) of the K-block `t` (the
columns `t*KC ..`). -/
def reordered_a_panel_start (m k MR KC t q : Nat) : Nat :=
  ((List.range t).map (fun t1 => ceil_div m MR * (MR * min (k - t1 * KC) KC))).sum +
    q * (MR * min (k - t * KC) KC)

/-- The call `M = 3, N = 5, K = 4` of `args_3x5` with a REORDERED A. -/
def args_3x5_reordered_a : Args Int Unit :=
  { args_3x5 with mtag_a := AOCL_MEMORY_TAG.REORDERED }

/-- The B pointer and the B strides of a micro-kernel call event, with the loop indices of
the call. -/
def Event.b_info {R L : Type} : Event R L → Option (Nat × Nat × Nat × Nat × Ptr × Nat × Nat)
  | Event.kernel jc pc ic jr call => some (jc, pc, ic, jr, call.b, call.rs_b, call.cs_b)
  | _ => none

/-- The source pointer and the strides of a call of `lpgemm_pack_b_f32f32f32of32`. -/
def Event.pack_b_info {R L : Type} : Event R L → Option (Nat × Nat × Nat)
  | Event.pack_b call => some (call.src, call.rs, call.cs)
  | _ => none

/-- The call `M = 1, N = 3, K = 1`, `alpha = 1`, `beta = 0` with a NATIVE `1 x 3` matrix B
whose columns are two elements apart (`rs_b = 6`, `cs_b = 2`). -/
def args_strided_b : Args Int Unit :=
  { m := 1, n := 3, k := 1
    a := 0, rs_a := 1, cs_a := 1, mtag_a := AOCL_MEMORY_TAG.NATIVE
    b := 0, rs_b := 6, cs_b := 2, mtag_b := AOCL_MEMORY_TAG.NATIVE
    c := 0, rs_c := 3
    alpha := 1, beta := 0
    should_pack_A := false, should_pack_B := false
    post_op_list := (), c_downscale := false }

/-- The call of `args_strided_b` with B packed on the fly. -/
def args_strided_b_pack : Args Int Unit :=
  { args_strided_b with mtag_b := AOCL_MEMORY_TAG.PACK, should_pack_B := true }

/-- A memory holding the value `p + 1` at the address `p`: with `cs_b = 2` the matrix
`B = [1, 3, 5]` of `args_strided_b`. -/
def mem_succ : Nat → Int := fun p => (p : Int) + 1

/-- The call of `packm_cxk` that packs the micro-panel `q` (the columns `q*NR ..` of the
column block that starts at `jc`) of the K-slice `[pc, pc + kc0)` of B from the source
address `b + rs_b*pc + cs_b*(jc + q*NR)` into the pack buffer at the offset `q*NR*kc0`. -/
def panel_chunk {R L : Type} [One R] (blk : BlockSizes) (x : Args R L)
    (jc pc nc0 kc0 q : Nat) : PackmCxkCall R :=
  { conjc := conj_t.BLIS_NO_CONJUGATE
    schema := pack_t.BLIS_PACKED_COL_PANELS
    panel_dim := min blk.NR (nc0 - q * blk.NR)
    panel_dim_max := blk.NR
    panel_len := kc0
    panel_len_max := kc0
    kappa := 1
    a := x.b + x.rs_b * pc + x.cs_b * (jc + q * blk.NR)
    inca := x.cs_b
    lda := x.rs_b
    p := q * blk.NR * kc0
    ldp := blk.NR }

/-- The calls of `packm_cxk` made when an event is executed: those of the loop of
`lpgemm_pack_b_f32f32f32of32` (`pack_b_run`) for a call of that packer, none for any other
event; `none` when the loop does not end within `fuel` iterations. -/
def Event.packm_b {R L : Type} [One R] (fuel : Nat) :
    Event R L → Option (List (PackmCxkCall R))
  | Event.pack_b call =>
    pack_b_run call.src call.dst call.mn call.k call.rs call.cs call.ps_p call.XR fuel
  | _ => some []

/-- The calls of `packm_cxk` a thread makes on B for the column block `jc` (B not
REORDERED) and the K-slice `pc`: those of the events of the B part of the body of the
`pc` loop, in order. -/
def packed_b_panels {R L : Type} [One R] (blk : BlockSizes) (thr : ThreadInfo) (x : Args R L)
    (jc pc nc0 kc0 fuel : Nat) : Option (List (PackmCxkCall R)) :=
  (b_select blk thr x jc pc nc0 kc0 jc 0 0).1.foldl
    (fun acc e => acc.bind (fun l => (Event.packm_b fuel e).map (fun c => l ++ c)))
    (some [])

end Lpgemm

/-! ## Auxiliary definitions for the edge path and the loops over `k` -/

namespace Haswell

/-- A call of the edge path hands on, unchanged, `k0`, `alpha`, `beta`, the two conjugation
flags, the six strides, `data` and `cntx` of the arguments `x`. -/
def SubCall.passes_on {R : Type} (x : SupArgs R) (c : SubCall R) : Prop :=
  c.k = x.k0 ∧ c.alpha = x.alpha ∧ c.beta = x.beta ∧ c.conja = x.conja ∧ c.conjb = x.conjb ∧
  c.rs_a = x.rs_a0 ∧ c.cs_a = x.cs_a0 ∧ c.rs_b = x.rs_b0 ∧ c.cs_b = x.cs_b0 ∧
  c.rs_c = x.rs_c0 ∧ c.cs_c = x.cs_c0 ∧ c.data = x.data ∧ c.cntx = x.cntx

/-- The destination C after a call of `bli_sgemmsup_rv_haswell_asm_6x16`, for a given effect
`ker` of a sub-kernel call on C: the edge path changes C only through the calls it makes;
there is no result when a table is read out of bounds. -/
def Outcome.result {R : Type} (ker : SubCall R → (Nat → R) → (Nat → R)) (C : Nat → R) :
    Outcome R → Option (Nat → R)
  | Outcome.edge none => none
  | Outcome.edge (some calls) => some (calls.foldl (fun M c => ker c M) C)
  | Outcome.full C1 => some C1

/-- The pointers of a call of the edge path, with the origin `(r, s)` of its chunk. -/
def SubCall.pointers {R : Type} (c : SubCall R) : (Nat × Nat) × Nat × Nat × Nat :=
  ((c.r, c.s), c.a, c.b, c.c)

/-- The instruction block of one value of `k` of the kernel `Mx16`, `M = 1 .. 6`, with the
registers `r8 = rs_a`, `r9 = cs_a`, `r10 = rs_b`, `r13 = 3*rs_a`, `r15 = 5*rs_a` set as in
the kernel. -/
def sMx16_update {R : Type} [CommRing R] (M : Nat) (x : SupArgs R) (A B : Nat → R) :
    Acc R → Acc R :=
  match M with
  | 1 => rank1_update_1x16 A B x.cs_a0 x.rs_b0
  | 2 => rank1_update_2x16 A B x.rs_a0 x.cs_a0 x.rs_b0
  | 3 => rank1_update_3x16 A B x.rs_a0 x.cs_a0 x.rs_b0
  | 4 => rank1_update_4x16 A B x.rs_a0 x.cs_a0 x.rs_b0 (x.rs_a0 + x.rs_a0 * 2)
  | 5 => rank1_update_5x16 A B x.rs_a0 x.cs_a0 x.rs_b0 (x.rs_a0 + x.rs_a0 * 2)
  | _ => rank1_update A B x.rs_a0 x.cs_a0 x.rs_b0 (x.rs_a0 + x.rs_a0 * 2)
      (x.rs_a0 + x.rs_a0 * 4)

/-- The accumulators of the kernel `Mx16`, `M = 1 .. 6`, at `.SPOSTACCUM`. -/
def sMx16_accumulate {R : Type} [CommRing R] (M : Nat) (x : SupArgs R) (A B : Nat → R) :
    Acc R :=
  match M with
  | 1 => accumulate_1x16 x A B
  | 2 => accumulate_2x16 x A B
  | 3 => accumulate_3x16 x A B
  | 4 => accumulate_4x16 x A B
  | 5 => accumulate_5x16 x A B
  | _ => accumulate x A B

/-- A call of a kernel `Mx16` with `k0 = 7`: one run of the unrolled loop and three of
the cleanup loop. -/
def args_k7 : SupArgs Int := { args_6x16 with k0 := 7, rs_a0 := 7 }

/-- An edge-case call with `m0 = 0`, `n0 = 16`. -/
def args_0x16 : SupArgs Int := { args_5x15 with m0 := 0, n0 := 16 }

/-- An edge-case call with `m0 = 20`, `n0 = 0`. -/
def args_20x0 : SupArgs Int := { args_5x15 with m0 := 20, n0 := 0 }

/-- An edge-case call with `m0 = 5`, `n0 = 15`, `k0 = 4` on operands at the addresses
`a = 1000`, `b = 2000`, `c = 3000` with the strides `rs_a = 4`, `cs_b = 1`, `rs_c = 16`,
`cs_c = 1`. -/
def args_5x15_at : SupArgs Int := { args_5x15 with a := 1000, b := 2000, c := 3000 }

/-- An edge-case call with `m0 = 1`, `n0 = 44`: one column more than the sum of the entries
of `nrs`. -/
def args_1x44 : SupArgs Int := { args_5x15 with m0 := 1, n0 := 44 }

/-- The value the multiply-adds of the loops over `k` leave in the accumulator lane of the
element `(i, j)` after `t` values of `k`, written in the order in which the kernel
computes it: `A[i][t-1]*B[t-1][j] + ( ... + (A[i][0]*B[0][j] + 0))`. -/
def fma_dot {R : Type} [Zero R] [Add R] [Mul R] (x : SupArgs R) (A B : Nat → R)
    (i j : Nat) : Nat → R
  | 0 => 0
  | t + 1 =>
    A (x.a + i * x.rs_a0 + t * x.cs_a0) * B (x.b + t * x.rs_b0 + j) + fma_dot x A B i j t

/-- The accumulators hold the values `fma_dot` of the first `t` values of `k`, and the
pointers into A and B have advanced `t` times: `ymm(4 + 2i)` holds the columns 0-7 and
`ymm(5 + 2i)` the columns 8-15 of row `i`. -/
structure AccFma {R : Type} [Zero R] [Add R] [Mul R] (x : SupArgs R) (A B : Nat → R)
    (t : Nat) (s : Acc R) : Prop where
  rax : s.rax = x.a + t * x.cs_a0
  rbx : s.rbx = x.b + t * x.rs_b0
  ymm4 : ∀ q, s.ymm4 q = fma_dot x A B 0 q t
  ymm5 : ∀ q, s.ymm5 q = fma_dot x A B 0 (8 + q) t
  ymm6 : ∀ q, s.ymm6 q = fma_dot x A B 1 q t
  ymm7 : ∀ q, s.ymm7 q = fma_dot x A B 1 (8 + q) t
  ymm8 : ∀ q, s.ymm8 q = fma_dot x A B 2 q t
  ymm9 : ∀ q, s.ymm9 q = fma_dot x A B 2 (8 + q) t
  ymm10 : ∀ q, s.ymm10 q = fma_dot x A B 3 q t
  ymm11 : ∀ q, s.ymm11 q = fma_dot x A B 3 (8 + q) t
  ymm12 : ∀ q, s.ymm12 q = fma_dot x A B 4 q t
  ymm13 : ∀ q, s.ymm13 q = fma_dot x A B 4 (8 + q) t
  ymm14 : ∀ q, s.ymm14 q = fma_dot x A B 5 q t
  ymm15 : ∀ q, s.ymm15 q = fma_dot x A B 5 (8 + q) t

/-- A carrier with a NaN: the integers and one more value `nan`, which every sum and every
product with it yields again.  In particular `0 * nan = nan`: a value loaded from a memory
filled with `nan` is not removed by a multiplication by zero. -/
inductive NanInt
  | val (v : Int)
  | nan
  deriving DecidableEq, Repr

/-- The sum on `NanInt`. -/
def NanInt.add : NanInt → NanInt → NanInt
  | NanInt.val a, NanInt.val b => NanInt.val (a + b)
  | _, _ => NanInt.nan

/-- The product on `NanInt`. -/
def NanInt.mul : NanInt → NanInt → NanInt
  | NanInt.val a, NanInt.val b => NanInt.val (a * b)
  | _, _ => NanInt.nan

instance : Zero NanInt := ⟨NanInt.val 0⟩

instance : Add NanInt := ⟨NanInt.add⟩

instance : Mul NanInt := ⟨NanInt.mul⟩

instance : AddCommMonoid NanInt where
  add_assoc := by
    intro a b c
    cases a <;> cases b <;> cases c <;>
      first | rfl | exact congrArg NanInt.val (Int.add_assoc _ _ _)
  zero_add := by
    intro a
    cases a <;> first | rfl | exact congrArg NanInt.val (Int.zero_add _)
  add_zero := by
    intro a
    cases a <;> first | rfl | exact congrArg NanInt.val (Int.add_zero _)
  add_comm := by
    intro a b
    cases a <;> cases b <;> first | rfl | exact congrArg NanInt.val (Int.add_comm _ _)
  nsmul := nsmulRec
  nsmul_zero := fun _ => rfl
  nsmul_succ := fun _ _ => rfl

instance : CommMagma NanInt where
  mul_comm := by
    intro a b
    cases a <;> cases b <;> first | rfl | exact congrArg NanInt.val (Int.mul_comm _ _)

/-- A full-tile call `m0 = 6`, `n0 = 16`, `k0 = 4`, `alpha = 1`, `beta = 0` over `NanInt`
on row-major operands and a column-stored C (`rs_c = 1`, `cs_c = 6`). -/
def args_6x16_nan : SupArgs NanInt :=
  { conja := false, conjb := false
    m0 := 6, n0 := 16, k0 := 4
    alpha := NanInt.val 1
    a := 0, rs_a0 := 4, cs_a0 := 1
    b := 0, rs_b0 := 16, cs_b0 := 1
    beta := NanInt.val 0
    c := 0, rs_c0 := 1, cs_c0 := 6
    data := 0, cntx := 0 }

end Haswell

/-! # Properties -/

namespace Lpgemm

/-! ## Loops -/

theorem loopStarts_fuel_irrel {stop step : Nat} (hstep : 0 < step) :
    ∀ (f1 f2 i : Nat), stop - i ≤ f1 → stop - i ≤ f2 →
      loopStarts stop step f1 i = loopStarts stop step f2 i := by
  intro f1
  induction f1 with
  | zero =>
    intro f2 i h1 _
    cases f2 with
    | zero => rfl
    | succ f2 =>
      have : ¬ i < stop := by omega
      simp [loopStarts, this]
  | succ f1 ih =>
    intro f2 i h1 h2
    cases f2 with
    | zero =>
      have : ¬ i < stop := by omega
      simp [loopStarts, this]
    | succ f2 =>
      simp only [loopStarts]
      split
      · rw [ih f2 (i + step) (by omega) (by omega)]
      · rfl

theorem loopStarts_eq_starts {stop step : Nat} (hstep : 0 < step) (fuel i : Nat)
    (h : stop - i ≤ fuel) : loopStarts stop step fuel i = starts i stop step :=
  loopStarts_fuel_irrel hstep fuel (stop - i) i h (le_refl _)

theorem starts_of_lt {stop step : Nat} (hstep : 0 < step) {i : Nat} (h : i < stop) :
    starts i stop step = i :: starts (i + step) stop step := by
  unfold starts
  obtain ⟨f, hf⟩ : ∃ f, stop - i = f + 1 := ⟨stop - i - 1, by omega⟩
  rw [hf]
  simp only [loopStarts, h, if_true]
  rw [loopStarts_fuel_irrel hstep f (stop - (i + step)) (i + step) (by omega) (le_refl _)]

theorem starts_of_not_lt {stop step : Nat} {i : Nat} (h : ¬ i < stop) :
    starts i stop step = [] := by
  unfold starts
  have : stop - i = 0 := by omega
  rw [this]
  rfl

/-- Induction along the iterations of a loop with a positive step. -/
theorem starts_induction {stop step : Nat} (hstep : 0 < step) (P : Nat → Prop)
    (hdone : ∀ i, ¬ i < stop → P i)
    (hiter : ∀ i, i < stop → P (i + step) → P i) : ∀ i, P i := by
  have key : ∀ d i, stop - i ≤ d → P i := by
    intro d
    induction d with
    | zero => intro i hd; exact hdone i (by omega)
    | succ d ih =>
      intro i hd
      by_cases hi : i < stop
      · exact hiter i hi (ih (i + step) (by omega))
      · exact hdone i hi
  exact fun i => key (stop - i) i (le_refl _)

theorem forLoop_eq_foldl {σ : Type} {stop step : Nat} (hstep : 0 < step)
    (body : Nat → σ → Option σ) (h : Nat → σ → σ)
    (hbody : ∀ j s, j < stop → body j s = some (h j s)) :
    ∀ (fuel i : Nat) (s : σ), stop - i ≤ fuel →
      forLoop stop step body fuel i s
        = some ((starts i stop step).foldl (fun s j => h j s) s) := by
  intro fuel
  induction fuel with
  | zero =>
    intro i s hf
    have hi : ¬ i < stop := by omega
    simp [forLoop, hi, starts_of_not_lt hi]
  | succ f ih =>
    intro i s hf
    by_cases hi : i < stop
    · simp only [forLoop, hi, if_true, hbody i s hi, Option.some_bind]
      rw [ih (i + step) (h i s) (by omega), starts_of_lt hstep hi]
      rfl
    · simp [forLoop, hi, starts_of_not_lt hi]

theorem foldl_append_eq_flatMap {α β : Type} (g : α → List β) (l : List α) (s : List β) :
    l.foldl (fun s j => s ++ g j) s = s ++ l.flatMap g := by
  induction l generalizing s with
  | nil => simp
  | cons a l ih => simp [ih, List.append_assoc]

theorem mem_starts {stop step : Nat} (hstep : 0 < step) :
    ∀ i b, b ∈ starts i stop step → i ≤ b ∧ b < stop ∧ (b - i) % step = 0 := by
  refine @starts_induction stop step hstep _ ?_ ?_
  · intro i hi b hb
    rw [starts_of_not_lt hi] at hb
    simp at hb
  · intro i hi ih b hb
    rw [starts_of_lt hstep hi] at hb
    rcases List.mem_cons.1 hb with h | h
    · subst h; simp [hi]
    · obtain ⟨h1, h2, h3⟩ := ih b h
      refine ⟨by omega, h2, ?_⟩
      have : b - i = (b - (i + step)) + step := by omega
      rw [this, Nat.add_mod_right]; exact h3

/-! ## The events of the driver as lists -/

section trace

variable {R L : Type} [One R]

theorem jr_loop_eq (blk : BlockSizes) (x : Args R L) (au : AUse) (bu : BUse)
    (jc pc ic nc0 kc0 mc0 : Nat) (hNR : 0 < blk.NR) (fuel : Nat) (hf : nc0 ≤ fuel)
    (evs : List (Event R L)) :
    forLoop nc0 blk.NR (jr_body blk x au bu jc pc ic nc0 kc0 mc0) fuel 0 evs
      = some (evs ++ jr_events blk x au bu jc pc ic nc0 kc0 mc0) := by
  rw [forLoop_eq_foldl hNR (jr_body blk x au bu jc pc ic nc0 kc0 mc0)
    (fun jr evs => evs ++ [Event.kernel jc pc ic jr
      (kernel_call blk x au bu jc pc ic jr nc0 kc0 mc0)]) (fun _ _ _ => rfl) fuel 0 evs
    (by omega)]
  rw [foldl_append_eq_flatMap]
  congr 2
  unfold jr_events
  induction starts 0 nc0 blk.NR with
  | nil => rfl
  | cons a l ih => simp [List.flatMap_cons, ih]

theorem ic_body_eq (blk : BlockSizes) (x : Args R L) (bu : BUse) (fuel : Nat)
    (jc pc nc0 kc0 ic_end ic : Nat) (hNR : 0 < blk.NR) (hf : nc0 ≤ fuel)
    (evs : List (Event R L)) :
    ic_body blk x bu fuel jc pc nc0 kc0 ic_end ic evs
      = some (evs ++ ic_events blk x bu jc pc nc0 kc0 ic_end ic) := by
  simp only [ic_body, ic_events]
  rw [jr_loop_eq blk x _ bu jc pc ic nc0 kc0 _ hNR fuel hf, List.append_assoc]

theorem pc_body_eq (blk : BlockSizes) (thr : ThreadInfo) (x : Args R L) (fuel : Nat)
    (jc nc0 jc_cur_loop jc_cur_loop_rem n_sub_updated pc : Nat)
    (hNR : 0 < blk.NR) (hMC : 0 < blk.MC) (hf : nc0 ≤ fuel)
    (hf2 : thr.ic_end - thr.ic_start ≤ fuel) (evs : List (Event R L)) :
    pc_body blk thr x fuel jc nc0 jc_cur_loop jc_cur_loop_rem n_sub_updated pc evs
      = some (evs ++
          pc_events blk thr x jc nc0 jc_cur_loop jc_cur_loop_rem n_sub_updated pc) := by
  simp only [pc_body, pc_events]
  rw [forLoop_eq_foldl hMC (ic_body blk x _ fuel jc pc nc0 _ thr.ic_end)
    (fun ic evs => evs ++ ic_events blk x _ jc pc nc0 _ thr.ic_end ic)
    (fun ic evs _ => ic_body_eq blk x _ fuel jc pc nc0 _ thr.ic_end ic hNR hf evs)
    fuel thr.ic_start _ hf2]
  rw [foldl_append_eq_flatMap, List.append_assoc]

theorem jc_body_eq (blk : BlockSizes) (nav : ReorderNav) (thr : ThreadInfo) (x : Args R L)
    (fuel jc : Nat) (hB : x.mtag_b ≠ AOCL_MEMORY_TAG.REORDERED)
    (hNR : 0 < blk.NR) (hMC : 0 < blk.MC) (hKC : 0 < blk.KC)
    (hf : thr.jc_end - jc ≤ fuel) (hf2 : thr.ic_end - thr.ic_start ≤ fuel)
    (hf3 : x.k ≤ fuel) (evs : List (Event R L)) :
    jc_body blk nav thr x fuel jc evs = some (jc, evs ++ jc_events blk thr x jc) := by
  simp only [jc_body, jc_events, hB, if_false]
  rw [forLoop_eq_foldl hKC (pc_body blk thr x fuel jc (min (thr.jc_end - jc) blk.NC) jc 0 0)
    (fun pc evs => evs ++ pc_events blk thr x jc (min (thr.jc_end - jc) blk.NC) jc 0 0 pc)
    (fun pc evs _ => pc_body_eq blk thr x fuel jc _ jc 0 0 pc hNR hMC
      (le_trans (Nat.min_le_left _ _) hf) hf2 evs)
    fuel 0 _ (by omega)]
  rw [foldl_append_eq_flatMap]
  rfl

theorem jc_loop_eq (blk : BlockSizes) (nav : ReorderNav) (thr : ThreadInfo) (x : Args R L)
    (fuel : Nat) (hB : x.mtag_b ≠ AOCL_MEMORY_TAG.REORDERED)
    (hNR : 0 < blk.NR) (hNC : 0 < blk.NC) (hMC : 0 < blk.MC) (hKC : 0 < blk.KC)
    (hf2 : thr.ic_end - thr.ic_start ≤ fuel) (hf3 : x.k ≤ fuel) :
    ∀ (f jc : Nat) (evs : List (Event R L)), thr.jc_end - jc ≤ f → thr.jc_end - jc ≤ fuel →
      jc_loop blk nav thr x fuel f jc evs
        = some (evs ++ (starts jc thr.jc_end blk.NC).flatMap (jc_events blk thr x)) := by
  intro f
  induction f with
  | zero =>
    intro jc evs h1 _
    have hi : ¬ jc < thr.jc_end := by omega
    simp [jc_loop, hi, starts_of_not_lt hi]
  | succ f ih =>
    intro jc evs h1 h2
    by_cases hi : jc < thr.jc_end
    · simp only [jc_loop, hi, if_true]
      rw [jc_body_eq blk nav thr x fuel jc hB hNR hMC hKC h2 hf2 hf3]
      simp only [Option.some_bind]
      rw [ih (jc + blk.NC) _ (by omega) (by omega), starts_of_lt hNC hi]
      simp [List.append_assoc]
    · simp [jc_loop, hi, starts_of_not_lt hi]

/-- With positive block sizes, a B that is not REORDERED and enough fuel, the driver
returns, and its events are those of the four nested loops followed by the release of the
pack buffers. -/
theorem lpgemm_events_eq (blk : BlockSizes) (nav : ReorderNav) (thr : ThreadInfo)
    (x : Args R L) (fuel : Nat) (hB : x.mtag_b ≠ AOCL_MEMORY_TAG.REORDERED)
    (hNR : 0 < blk.NR) (hNC : 0 < blk.NC) (hMC : 0 < blk.MC) (hKC : 0 < blk.KC)
    (hf1 : thr.jc_end - thr.jc_start ≤ fuel) (hf2 : thr.ic_end - thr.ic_start ≤ fuel)
    (hf3 : x.k ≤ fuel) :
    lpgemm_rowvar_f32f32f32of32 blk nav thr x fuel
      = some (loop_events blk thr x ++ release_events thr x (loop_events blk thr x)) := by
  unfold lpgemm_rowvar_f32f32f32of32
  rw [jc_loop_eq blk nav thr x fuel hB hNR hNC hMC hKC hf2 hf3 fuel thr.jc_start [] hf1 hf1]
  simp [loop_events]

end trace

end Lpgemm

namespace Lpgemm

/-! ## Stores -/

section stores

variable {R : Type}

theorem apply_writes_not_mem (ws : List (Nat × R)) (mem : Nat → R) (x : Nat)
    (h : ∀ w ∈ ws, w.1 ≠ x) : apply_writes ws mem x = mem x := by
  unfold apply_writes
  induction ws generalizing mem with
  | nil => rfl
  | cons w ws ih =>
    simp only [List.foldl_cons]
    rw [ih _ (fun w1 hw1 => h w1 (List.mem_cons_of_mem _ hw1))]
    exact Function.update_noteq (Ne.symm (h w (List.mem_cons_self _ _))) _ _

theorem apply_writes_mem (ws : List (Nat × R)) (mem : Nat → R) (x : Nat) (v : R)
    (hmem : ∃ w ∈ ws, w.1 = x) (hval : ∀ w ∈ ws, w.1 = x → w.2 = v) :
    apply_writes ws mem x = v := by
  unfold apply_writes
  induction ws generalizing mem with
  | nil => obtain ⟨w, hw, _⟩ := hmem; simp at hw
  | cons w ws ih =>
    simp only [List.foldl_cons]
    by_cases hlater : ∃ w1 ∈ ws, w1.1 = x
    · exact ih _ hlater (fun w1 hw1 => hval w1 (List.mem_cons_of_mem _ hw1))
    · have hw : w.1 = x := by
        obtain ⟨w1, hw1, hx⟩ := hmem
        rcases List.mem_cons.1 hw1 with h | h
        · rw [← h]; exact hx
        · exact absurd ⟨w1, h, hx⟩ hlater
      have := apply_writes_not_mem ws (Function.update mem w.1 w.2) x
        (fun w1 hw1 hx => hlater ⟨w1, hw1, hx⟩)
      unfold apply_writes at this
      rw [this, ← hw, Function.update_same]
      exact hval w (List.mem_cons_self _ _) hw

end stores

/-- Row-major addresses are distinct: with the column index below the row stride, the
address determines the row and the column. -/
theorem row_major_inj {r i j i2 j2 : Nat} (hj : j < r) (hj2 : j2 < r)
    (h : i * r + j = i2 * r + j2) : i = i2 ∧ j = j2 := by
  have h1 : (i * r + j) / r = i := by
    rw [Nat.mul_comm, Nat.mul_add_div (by omega), Nat.div_eq_of_lt hj, Nat.add_zero]
  have h2 : (i2 * r + j2) / r = i2 := by
    rw [Nat.mul_comm, Nat.mul_add_div (by omega), Nat.div_eq_of_lt hj2, Nat.add_zero]
  have hi : i = i2 := by rw [← h1, h, h2]
  subst hi
  exact ⟨rfl, by omega⟩

end Lpgemm

namespace Lpgemm

section kernel_effect

variable {R L : Type} [CommRing R]

/-- The value an element of C has after a micro-kernel call whose tile starts at row
`row0` and column `col0` of a row-major C with base address `base`. -/
theorem kernel_effect (MR : Nat) (A B : Nat → R) (st : MemState R) (call : KernelCall R L)
    (jc pc ic jr : Nat) (base row0 col0 : Nat)
    (hc : call.c = base + row0 * call.rs_c + col0) (hcs : call.cs_c = 1)
    (hcol : col0 + call.n ≤ call.rs_c) (i j : Nat) (hj : j < call.rs_c) :
    (exec_event MR A B st (Event.kernel jc pc ic jr call)).C (base + i * call.rs_c + j)
      = if row0 ≤ i ∧ i < row0 + call.m ∧ col0 ≤ j ∧ j < col0 + call.n then
          call.beta * st.C (base + i * call.rs_c + j) +
            call.alpha * sum_upto call.k (fun l =>
              read_at A st.pack_a call.a
                  (((i - row0) / MR) * call.ps_a + ((i - row0) % MR) * call.rs_a
                    + l * call.cs_a) *
                read_at B st.pack_b call.b (l * call.rs_b + (j - col0) * call.cs_b))
        else st.C (base + i * call.rs_c + j) := by
  have key : ∀ i2 j2, j2 < call.n →
      (call.c + i2 * call.rs_c + j2 * call.cs_c = base + i * call.rs_c + j
        ↔ i = row0 + i2 ∧ j = col0 + j2) := by
    intro i2 j2 hj2
    rw [hc, hcs]
    constructor
    · intro h
      have h2 : (row0 + i2) * call.rs_c + (col0 + j2) = i * call.rs_c + j := by
        rw [Nat.add_mul]; omega
      have := row_major_inj (by omega) hj h2
      omega
    · rintro ⟨rfl, rfl⟩
      rw [Nat.add_mul]; omega
  simp only [exec_event]
  split
  · rename_i hin
    obtain ⟨h1, h2, h3, h4⟩ := hin
    apply apply_writes_mem
    · refine ⟨_, List.mem_flatMap.2 ⟨i - row0, List.mem_range.2 (by omega),
        List.mem_map.2 ⟨j - col0, List.mem_range.2 (by omega), rfl⟩⟩, ?_⟩
      exact (key (i - row0) (j - col0) (by omega)).2 ⟨by omega, by omega⟩
    · intro w hw hx
      simp only [kernel_writes, List.mem_flatMap, List.mem_map, List.mem_range] at hw
      obtain ⟨i2, hi2, j2, hj2, rfl⟩ := hw
      simp only at hx
      obtain ⟨e1, e2⟩ := (key i2 j2 hj2).1 hx
      have e3 : i - row0 = i2 := by omega
      have e4 : j - col0 = j2 := by omega
      simp only [hx, e3, e4]
  · rename_i hout
    apply apply_writes_not_mem
    intro w hw hx
    simp only [kernel_writes, List.mem_flatMap, List.mem_map, List.mem_range] at hw
    obtain ⟨i2, hi2, j2, hj2, rfl⟩ := hw
    simp only at hx
    obtain ⟨e1, e2⟩ := (key i2 j2 hj2).1 hx
    exact hout ⟨by omega, by omega, by omega, by omega⟩

end kernel_effect

end Lpgemm

namespace Lpgemm

/-! ## The value of one element of C along the events -/

section observe

theorem foldl_obs_all_miss {σ V α : Type} (obs : σ → V) (f : σ → α → σ) (l : List α)
    (h : ∀ b ∈ l, ∀ s, obs (f s b) = obs s) (s : σ) : obs (l.foldl f s) = obs s := by
  induction l generalizing s with
  | nil => rfl
  | cons a l ih =>
    simp only [List.foldl_cons]
    rw [ih (fun b hb => h b (List.mem_cons_of_mem _ hb)), h a (List.mem_cons_self _ _)]

/-- Along the iterations of a blocked loop, an observation that only the block containing
`x` changes is changed exactly once when `x` is in the range of the loop, and is not
changed otherwise. -/
theorem foldl_starts_obs {σ V : Type} (obs : σ → V) (f : σ → Nat → σ) (hit : V → V)
    {stop step : Nat} (hstep : 0 < step) (x : Nat)
    (hmiss : ∀ b s, b < stop → ¬ inBlock stop step b x → obs (f s b) = obs s)
    (hhit : ∀ b s, b < stop → inBlock stop step b x → obs (f s b) = hit (obs s)) :
    ∀ i s, obs ((starts i stop step).foldl f s)
      = if i ≤ x ∧ x < stop then hit (obs s) else obs s := by
  refine @starts_induction stop step hstep _ ?_ ?_
  · intro i hi s
    rw [starts_of_not_lt hi]
    have : ¬ (i ≤ x ∧ x < stop) := by omega
    simp [this]
  · intro i hi ih s
    rw [starts_of_lt hstep hi, List.foldl_cons, ih]
    by_cases hin : inBlock stop step i x
    · have h1 : ¬ (i + step ≤ x ∧ x < stop) := by
        unfold inBlock blockLen at hin; omega
      have h2 : i ≤ x ∧ x < stop := by
        unfold inBlock blockLen at hin; omega
      rw [if_neg h1, if_pos h2, hhit i s hi hin]
    · rw [hmiss i s hi hin]
      have h1 : (i + step ≤ x ∧ x < stop) ↔ (i ≤ x ∧ x < stop) := by
        unfold inBlock blockLen at hin; omega
      simp only [h1]

theorem foldl_obs_commute {σ V α : Type} (obs : σ → V) (f : σ → α → σ) (g : V → α → V)
    (l : List α) (h : ∀ b ∈ l, ∀ s, obs (f s b) = g (obs s) b) (s : σ) :
    obs (l.foldl f s) = l.foldl g (obs s) := by
  induction l generalizing s with
  | nil => rfl
  | cons a l ih =>
    simp only [List.foldl_cons]
    rw [ih (fun b hb => h b (List.mem_cons_of_mem _ hb)), h a (List.mem_cons_self _ _)]

end observe

section exec

variable {R L : Type} [CommRing R]

theorem exec_events_append (MR : Nat) (A B : Nat → R) (l1 l2 : List (Event R L))
    (st : MemState R) :
    exec_events MR A B (l1 ++ l2) st = exec_events MR A B l2 (exec_events MR A B l1 st) := by
  simp [exec_events, List.foldl_append]

theorem exec_events_nil (MR : Nat) (A B : Nat → R) (st : MemState R) :
    exec_events MR A B ([] : List (Event R L)) st = st := rfl

theorem exec_events_flatMap {α : Type} (MR : Nat) (A B : Nat → R) (g : α → List (Event R L))
    (l : List α) (st : MemState R) :
    exec_events MR A B (l.flatMap g) st
      = l.foldl (fun st b => exec_events MR A B (g b) st) st := by
  induction l generalizing st with
  | nil => rfl
  | cons a l ih => rw [List.flatMap_cons, exec_events_append, ih]; rfl

theorem exec_events_map {α : Type} (MR : Nat) (A B : Nat → R) (g : α → Event R L)
    (l : List α) (st : MemState R) :
    exec_events MR A B (l.map g) st = l.foldl (fun st b => exec_event MR A B st (g b)) st := by
  simp [exec_events, List.foldl_map]

omit [CommRing R] in
theorem a_select_native [One R] (blk : BlockSizes) (x : Args R L) (h : a_native x)
    (pc ic kc0 mc0 : Nat) :
    a_select blk x pc ic kc0 mc0
      = ([], { a_use := ⟨Region.operand, x.a + x.rs_a * ic + pc⟩
               rs_a_use := x.rs_a
               cs_a_use := x.cs_a
               ps_a_use := blk.MR * x.rs_a }) := by
  obtain ⟨h1, h2⟩ := h
  simp [a_select, h1, h2]

omit [CommRing R] in
theorem b_select_native [One R] (blk : BlockSizes) (thr : ThreadInfo) (x : Args R L)
    (h : b_native x) (jc pc nc0 kc0 j1 j2 j3 : Nat) :
    b_select blk thr x jc pc nc0 kc0 j1 j2 j3
      = ([], { b_use := ⟨Region.operand, x.b + pc * x.rs_b + jc * x.cs_b⟩
               rs_b_use := x.rs_b
               cs_b_use := x.cs_b
               ps_b_use := 1 }) := by
  obtain ⟨h1, h2⟩ := h
  simp only [b_select, h1, h2, if_false]

theorem div_mod_stride (d MR rs : Nat) :
    (d / MR) * (MR * rs) + (d % MR) * rs = d * rs := by
  have h := Nat.div_add_mod d MR
  calc (d / MR) * (MR * rs) + (d % MR) * rs = (MR * (d / MR) + d % MR) * rs := by ring
    _ = d * rs := by rw [h]

end exec

end Lpgemm

namespace Lpgemm

/-! ## The driver on NATIVE row-major operands -/

section native

variable {R L : Type} [CommRing R]

theorem sum_upto_add (n1 n2 : Nat) (f : Nat → R) :
    sum_upto (n1 + n2) f = sum_upto n1 f + sum_upto n2 (fun l => f (n1 + l)) := by
  simp [sum_upto, List.range_add, List.map_append, List.sum_append, List.map_map,
    Function.comp_def]

theorem sum_upto_eq_sum (n : Nat) (f : Nat → R) :
    sum_upto n f = ∑ l ∈ Finset.range n, f l := by
  induction n with
  | zero => simp [sum_upto]
  | succ n ih =>
    rw [sum_upto_add n 1 f, ih, Finset.sum_range_succ]
    simp [sum_upto, List.range_succ]

theorem slice_dot_add (A B : Nat → R) (x : Args R L) (i j pc n1 n2 : Nat) :
    slice_dot A B x i j pc (n1 + n2)
      = slice_dot A B x i j pc n1 + slice_dot A B x i j (pc + n1) n2 := by
  unfold slice_dot
  rw [sum_upto_add]
  simp only [Nat.add_assoc]

/-- The effect of one micro-kernel call of the driver on the element `(i, j)` of a
row-major C, when A and B are used as given and have unit column stride. -/
theorem kernel_event_elem (blk : BlockSizes) (x : Args R L) (A B : Nat → R)
    (hcsa : x.cs_a = 1) (hcsb : x.cs_b = 1)
    (jc pc ic jr nc0 kc0 mc0 : Nat) (hcol : jc + nc0 ≤ x.rs_c) (hjr : jr < nc0)
    (i j : Nat) (hj : j < x.rs_c) (st : MemState R) :
    (exec_event blk.MR A B st (Event.kernel jc pc ic jr
        (kernel_call blk x
          { a_use := ⟨Region.operand, x.a + x.rs_a * ic + pc⟩
            rs_a_use := x.rs_a
            cs_a_use := x.cs_a
            ps_a_use := blk.MR * x.rs_a }
          { b_use := ⟨Region.operand, x.b + pc * x.rs_b + jc * x.cs_b⟩
            rs_b_use := x.rs_b
            cs_b_use := x.cs_b
            ps_b_use := 1 }
          jc pc ic jr nc0 kc0 mc0))).C (x.c + i * x.rs_c + j)
      = if (ic ≤ i ∧ i < ic + mc0) ∧ jc ≤ j ∧ inBlock nc0 blk.NR jr (j - jc) then
          (if pc = 0 then x.beta else 1) * st.C (x.c + i * x.rs_c + j)
            + x.alpha * slice_dot A B x i j pc kc0
        else st.C (x.c + i * x.rs_c + j) := by
  have h := kernel_effect blk.MR A B st
    (kernel_call blk x
      { a_use := ⟨Region.operand, x.a + x.rs_a * ic + pc⟩
        rs_a_use := x.rs_a
        cs_a_use := x.cs_a
        ps_a_use := blk.MR * x.rs_a }
      { b_use := ⟨Region.operand, x.b + pc * x.rs_b + jc * x.cs_b⟩
        rs_b_use := x.rs_b
        cs_b_use := x.cs_b
        ps_b_use := 1 }
      jc pc ic jr nc0 kc0 mc0) jc pc ic jr x.c ic (jc + jr)
    (by simp only [kernel_call]; rw [Nat.mul_comm x.rs_c ic]; omega) rfl
    (by simp only [kernel_call]; omega) i j hj
  simp only [kernel_call] at h
  simp only [kernel_call]
  rw [h]
  by_cases hin : (ic ≤ i ∧ i < ic + mc0) ∧ jc ≤ j ∧ inBlock nc0 blk.NR jr (j - jc)
  · have hin2 : ic ≤ i ∧ i < ic + mc0 ∧ jc + jr ≤ j ∧ j < jc + jr + min (nc0 - jr) blk.NR := by
      unfold inBlock blockLen at hin; omega
    rw [if_pos hin, if_pos hin2]
    congr 2
    unfold slice_dot
    congr 1
    funext l
    simp only [read_at, hcsa, hcsb, Nat.mul_one]
    have e1 : x.a + x.rs_a * ic + pc +
        ((i - ic) / blk.MR * (blk.MR * x.rs_a) + (i - ic) % blk.MR * x.rs_a + l)
          = x.a + i * x.rs_a + (pc + l) := by
      rw [div_mod_stride]
      have : i * x.rs_a = x.rs_a * ic + (i - ic) * x.rs_a := by
        rw [Nat.mul_comm x.rs_a ic, ← Nat.add_mul]; congr 1; omega
      omega
    have e2 : x.b + pc * x.rs_b + jc + jr + (l * x.rs_b + (j - (jc + jr)))
          = x.b + (pc + l) * x.rs_b + j := by
      rw [Nat.add_mul]; omega
    rw [e1, e2]
  · have hin2 : ¬ (ic ≤ i ∧ i < ic + mc0 ∧ jc + jr ≤ j ∧ j < jc + jr + min (nc0 - jr) blk.NR) := by
      unfold inBlock blockLen at hin; omega
    rw [if_neg hin, if_neg hin2]

/-- The effect of one run of the `jr` loop on the element `(i, j)`. -/
theorem jr_events_elem (blk : BlockSizes) (x : Args R L) (A B : Nat → R)
    (hA : a_native x) (hcsa : x.cs_a = 1) (hcsb : x.cs_b = 1) (hNR : 0 < blk.NR)
    (thr : ThreadInfo) (hB : b_native x)
    (jc pc ic nc0 kc0 mc0 j1 j2 j3 : Nat) (hcol : jc + nc0 ≤ x.rs_c)
    (i j : Nat) (hj : j < x.rs_c) (st : MemState R) :
    (exec_events blk.MR A B
        (jr_events blk x (a_select blk x pc ic kc0 mc0).2
          (b_select blk thr x jc pc nc0 kc0 j1 j2 j3).2 jc pc ic nc0 kc0 mc0) st).C
        (x.c + i * x.rs_c + j)
      = if (ic ≤ i ∧ i < ic + mc0) ∧ jc ≤ j ∧ j < jc + nc0 then
          elem_update A B x i j pc kc0 (st.C (x.c + i * x.rs_c + j))
        else st.C (x.c + i * x.rs_c + j) := by
  rw [a_select_native blk x hA, b_select_native blk thr x hB]
  simp only [jr_events]
  rw [exec_events_map]
  by_cases hin : (ic ≤ i ∧ i < ic + mc0) ∧ jc ≤ j
  · have h := foldl_starts_obs (fun s : MemState R => s.C (x.c + i * x.rs_c + j))
      (fun st jr => exec_event blk.MR A B st (Event.kernel jc pc ic jr
        (kernel_call blk x
          { a_use := ⟨Region.operand, x.a + x.rs_a * ic + pc⟩
            rs_a_use := x.rs_a
            cs_a_use := x.cs_a
            ps_a_use := blk.MR * x.rs_a }
          { b_use := ⟨Region.operand, x.b + pc * x.rs_b + jc * x.cs_b⟩
            rs_b_use := x.rs_b
            cs_b_use := x.cs_b
            ps_b_use := 1 }
          jc pc ic jr nc0 kc0 mc0)))
      (elem_update A B x i j pc kc0) hNR (j - jc)
      (fun b s hb hnot => by
        simp only
        rw [kernel_event_elem blk x A B hcsa hcsb jc pc ic b nc0 kc0 mc0 hcol hb i j hj s]
        rw [if_neg (fun hh => hnot hh.2.2)])
      (fun b s hb hyes => by
        simp only
        rw [kernel_event_elem blk x A B hcsa hcsb jc pc ic b nc0 kc0 mc0 hcol hb i j hj s]
        rw [if_pos ⟨hin.1, hin.2, hyes⟩]
        rfl)
      0 st
    rw [h]
    by_cases hj2 : j < jc + nc0
    · rw [if_pos (by omega), if_pos ⟨hin.1, hin.2, hj2⟩]
    · rw [if_neg (by omega), if_neg (fun hh => hj2 hh.2.2)]
  · rw [if_neg (fun hh => hin ⟨hh.1, hh.2.1⟩)]
    apply foldl_obs_all_miss (fun s : MemState R => s.C (x.c + i * x.rs_c + j))
    intro b hb s
    have hb2 := (mem_starts hNR 0 b hb).2.1
    rw [kernel_event_elem blk x A B hcsa hcsb jc pc ic b nc0 kc0 mc0 hcol hb2 i j hj s]
    rw [if_neg (fun hh => hin ⟨hh.1, hh.2.1⟩)]

/-- The effect of one iteration of the `ic` loop on the element `(i, j)`. -/
theorem ic_events_elem (blk : BlockSizes) (x : Args R L) (A B : Nat → R)
    (hA : a_native x) (hcsa : x.cs_a = 1) (hcsb : x.cs_b = 1) (hNR : 0 < blk.NR)
    (thr : ThreadInfo) (hB : b_native x)
    (jc pc ic nc0 kc0 ic_end j1 j2 j3 : Nat) (hcol : jc + nc0 ≤ x.rs_c)
    (i j : Nat) (hj : j < x.rs_c) (st : MemState R) :
    (exec_events blk.MR A B
        (ic_events blk x (b_select blk thr x jc pc nc0 kc0 j1 j2 j3).2
          jc pc nc0 kc0 ic_end ic) st).C (x.c + i * x.rs_c + j)
      = if inBlock ic_end blk.MC ic i ∧ jc ≤ j ∧ j < jc + nc0 then
          elem_update A B x i j pc kc0 (st.C (x.c + i * x.rs_c + j))
        else st.C (x.c + i * x.rs_c + j) := by
  unfold ic_events
  rw [exec_events_append]
  rw [jr_events_elem blk x A B hA hcsa hcsb hNR thr hB jc pc ic nc0 kc0 _ j1 j2 j3 hcol i j hj]
  rw [a_select_native blk x hA]
  rfl

/-- The effect of the `ic` loop of one K-slice on the element `(i, j)`. -/
theorem pc_events_elem (blk : BlockSizes) (x : Args R L) (A B : Nat → R)
    (hA : a_native x) (hcsa : x.cs_a = 1) (hcsb : x.cs_b = 1) (hNR : 0 < blk.NR)
    (hMC : 0 < blk.MC) (thr : ThreadInfo) (hB : b_native x)
    (jc pc nc0 j1 j2 j3 : Nat) (hcol : jc + nc0 ≤ x.rs_c)
    (i j : Nat) (hj : j < x.rs_c) (st : MemState R) :
    (exec_events blk.MR A B (pc_events blk thr x jc nc0 j1 j2 j3 pc) st).C
        (x.c + i * x.rs_c + j)
      = if (thr.ic_start ≤ i ∧ i < thr.ic_end) ∧ jc ≤ j ∧ j < jc + nc0 then
          elem_update A B x i j pc (min (x.k - pc) blk.KC) (st.C (x.c + i * x.rs_c + j))
        else st.C (x.c + i * x.rs_c + j) := by
  unfold pc_events
  rw [exec_events_append, exec_events_flatMap]
  have hst : exec_events blk.MR A B
      (b_select blk thr x jc pc nc0 (min (x.k - pc) blk.KC) j1 j2 j3).1 st = st := by
    rw [b_select_native blk thr x hB]; rfl
  rw [hst]
  by_cases hin : jc ≤ j ∧ j < jc + nc0
  · have h := foldl_starts_obs (fun s : MemState R => s.C (x.c + i * x.rs_c + j))
      (fun st ic => exec_events blk.MR A B
        (ic_events blk x (b_select blk thr x jc pc nc0 (min (x.k - pc) blk.KC) j1 j2 j3).2
          jc pc nc0 (min (x.k - pc) blk.KC) thr.ic_end ic) st)
      (elem_update A B x i j pc (min (x.k - pc) blk.KC)) hMC i
      (fun b s _ hnot => by
        simp only
        rw [ic_events_elem blk x A B hA hcsa hcsb hNR thr hB jc pc b nc0 _ thr.ic_end
          j1 j2 j3 hcol i j hj s]
        rw [if_neg (fun hh => hnot hh.1)])
      (fun b s _ hyes => by
        simp only
        rw [ic_events_elem blk x A B hA hcsa hcsb hNR thr hB jc pc b nc0 _ thr.ic_end
          j1 j2 j3 hcol i j hj s]
        rw [if_pos ⟨hyes, hin⟩])
      thr.ic_start st
    rw [h]
    by_cases hi : thr.ic_start ≤ i ∧ i < thr.ic_end
    · rw [if_pos hi, if_pos ⟨hi, hin⟩]
    · rw [if_neg hi, if_neg (fun hh => hi hh.1)]
  · rw [if_neg (fun hh => hin hh.2)]
    apply foldl_obs_all_miss (fun s : MemState R => s.C (x.c + i * x.rs_c + j))
    intro b _ s
    rw [ic_events_elem blk x A B hA hcsa hcsb hNR thr hB jc pc b nc0 _ thr.ic_end
      j1 j2 j3 hcol i j hj s]
    rw [if_neg (fun hh => hin hh.2)]

/-- The K-slices of one column block, applied in order to one element, accumulate the
whole inner product: the first slice scales the element by `beta`, the later ones add. -/
theorem pc_loop_value (blk : BlockSizes) (x : Args R L) (A B : Nat → R) (hKC : 0 < blk.KC)
    (i j : Nat) :
    ∀ (p : Nat) (v : R),
      (starts p x.k blk.KC).foldl
          (fun v pc => elem_update A B x i j pc (min (x.k - pc) blk.KC) v) v
        = if p < x.k then
            (if p = 0 then x.beta else 1) * v + x.alpha * slice_dot A B x i j p (x.k - p)
          else v := by
  refine @starts_induction x.k blk.KC hKC _ ?_ ?_
  · intro p hp v
    rw [starts_of_not_lt hp, if_neg hp]
    rfl
  · intro p hp ih v
    rw [starts_of_lt hKC hp, List.foldl_cons, ih, if_pos hp]
    by_cases hnext : p + blk.KC < x.k
    · rw [if_pos hnext]
      have hne : ¬ p + blk.KC = 0 := by omega
      have hmin : min (x.k - p) blk.KC = blk.KC := by omega
      have hsplit : x.k - p = blk.KC + (x.k - (p + blk.KC)) := by omega
      rw [if_neg hne, hmin]
      conv_rhs => rw [hsplit, slice_dot_add]
      unfold elem_update
      ring
    · rw [if_neg hnext]
      have hmin : min (x.k - p) blk.KC = x.k - p := by omega
      rw [hmin]
      rfl

/-- The effect of one iteration of the `jc` loop on the element `(i, j)`. -/
theorem jc_events_elem (blk : BlockSizes) (x : Args R L) (A B : Nat → R)
    (hA : a_native x) (hcsa : x.cs_a = 1) (hcsb : x.cs_b = 1) (hNR : 0 < blk.NR)
    (hMC : 0 < blk.MC) (hKC : 0 < blk.KC) (thr : ThreadInfo) (hB : b_native x)
    (hcol : thr.jc_end ≤ x.rs_c) (jc : Nat) (hjc : jc < thr.jc_end)
    (i j : Nat) (hj : j < x.rs_c) (st : MemState R) :
    (exec_events blk.MR A B (jc_events blk thr x jc) st).C (x.c + i * x.rs_c + j)
      = if (thr.ic_start ≤ i ∧ i < thr.ic_end) ∧ inBlock thr.jc_end blk.NC jc j ∧ 0 < x.k then
          x.beta * st.C (x.c + i * x.rs_c + j) + x.alpha * slice_dot A B x i j 0 x.k
        else st.C (x.c + i * x.rs_c + j) := by
  unfold jc_events
  rw [exec_events_flatMap]
  have hcol2 : jc + min (thr.jc_end - jc) blk.NC ≤ x.rs_c := by omega
  by_cases hin : (thr.ic_start ≤ i ∧ i < thr.ic_end) ∧ inBlock thr.jc_end blk.NC jc j
  · rw [foldl_obs_commute (fun s : MemState R => s.C (x.c + i * x.rs_c + j)) _
      (fun v pc => elem_update A B x i j pc (min (x.k - pc) blk.KC) v) _
      (fun pc _ s => by
        simp only
        rw [pc_events_elem blk x A B hA hcsa hcsb hNR hMC thr hB jc pc _ jc 0 0 hcol2 i j hj s]
        rw [if_pos ⟨hin.1, hin.2⟩])]
    rw [pc_loop_value blk x A B hKC i j 0]
    by_cases hk : 0 < x.k
    · have hc : (thr.ic_start ≤ i ∧ i < thr.ic_end) ∧ inBlock thr.jc_end blk.NC jc j ∧ 0 < x.k :=
        ⟨hin.1, hin.2, hk⟩
      rw [if_pos hk, if_pos hc]
      simp
    · rw [if_neg hk, if_neg (fun hh => hk hh.2.2)]
  · rw [if_neg (fun hh => hin ⟨hh.1, hh.2.1⟩)]
    apply foldl_obs_all_miss (fun s : MemState R => s.C (x.c + i * x.rs_c + j))
    intro pc _ s
    rw [pc_events_elem blk x A B hA hcsa hcsb hNR hMC thr hB jc pc _ jc 0 0 hcol2 i j hj s]
    rw [if_neg (fun hh => hin ⟨hh.1, hh.2⟩)]

/-- The effect of the whole loop nest on the element `(i, j)`. -/
theorem loop_events_elem (blk : BlockSizes) (x : Args R L) (A B : Nat → R)
    (hA : a_native x) (hcsa : x.cs_a = 1) (hcsb : x.cs_b = 1) (hNR : 0 < blk.NR)
    (hNC : 0 < blk.NC) (hMC : 0 < blk.MC) (hKC : 0 < blk.KC) (thr : ThreadInfo)
    (hB : b_native x) (hcol : thr.jc_end ≤ x.rs_c)
    (i j : Nat) (hj : j < x.rs_c) (st : MemState R) :
    (exec_events blk.MR A B (loop_events blk thr x) st).C (x.c + i * x.rs_c + j)
      = if (thr.ic_start ≤ i ∧ i < thr.ic_end) ∧ (thr.jc_start ≤ j ∧ j < thr.jc_end)
            ∧ 0 < x.k then
          x.beta * st.C (x.c + i * x.rs_c + j) + x.alpha * slice_dot A B x i j 0 x.k
        else st.C (x.c + i * x.rs_c + j) := by
  unfold loop_events
  rw [exec_events_flatMap]
  by_cases hin : (thr.ic_start ≤ i ∧ i < thr.ic_end) ∧ 0 < x.k
  · have h := foldl_starts_obs (fun s : MemState R => s.C (x.c + i * x.rs_c + j))
      (fun st jc => exec_events blk.MR A B (jc_events blk thr x jc) st)
      (fun v => x.beta * v + x.alpha * slice_dot A B x i j 0 x.k) hNC j
      (fun b s hb hnot => by
        simp only
        rw [jc_events_elem blk x A B hA hcsa hcsb hNR hMC hKC thr hB hcol b hb i j hj s]
        rw [if_neg (fun hh => hnot hh.2.1)])
      (fun b s hb hyes => by
        simp only
        rw [jc_events_elem blk x A B hA hcsa hcsb hNR hMC hKC thr hB hcol b hb i j hj s]
        rw [if_pos ⟨hin.1, hyes, hin.2⟩])
      thr.jc_start st
    rw [h]
    by_cases hjj : thr.jc_start ≤ j ∧ j < thr.jc_end
    · rw [if_pos hjj, if_pos ⟨hin.1, hjj, hin.2⟩]
    · rw [if_neg hjj, if_neg (fun hh => hjj hh.2.1)]
  · rw [if_neg (fun hh => hin ⟨hh.1, hh.2.2⟩)]
    apply foldl_obs_all_miss (fun s : MemState R => s.C (x.c + i * x.rs_c + j))
    intro b hb s
    have hb2 := (mem_starts hNC _ b hb).2.1
    rw [jc_events_elem blk x A B hA hcsa hcsb hNR hMC hKC thr hB hcol b hb2 i j hj s]
    rw [if_neg (fun hh => hin ⟨hh.1, hh.2.2⟩)]

/-- Releasing the pack buffers and the barrier before it change no memory content. -/
theorem exec_release_events (MR : Nat) (A B : Nat → R) (thr : ThreadInfo) (x : Args R L)
    (evs : List (Event R L)) (st : MemState R) :
    exec_events MR A B (release_events thr x evs) st = st := by
  unfold release_events
  split <;> split <;> (try split) <;> rfl

end native

end Lpgemm

namespace Lpgemm

/-! ## The five-loop driver computes the product -/

section c1

variable {R L : Type} [CommRing R]

/-- C1. On NATIVE row-major operands (`cs_a = cs_b = 1`), a row-major C whose rows hold
the `n` columns (`n <= rs_c`), positive block sizes and one thread that owns `[0, n)` and
`[0, m)`, with the micro-kernel given by its contract in exact arithmetic, the five-loop
driver returns and leaves every `C[i][j]` equal to
`alpha * sum_{l<k} A[i][l] * B[l][j] + beta * C_initial[i][j]`, whenever `k >= 1`. -/
theorem five_loop_matches_naive (blk : BlockSizes) (nav : ReorderNav) (x : Args R L)
    (A B : Nat → R) (st : MemState R) (fuel : Nat)
    (hk : 1 ≤ x.k)
    (hNR : 0 < blk.NR) (_hMR : 0 < blk.MR) (hNC : 0 < blk.NC) (hMC : 0 < blk.MC)
    (hKC : 0 < blk.KC)
    (hA : a_native x) (hB : b_native x) (hcsa : x.cs_a = 1) (hcsb : x.cs_b = 1)
    (hrs : x.n ≤ x.rs_c)
    (hfuel : x.m ≤ fuel ∧ x.n ≤ fuel ∧ x.k ≤ fuel) :
    ∃ Cfin : Nat → R,
      lpgemm_result blk nav (single_thread x.m x.n) x fuel A B st = some Cfin ∧
      ∀ i j, i < x.m → j < x.n →
        Cfin (x.c + i * x.rs_c + j)
          = x.alpha * (∑ l ∈ Finset.range x.k,
                A (x.a + i * x.rs_a + l) * B (x.b + l * x.rs_b + j))
            + x.beta * st.C (x.c + i * x.rs_c + j) := by
  have hev := lpgemm_events_eq blk nav (single_thread x.m x.n) x fuel hB.1 hNR hNC hMC hKC
    (by simp only [single_thread]; omega) (by simp only [single_thread]; omega) hfuel.2.2
  refine ⟨_, by rw [lpgemm_result, hev]; rfl, ?_⟩
  intro i j hi hj
  show (exec_events blk.MR A B _ st).C _ = _
  rw [exec_events_append, exec_release_events]
  rw [loop_events_elem blk x A B hA hcsa hcsb hNR hNC hMC hKC (single_thread x.m x.n) hB
    hrs i j (by omega) st]
  have hc : ((single_thread x.m x.n).ic_start ≤ i ∧ i < (single_thread x.m x.n).ic_end) ∧
      ((single_thread x.m x.n).jc_start ≤ j ∧ j < (single_thread x.m x.n).jc_end) ∧
      0 < x.k := ⟨⟨Nat.zero_le _, hi⟩, ⟨Nat.zero_le _, hj⟩, hk⟩
  rw [if_pos hc]
  unfold slice_dot
  rw [sum_upto_eq_sum]
  simp only [Nat.zero_add]
  ring

/-- The scenario `M = N = K = 1`, `A = [3]`, `B = [2]`, `alpha = 2`, `beta = 1`,
`C = [5]`: the driver leaves `C = [17]`. -/
theorem five_loop_matches_naive_witness :
    ∃ Cfin : Nat → Int,
      lpgemm_result blk_6x16 nav_id (single_thread 1 1) args_1x1 1
          (fun _ => 3) (fun _ => 2) mem_1x1 = some Cfin ∧
      Cfin 0 = 17 := by
  obtain ⟨Cfin, h1, h2⟩ := five_loop_matches_naive blk_6x16 nav_id args_1x1
    (fun _ => 3) (fun _ => 2) mem_1x1 1 (by decide) (by decide) (by decide) (by decide)
    (by decide) (by decide) ⟨by decide, by decide⟩ ⟨by decide, by decide⟩ rfl rfl
    (by decide) ⟨by decide, by decide, by decide⟩
  refine ⟨Cfin, h1, ?_⟩
  have h := h2 0 0 (by decide) (by decide)
  simpa [args_1x1, mem_1x1] using h

end c1

end Lpgemm

namespace Lpgemm

/-! ## The micro-kernel calls of the driver -/

section calls

variable {R L : Type} [One R]

omit [One R] in
theorem kernel_not_mem_a_select (blk : BlockSizes) (x : Args R L) (pc ic kc0 mc0 : Nat)
    (jc1 pc1 ic1 jr1 : Nat) (call : KernelCall R L) :
    Event.kernel jc1 pc1 ic1 jr1 call ∉ (a_select blk x pc ic kc0 mc0).1 := by
  unfold a_select
  split_ifs <;> simp

omit [One R] in
theorem kernel_not_mem_b_select (blk : BlockSizes) (thr : ThreadInfo) (x : Args R L)
    (jc pc nc0 kc0 j1 j2 j3 : Nat) (jc1 pc1 ic1 jr1 : Nat) (call : KernelCall R L) :
    Event.kernel jc1 pc1 ic1 jr1 call ∉ (b_select blk thr x jc pc nc0 kc0 j1 j2 j3).1 := by
  unfold b_select
  split_ifs <;> simp

omit [One R] in
theorem kernel_not_mem_release (thr : ThreadInfo) (x : Args R L) (evs : List (Event R L))
    (jc1 pc1 ic1 jr1 : Nat) (call : KernelCall R L) :
    Event.kernel jc1 pc1 ic1 jr1 call ∉ release_events thr x evs := by
  unfold release_events
  split_ifs <;> simp

/-- The micro-kernel calls among the events of the loop nest are exactly the calls of the
`jr` loop body at the loop indices `jc`, `pc`, `ic`, `jr` of the four loops, with the
block extents `nc0`, `kc0`, `mc0` of the source. -/
theorem kernel_mem_loop_events (blk : BlockSizes) (thr : ThreadInfo) (x : Args R L)
    (jc pc ic jr : Nat) (call : KernelCall R L) :
    Event.kernel jc pc ic jr call ∈ loop_events blk thr x ↔
      jc ∈ starts thr.jc_start thr.jc_end blk.NC ∧
      pc ∈ starts 0 x.k blk.KC ∧
      ic ∈ starts thr.ic_start thr.ic_end blk.MC ∧
      jr ∈ starts 0 (min (thr.jc_end - jc) blk.NC) blk.NR ∧
      call = kernel_call blk x
        (a_select blk x pc ic (min (x.k - pc) blk.KC) (min (thr.ic_end - ic) blk.MC)).2
        (b_select blk thr x jc pc (min (thr.jc_end - jc) blk.NC) (min (x.k - pc) blk.KC)
          jc 0 0).2
        jc pc ic jr (min (thr.jc_end - jc) blk.NC) (min (x.k - pc) blk.KC)
        (min (thr.ic_end - ic) blk.MC) := by
  simp only [loop_events, jc_events, pc_events, ic_events, jr_events, List.mem_flatMap,
    List.mem_append, List.mem_map, kernel_not_mem_a_select, kernel_not_mem_b_select,
    false_or]
  constructor
  · rintro ⟨jc1, hjc, pc1, hpc, ic1, hic, jr1, hjr, he⟩
    injection he with e1 e2 e3 e4 e5
    subst e1 e2 e3 e4
    exact ⟨hjc, hpc, hic, hjr, e5.symm⟩
  · rintro ⟨hjc, hpc, hic, hjr, rfl⟩
    exact ⟨jc, hjc, pc, hpc, ic, hic, jr, hjr, rfl⟩

end calls

/-! ## The rectangles of one K-slice partition the range of the thread -/

section cover

variable {R L : Type} [One R]

theorem mem_starts_iff {stop step : Nat} (hstep : 0 < step) (i b : Nat) :
    b ∈ starts i stop step ↔ i ≤ b ∧ b < stop ∧ (b - i) % step = 0 := by
  constructor
  · exact mem_starts hstep i b
  · revert i
    refine @starts_induction stop step hstep _ ?_ ?_
    · intro i hi h
      omega
    · intro i hi ih h
      rw [starts_of_lt hstep hi]
      by_cases hb : b = i
      · subst hb; exact List.mem_cons_self _ _
      · refine List.mem_cons_of_mem _ (ih ?_)
        obtain ⟨h1, h2, h3⟩ := h
        have hd : step ∣ b - i := Nat.dvd_of_mod_eq_zero h3
        obtain ⟨q, hq⟩ := hd
        have hq0 : q ≠ 0 := by
          rintro rfl
          omega
        obtain ⟨q1, rfl⟩ : ∃ q1, q = q1 + 1 := ⟨q - 1, by omega⟩
        have hbi : b - (i + step) = step * q1 := by
          rw [Nat.mul_add, Nat.mul_one] at hq; omega
        refine ⟨by rw [Nat.mul_add, Nat.mul_one] at hq; omega, h2, ?_⟩
        rw [hbi]; exact Nat.mul_mod_right _ _

theorem countP_flatMap_zero {α β : Type} (p : β → Bool) (g : α → List β) (l : List α)
    (h : ∀ b ∈ l, (g b).countP p = 0) : (l.flatMap g).countP p = 0 := by
  induction l with
  | nil => rfl
  | cons a l ih =>
    rw [List.flatMap_cons, List.countP_append, h a (List.mem_cons_self _ _),
      ih (fun b hb => h b (List.mem_cons_of_mem _ hb))]

/-- Among the iterations of a blocked loop, those of the block containing `x` are counted
once when `x` is in the range of the loop. -/
theorem countP_flatMap_starts {β : Type} (p : β → Bool) (g : Nat → List β) (c : Nat)
    {stop step : Nat} (hstep : 0 < step) (x i0 : Nat)
    (hmiss : ∀ b, b ∈ starts i0 stop step → ¬ inBlock stop step b x → (g b).countP p = 0)
    (hhit : ∀ b, b ∈ starts i0 stop step → inBlock stop step b x → (g b).countP p = c) :
    ∀ i, (i0 ≤ i ∧ (i - i0) % step = 0) → ((starts i stop step).flatMap g).countP p
      = if i ≤ x ∧ x < stop then c else 0 := by
  refine @starts_induction stop step hstep _ ?_ ?_
  · intro i hi _
    rw [starts_of_not_lt hi]
    have : ¬ (i ≤ x ∧ x < stop) := by omega
    simp [this]
  · intro i hi ih hal
    have hmem : i ∈ starts i0 stop step := (mem_starts_iff hstep i0 i).2 ⟨hal.1, hi, hal.2⟩
    have hal2 : i0 ≤ i + step ∧ (i + step - i0) % step = 0 := by
      refine ⟨by omega, ?_⟩
      have : i + step - i0 = (i - i0) + step := by omega
      rw [this, Nat.add_mod_right]; exact hal.2
    rw [starts_of_lt hstep hi, List.flatMap_cons, List.countP_append, ih hal2]
    by_cases hin : inBlock stop step i x
    · have h1 : ¬ (i + step ≤ x ∧ x < stop) := by
        unfold inBlock blockLen at hin; omega
      have h2 : i ≤ x ∧ x < stop := by
        unfold inBlock blockLen at hin; omega
      rw [if_neg h1, if_pos h2, hhit i hmem hin, Nat.add_zero]
    · have h1 : (i + step ≤ x ∧ x < stop) ↔ (i ≤ x ∧ x < stop) := by
        unfold inBlock blockLen at hin; omega
      rw [hmiss i hmem hin]
      simp only [h1, Nat.zero_add]

theorem map_eq_flatMap_singleton {α β : Type} (g : α → β) (l : List α) :
    l.map g = l.flatMap (fun a => [g a]) := by
  induction l with
  | nil => rfl
  | cons a l ih => simp [List.flatMap_cons, ih]

omit [One R] in
theorem covers_is_kernel (p i j : Nat) (e : Event R L) (h : e.covers p i j = true) :
    ∃ jc pc ic jr call, e = Event.kernel jc pc ic jr call := by
  cases e with
  | kernel jc pc ic jr call => exact ⟨jc, pc, ic, jr, call, rfl⟩
  | _ => simp [Event.covers] at h

omit [One R] in
theorem covers_a_select (blk : BlockSizes) (x : Args R L) (pc ic kc0 mc0 : Nat)
    (p i j : Nat) : ((a_select blk x pc ic kc0 mc0).1).countP (Event.covers p i j) = 0 := by
  rw [List.countP_eq_zero]
  intro e he hc
  obtain ⟨jc1, pc1, ic1, jr1, call, rfl⟩ := covers_is_kernel p i j e hc
  exact kernel_not_mem_a_select blk x pc ic kc0 mc0 jc1 pc1 ic1 jr1 call he

omit [One R] in
theorem covers_b_select (blk : BlockSizes) (thr : ThreadInfo) (x : Args R L)
    (jc pc nc0 kc0 j1 j2 j3 : Nat) (p i j : Nat) :
    ((b_select blk thr x jc pc nc0 kc0 j1 j2 j3).1).countP (Event.covers p i j) = 0 := by
  rw [List.countP_eq_zero]
  intro e he hc
  obtain ⟨jc1, pc1, ic1, jr1, call, rfl⟩ := covers_is_kernel p i j e hc
  exact kernel_not_mem_b_select blk thr x jc pc nc0 kc0 j1 j2 j3 jc1 pc1 ic1 jr1 call he

omit [One R] in
theorem covers_release (thr : ThreadInfo) (x : Args R L) (evs : List (Event R L))
    (p i j : Nat) : (release_events thr x evs).countP (Event.covers p i j) = 0 := by
  rw [List.countP_eq_zero]
  intro e he hc
  obtain ⟨jc1, pc1, ic1, jr1, call, rfl⟩ := covers_is_kernel p i j e hc
  exact kernel_not_mem_release thr x evs jc1 pc1 ic1 jr1 call he

theorem covers_jr_events (blk : BlockSizes) (x : Args R L) (au : AUse) (bu : BUse)
    (hNR : 0 < blk.NR) (jc pc1 ic nc0 kc0 mc0 : Nat) (p i j : Nat) :
    (jr_events blk x au bu jc pc1 ic nc0 kc0 mc0).countP (Event.covers p i j)
      = if pc1 = p ∧ (ic ≤ i ∧ i < ic + mc0) ∧ jc ≤ j ∧ j < jc + nc0 then 1 else 0 := by
  unfold jr_events
  rw [map_eq_flatMap_singleton]
  by_cases hin : pc1 = p ∧ (ic ≤ i ∧ i < ic + mc0) ∧ jc ≤ j
  · rw [countP_flatMap_starts (Event.covers p i j) _ 1 hNR (j - jc) 0 ?_ ?_ 0 (by simp)]
    · by_cases hj2 : j < jc + nc0
      · rw [if_pos (by omega), if_pos ⟨hin.1, hin.2.1, hin.2.2, hj2⟩]
      · rw [if_neg (by omega), if_neg (fun hh => hj2 hh.2.2.2)]
    · intro b _ hnot
      rw [List.countP_eq_zero]
      intro e he
      rw [List.mem_singleton] at he
      subst he
      simp only [Event.covers, kernel_call, decide_eq_true_eq]
      unfold inBlock blockLen at hnot
      omega
    · intro b _ hyes
      have : Event.covers p i j (Event.kernel jc pc1 ic b
          (kernel_call blk x au bu jc pc1 ic b nc0 kc0 mc0)) = true := by
        simp only [Event.covers, kernel_call, decide_eq_true_eq]
        unfold inBlock blockLen at hyes
        omega
      simp [this]
  · rw [if_neg (fun hh => hin ⟨hh.1, hh.2.1, hh.2.2.1⟩)]
    apply countP_flatMap_zero
    intro b _
    rw [List.countP_eq_zero]
    intro e he
    rw [List.mem_singleton] at he
    subst he
    simp only [Event.covers, kernel_call, decide_eq_true_eq]
    omega

theorem covers_ic_events (blk : BlockSizes) (x : Args R L) (bu : BUse)
    (hNR : 0 < blk.NR) (jc pc1 nc0 kc0 ic_end ic : Nat) (p i j : Nat) :
    (ic_events blk x bu jc pc1 nc0 kc0 ic_end ic).countP (Event.covers p i j)
      = if pc1 = p ∧ inBlock ic_end blk.MC ic i ∧ jc ≤ j ∧ j < jc + nc0 then 1 else 0 := by
  unfold ic_events
  rw [List.countP_append, covers_a_select, covers_jr_events blk x _ bu hNR, Nat.zero_add]
  rfl

theorem covers_pc_events (blk : BlockSizes) (thr : ThreadInfo) (x : Args R L)
    (hNR : 0 < blk.NR) (hMC : 0 < blk.MC) (jc nc0 j1 j2 j3 pc1 : Nat) (p i j : Nat) :
    (pc_events blk thr x jc nc0 j1 j2 j3 pc1).countP (Event.covers p i j)
      = if pc1 = p ∧ (thr.ic_start ≤ i ∧ i < thr.ic_end) ∧ jc ≤ j ∧ j < jc + nc0 then 1
        else 0 := by
  unfold pc_events
  rw [List.countP_append, covers_b_select, Nat.zero_add]
  by_cases hin : pc1 = p ∧ jc ≤ j ∧ j < jc + nc0
  · rw [countP_flatMap_starts (Event.covers p i j) _ 1 hMC i thr.ic_start ?_ ?_ thr.ic_start
      (by simp)]
    · by_cases hi : thr.ic_start ≤ i ∧ i < thr.ic_end
      · rw [if_pos hi, if_pos ⟨hin.1, hi, hin.2⟩]
      · rw [if_neg hi, if_neg (fun hh => hi hh.2.1)]
    · intro b _ hnot
      rw [covers_ic_events blk x _ hNR, if_neg (fun hh => hnot hh.2.1)]
    · intro b _ hyes
      rw [covers_ic_events blk x _ hNR, if_pos ⟨hin.1, hyes, hin.2⟩]
  · rw [if_neg (fun hh => hin ⟨hh.1, hh.2.2⟩)]
    apply countP_flatMap_zero
    intro b _
    rw [covers_ic_events blk x _ hNR, if_neg (fun hh => hin ⟨hh.1, hh.2.2⟩)]

/-- Two K-slice starts lie in the same slice only when they are equal. -/
theorem inBlock_starts_iff {stop step : Nat} (hstep : 0 < step) (i0 b p : Nat)
    (hb : b ∈ starts i0 stop step) (hp : p ∈ starts i0 stop step) :
    inBlock stop step b p ↔ b = p := by
  obtain ⟨b1, b2, b3⟩ := mem_starts hstep i0 b hb
  obtain ⟨p1, p2, p3⟩ := mem_starts hstep i0 p hp
  unfold inBlock blockLen
  constructor
  · intro h
    have hd : (p - i0 - (b - i0)) % step = 0 := Nat.sub_mod_eq_zero_of_mod_eq (by rw [p3, b3])
    have hlt : p - i0 - (b - i0) < step := by omega
    have := Nat.eq_zero_of_dvd_of_lt (Nat.dvd_of_mod_eq_zero hd) hlt
    omega
  · rintro rfl
    omega

theorem covers_jc_events (blk : BlockSizes) (thr : ThreadInfo) (x : Args R L)
    (hNR : 0 < blk.NR) (hMC : 0 < blk.MC) (hKC : 0 < blk.KC) (jc : Nat) (p i j : Nat) :
    (jc_events blk thr x jc).countP (Event.covers p i j)
      = if p ∈ starts 0 x.k blk.KC ∧ (thr.ic_start ≤ i ∧ i < thr.ic_end)
            ∧ inBlock thr.jc_end blk.NC jc j then 1
        else 0 := by
  unfold jc_events
  by_cases hin : p ∈ starts 0 x.k blk.KC ∧ (thr.ic_start ≤ i ∧ i < thr.ic_end)
      ∧ inBlock thr.jc_end blk.NC jc j
  · obtain ⟨hp, hi, hj⟩ := hin
    rw [countP_flatMap_starts (Event.covers p i j) _ 1 hKC p 0 ?_ ?_ 0 (by simp)]
    · have hp2 := mem_starts hKC 0 p hp
      rw [if_pos ⟨Nat.zero_le _, hp2.2.1⟩, if_pos ⟨hp, hi, hj⟩]
    · intro b hb hnot
      rw [covers_pc_events blk thr x hNR hMC]
      rw [if_neg (fun hh => hnot ((inBlock_starts_iff hKC 0 b p hb hp).2 hh.1))]
    · intro b hb hyes
      rw [covers_pc_events blk thr x hNR hMC]
      rw [if_pos ⟨(inBlock_starts_iff hKC 0 b p hb hp).1 hyes, hi, hj⟩]
  · rw [if_neg hin]
    apply countP_flatMap_zero
    intro b hb
    rw [covers_pc_events blk thr x hNR hMC]
    have hne : ¬ (b = p ∧ (thr.ic_start ≤ i ∧ i < thr.ic_end) ∧
        jc ≤ j ∧ j < jc + min (thr.jc_end - jc) blk.NC) := by
      rintro ⟨rfl, h2, h3⟩
      exact hin ⟨hb, h2, h3⟩
    rw [if_neg hne]

theorem covers_loop_events (blk : BlockSizes) (thr : ThreadInfo) (x : Args R L)
    (hNR : 0 < blk.NR) (hNC : 0 < blk.NC) (hMC : 0 < blk.MC) (hKC : 0 < blk.KC)
    (p i j : Nat) :
    (loop_events blk thr x).countP (Event.covers p i j)
      = if p ∈ starts 0 x.k blk.KC ∧ (thr.ic_start ≤ i ∧ i < thr.ic_end)
            ∧ (thr.jc_start ≤ j ∧ j < thr.jc_end) then 1
        else 0 := by
  unfold loop_events
  by_cases hin : p ∈ starts 0 x.k blk.KC ∧ (thr.ic_start ≤ i ∧ i < thr.ic_end)
  · rw [countP_flatMap_starts (Event.covers p i j) _ 1 hNC j thr.jc_start ?_ ?_ thr.jc_start
      (by simp)]
    · by_cases hj : thr.jc_start ≤ j ∧ j < thr.jc_end
      · rw [if_pos hj, if_pos ⟨hin.1, hin.2, hj⟩]
      · rw [if_neg hj, if_neg (fun hh => hj hh.2.2)]
    · intro b _ hnot
      rw [covers_jc_events blk thr x hNR hMC hKC, if_neg (fun hh => hnot hh.2.2)]
    · intro b _ hyes
      rw [covers_jc_events blk thr x hNR hMC hKC, if_pos ⟨hin.1, hin.2, hyes⟩]
  · rw [if_neg (fun hh => hin ⟨hh.1, hh.2.1⟩)]
    apply countP_flatMap_zero
    intro b _
    rw [covers_jc_events blk thr x hNR hMC hKC, if_neg (fun hh => hin ⟨hh.1, hh.2.1⟩)]

end cover

end Lpgemm

namespace Lpgemm

section c2

variable {R L : Type} [One R]

/-- C2. For every thread range, positive block sizes and a B that is not REORDERED, the
driver returns, and for every K-slice `pc` every element `(i, j)` of
`[ic_start, ic_end) x [jc_start, jc_end)` lies in the rectangle
`[ic, ic + mc0) x [jc + jr, jc + jr + nr0)` of exactly one micro-kernel call of that
slice; every call has `mc0 = min(ic_end - ic, MC)`, `nr0 = min(nc0 - jr, NR)` with
`nc0 = min(jc_end - jc, NC)`, each extent is at least 1 and at most its block size, and
every rectangle lies inside the range of the thread. -/
theorem slice_rectangles_partition (blk : BlockSizes) (nav : ReorderNav) (thr : ThreadInfo)
    (x : Args R L) (fuel : Nat) (hB : x.mtag_b ≠ AOCL_MEMORY_TAG.REORDERED)
    (hNR : 0 < blk.NR) (hNC : 0 < blk.NC) (hMC : 0 < blk.MC) (hKC : 0 < blk.KC)
    (hfuel : thr.jc_end - thr.jc_start ≤ fuel ∧ thr.ic_end - thr.ic_start ≤ fuel
      ∧ x.k ≤ fuel) :
    ∃ evs, lpgemm_rowvar_f32f32f32of32 blk nav thr x fuel = some evs ∧
      (∀ pc i j, pc < x.k → pc % blk.KC = 0 →
        thr.ic_start ≤ i → i < thr.ic_end → thr.jc_start ≤ j → j < thr.jc_end →
          evs.countP (Event.covers pc i j) = 1) ∧
      (∀ jc pc ic jr call, Event.kernel jc pc ic jr call ∈ evs →
        call.m = min (thr.ic_end - ic) blk.MC ∧
        call.n = min (min (thr.jc_end - jc) blk.NC - jr) blk.NR ∧
        (1 ≤ min (thr.jc_end - jc) blk.NC ∧ min (thr.jc_end - jc) blk.NC ≤ blk.NC) ∧
        (1 ≤ call.m ∧ call.m ≤ blk.MC) ∧ (1 ≤ call.n ∧ call.n ≤ blk.NR) ∧
        (thr.ic_start ≤ ic ∧ ic + call.m ≤ thr.ic_end) ∧
        (thr.jc_start ≤ jc + jr ∧ jc + jr + call.n ≤ thr.jc_end)) := by
  refine ⟨_, lpgemm_events_eq blk nav thr x fuel hB hNR hNC hMC hKC hfuel.1 hfuel.2.1
    hfuel.2.2, ?_, ?_⟩
  · intro pc i j hpc hal hi1 hi2 hj1 hj2
    rw [List.countP_append, covers_release, covers_loop_events blk thr x hNR hNC hMC hKC,
      Nat.add_zero]
    have hmem : pc ∈ starts 0 x.k blk.KC :=
      (mem_starts_iff hKC 0 pc).2 ⟨Nat.zero_le _, hpc, by simpa using hal⟩
    rw [if_pos ⟨hmem, ⟨hi1, hi2⟩, ⟨hj1, hj2⟩⟩]
  · intro jc pc ic jr call hmem
    rw [List.mem_append] at hmem
    rcases hmem with hmem | hmem
    · obtain ⟨hjc, _, hic, hjr, rfl⟩ := (kernel_mem_loop_events blk thr x jc pc ic jr call).1 hmem
      obtain ⟨a1, a2, _⟩ := mem_starts hNC _ _ hjc
      obtain ⟨b1, b2, _⟩ := mem_starts hMC _ _ hic
      obtain ⟨_, c2, _⟩ := mem_starts hNR _ _ hjr
      simp only [kernel_call]
      refine ⟨trivial, trivial, ⟨?_, ?_⟩, ⟨?_, ?_⟩, ⟨?_, ?_⟩, ⟨?_, ?_⟩, ⟨?_, ?_⟩⟩ <;> omega
    · exact absurd hmem (kernel_not_mem_release thr x _ jc pc ic jr call)

/-- For `M = 3, N = 5, K = 4` with `MC = 2, NC = 4, NR = 2, KC = 3`, the element `(2, 4)`
lies in exactly one rectangle of the second K-slice. -/
theorem slice_rectangles_partition_witness :
    ∃ evs, lpgemm_rowvar_f32f32f32of32 blk_small nav_id (single_thread 3 5) args_3x5 5
        = some evs ∧ evs.countP (Event.covers 3 2 4) = 1 := by
  obtain ⟨evs, h1, h2, _⟩ := slice_rectangles_partition blk_small nav_id (single_thread 3 5)
    args_3x5 5 (by decide) (by decide) (by decide) (by decide) (by decide)
    ⟨by decide, by decide, by decide⟩
  exact ⟨evs, h1, h2 3 2 4 (by decide) (by decide) (by decide) (by decide) (by decide)
    (by decide)⟩

end c2

end Lpgemm

namespace Lpgemm

/-! ## Properties of every micro-kernel call, for every operand tag -/

section invariant

theorem forLoop_inv {σ : Type} {stop step : Nat} (body : Nat → σ → Option σ)
    (P : σ → Prop) (i0 : Nat)
    (hbody : ∀ j s s1, i0 ≤ j → j < stop → (j - i0) % step = 0 → P s →
      body j s = some s1 → P s1) :
    ∀ (fuel i : Nat) (s s1 : σ), i0 ≤ i → (i - i0) % step = 0 → P s →
      forLoop stop step body fuel i s = some s1 → P s1 := by
  intro fuel
  induction fuel with
  | zero =>
    intro i s s1 _ _ hP h
    simp only [forLoop] at h
    split at h
    · exact absurd h (by simp)
    · cases h; exact hP
  | succ f ih =>
    intro i s s1 hi hal hP h
    simp only [forLoop] at h
    split at h
    · rename_i hlt
      cases hb : body i s with
      | none => rw [hb] at h; exact absurd h (by simp)
      | some s2 =>
        rw [hb, Option.some_bind] at h
        refine ih (i + step) s2 s1 (by omega) ?_ (hbody i s s2 hi hlt hal hP hb) h
        have : i + step - i0 = (i - i0) + step := by omega
        rw [this, Nat.add_mod_right]; exact hal
    · cases h; exact hP

variable {R L : Type} [One R]

/-- Every micro-kernel call among the events the driver returns, whatever the operand tags,
the pack flags and the helpers for a REORDERED B, is the call of the `jr` loop body
(source lines 357-373) at a K-slice `pc < k` that is a multiple of `KC`, with
`kc0 = min(k - pc, KC)`. -/
theorem kernel_events_of_driver (blk : BlockSizes) (nav : ReorderNav) (thr : ThreadInfo)
    (x : Args R L) (Q : Nat → Nat → Nat → Nat → KernelCall R L → Prop)
    (hQ : ∀ (au : AUse) (bu : BUse) (jc pc ic jr nc0 mc0 : Nat),
      pc < x.k → pc % blk.KC = 0 →
      Q jc pc ic jr (kernel_call blk x au bu jc pc ic jr nc0 (min (x.k - pc) blk.KC) mc0))
    (fuel : Nat) (evs : List (Event R L))
    (h : lpgemm_rowvar_f32f32f32of32 blk nav thr x fuel = some evs) :
    ∀ jc pc ic jr call, Event.kernel jc pc ic jr call ∈ evs → Q jc pc ic jr call := by
  -- the invariant of all four loops
  let P : List (Event R L) → Prop :=
    fun evs => ∀ jc pc ic jr call, Event.kernel jc pc ic jr call ∈ evs → Q jc pc ic jr call
  have hjr : ∀ (au : AUse) (bu : BUse) (jc pc ic nc0 mc0 : Nat), pc < x.k → pc % blk.KC = 0 →
      ∀ (f jr0 : Nat) (s s1 : List (Event R L)), P s →
        forLoop nc0 blk.NR (jr_body blk x au bu jc pc ic nc0 (min (x.k - pc) blk.KC) mc0)
          f jr0 s = some s1 → P s1 := by
    intro au bu jc pc ic nc0 mc0 hpc hal f jr0 s s1 hP hrun
    refine forLoop_inv _ P jr0 ?_ f jr0 s s1 (le_refl _) (by simp) hP hrun
    intro jr s s2 _ _ _ hPs hb
    simp only [jr_body, Option.some.injEq] at hb
    subst hb
    intro jc1 pc1 ic1 jr1 call hmem
    rcases List.mem_append.1 hmem with hm | hm
    · exact hPs _ _ _ _ _ hm
    · rw [List.mem_singleton] at hm
      injection hm with e1 e2 e3 e4 e5
      subst e1 e2 e3 e4 e5
      exact hQ au bu _ _ _ _ nc0 mc0 hpc hal
  have hic : ∀ (bu : BUse) (jc pc nc0 ic_end : Nat), pc < x.k → pc % blk.KC = 0 →
      ∀ (ic : Nat) (s s1 : List (Event R L)), P s →
        ic_body blk x bu fuel jc pc nc0 (min (x.k - pc) blk.KC) ic_end ic s = some s1 →
          P s1 := by
    intro bu jc pc nc0 ic_end hpc hal ic s s1 hP hrun
    simp only [ic_body] at hrun
    refine hjr _ bu jc pc ic nc0 _ hpc hal fuel 0 _ s1 ?_ hrun
    intro jc1 pc1 ic1 jr1 call hmem
    rcases List.mem_append.1 hmem with hm | hm
    · exact hP _ _ _ _ _ hm
    · exact absurd hm (kernel_not_mem_a_select blk x _ _ _ _ _ _ _ _ _)
  have hpc : ∀ (jc nc0 j1 j2 j3 : Nat) (f p0 : Nat) (s s1 : List (Event R L)),
      p0 % blk.KC = 0 → P s →
        forLoop x.k blk.KC (pc_body blk thr x fuel jc nc0 j1 j2 j3) f p0 s = some s1 →
          P s1 := by
    intro jc nc0 j1 j2 j3 f p0 s s1 hp0 hP hrun
    refine forLoop_inv _ P 0 ?_ f p0 s s1 (Nat.zero_le _) (by simpa using hp0) hP hrun
    intro pc s s2 _ hlt hal hPs hb
    simp only [pc_body] at hb
    have hal2 : pc % blk.KC = 0 := by simpa using hal
    refine forLoop_inv _ P thr.ic_start ?_ fuel thr.ic_start _ s2 (le_refl _) (by simp) ?_ hb
    · intro ic s3 s4 _ _ _ hP3 hb3
      exact hic _ jc pc nc0 thr.ic_end hlt hal2 ic s3 s4 hP3 hb3
    · intro jc1 pc1 ic1 jr1 call hmem
      rcases List.mem_append.1 hmem with hm | hm
      · exact hPs _ _ _ _ _ hm
      · exact absurd hm (kernel_not_mem_b_select blk thr x _ _ _ _ _ _ _ _ _ _ _ _)
  have hjc : ∀ (f jc : Nat) (s s1 : List (Event R L)), P s →
      jc_loop blk nav thr x fuel f jc s = some s1 → P s1 := by
    intro f
    induction f with
    | zero =>
      intro jc s s1 hP hrun
      simp only [jc_loop] at hrun
      split at hrun
      · exact absurd hrun (by simp)
      · cases hrun; exact hP
    | succ f ih =>
      intro jc s s1 hP hrun
      simp only [jc_loop] at hrun
      split at hrun
      · cases hb : jc_body blk nav thr x fuel jc s with
        | none => rw [hb] at hrun; exact absurd hrun (by simp)
        | some r =>
          rw [hb, Option.some_bind] at hrun
          refine ih (r.1 + blk.NC) r.2 s1 ?_ hrun
          simp only [jc_body, Option.map_eq_some'] at hb
          obtain ⟨evs1, hrun1, rfl⟩ := hb
          exact hpc _ _ _ _ _ fuel 0 s evs1 (by simp) hP hrun1
      · cases hrun; exact hP
  simp only [lpgemm_rowvar_f32f32f32of32, Option.map_eq_some'] at h
  obtain ⟨evs1, hrun, rfl⟩ := h
  have hP1 : P evs1 := hjc fuel thr.jc_start [] evs1 (by intro _ _ _ _ _ hm; simp at hm) hrun
  intro jc pc ic jr call hmem
  rcases List.mem_append.1 hmem with hm | hm
  · exact hP1 _ _ _ _ _ hm
  · exact absurd hm (kernel_not_mem_release thr x _ jc pc ic jr call)

end invariant

end Lpgemm

namespace Lpgemm

section c7

variable {R L : Type} [One R]

/-- C7. Whatever the operand tags, the pack flags and the thread, every micro-kernel call
among the events the driver returns is handed the caller's `beta` when its K-slice starts
at `pc = 0` and exactly one when `pc > 0`, and is handed the caller's `alpha`. -/
theorem effective_beta_per_slice (blk : BlockSizes) (nav : ReorderNav) (thr : ThreadInfo)
    (x : Args R L) (fuel : Nat) (evs : List (Event R L))
    (h : lpgemm_rowvar_f32f32f32of32 blk nav thr x fuel = some evs) :
    ∀ jc pc ic jr call, Event.kernel jc pc ic jr call ∈ evs →
      (pc = 0 → call.beta = x.beta) ∧ (0 < pc → call.beta = 1) ∧ call.alpha = x.alpha := by
  refine kernel_events_of_driver blk nav thr x
    (fun _ pc _ _ call =>
      (pc = 0 → call.beta = x.beta) ∧ (0 < pc → call.beta = 1) ∧ call.alpha = x.alpha)
    ?_ fuel evs h
  intro au bu jc pc ic jr nc0 mc0 _ _
  simp only [kernel_call]
  refine ⟨fun h0 => by simp [h0], fun h1 => ?_, trivial⟩
  have : ¬ pc = 0 := by omega
  simp [this]

/-- For `M = 3, N = 5, K = 4` with `KC = 3` the driver returns, its call for the first tile
of the slice `pc = 0` is handed the caller's `beta`, and its call for the same tile of the
slice `pc = 3` is handed one; both are handed the caller's `alpha`. -/
theorem effective_beta_per_slice_witness :
    ∃ evs call0 call3,
      lpgemm_rowvar_f32f32f32of32 blk_small nav_id (single_thread 3 5) args_3x5 5 = some evs ∧
      Event.kernel 0 0 0 0 call0 ∈ evs ∧ Event.kernel 0 3 0 0 call3 ∈ evs ∧
      call0.beta = args_3x5.beta ∧ call3.beta = 1 ∧
      call0.alpha = args_3x5.alpha ∧ call3.alpha = args_3x5.alpha := by
  have hev := lpgemm_events_eq blk_small nav_id (single_thread 3 5) args_3x5 5 (by decide)
    (by decide) (by decide) (by decide) (by decide) (by decide) (by decide) (by decide)
  have hmem : ∀ pc, pc < 4 → pc % 3 = 0 →
      Event.kernel 0 pc 0 0 (kernel_call blk_small args_3x5
        (a_select blk_small args_3x5 pc 0 (min (4 - pc) 3) (min (3 - 0) 2)).2
        (b_select blk_small (single_thread 3 5) args_3x5 0 pc (min (5 - 0) 4)
          (min (4 - pc) 3) 0 0 0).2
        0 pc 0 0 (min (5 - 0) 4) (min (4 - pc) 3) (min (3 - 0) 2))
      ∈ loop_events blk_small (single_thread 3 5) args_3x5 ++
        release_events (single_thread 3 5) args_3x5
          (loop_events blk_small (single_thread 3 5) args_3x5) := by
    intro pc h1 h2
    refine List.mem_append_left _
      ((kernel_mem_loop_events blk_small (single_thread 3 5) args_3x5 0 pc 0 0 _).2
        ⟨?_, ?_, ?_, ?_, rfl⟩)
    · exact (mem_starts_iff (by decide) _ _).2 (by decide)
    · exact (mem_starts_iff (by decide) _ _).2 ⟨Nat.zero_le _, h1, by simpa using h2⟩
    · exact (mem_starts_iff (by decide) _ _).2 (by decide)
    · exact (mem_starts_iff (by decide) _ _).2 (by decide)
  have h0 := effective_beta_per_slice blk_small nav_id (single_thread 3 5) args_3x5 5 _ hev
    0 0 0 0 _ (hmem 0 (by decide) (by decide))
  have h3 := effective_beta_per_slice blk_small nav_id (single_thread 3 5) args_3x5 5 _ hev
    0 3 0 0 _ (hmem 3 (by decide) (by decide))
  exact ⟨_, _, _, hev, hmem 0 (by decide) (by decide), hmem 3 (by decide) (by decide),
    h0.1 rfl, h3.2.1 (by decide), h0.2.2, h3.2.2⟩

end c7

end Lpgemm

namespace Lpgemm

section c8

theorem countP_starts_block (p : Nat → Bool) {stop step : Nat} (hstep : 0 < step) (x i0 : Nat)
    (hp : ∀ b, b ∈ starts i0 stop step → (p b = true ↔ inBlock stop step b x))
    (hx : i0 ≤ x ∧ x < stop) : (starts i0 stop step).countP p = 1 := by
  have h := countP_flatMap_starts p (fun b => [b]) 1 hstep x i0
    (fun b hb hnot => by
      rw [List.countP_eq_zero]
      intro e he
      rw [List.mem_singleton] at he
      subst he
      exact fun hh => hnot ((hp e hb).1 hh))
    (fun b hb hyes => by
      have := (hp b hb).2 hyes
      simp [this])
    i0 (by simp)
  rw [if_pos hx] at h
  rw [← h, ← map_eq_flatMap_singleton, List.map_id']

/-- The last iteration of a loop that runs at least once. -/
theorem getLast_starts {stop step : Nat} (hstep : 0 < step) :
    ∀ i, i < stop → (starts i stop step).getLast? = some (i + (stop - 1 - i) / step * step) := by
  refine @starts_induction stop step hstep _ ?_ ?_
  · intro i hi h
    exact absurd h hi
  · intro i hi ih _
    rw [starts_of_lt hstep hi]
    by_cases hn : i + step < stop
    · have h2 := ih hn
      rw [starts_of_lt hstep hn] at h2 ⊢
      rw [List.getLast?_cons_cons, h2]
      have e : stop - 1 - i = (stop - 1 - (i + step)) + step := by omega
      rw [e, Nat.add_div_right _ hstep, Nat.succ_mul]
      congr 1
      omega
    · rw [starts_of_not_lt hn]
      have e : (stop - 1 - i) / step = 0 := Nat.div_eq_of_lt (by omega)
      simp [e]

variable {R L : Type} [One R]

/-- C8. For `k >= 1` and `KC >= 1`: every micro-kernel call among the events the driver
returns belongs to a K-slice `pc < k`, `pc` a multiple of `KC`, and carries
`is_first_k = (pc == 0)` and `is_last_k = (pc + KC >= k)`, two functions of `pc`, `k` and
`KC` alone.  Over the slices `pc = 0, KC, 2*KC, ...` of the `pc` loop exactly one has
`pc = 0`, exactly one has `pc + KC >= k`, namely the last one, `pc = ((k-1)/KC)*KC`, and a
slice carries both flags iff `k <= KC`. -/
theorem first_last_k_flags (blk : BlockSizes) (nav : ReorderNav) (thr : ThreadInfo)
    (x : Args R L) (fuel : Nat) (evs : List (Event R L)) (hk : 1 ≤ x.k) (hKC : 0 < blk.KC)
    (h : lpgemm_rowvar_f32f32f32of32 blk nav thr x fuel = some evs) :
    (∀ jc pc ic jr call, Event.kernel jc pc ic jr call ∈ evs →
      pc ∈ starts 0 x.k blk.KC ∧
      call.post_ops_attr.is_first_k = decide (pc = 0) ∧
      call.post_ops_attr.is_last_k = decide (x.k ≤ pc + blk.KC)) ∧
    (starts 0 x.k blk.KC).countP (fun pc => decide (pc = 0)) = 1 ∧
    (starts 0 x.k blk.KC).countP (fun pc => decide (x.k ≤ pc + blk.KC)) = 1 ∧
    (∀ pc ∈ starts 0 x.k blk.KC, (x.k ≤ pc + blk.KC ↔ pc = (x.k - 1) / blk.KC * blk.KC)) ∧
    (starts 0 x.k blk.KC).getLast? = some ((x.k - 1) / blk.KC * blk.KC) ∧
    ((∃ pc ∈ starts 0 x.k blk.KC, pc = 0 ∧ x.k ≤ pc + blk.KC) ↔ x.k ≤ blk.KC) := by
  have hlast : ∀ pc ∈ starts 0 x.k blk.KC,
      (x.k ≤ pc + blk.KC ↔ pc = (x.k - 1) / blk.KC * blk.KC) := by
    intro pc hpc
    obtain ⟨_, h2, h3⟩ := mem_starts hKC 0 pc hpc
    obtain ⟨q, hq⟩ := Nat.dvd_of_mod_eq_zero (by simpa using h3 : pc % blk.KC = 0)
    subst hq
    constructor
    · intro hle
      have hq : (x.k - 1) / blk.KC = q := by
        apply Nat.div_eq_of_lt_le
        · rw [Nat.mul_comm]; omega
        · rw [Nat.add_mul, Nat.one_mul, Nat.mul_comm]; omega
      rw [hq, Nat.mul_comm]
    · intro he
      have h1 := Nat.lt_div_mul_add hKC (a := x.k - 1)
      rw [← he] at h1
      omega
  refine ⟨?_, ?_, ?_, hlast, ?_, ?_⟩
  · refine kernel_events_of_driver blk nav thr x
      (fun _ pc _ _ call => pc ∈ starts 0 x.k blk.KC ∧
        call.post_ops_attr.is_first_k = decide (pc = 0) ∧
        call.post_ops_attr.is_last_k = decide (x.k ≤ pc + blk.KC)) ?_ fuel evs h
    intro au bu jc pc ic jr nc0 mc0 h1 h2
    refine ⟨(mem_starts_iff hKC 0 pc).2 ⟨Nat.zero_le _, h1, by simpa using h2⟩, ?_, ?_⟩
    · simp only [kernel_call]
      by_cases h0 : pc = 0 <;> simp [h0]
    · simp only [kernel_call]
      by_cases h0 : x.k ≤ pc + blk.KC <;> simp [h0]
  · refine countP_starts_block _ hKC 0 0 ?_ ⟨le_refl _, hk⟩
    intro b hb
    obtain ⟨_, h2, _⟩ := mem_starts hKC 0 b hb
    simp only [decide_eq_true_eq, inBlock, blockLen]
    omega
  · refine countP_starts_block _ hKC (x.k - 1) 0 ?_ ⟨Nat.zero_le _, by omega⟩
    intro b hb
    obtain ⟨_, h2, _⟩ := mem_starts hKC 0 b hb
    simp only [decide_eq_true_eq, inBlock, blockLen]
    omega
  · rw [getLast_starts hKC 0 (by omega)]
    simp
  · constructor
    · rintro ⟨pc, _, rfl, h2⟩
      omega
    · intro hle
      exact ⟨0, (mem_starts_iff hKC 0 0).2 ⟨le_refl _, hk, by simp⟩, rfl, by omega⟩

end c8

/-! ### A small run used as a concrete instance -/

/-- The small run `M = 3, N = 5, K = 4` with `NR = 2, NC = 4, MC = 2, KC = 3` on one thread
returns. -/
theorem small_events_eq :
    lpgemm_rowvar_f32f32f32of32 blk_small nav_id (single_thread 3 5) args_3x5 5
      = some (loop_events blk_small (single_thread 3 5) args_3x5 ++
          release_events (single_thread 3 5) args_3x5
            (loop_events blk_small (single_thread 3 5) args_3x5)) :=
  lpgemm_events_eq blk_small nav_id (single_thread 3 5) args_3x5 5 (by decide)
    (by decide) (by decide) (by decide) (by decide) (by decide) (by decide) (by decide)

/-- The call for the first tile of the K-slice `pc` of the small run. -/
theorem small_kernel_mem (pc : Nat) (h1 : pc < 4) (h2 : pc % 3 = 0) :
    Event.kernel 0 pc 0 0 (kernel_call blk_small args_3x5
        (a_select blk_small args_3x5 pc 0 (min (4 - pc) 3) (min (3 - 0) 2)).2
        (b_select blk_small (single_thread 3 5) args_3x5 0 pc (min (5 - 0) 4)
          (min (4 - pc) 3) 0 0 0).2
        0 pc 0 0 (min (5 - 0) 4) (min (4 - pc) 3) (min (3 - 0) 2))
      ∈ loop_events blk_small (single_thread 3 5) args_3x5 ++
        release_events (single_thread 3 5) args_3x5
          (loop_events blk_small (single_thread 3 5) args_3x5) := by
  refine List.mem_append_left _
    ((kernel_mem_loop_events blk_small (single_thread 3 5) args_3x5 0 pc 0 0 _).2
      ⟨?_, ?_, ?_, ?_, rfl⟩)
  · exact (mem_starts_iff (by decide) _ _).2 (by decide)
  · exact (mem_starts_iff (by decide) _ _).2 ⟨Nat.zero_le _, h1, by simpa using h2⟩
  · exact (mem_starts_iff (by decide) _ _).2 (by decide)
  · exact (mem_starts_iff (by decide) _ _).2 (by decide)

/-- For `K = 4`, `KC = 3` the slices are `pc = 0` and `pc = 3`: one carries `is_first_k`,
one carries `is_last_k`, the last slice is `pc = 3`, no slice carries both flags, and the
call of the slice `pc = 3` carries `is_first_k = false`, `is_last_k = true`. -/
theorem first_last_k_flags_witness :
    (starts 0 4 3).countP (fun pc => decide (pc = 0)) = 1 ∧
    (starts 0 4 3).countP (fun pc => decide (4 ≤ pc + 3)) = 1 ∧
    (starts 0 4 3).getLast? = some 3 ∧
    ¬ (∃ pc ∈ starts 0 4 3, pc = 0 ∧ 4 ≤ pc + 3) ∧
    ∃ evs call,
      lpgemm_rowvar_f32f32f32of32 blk_small nav_id (single_thread 3 5) args_3x5 5 = some evs ∧
      Event.kernel 0 3 0 0 call ∈ evs ∧
      call.post_ops_attr.is_first_k = false ∧ call.post_ops_attr.is_last_k = true := by
  have h := first_last_k_flags blk_small nav_id (single_thread 3 5) args_3x5 5 _
    (by decide) (by decide) small_events_eq
  obtain ⟨h1, h2, h3, _, h5, h6⟩ := h
  refine ⟨h2, h3, h5, fun hh => absurd (h6.1 hh) (by decide), _, _, small_events_eq,
    small_kernel_mem 3 (by decide) (by decide), ?_, ?_⟩
  · rw [(h1 0 3 0 0 _ (small_kernel_mem 3 (by decide) (by decide))).2.1]; rfl
  · rw [(h1 0 3 0 0 _ (small_kernel_mem 3 (by decide) (by decide))).2.2]; rfl

end Lpgemm

namespace Lpgemm

/-! ## The K-slices and the updates of one element -/

section updates

theorem filterMap_flatMap_nil {α β γ : Type} (f : β → Option γ) (g : α → List β) (l : List α)
    (h : ∀ b ∈ l, (g b).filterMap f = []) : (l.flatMap g).filterMap f = [] := by
  induction l with
  | nil => rfl
  | cons a l ih =>
    rw [List.flatMap_cons, List.filterMap_append, h a (List.mem_cons_self _ _),
      ih (fun b hb => h b (List.mem_cons_of_mem _ hb))]
    rfl

/-- Among the iterations of a blocked loop, only the block containing `x` contributes. -/
theorem filterMap_flatMap_starts {β γ : Type} (f : β → Option γ) (g : Nat → List β)
    (r : List γ) {stop step : Nat} (hstep : 0 < step) (x : Nat)
    (hmiss : ∀ b, b < stop → ¬ inBlock stop step b x → (g b).filterMap f = [])
    (hhit : ∀ b, b < stop → inBlock stop step b x → (g b).filterMap f = r) :
    ∀ i, ((starts i stop step).flatMap g).filterMap f
      = if i ≤ x ∧ x < stop then r else [] := by
  refine @starts_induction stop step hstep _ ?_ ?_
  · intro i hi
    rw [starts_of_not_lt hi]
    have : ¬ (i ≤ x ∧ x < stop) := by omega
    simp [this]
  · intro i hi ih
    rw [starts_of_lt hstep hi, List.flatMap_cons, List.filterMap_append, ih]
    by_cases hin : inBlock stop step i x
    · have h1 : ¬ (i + step ≤ x ∧ x < stop) := by
        unfold inBlock blockLen at hin; omega
      have h2 : i ≤ x ∧ x < stop := by
        unfold inBlock blockLen at hin; omega
      rw [if_neg h1, if_pos h2, hhit i hi hin, List.append_nil]
    · have h1 : (i + step ≤ x ∧ x < stop) ↔ (i ≤ x ∧ x < stop) := by
        unfold inBlock blockLen at hin; omega
      rw [hmiss i hi hin]
      simp only [h1, List.nil_append]

variable {R L : Type} [One R]

omit [One R] in
theorem update_of_is_kernel (i j : Nat) (e : Event R L) (u : SliceUpdate R)
    (h : e.update_of i j = some u) : ∃ jc pc ic jr call, e = Event.kernel jc pc ic jr call := by
  cases e with
  | kernel jc pc ic jr call => exact ⟨jc, pc, ic, jr, call, rfl⟩
  | _ => simp [Event.update_of] at h

omit [One R] in
theorem filterMap_update_of_nil (i j : Nat) (l : List (Event R L))
    (h : ∀ jc pc ic jr call, Event.kernel jc pc ic jr call ∉ l) :
    l.filterMap (Event.update_of i j) = [] := by
  rw [List.filterMap_eq_nil_iff]
  intro e he
  cases hu : e.update_of i j with
  | none => rfl
  | some u =>
    obtain ⟨jc, pc, ic, jr, call, rfl⟩ := update_of_is_kernel i j e u hu
    exact absurd he (h jc pc ic jr call)

theorem updates_jr_events (blk : BlockSizes) (x : Args R L) (au : AUse) (bu : BUse)
    (hNR : 0 < blk.NR) (jc pc ic nc0 mc0 : Nat) (i j : Nat) :
    (jr_events blk x au bu jc pc ic nc0 (min (x.k - pc) blk.KC) mc0).filterMap
        (Event.update_of i j)
      = if (ic ≤ i ∧ i < ic + mc0) ∧ jc ≤ j ∧ j < jc + nc0 then [slice_update blk x pc]
        else [] := by
  unfold jr_events
  rw [map_eq_flatMap_singleton]
  by_cases hin : (ic ≤ i ∧ i < ic + mc0) ∧ jc ≤ j
  · rw [filterMap_flatMap_starts (Event.update_of i j) _ [slice_update blk x pc] hNR (j - jc)
      ?_ ?_ 0]
    · by_cases hj2 : j < jc + nc0
      · rw [if_pos (by omega), if_pos ⟨hin.1, hin.2, hj2⟩]
      · rw [if_neg (by omega), if_neg (fun hh => hj2 hh.2.2)]
    · intro b _ hnot
      have hc : ¬ ((ic ≤ i ∧ i < ic + mc0) ∧ jc + b ≤ j ∧ j < jc + b + min (nc0 - b) blk.NR) := by
        unfold inBlock blockLen at hnot; omega
      simp only [List.filterMap_cons, List.filterMap_nil, Event.update_of, kernel_call,
        if_neg hc]
    · intro b _ hyes
      have hc : (ic ≤ i ∧ i < ic + mc0) ∧ jc + b ≤ j ∧ j < jc + b + min (nc0 - b) blk.NR := by
        unfold inBlock blockLen at hyes; omega
      simp only [List.filterMap_cons, List.filterMap_nil, Event.update_of, kernel_call,
        if_pos hc, slice_update]
      by_cases h0 : pc = 0 <;> by_cases h1 : x.k ≤ pc + blk.KC <;> simp [h0, h1]
  · rw [if_neg (fun hh => hin ⟨hh.1, hh.2.1⟩)]
    apply filterMap_flatMap_nil
    intro b _
    have hc : ¬ ((ic ≤ i ∧ i < ic + mc0) ∧ jc + b ≤ j ∧ j < jc + b + min (nc0 - b) blk.NR) := by
      omega
    simp only [List.filterMap_cons, List.filterMap_nil, Event.update_of, kernel_call,
      if_neg hc]

theorem updates_ic_events (blk : BlockSizes) (x : Args R L) (bu : BUse)
    (hNR : 0 < blk.NR) (jc pc nc0 ic_end ic : Nat) (i j : Nat) :
    (ic_events blk x bu jc pc nc0 (min (x.k - pc) blk.KC) ic_end ic).filterMap
        (Event.update_of i j)
      = if inBlock ic_end blk.MC ic i ∧ jc ≤ j ∧ j < jc + nc0 then [slice_update blk x pc]
        else [] := by
  unfold ic_events
  rw [List.filterMap_append, updates_jr_events blk x _ bu hNR,
    filterMap_update_of_nil i j _ (kernel_not_mem_a_select blk x _ _ _ _)]
  rfl

theorem updates_pc_events (blk : BlockSizes) (thr : ThreadInfo) (x : Args R L)
    (hNR : 0 < blk.NR) (hMC : 0 < blk.MC) (jc nc0 j1 j2 j3 pc : Nat) (i j : Nat) :
    (pc_events blk thr x jc nc0 j1 j2 j3 pc).filterMap (Event.update_of i j)
      = if (thr.ic_start ≤ i ∧ i < thr.ic_end) ∧ jc ≤ j ∧ j < jc + nc0 then
          [slice_update blk x pc]
        else [] := by
  unfold pc_events
  rw [List.filterMap_append,
    filterMap_update_of_nil i j _ (kernel_not_mem_b_select blk thr x _ _ _ _ _ _ _),
    List.nil_append]
  by_cases hin : jc ≤ j ∧ j < jc + nc0
  · rw [filterMap_flatMap_starts (Event.update_of i j) _ [slice_update blk x pc] hMC i ?_ ?_
      thr.ic_start]
    · by_cases hi : thr.ic_start ≤ i ∧ i < thr.ic_end
      · rw [if_pos hi, if_pos ⟨hi, hin⟩]
      · rw [if_neg hi, if_neg (fun hh => hi hh.1)]
    · intro b _ hnot
      rw [updates_ic_events blk x _ hNR, if_neg (fun hh => hnot hh.1)]
    · intro b _ hyes
      rw [updates_ic_events blk x _ hNR, if_pos ⟨hyes, hin⟩]
  · rw [if_neg (fun hh => hin hh.2)]
    apply filterMap_flatMap_nil
    intro b _
    rw [updates_ic_events blk x _ hNR, if_neg (fun hh => hin hh.2)]

theorem updates_jc_events (blk : BlockSizes) (thr : ThreadInfo) (x : Args R L)
    (hNR : 0 < blk.NR) (hMC : 0 < blk.MC) (jc : Nat) (i j : Nat) :
    (jc_events blk thr x jc).filterMap (Event.update_of i j)
      = if (thr.ic_start ≤ i ∧ i < thr.ic_end) ∧ inBlock thr.jc_end blk.NC jc j then
          (starts 0 x.k blk.KC).map (slice_update blk x)
        else [] := by
  unfold jc_events
  by_cases hin : (thr.ic_start ≤ i ∧ i < thr.ic_end) ∧ inBlock thr.jc_end blk.NC jc j
  · rw [if_pos hin, List.filterMap_flatMap, map_eq_flatMap_singleton]
    congr 1
    funext pc
    rw [updates_pc_events blk thr x hNR hMC, if_pos ⟨hin.1, hin.2⟩]
  · rw [if_neg hin]
    apply filterMap_flatMap_nil
    intro b _
    rw [updates_pc_events blk thr x hNR hMC, if_neg (fun hh => hin ⟨hh.1, hh.2⟩)]

/-- The updates of the element `(i, j)` by the events of the loop nest: the K-slices in
increasing order when the thread owns the element, none otherwise. -/
theorem updates_loop_events (blk : BlockSizes) (thr : ThreadInfo) (x : Args R L)
    (hNR : 0 < blk.NR) (hNC : 0 < blk.NC) (hMC : 0 < blk.MC) (i j : Nat) :
    (loop_events blk thr x).filterMap (Event.update_of i j)
      = if (thr.ic_start ≤ i ∧ i < thr.ic_end) ∧ (thr.jc_start ≤ j ∧ j < thr.jc_end) then
          (starts 0 x.k blk.KC).map (slice_update blk x)
        else [] := by
  unfold loop_events
  by_cases hin : thr.ic_start ≤ i ∧ i < thr.ic_end
  · rw [filterMap_flatMap_starts (Event.update_of i j) _
      ((starts 0 x.k blk.KC).map (slice_update blk x)) hNC j ?_ ?_ thr.jc_start]
    · by_cases hj : thr.jc_start ≤ j ∧ j < thr.jc_end
      · rw [if_pos hj, if_pos ⟨hin, hj⟩]
      · rw [if_neg hj, if_neg (fun hh => hj hh.2)]
    · intro b _ hnot
      rw [updates_jc_events blk thr x hNR hMC, if_neg (fun hh => hnot hh.2)]
    · intro b _ hyes
      rw [updates_jc_events blk thr x hNR hMC, if_pos ⟨hin, hyes⟩]
  · rw [if_neg (fun hh => hin hh.1)]
    apply filterMap_flatMap_nil
    intro b _
    rw [updates_jc_events blk thr x hNR hMC, if_neg (fun hh => hin hh.1)]

/-- The updates of the element `(i, j)` by all the events of a call of the driver. -/
theorem updates_driver (blk : BlockSizes) (thr : ThreadInfo) (x : Args R L)
    (hNR : 0 < blk.NR) (hNC : 0 < blk.NC) (hMC : 0 < blk.MC) (i j : Nat) :
    (loop_events blk thr x ++ release_events thr x (loop_events blk thr x)).filterMap
        (Event.update_of i j)
      = if (thr.ic_start ≤ i ∧ i < thr.ic_end) ∧ (thr.jc_start ≤ j ∧ j < thr.jc_end) then
          (starts 0 x.k blk.KC).map (slice_update blk x)
        else [] := by
  rw [List.filterMap_append, updates_loop_events blk thr x hNR hNC hMC,
    filterMap_update_of_nil i j _ (kernel_not_mem_release thr x _), List.append_nil]

end updates

section c9

/-- The iterations of a loop with a positive step, counted. -/
theorem starts_eq_map_range {stop step : Nat} (hstep : 0 < step) :
    ∀ i, starts i stop step
      = (List.range ((stop - i + step - 1) / step)).map (fun t => i + t * step) := by
  refine @starts_induction stop step hstep _ ?_ ?_
  · intro i hi
    rw [starts_of_not_lt hi]
    have e : (stop - i + step - 1) / step = 0 := Nat.div_eq_of_lt (by omega)
    rw [e]
    rfl
  · intro i hi ih
    rw [starts_of_lt hstep hi, ih]
    have e : (stop - i + step - 1) / step = (stop - (i + step) + step - 1) / step + 1 := by
      by_cases hn : i + step ≤ stop
      · have e1 : stop - i + step - 1 = (stop - (i + step) + step - 1) + step := by omega
        rw [e1, Nat.add_div_right _ hstep]
      · have e1 : (stop - (i + step) + step - 1) / step = 0 := Nat.div_eq_of_lt (by omega)
        rw [e1]
        apply Nat.div_eq_of_lt_le
        · rw [Nat.one_mul]; omega
        · omega
    rw [e, List.range_succ_eq_map, List.map_cons, List.map_map]
    congr 1
    · simp
    · apply List.map_congr_left
      intro t _
      simp only [Function.comp_apply, Nat.succ_eq_add_one, Nat.add_mul, Nat.one_mul]
      omega

/-- The extents of the blocks of a loop add up to the length of its range. -/
theorem sum_blockLen_starts {stop step : Nat} (hstep : 0 < step) :
    ∀ i, ((starts i stop step).map (fun b => min (stop - b) step)).sum = stop - i := by
  refine @starts_induction stop step hstep _ ?_ ?_
  · intro i hi
    rw [starts_of_not_lt hi]
    simp only [List.map_nil, List.sum_nil]
    omega
  · intro i hi ih
    rw [starts_of_lt hstep hi, List.map_cons, List.sum_cons, ih]
    omega

variable {R L : Type} [One R]

/-- C9. For `k >= 1`, positive block sizes and a B that is not REORDERED: the K-slices of
the `pc` loop are `pc = 0, KC, 2*KC, ...`, `ceil(k/KC)` of them in increasing order, with
`kc0 = min(k - pc, KC)`; `1 <= kc0 <= KC`, a slice shorter than `KC` is the last one, the
`kc0` add up to `k`, and every `l < k` lies in exactly one slice.  The driver returns, and
the micro-kernel calls of a thread whose rectangle contains an element `(i, j)` of the
range of the thread are, in program order, exactly one call per K-slice in increasing
order of `pc`; the slice bounds are functions of `pc`, `k` and `KC` and do not depend on
the thread or on its ranges. -/
theorem k_slices_partition (blk : BlockSizes) (nav : ReorderNav) (thr : ThreadInfo)
    (x : Args R L) (fuel : Nat) (hk : 1 ≤ x.k) (hB : x.mtag_b ≠ AOCL_MEMORY_TAG.REORDERED)
    (hNR : 0 < blk.NR) (hNC : 0 < blk.NC) (hMC : 0 < blk.MC) (hKC : 0 < blk.KC)
    (hfuel : thr.jc_end - thr.jc_start ≤ fuel ∧ thr.ic_end - thr.ic_start ≤ fuel
      ∧ x.k ≤ fuel) :
    starts 0 x.k blk.KC
        = (List.range ((x.k + blk.KC - 1) / blk.KC)).map (fun t => t * blk.KC) ∧
    (∀ pc ∈ starts 0 x.k blk.KC,
      1 ≤ min (x.k - pc) blk.KC ∧ min (x.k - pc) blk.KC ≤ blk.KC ∧
      (min (x.k - pc) blk.KC < blk.KC → (starts 0 x.k blk.KC).getLast? = some pc)) ∧
    ((starts 0 x.k blk.KC).map (fun pc => min (x.k - pc) blk.KC)).sum = x.k ∧
    (∀ l, l < x.k →
      (starts 0 x.k blk.KC).countP
        (fun pc => decide (pc ≤ l ∧ l < pc + min (x.k - pc) blk.KC)) = 1) ∧
    ∃ evs, lpgemm_rowvar_f32f32f32of32 blk nav thr x fuel = some evs ∧
      ∀ i j, thr.ic_start ≤ i → i < thr.ic_end → thr.jc_start ≤ j → j < thr.jc_end →
        evs.filterMap (Event.update_of i j)
          = (starts 0 x.k blk.KC).map
              (fun pc => { pc := pc
                           kc0 := min (x.k - pc) blk.KC
                           beta0 := if pc = 0 then x.beta else 1
                           is_first_k := decide (pc = 0)
                           is_last_k := decide (x.k ≤ pc + blk.KC) }) := by
  refine ⟨?_, ?_, ?_, ?_, ?_⟩
  · rw [starts_eq_map_range hKC 0]
    simp
  · intro pc hpc
    obtain ⟨_, h2, h3⟩ := mem_starts hKC 0 pc hpc
    refine ⟨by omega, by omega, ?_⟩
    intro hshort
    rw [getLast_starts hKC 0 (by omega)]
    have hq : (x.k - 1 - 0) / blk.KC * blk.KC = pc := by
      obtain ⟨q, hq⟩ := Nat.dvd_of_mod_eq_zero (by simpa using h3 : pc % blk.KC = 0)
      subst hq
      have e : (x.k - 1 - 0) / blk.KC = q := by
        apply Nat.div_eq_of_lt_le
        · rw [Nat.mul_comm]; omega
        · rw [Nat.add_mul, Nat.one_mul, Nat.mul_comm]; omega
      rw [e, Nat.mul_comm]
    rw [hq, Nat.zero_add]
  · rw [sum_blockLen_starts hKC 0]
    rfl
  · intro l hl
    refine countP_starts_block _ hKC l 0 ?_ ⟨Nat.zero_le _, hl⟩
    intro b _
    simp only [decide_eq_true_eq, inBlock, blockLen]
  · refine ⟨_, lpgemm_events_eq blk nav thr x fuel hB hNR hNC hMC hKC hfuel.1 hfuel.2.1
      hfuel.2.2, ?_⟩
    intro i j hi1 hi2 hj1 hj2
    rw [updates_driver blk thr x hNR hNC hMC, if_pos ⟨⟨hi1, hi2⟩, ⟨hj1, hj2⟩⟩]
    rfl

/-- For `K = 4`, `KC = 3` there are two K-slices, `[0, 3)` and `[3, 4)`, and the element
`(2, 4)` of the small run is updated by exactly these two slices, in this order. -/
theorem k_slices_partition_witness :
    starts 0 4 3 = [0, 3] ∧
    ((starts 0 4 3).map (fun pc => min (4 - pc) 3)).sum = 4 ∧
    ∃ evs, lpgemm_rowvar_f32f32f32of32 blk_small nav_id (single_thread 3 5) args_3x5 5
        = some evs ∧
      (evs.filterMap (Event.update_of 2 4)).map (fun u => (u.pc, u.kc0)) = [(0, 3), (3, 1)] := by
  obtain ⟨_, _, h3, _, evs, h5, h6⟩ := k_slices_partition blk_small nav_id
    (single_thread 3 5) args_3x5 5 (by decide) (by decide) (by decide) (by decide)
    (by decide) (by decide) ⟨by decide, by decide, by decide⟩
  have hs : starts 0 4 3 = [0, 3] := by decide
  refine ⟨hs, h3, evs, h5, ?_⟩
  rw [h6 2 4 (by decide) (by decide) (by decide) (by decide)]
  show List.map _ (List.map _ (starts 0 4 3)) = _
  rw [hs]
  rfl

end c9

end Lpgemm

namespace Lpgemm

/-! ## Independence of the initial C for `beta = 0` -/

section agree

variable {R L : Type} [Zero R]

/-- Two runs of a list of events stay equal on a set `U` of addresses where they start
equal, and become equal on the tiles of the calls of the list, when each call either has
`beta = 0` or has its tile inside `U`. -/
theorem run_c_agree (step : Event R L → (Nat → R) → (Nat → R)) (hs : KernelReadsOwnTile step) :
    ∀ (l : List (Event R L)) (U : Nat → Prop) (M1 M2 : Nat → R),
      (∀ a, U a → M1 a = M2 a) →
      (∀ jc pc ic jr call, Event.kernel jc pc ic jr call ∈ l →
        call.beta = 0 ∨ ∀ a, in_tile call a → U a) →
      ∀ a, (U a ∨ ∃ jc pc ic jr call, Event.kernel jc pc ic jr call ∈ l ∧ in_tile call a) →
        run_c step l M1 a = run_c step l M2 a := by
  intro l
  induction l with
  | nil =>
    intro U M1 M2 hag _ a ha
    rcases ha with ha | ⟨_, _, _, _, _, hm, _⟩
    · exact hag a ha
    · simp at hm
  | cons e l ih =>
    intro U M1 M2 hag hcond a ha
    show run_c step l (step e M1) a = run_c step l (step e M2) a
    -- the set on which the two runs agree after the first event
    have hag2 : ∀ a, (U a ∨ ∃ jc pc ic jr call, e = Event.kernel jc pc ic jr call ∧
        in_tile call a) → step e M1 a = step e M2 a := by
      intro a ha
      by_cases hk : ∃ jc pc ic jr call, e = Event.kernel jc pc ic jr call
      · obtain ⟨jc, pc, ic, jr, call, rfl⟩ := hk
        by_cases hin : in_tile call a
        · rcases hcond jc pc ic jr call (List.mem_cons_self _ _) with h0 | hsub
          · exact hs.beta_zero jc pc ic jr call M1 M2 h0 a hin
          · exact hs.reads_tile jc pc ic jr call M1 M2 (fun b hb => hag b (hsub b hb)) a hin
        · rw [hs.writes_tile jc pc ic jr call M1 a hin, hs.writes_tile jc pc ic jr call M2 a hin]
          rcases ha with ha | ⟨_, _, _, _, _, he, hin2⟩
          · exact hag a ha
          · injection he with _ _ _ _ e5
            subst e5
            exact absurd hin2 hin
      · have hne : ∀ jc pc ic jr call, e ≠ Event.kernel jc pc ic jr call :=
          fun jc pc ic jr call he => hk ⟨jc, pc, ic, jr, call, he⟩
        rw [hs.other e M1 hne, hs.other e M2 hne]
        rcases ha with ha | ⟨jc, pc, ic, jr, call, he, _⟩
        · exact hag a ha
        · exact absurd he (hne jc pc ic jr call)
    refine ih _ (step e M1) (step e M2) hag2 ?_ a ?_
    · intro jc pc ic jr call hm
      rcases hcond jc pc ic jr call (List.mem_cons_of_mem _ hm) with h0 | hsub
      · exact Or.inl h0
      · exact Or.inr (fun b hb => Or.inl (hsub b hb))
    · rcases ha with ha | ⟨jc, pc, ic, jr, call, hm, hin⟩
      · exact Or.inl (Or.inl ha)
      · rcases List.mem_cons.1 hm with he | hm2
        · exact Or.inl (Or.inr ⟨jc, pc, ic, jr, call, he.symm, hin⟩)
        · exact Or.inr ⟨jc, pc, ic, jr, call, hm2, hin⟩

omit [Zero R] in
theorem run_c_append (step : Event R L → (Nat → R) → (Nat → R)) (l1 l2 : List (Event R L))
    (M : Nat → R) : run_c step (l1 ++ l2) M = run_c step l2 (run_c step l1 M) := by
  simp [run_c, List.foldl_append]

end agree

section beta_zero

variable {R L : Type} [MonoidWithZero R]

omit [MonoidWithZero R] in
theorem kernel_mem_pc_events [One R] (blk : BlockSizes) (thr : ThreadInfo) (x : Args R L)
    (jc nc0 j1 j2 j3 pc : Nat) (jc1 pc1 ic jr : Nat) (call : KernelCall R L) :
    Event.kernel jc1 pc1 ic jr call ∈ pc_events blk thr x jc nc0 j1 j2 j3 pc ↔
      jc1 = jc ∧ pc1 = pc ∧
      ic ∈ starts thr.ic_start thr.ic_end blk.MC ∧
      jr ∈ starts 0 nc0 blk.NR ∧
      call = kernel_call blk x
        (a_select blk x pc ic (min (x.k - pc) blk.KC) (min (thr.ic_end - ic) blk.MC)).2
        (b_select blk thr x jc pc nc0 (min (x.k - pc) blk.KC) j1 j2 j3).2
        jc pc ic jr nc0 (min (x.k - pc) blk.KC) (min (thr.ic_end - ic) blk.MC) := by
  simp only [pc_events, ic_events, jr_events, List.mem_flatMap,
    List.mem_append, List.mem_map, kernel_not_mem_a_select, kernel_not_mem_b_select,
    false_or]
  constructor
  · rintro ⟨ic1, hic, jr1, hjr, he⟩
    injection he with e1 e2 e3 e4 e5
    subst e1 e2 e3 e4
    exact ⟨rfl, rfl, hic, hjr, e5.symm⟩
  · rintro ⟨rfl, rfl, hic, hjr, rfl⟩
    exact ⟨ic, hic, jr, hjr, rfl⟩

/-- Within one column block, two runs that start equal on `U` end equal on `U` and on the
tiles of the block, when `beta = 0`: the slice `pc = 0` writes every tile of the block
without reading it, and the later slices read only tiles written by the slice `pc = 0`. -/
theorem jc_events_agree (step : Event R L → (Nat → R) → (Nat → R))
    (hs : KernelReadsOwnTile step) (blk : BlockSizes) (thr : ThreadInfo) (x : Args R L)
    (hbeta : x.beta = 0) (hk : 1 ≤ x.k) (hKC : 0 < blk.KC) (jc : Nat)
    (U : Nat → Prop) (M1 M2 : Nat → R) (hag : ∀ a, U a → M1 a = M2 a) :
    ∀ a, (U a ∨ ∃ jc1 pc ic jr call,
        Event.kernel jc1 pc ic jr call ∈ jc_events blk thr x jc ∧ in_tile call a) →
      run_c step (jc_events blk thr x jc) M1 a = run_c step (jc_events blk thr x jc) M2 a := by
  have hsplit : jc_events blk thr x jc
      = pc_events blk thr x jc (min (thr.jc_end - jc) blk.NC) jc 0 0 0 ++
        (starts (0 + blk.KC) x.k blk.KC).flatMap
          (pc_events blk thr x jc (min (thr.jc_end - jc) blk.NC) jc 0 0) := by
    unfold jc_events
    rw [starts_of_lt hKC (by omega : 0 < x.k), List.flatMap_cons]
  -- the first slice
  have h1 := run_c_agree step hs
    (pc_events blk thr x jc (min (thr.jc_end - jc) blk.NC) jc 0 0 0) U M1 M2 hag
    (fun jc1 pc ic jr call hm => by
      obtain ⟨_, rfl, _, _, rfl⟩ := (kernel_mem_pc_events blk thr x _ _ _ _ _ _ _ _ _ _ _).1 hm
      left
      simp [kernel_call, hbeta])
  -- the later slices
  have h2 := run_c_agree step hs
    ((starts (0 + blk.KC) x.k blk.KC).flatMap
      (pc_events blk thr x jc (min (thr.jc_end - jc) blk.NC) jc 0 0))
    _ _ _ h1
    (fun jc1 pc ic jr call hm => by
      right
      intro a ha
      right
      obtain ⟨pc1, _, hm1⟩ := List.mem_flatMap.1 hm
      obtain ⟨rfl, rfl, hic, hjr, rfl⟩ :=
        (kernel_mem_pc_events blk thr x _ _ _ _ _ _ _ _ _ _ _).1 hm1
      exact ⟨jc1, 0, ic, jr, _,
        (kernel_mem_pc_events blk thr x _ _ _ _ _ _ _ _ _ _ _).2 ⟨rfl, rfl, hic, hjr, rfl⟩, ha⟩)
  intro a ha
  rw [hsplit, run_c_append, run_c_append]
  apply h2
  rcases ha with ha | ⟨jc1, pc, ic, jr, call, hm, hin⟩
  · exact Or.inl (Or.inl ha)
  · rw [hsplit] at hm
    rcases List.mem_append.1 hm with hm | hm
    · exact Or.inl (Or.inr ⟨jc1, pc, ic, jr, call, hm, hin⟩)
    · exact Or.inr ⟨jc1, pc, ic, jr, call, hm, hin⟩

/-- Over any sequence of column blocks, two runs that start equal on `U` end equal on `U`
and on the tiles of the blocks, when `beta = 0`. -/
theorem jc_blocks_agree (step : Event R L → (Nat → R) → (Nat → R))
    (hs : KernelReadsOwnTile step) (blk : BlockSizes) (thr : ThreadInfo) (x : Args R L)
    (hbeta : x.beta = 0) (hk : 1 ≤ x.k) (hKC : 0 < blk.KC) :
    ∀ (js : List Nat) (U : Nat → Prop) (M1 M2 : Nat → R), (∀ a, U a → M1 a = M2 a) →
      ∀ a, (U a ∨ ∃ jc1 pc ic jr call,
          Event.kernel jc1 pc ic jr call ∈ js.flatMap (jc_events blk thr x) ∧
            in_tile call a) →
        run_c step (js.flatMap (jc_events blk thr x)) M1 a
          = run_c step (js.flatMap (jc_events blk thr x)) M2 a := by
  intro js
  induction js with
  | nil =>
    intro U M1 M2 hag a ha
    rcases ha with ha | ⟨_, _, _, _, _, hm, _⟩
    · exact hag a ha
    · simp at hm
  | cons jc js ih =>
    intro U M1 M2 hag a ha
    rw [List.flatMap_cons, run_c_append, run_c_append]
    refine ih _ _ _ (jc_events_agree step hs blk thr x hbeta hk hKC jc U M1 M2 hag) a ?_
    rcases ha with ha | ⟨jc1, pc, ic, jr, call, hm, hin⟩
    · exact Or.inl (Or.inl ha)
    · rw [List.flatMap_cons] at hm
      rcases List.mem_append.1 hm with hm | hm
      · exact Or.inl (Or.inr ⟨jc1, pc, ic, jr, call, hm, hin⟩)
      · exact Or.inr ⟨jc1, pc, ic, jr, call, hm, hin⟩

end beta_zero

section c6

variable {R L : Type} [CommRing R]

omit [CommRing R] in
theorem run_c_other [Zero R] (step : Event R L → (Nat → R) → (Nat → R))
    (hs : KernelReadsOwnTile step) (l : List (Event R L))
    (h : ∀ jc pc ic jr call, Event.kernel jc pc ic jr call ∉ l) (M : Nat → R) :
    run_c step l M = M := by
  induction l generalizing M with
  | nil => rfl
  | cons e l ih =>
    show run_c step l (step e M) = M
    rw [hs.other e M (fun jc pc ic jr call he => h jc pc ic jr call (he ▸ List.mem_cons_self _ _))]
    exact ih (fun jc pc ic jr call hm => h jc pc ic jr call (List.mem_cons_of_mem _ hm)) M

omit [CommRing R] in
/-- Every element of the range of the thread lies in the tile of a micro-kernel call. -/
theorem exists_kernel_covering [One R] (blk : BlockSizes) (thr : ThreadInfo) (x : Args R L)
    (hk : 1 ≤ x.k) (hNR : 0 < blk.NR) (hNC : 0 < blk.NC) (hMC : 0 < blk.MC)
    (hKC : 0 < blk.KC) (i j : Nat) (hi : thr.ic_start ≤ i ∧ i < thr.ic_end)
    (hj : thr.jc_start ≤ j ∧ j < thr.jc_end) :
    ∃ jc pc ic jr call, Event.kernel jc pc ic jr call ∈ loop_events blk thr x ∧
      in_tile call (x.c + i * x.rs_c + j) := by
  have hcount := covers_loop_events blk thr x hNR hNC hMC hKC 0 i j
  rw [if_pos ⟨(mem_starts_iff hKC 0 0).2 ⟨le_refl _, hk, by simp⟩, hi, hj⟩] at hcount
  have hpos : 0 < (loop_events blk thr x).countP (Event.covers 0 i j) := by omega
  obtain ⟨e, he, hc⟩ := List.countP_pos_iff.1 hpos
  obtain ⟨jc, pc, ic, jr, call, rfl⟩ := covers_is_kernel 0 i j e hc
  refine ⟨jc, pc, ic, jr, call, he, ?_⟩
  obtain ⟨_, _, _, _, rfl⟩ := (kernel_mem_loop_events blk thr x jc pc ic jr call).1 he
  simp only [Event.covers, kernel_call, decide_eq_true_eq] at hc
  refine ⟨i - ic, by simp only [kernel_call]; omega, j - (jc + jr),
    by simp only [kernel_call]; omega, ?_⟩
  simp only [kernel_call, Nat.mul_one]
  have e1 : i * x.rs_c = x.rs_c * ic + (i - ic) * x.rs_c := by
    rw [Nat.mul_comm x.rs_c ic, ← Nat.add_mul]; congr 1; omega
  omega

/-- C6. For `beta = 0`, every `k >= 1` (one or several K-slices), positive block sizes, a
B that is not REORDERED and any micro-kernel that writes only its C tile, reads C only
inside its tile and does not read C at all when its `beta` argument is 0: the driver
returns, the final value of every element of C in the range of the thread is the same for
any two initial contents of C, and the first micro-kernel call that contains the element
is the one of the slice `pc = 0`, with `beta = 0`, all later ones having `pc > 0` and
`beta = 1`. -/
theorem beta_zero_ignores_initial_c (step : Event R L → (Nat → R) → (Nat → R))
    (hs : KernelReadsOwnTile step) (blk : BlockSizes) (nav : ReorderNav) (thr : ThreadInfo)
    (x : Args R L) (fuel : Nat) (hbeta : x.beta = 0) (hk : 1 ≤ x.k)
    (hB : x.mtag_b ≠ AOCL_MEMORY_TAG.REORDERED)
    (hNR : 0 < blk.NR) (hNC : 0 < blk.NC) (hMC : 0 < blk.MC) (hKC : 0 < blk.KC)
    (hfuel : thr.jc_end - thr.jc_start ≤ fuel ∧ thr.ic_end - thr.ic_start ≤ fuel
      ∧ x.k ≤ fuel) :
    ∃ evs, lpgemm_rowvar_f32f32f32of32 blk nav thr x fuel = some evs ∧
      (∀ (M1 M2 : Nat → R) i j, thr.ic_start ≤ i → i < thr.ic_end →
        thr.jc_start ≤ j → j < thr.jc_end →
          run_c step evs M1 (x.c + i * x.rs_c + j) = run_c step evs M2 (x.c + i * x.rs_c + j)) ∧
      (∀ i j, thr.ic_start ≤ i → i < thr.ic_end → thr.jc_start ≤ j → j < thr.jc_end →
        ∃ u0 rest, evs.filterMap (Event.update_of i j) = u0 :: rest ∧
          u0.pc = 0 ∧ u0.beta0 = 0 ∧ ∀ u ∈ rest, 0 < u.pc ∧ u.beta0 = 1) := by
  refine ⟨_, lpgemm_events_eq blk nav thr x fuel hB hNR hNC hMC hKC hfuel.1 hfuel.2.1
    hfuel.2.2, ?_, ?_⟩
  · intro M1 M2 i j hi1 hi2 hj1 hj2
    rw [run_c_append, run_c_append,
      run_c_other step hs _ (kernel_not_mem_release thr x _),
      run_c_other step hs _ (kernel_not_mem_release thr x _)]
    exact jc_blocks_agree step hs blk thr x hbeta hk hKC _ (fun _ => False) M1 M2
      (fun a ha => absurd ha id) _
      (Or.inr (exists_kernel_covering blk thr x hk hNR hNC hMC hKC i j ⟨hi1, hi2⟩ ⟨hj1, hj2⟩))
  · intro i j hi1 hi2 hj1 hj2
    rw [updates_driver blk thr x hNR hNC hMC, if_pos ⟨⟨hi1, hi2⟩, ⟨hj1, hj2⟩⟩,
      starts_of_lt hKC (by omega : 0 < x.k), List.map_cons]
    refine ⟨_, _, rfl, rfl, by simp [slice_update, hbeta], ?_⟩
    intro u hu
    obtain ⟨pc, hpc, rfl⟩ := List.mem_map.1 hu
    have h1 := (mem_starts hKC _ pc hpc).1
    have hne : ¬ pc = 0 := by omega
    exact ⟨by simp only [slice_update]; omega, by simp [slice_update, hne]⟩

omit [CommRing R] in
theorem apply_writes_indep (ws : List (Nat × R)) (M1 M2 : Nat → R) (a : Nat)
    (hmem : ∃ w ∈ ws, w.1 = a) : apply_writes ws M1 a = apply_writes ws M2 a := by
  induction ws generalizing M1 M2 with
  | nil => obtain ⟨w, hw, _⟩ := hmem; simp at hw
  | cons w ws ih =>
    show apply_writes ws (Function.update M1 w.1 w.2) a
      = apply_writes ws (Function.update M2 w.1 w.2) a
    by_cases hlater : ∃ w1 ∈ ws, w1.1 = a
    · exact ih _ _ hlater
    · have hw : w.1 = a := by
        obtain ⟨w1, hw1, hx⟩ := hmem
        rcases List.mem_cons.1 hw1 with h | h
        · rw [← h]; exact hx
        · exact absurd ⟨w1, h, hx⟩ hlater
      rw [apply_writes_not_mem ws _ a (fun w1 hw1 hx => hlater ⟨w1, hw1, hx⟩),
        apply_writes_not_mem ws _ a (fun w1 hw1 hx => hlater ⟨w1, hw1, hx⟩), ← hw,
        Function.update_same, Function.update_same]

theorem mem_kernel_writes (MR : Nat) (A B : Nat → R) (st : MemState R) (call : KernelCall R L)
    (a : Nat) : (∃ w ∈ kernel_writes MR A B st call, w.1 = a) ↔ in_tile call a := by
  simp only [kernel_writes, List.mem_flatMap, List.mem_map, List.mem_range, in_tile]
  constructor
  · rintro ⟨w, ⟨i, hi, j, hj, rfl⟩, rfl⟩
    exact ⟨i, hi, j, hj, rfl⟩
  · rintro ⟨i, hi, j, hj, rfl⟩
    exact ⟨_, ⟨i, hi, j, hj, rfl⟩, rfl⟩

/-- The micro-kernel of the contract writes only its tile, reads C only inside its tile,
and in exact arithmetic its result does not depend on C when `beta = 0`. -/
theorem contract_step_reads_own_tile (MR : Nat) (A B pack_a pack_b : Nat → R) :
    KernelReadsOwnTile (contract_step MR A B pack_a pack_b : Event R L → _) := by
  refine ⟨?_, ?_, ?_, ?_⟩
  · intro e M hne
    cases e with
    | kernel jc pc ic jr call => exact absurd rfl (hne jc pc ic jr call)
    | _ => rfl
  · intro jc pc ic jr call M a hin
    simp only [contract_step, exec_event]
    exact apply_writes_not_mem _ _ _
      (fun w hw hx => hin ((mem_kernel_writes MR A B _ call a).1 ⟨w, hw, hx⟩))
  · intro jc pc ic jr call M1 M2 hag a hin
    simp only [contract_step, exec_event]
    have hws : kernel_writes MR A B { C := M1, pack_a := pack_a, pack_b := pack_b } call
        = kernel_writes MR A B { C := M2, pack_a := pack_a, pack_b := pack_b } call := by
      unfold kernel_writes
      apply List.flatMap_congr
      intro i hi
      apply List.map_congr_left
      intro j hj
      simp only [hag _ ⟨i, List.mem_range.1 hi, j, List.mem_range.1 hj, rfl⟩]
    rw [hws]
    exact apply_writes_indep _ _ _ _ ((mem_kernel_writes MR A B _ call a).2 hin)
  · intro jc pc ic jr call M1 M2 h0 a hin
    simp only [contract_step, exec_event]
    have hws : kernel_writes MR A B { C := M1, pack_a := pack_a, pack_b := pack_b } call
        = kernel_writes MR A B { C := M2, pack_a := pack_a, pack_b := pack_b } call := by
      unfold kernel_writes
      simp only [h0, zero_mul]
    rw [hws]
    exact apply_writes_indep _ _ _ _ ((mem_kernel_writes MR A B _ call a).2 hin)

/-- For `M = 3, N = 5, K = 4`, `KC = 3` (two K-slices), `beta = 0` and the micro-kernel of
the contract, the element `(2, 4)` ends the same whether C starts filled with 7 or with 0. -/
theorem beta_zero_ignores_initial_c_witness :
    ∃ evs, lpgemm_rowvar_f32f32f32of32 blk_small nav_id (single_thread 3 5) args_3x5_beta0 5
        = some evs ∧
      run_c (contract_step 2 (fun a => (a : Int)) (fun a => (a : Int) + 1) (fun _ => 0)
          (fun _ => 0)) evs (fun _ => 7) 14
        = run_c (contract_step 2 (fun a => (a : Int)) (fun a => (a : Int) + 1) (fun _ => 0)
          (fun _ => 0)) evs (fun _ => 0) 14 := by
  obtain ⟨evs, h1, h2, _⟩ := beta_zero_ignores_initial_c
    (contract_step 2 (fun a => (a : Int)) (fun a => (a : Int) + 1) (fun _ => 0) (fun _ => 0))
    (contract_step_reads_own_tile 2 _ _ _ _) blk_small nav_id (single_thread 3 5)
    args_3x5_beta0 5 rfl (by decide) (by decide) (by decide) (by decide) (by decide)
    (by decide) ⟨by decide, by decide, by decide⟩
  exact ⟨evs, h1, h2 (fun _ => 7) (fun _ => 0) 2 4 (by decide) (by decide) (by decide)
    (by decide)⟩

end c6

end Lpgemm

namespace Lpgemm

/-! ## Thread-group shapes -/

section threads

variable {R L : Type}

theorem run_threads_elem (g : Nat → Nat → SliceUpdate R → R → R) (i j : Nat) :
    ∀ (E : List ((Nat × Nat) × Event R L)) (C : Nat → Nat → R),
      run_threads g E C i j
        = (E.filterMap (fun p => p.2.update_of i j)).foldl (fun v u => g i j u v) (C i j) := by
  intro E
  induction E with
  | nil => intro C; rfl
  | cons p E ih =>
    intro C
    show run_threads g E (elem_step g p.2 C) i j = _
    rw [ih, List.filterMap_cons]
    cases hu : p.2.update_of i j with
    | none => simp only [elem_step, hu]
    | some u => simp only [elem_step, hu, List.foldl_cons]

theorem filterMap_filter_of_none {α β : Type} (f : α → Option β) (q : α → Bool) :
    ∀ (l : List α), (∀ p ∈ l, q p = false → f p = none) →
      l.filterMap f = (l.filter q).filterMap f := by
  intro l
  induction l with
  | nil => intro _; rfl
  | cons a l ih =>
    intro h
    have ih2 := ih (fun p hp => h p (List.mem_cons_of_mem _ hp))
    cases hq : q a with
    | true =>
      rw [List.filter_cons_of_pos hq, List.filterMap_cons, List.filterMap_cons, ih2]
    | false =>
      rw [List.filter_cons_of_neg (by simp [hq]), List.filterMap_cons,
        h a (List.mem_cons_self _ _) hq, ih2]

end threads

section c10

variable {R L : Type} [One R]

/-- C10. Let the Work Partitioner give the `J` members of the jc group ranges that
partition `[0, n)` and the `I` members of the ic group ranges that partition `[0, m)`, for
any `J x I`.  With positive block sizes and a B that is not REORDERED:
every element of C is owned by exactly one thread `(tj, ti)`; every thread returns, and
the ordered list of K-slice updates `(pc, kc0, beta, is_first_k, is_last_k)` its calls
apply to an element it owns is the list the single-thread run applies to that element,
while it applies none to an element it does not own; hence, for a micro-kernel whose
result on an element does not depend on the tile shape and for every order in which the
events of the threads happen that keeps the program order of each thread, the final C is
the one of the single-thread run, whatever the thread-group shape. -/
theorem thread_shape_equivalence (blk : BlockSizes) (nav : ReorderNav) (x : Args R L)
    (fuel : Nat) (J I : Nat) (jcr icr : Nat → Nat × Nat) (th : Nat → Nat → ThreadInfo)
    (hth : ∀ tj ti, ((th tj ti).jc_start, (th tj ti).jc_end) = jcr tj ∧
      ((th tj ti).ic_start, (th tj ti).ic_end) = icr ti)
    (hJ : IsRangePartition jcr J x.n) (hI : IsRangePartition icr I x.m)
    (hB : x.mtag_b ≠ AOCL_MEMORY_TAG.REORDERED)
    (hNR : 0 < blk.NR) (hNC : 0 < blk.NC) (hMC : 0 < blk.MC) (hKC : 0 < blk.KC)
    (hfuel : x.m ≤ fuel ∧ x.n ≤ fuel ∧ x.k ≤ fuel) :
    (∀ i j, i < x.m → j < x.n →
      ∃ tj, tj < J ∧ ∃ ti, ti < I ∧ owns (th tj ti) i j ∧
        ∀ tj2 ti2, tj2 < J → ti2 < I → owns (th tj2 ti2) i j → tj2 = tj ∧ ti2 = ti) ∧
    ∃ evs1, lpgemm_rowvar_f32f32f32of32 blk nav (single_thread x.m x.n) x fuel = some evs1 ∧
      (∀ tj ti, tj < J → ti < I →
        ∃ evs, lpgemm_rowvar_f32f32f32of32 blk nav (th tj ti) x fuel = some evs ∧
          ∀ i j, evs.filterMap (Event.update_of i j)
            = if owns (th tj ti) i j then evs1.filterMap (Event.update_of i j) else []) ∧
      (∀ (g : Nat → Nat → SliceUpdate R → R → R) (E : List ((Nat × Nat) × Event R L))
          (C0 : Nat → Nat → R),
        (∀ p ∈ E, p.1.1 < J ∧ p.1.2 < I) →
        (∀ tj ti, tj < J → ti < I →
          lpgemm_rowvar_f32f32f32of32 blk nav (th tj ti) x fuel
            = some ((E.filter (fun p => decide (p.1 = (tj, ti)))).map Prod.snd)) →
        ∀ i j, i < x.m → j < x.n →
          run_threads g E C0 i j
            = run_threads g (evs1.map (fun e => ((0, 0), e))) C0 i j) := by
  -- the ranges of a thread
  have hjs : ∀ tj ti, (th tj ti).jc_start = (jcr tj).1 := fun tj ti =>
    congrArg Prod.fst (hth tj ti).1
  have hje : ∀ tj ti, (th tj ti).jc_end = (jcr tj).2 := fun tj ti =>
    congrArg Prod.snd (hth tj ti).1
  have his : ∀ tj ti, (th tj ti).ic_start = (icr ti).1 := fun tj ti =>
    congrArg Prod.fst (hth tj ti).2
  have hie : ∀ tj ti, (th tj ti).ic_end = (icr ti).2 := fun tj ti =>
    congrArg Prod.snd (hth tj ti).2
  -- every thread returns
  have hret : ∀ tj ti, tj < J → ti < I →
      lpgemm_rowvar_f32f32f32of32 blk nav (th tj ti) x fuel
        = some (loop_events blk (th tj ti) x ++
            release_events (th tj ti) x (loop_events blk (th tj ti) x)) := by
    intro tj ti htj hti
    have h1 := hJ.1 tj htj
    have h2 := hI.1 ti hti
    refine lpgemm_events_eq blk nav (th tj ti) x fuel hB hNR hNC hMC hKC ?_ ?_ hfuel.2.2
    · rw [hje tj ti]; omega
    · rw [hie tj ti]; omega
  have hret1 := lpgemm_events_eq blk nav (single_thread x.m x.n) x fuel hB hNR hNC hMC hKC
    (by simp only [single_thread]; omega) (by simp only [single_thread]; omega) hfuel.2.2
  -- the updates of the single-thread run
  have hupd1 : ∀ i j, i < x.m → j < x.n →
      (loop_events blk (single_thread x.m x.n) x ++
        release_events (single_thread x.m x.n) x
          (loop_events blk (single_thread x.m x.n) x)).filterMap (Event.update_of i j)
        = (starts 0 x.k blk.KC).map (slice_update blk x) := by
    intro i j hi hj
    rw [updates_driver blk _ x hNR hNC hMC,
      if_pos (⟨⟨Nat.zero_le _, hi⟩, ⟨Nat.zero_le _, hj⟩⟩ : _ ∧ _)]
  -- an element owned by a thread is an element of C
  have hown : ∀ tj ti i j, tj < J → ti < I → owns (th tj ti) i j → i < x.m ∧ j < x.n := by
    intro tj ti i j htj hti ho
    have h1 := hJ.1 tj htj
    have h2 := hI.1 ti hti
    unfold owns at ho
    rw [hje tj ti, hie tj ti] at ho
    omega
  have hupd : ∀ tj ti, tj < J → ti < I → ∀ i j,
      (loop_events blk (th tj ti) x ++
        release_events (th tj ti) x (loop_events blk (th tj ti) x)).filterMap
          (Event.update_of i j)
        = if owns (th tj ti) i j then
            (loop_events blk (single_thread x.m x.n) x ++
              release_events (single_thread x.m x.n) x
                (loop_events blk (single_thread x.m x.n) x)).filterMap (Event.update_of i j)
          else [] := by
    intro tj ti htj hti i j
    rw [updates_driver blk _ x hNR hNC hMC]
    by_cases ho : owns (th tj ti) i j
    · obtain ⟨hi, hj⟩ := hown tj ti i j htj hti ho
      rw [if_pos ho, hupd1 i j hi hj]
      exact if_pos ho
    · rw [if_neg ho]
      exact if_neg ho
  have hA : ∀ i j, i < x.m → j < x.n →
      ∃ tj, tj < J ∧ ∃ ti, ti < I ∧ owns (th tj ti) i j ∧
        ∀ tj2 ti2, tj2 < J → ti2 < I → owns (th tj2 ti2) i j → tj2 = tj ∧ ti2 = ti := by
    intro i j hi hj
    obtain ⟨tj, htj, hcj, huj⟩ := hJ.2 j hj
    obtain ⟨ti, hti, hci, hui⟩ := hI.2 i hi
    refine ⟨tj, htj, ti, hti, ?_, ?_⟩
    · unfold owns
      rw [hjs, hje, his, hie]
      exact ⟨hci, hcj⟩
    · intro tj2 ti2 htj2 hti2 ho
      unfold owns at ho
      rw [hjs, hje, his, hie] at ho
      exact ⟨huj tj2 htj2 ho.2, hui ti2 hti2 ho.1⟩
  refine ⟨hA, _, hret1, ?_, ?_⟩
  · intro tj ti htj hti
    exact ⟨_, hret tj ti htj hti, hupd tj ti htj hti⟩
  · intro g E C0 hbound hE i j hi hj
    rw [run_threads_elem, run_threads_elem]
    congr 1
    obtain ⟨tj, htj, ti, hti, ho, huniq⟩ := hA i j hi hj
    -- the events of the other threads do not update the element
    have hnone : ∀ p ∈ E, decide (p.1 = (tj, ti)) = false → p.2.update_of i j = none := by
      intro p hp hq
      obtain ⟨hb1, hb2⟩ := hbound p hp
      have htr := hE p.1.1 p.1.2 hb1 hb2
      rw [hret p.1.1 p.1.2 hb1 hb2] at htr
      have hmem : p.2 ∈ (E.filter (fun q => decide (q.1 = (p.1.1, p.1.2)))).map Prod.snd :=
        List.mem_map.2 ⟨p, List.mem_filter.2 ⟨hp, by simp⟩, rfl⟩
      rw [← Option.some.inj htr] at hmem
      have hnot : ¬ owns (th p.1.1 p.1.2) i j := by
        intro ho2
        obtain ⟨e1, e2⟩ := huniq p.1.1 p.1.2 hb1 hb2 ho2
        have : p.1 = (tj, ti) := Prod.ext e1 e2
        simp [this] at hq
      have hnil := hupd p.1.1 p.1.2 hb1 hb2 i j
      rw [if_neg hnot, List.filterMap_eq_nil_iff] at hnil
      exact hnil p.2 hmem
    rw [filterMap_filter_of_none (fun p => p.2.update_of i j)
      (fun p => decide (p.1 = (tj, ti))) E hnone]
    have h1 : (E.filter (fun p => decide (p.1 = (tj, ti)))).filterMap
        (fun p => p.2.update_of i j)
          = ((E.filter (fun p => decide (p.1 = (tj, ti)))).map Prod.snd).filterMap
              (Event.update_of i j) := by
      rw [List.filterMap_map]; rfl
    have h2 : (List.map (fun e => (((0 : Nat), (0 : Nat)), e))
        (loop_events blk (single_thread x.m x.n) x ++
          release_events (single_thread x.m x.n) x
            (loop_events blk (single_thread x.m x.n) x))).filterMap
        (fun p => p.2.update_of i j)
          = (loop_events blk (single_thread x.m x.n) x ++
              release_events (single_thread x.m x.n) x
                (loop_events blk (single_thread x.m x.n) x)).filterMap
              (Event.update_of i j) := by
      rw [List.filterMap_map]; rfl
    have htr := hE tj ti htj hti
    rw [hret tj ti htj hti] at htr
    rw [h1, h2, ← Option.some.inj htr, hupd tj ti htj hti i j, if_pos ho]

omit [One R] in
theorem filter_tag_map (t t2 : Nat × Nat) (l : List (Event R L)) :
    ((l.map (fun e => (t, e))).filter (fun p => decide (p.1 = t2))).map Prod.snd
      = if t = t2 then l else [] := by
  induction l with
  | nil => simp
  | cons e l ih =>
    by_cases h : t = t2
    · rw [if_pos h] at ih ⊢
      simp only [List.map_cons, List.filter_cons, h, decide_True, if_true]
      simp only [List.map_cons, h] at ih ⊢
      rw [ih]
    · rw [if_neg h] at ih ⊢
      simp only [List.map_cons, List.filter_cons, h, decide_False]
      simpa using ih

end c10

/-- For `M = 3, N = 5, K = 4`: a `2 x 1` thread group, whose two members own the columns
`[0, 2)` and `[2, 5)` and run one after the other, leaves in the element `(2, 4)` the
value the single thread leaves there. -/
theorem thread_shape_equivalence_witness :
    ∃ evs1 evsA evsB,
      lpgemm_rowvar_f32f32f32of32 blk_small nav_id (single_thread 3 5) args_3x5 5
        = some evs1 ∧
      lpgemm_rowvar_f32f32f32of32 blk_small nav_id (threads_2x1 0 0) args_3x5 5
        = some evsA ∧
      lpgemm_rowvar_f32f32f32of32 blk_small nav_id (threads_2x1 1 0) args_3x5 5
        = some evsB ∧
      run_threads elem_kernel_example
          (evsA.map (fun e => ((0, 0), e)) ++ evsB.map (fun e => ((1, 0), e)))
          (fun _ _ => 7) 2 4
        = run_threads elem_kernel_example (evs1.map (fun e => ((0, 0), e)))
            (fun _ _ => 7) 2 4 := by
  have hA := lpgemm_events_eq blk_small nav_id (threads_2x1 0 0) args_3x5 5 (by decide)
    (by decide) (by decide) (by decide) (by decide) (by decide) (by decide) (by decide)
  have hB := lpgemm_events_eq blk_small nav_id (threads_2x1 1 0) args_3x5 5 (by decide)
    (by decide) (by decide) (by decide) (by decide) (by decide) (by decide) (by decide)
  obtain ⟨_, evs1, h1, _, h3⟩ := thread_shape_equivalence blk_small nav_id args_3x5 5 2 1
    jc_ranges_2 (fun _ => (0, 3)) threads_2x1
    (by intro tj ti; by_cases h : tj = 0 <;> simp [threads_2x1, jc_ranges_2, h])
    (by unfold IsRangePartition; decide) (by unfold IsRangePartition; decide)
    (by decide) (by decide) (by decide) (by decide) (by decide)
    ⟨by decide, by decide, by decide⟩
  refine ⟨evs1, _, _, h1, hA, hB, ?_⟩
  refine h3 elem_kernel_example _ (fun _ _ => 7) ?_ ?_ 2 4 (by decide) (by decide)
  · intro p hp
    rcases List.mem_append.1 hp with h | h
    · obtain ⟨e, _, rfl⟩ := List.mem_map.1 h
      exact ⟨Nat.zero_lt_two, Nat.zero_lt_one⟩
    · obtain ⟨e, _, rfl⟩ := List.mem_map.1 h
      exact ⟨Nat.one_lt_two, Nat.zero_lt_one⟩
  · intro tj ti htj hti
    have hti0 : ti = 0 := by omega
    subst hti0
    rw [List.filter_append, List.map_append, filter_tag_map, filter_tag_map]
    have htj2 : tj = 0 ∨ tj = 1 := by omega
    rcases htj2 with rfl | rfl
    · rw [if_pos rfl, if_neg (by decide), List.append_nil]
      exact hA
    · rw [if_neg (by decide), if_pos rfl, List.nil_append]
      exact hB

end Lpgemm

namespace Haswell

/-! ## The edge-case dispatcher -/

section edge

variable {R : Type}

/-- The calls the `m` loop makes for one column chunk: they carry the column chunk, their
row chunks lie in `[r, r + m_left)`, add up to `m_left`, and every row of that range is
in exactly one of them. -/
theorem edge_m_loop_spec (x : SupArgs R) (j nr_cur bj s : Nat) :
    ∀ (rest : List Nat) (i m_left cij ai r : Nat) (calls : List (SubCall R)),
      edge_m_loop x j nr_cur bj s rest i m_left cij ai r = some calls →
        (∀ c ∈ calls, c.s = s ∧ c.n = nr_cur ∧ r ≤ c.r ∧ c.r + c.m ≤ r + m_left) ∧
        (calls.map (fun c => c.m)).sum = m_left ∧
        ∀ i1, r ≤ i1 → i1 < r + m_left →
          calls.countP (fun c => decide (c.r ≤ i1 ∧ i1 < c.r + c.m)) = 1 := by
  intro rest
  induction rest with
  | nil =>
    intro i m_left cij ai r calls h
    simp only [edge_m_loop] at h
    split at h
    · rename_i h0
      cases h
      subst h0
      refine ⟨by simp, by simp, ?_⟩
      intro i1 h1 h2
      omega
    · exact absurd h (by simp)
  | cons mr_cur rest ih =>
    intro i m_left cij ai r calls h
    simp only [edge_m_loop] at h
    split at h
    · rename_i h0
      cases h
      subst h0
      refine ⟨by simp, by simp, ?_⟩
      intro i1 h1 h2
      omega
    · split at h
      · rename_i hle
        split at h
        · exact absurd h (by simp)
        · rename_i ker hk
          rw [Option.map_eq_some'] at h
          obtain ⟨calls1, hrec, rfl⟩ := h
          obtain ⟨h1, h2, h3⟩ := ih _ _ _ _ _ _ hrec
          refine ⟨?_, ?_, ?_⟩
          · intro c hc
            rcases List.mem_cons.1 hc with rfl | hc
            · exact ⟨rfl, rfl, le_refl _, by simp only; omega⟩
            · obtain ⟨a1, a2, a3, a4⟩ := h1 c hc
              exact ⟨a1, a2, by omega, by omega⟩
          · simp only [List.map_cons, List.sum_cons, h2]
            omega
          · intro i1 hi1 hi2
            rw [List.countP_cons]
            by_cases hhead : i1 < r + mr_cur
            · have htail : calls1.countP (fun c => decide (c.r ≤ i1 ∧ i1 < c.r + c.m)) = 0 := by
                rw [List.countP_eq_zero]
                intro c hc
                have := (h1 c hc).2.2.1
                simp only [decide_eq_true_eq]
                omega
              rw [htail]
              simp only [decide_eq_true_eq]
              rw [if_pos ⟨hi1, hhead⟩]
            · rw [h3 i1 (by omega) (by omega)]
              simp only [decide_eq_true_eq]
              rw [if_neg (fun hh => hhead hh.2)]
      · exact ih _ _ _ _ _ _ h

/-- The column chunks of the `n` loop add up to `n_left` and lie in `[s, s + n_left)`; the
calls of each column chunk carry it and have row chunks that add up to `m0`; and every
element of `[0, m0) x [s, s + n_left)` is in the rectangle of exactly one call. -/
theorem edge_n_loop_spec (x : SupArgs R) :
    ∀ (rest : List Nat) (j n_left cj bj s : Nat) (cols : List (Nat × Nat × List (SubCall R))),
      edge_n_loop x rest j n_left cj bj s = some cols →
        (cols.map (fun col => col.2.1)).sum = n_left ∧
        (∀ col ∈ cols, s ≤ col.1 ∧ col.1 + col.2.1 ≤ s + n_left ∧
          (col.2.2.map (fun c => c.m)).sum = x.m0 ∧
          ∀ c ∈ col.2.2, c.s = col.1 ∧ c.n = col.2.1 ∧ c.r + c.m ≤ x.m0) ∧
        ∀ i1 j1, i1 < x.m0 → s ≤ j1 → j1 < s + n_left →
          (cols.flatMap (fun col => col.2.2)).countP (SubCall.covers i1 j1) = 1 := by
  intro rest
  induction rest with
  | nil =>
    intro j n_left cj bj s cols h
    simp only [edge_n_loop] at h
    split at h
    · rename_i h0
      cases h
      subst h0
      refine ⟨by simp, by simp, ?_⟩
      intro i1 j1 _ h1 h2
      omega
    · exact absurd h (by simp)
  | cons nr_cur rest ih =>
    intro j n_left cj bj s cols h
    simp only [edge_n_loop] at h
    split at h
    · rename_i h0
      cases h
      subst h0
      refine ⟨by simp, by simp, ?_⟩
      intro i1 j1 _ h1 h2
      omega
    · split at h
      · rename_i hle
        split at h
        · exact absurd h (by simp)
        · rename_i calls hcalls
          rw [Option.map_eq_some'] at h
          obtain ⟨cols1, hrec, rfl⟩ := h
          obtain ⟨h1, h2, h3⟩ := ih _ _ _ _ _ _ hrec
          obtain ⟨m1, m2, m3⟩ := edge_m_loop_spec x j nr_cur bj s _ _ _ _ _ _ _ hcalls
          refine ⟨?_, ?_, ?_⟩
          · simp only [List.map_cons, List.sum_cons, h1]
            omega
          · intro col hcol
            rcases List.mem_cons.1 hcol with rfl | hcol
            · refine ⟨le_refl _, by simp only; omega, m2, ?_⟩
              intro c hc
              obtain ⟨a1, a2, _, a4⟩ := m1 c hc
              exact ⟨a1, a2, by omega⟩
            · obtain ⟨a1, a2, a3, a4⟩ := h2 col hcol
              exact ⟨by omega, by omega, a3, a4⟩
          · intro i1 j1 hi1 hj1 hj2
            rw [List.flatMap_cons, List.countP_append]
            by_cases hhead : j1 < s + nr_cur
            · have htail : (cols1.flatMap (fun col => col.2.2)).countP
                  (SubCall.covers i1 j1) = 0 := by
                rw [List.countP_eq_zero]
                intro c hc
                obtain ⟨col, hcol, hc2⟩ := List.mem_flatMap.1 hc
                obtain ⟨a1, _, _, a4⟩ := h2 col hcol
                have := (a4 c hc2).1
                simp only [SubCall.covers, decide_eq_true_eq]
                omega
              have hhd : calls.countP (SubCall.covers i1 j1)
                  = calls.countP (fun c => decide (c.r ≤ i1 ∧ i1 < c.r + c.m)) := by
                apply List.countP_congr
                intro c hc
                obtain ⟨a1, a2, _, _⟩ := m1 c hc
                simp only [SubCall.covers, decide_eq_true_eq, a1, a2]
                constructor
                · exact fun hh => hh.1
                · exact fun hh => ⟨hh, hj1, hhead⟩
              rw [htail, hhd, m3 i1 (Nat.zero_le _) (by omega)]
            · have hhd : calls.countP (SubCall.covers i1 j1) = 0 := by
                rw [List.countP_eq_zero]
                intro c hc
                obtain ⟨a1, a2, _, _⟩ := m1 c hc
                simp only [SubCall.covers, decide_eq_true_eq, a1, a2]
                omega
              rw [hhd, h3 i1 j1 hi1 (by omega) (by omega)]
      · exact ih _ _ _ _ _ _ h

/-- For `0 < m0 <= 6` and `0 < n0 <= 16` the edge path reads no array out of bounds. -/
theorem edge_cols_isSome (x : SupArgs R) (hm : 0 < x.m0) (hm6 : x.m0 ≤ 6) (hn : 0 < x.n0)
    (hn16 : x.n0 ≤ 16) : ∃ cols, edge_cols x = some cols := by
  obtain ⟨conja, conjb, m0, n0, k0, alpha, a, rs_a0, cs_a0, b, rs_b0, cs_b0, beta, c, rs_c0,
    cs_c0, data, cntx⟩ := x
  simp only at hm hm6 hn hn16
  interval_cases m0 <;> interval_cases n0 <;> exact ⟨_, rfl⟩

end edge

section c3

variable {R : Type} [CommRing R] [DecidableEq R]

/-- C3. For every `0 < m0 <= 6`, `0 < n0 <= 16` with `m0 < 6` or `n0 < 16`,
`bli_sgemmsup_rv_haswell_asm_6x16` takes its edge path, which reads no array out of bounds
and makes sub-kernel calls whose rectangles `[r, r + mr_cur) x [s, s + nr_cur)` partition
`[0, m0) x [0, n0)`: every element is in exactly one rectangle, every rectangle lies in
the tile, the widths of the column chunks add up to `n0`, and for each column chunk the
heights of the row chunks add up to `m0`. -/
theorem edge_tile_partition (x : SupArgs R) (A B C : Nat → R) (hm : 0 < x.m0)
    (hm6 : x.m0 ≤ 6) (hn : 0 < x.n0) (hn16 : x.n0 ≤ 16) (hedge : x.m0 < 6 ∨ x.n0 < 16) :
    ∃ cols : List (Nat × Nat × List (SubCall R)),
      edge_cols x = some cols ∧
      bli_sgemmsup_rv_haswell_asm_6x16 x A B C
        = Outcome.edge (some (cols.flatMap (fun col => col.2.2))) ∧
      (∀ i j, i < x.m0 → j < x.n0 →
        (cols.flatMap (fun col => col.2.2)).countP (SubCall.covers i j) = 1) ∧
      (∀ c ∈ cols.flatMap (fun col => col.2.2), c.r + c.m ≤ x.m0 ∧ c.s + c.n ≤ x.n0) ∧
      (cols.map (fun col => col.2.1)).sum = x.n0 ∧
      (∀ col ∈ cols, (col.2.2.map (fun c => c.m)).sum = x.m0 ∧
        ∀ c ∈ col.2.2, c.s = col.1 ∧ c.n = col.2.1) := by
  obtain ⟨cols, hcols⟩ := edge_cols_isSome x hm hm6 hn hn16
  obtain ⟨h1, h2, h3⟩ := edge_n_loop_spec x _ _ _ _ _ _ _ hcols
  refine ⟨cols, hcols, ?_, ?_, ?_, h1, ?_⟩
  · simp only [bli_sgemmsup_rv_haswell_asm_6x16, if_pos hedge, edge_path, hcols, Option.map_some']
  · intro i j hi hj
    exact h3 i j hi (Nat.zero_le _) (by omega)
  · intro c hc
    obtain ⟨col, hcol, hc2⟩ := List.mem_flatMap.1 hc
    obtain ⟨_, a2, _, a4⟩ := h2 col hcol
    obtain ⟨b1, b2, b3⟩ := a4 c hc2
    exact ⟨b3, by omega⟩
  · intro col hcol
    obtain ⟨_, _, a3, a4⟩ := h2 col hcol
    exact ⟨a3, fun c hc => ⟨(a4 c hc).1, (a4 c hc).2.1⟩⟩

/-- For `m0 = 5`, `n0 = 15` the edge path makes the six calls `4x12, 1x12, 4x2, 1x2, 4x1,
1x1`, and the element `(4, 13)` is in exactly one of their rectangles. -/
theorem edge_tile_partition_witness :
    ∃ calls : List (SubCall Int),
      bli_sgemmsup_rv_haswell_asm_6x16 args_5x15 (fun _ => 1) (fun _ => 1) (fun _ => 0)
        = Outcome.edge (some calls) ∧
      calls.map (fun c => (c.m, c.n)) = [(4, 12), (1, 12), (4, 2), (1, 2), (4, 1), (1, 1)] ∧
      calls.countP (SubCall.covers 4 13) = 1 := by
  obtain ⟨cols, h1, h2, h3, _⟩ := edge_tile_partition args_5x15 (fun _ => 1) (fun _ => 1)
    (fun _ => 0) (by decide) (by decide) (by decide) (by decide) (Or.inl (by decide))
  refine ⟨_, h2, ?_, h3 4 13 (by decide) (by decide)⟩
  have hc : edge_cols args_5x15 = some _ := rfl
  rw [hc] at h1
  rw [← Option.some.inj h1]
  rfl

end c3

end Haswell

namespace Haswell

/-! ## The assembly body: accumulation -/

section accumulate

variable {R : Type} [CommRing R]

theorem dot_upto_succ (x : SupArgs R) (A B : Nat → R) (i j t : Nat) :
    dot_upto x A B i j (t + 1)
      = A (x.a + i * x.rs_a0 + t * x.cs_a0) * B (x.b + t * x.rs_b0 + j)
        + dot_upto x A B i j t := by
  unfold dot_upto
  rw [Lpgemm.sum_upto_add]
  simp [Lpgemm.sum_upto, List.range_succ, add_comm]

/-- One rank-1 update adds the products of the next value of `k`. -/
theorem rank1_update_spec (x : SupArgs R) (A B : Nat → R) (t : Nat) (s : Acc R)
    (h : AccIs x A B t s) :
    AccIs x A B (t + 1)
      (rank1_update A B x.rs_a0 x.cs_a0 x.rs_b0 (x.rs_a0 + x.rs_a0 * 2)
        (x.rs_a0 + x.rs_a0 * 4) s) := by
  have ea : ∀ i off, off = i * x.rs_a0 →
      A (s.rax + off) = A (x.a + i * x.rs_a0 + t * x.cs_a0) := by
    intro i off ho
    rw [h.rax, ho]
    congr 1
    omega
  have eb0 : ∀ q, B (s.rbx + 0 + q) = B (x.b + t * x.rs_b0 + q) := by
    intro q
    rw [h.rbx, Nat.add_zero]
  have eb8 : ∀ q, B (s.rbx + 8 + q) = B (x.b + t * x.rs_b0 + (8 + q)) := by
    intro q
    rw [h.rbx]
    congr 1
    omega
  have ea0 : A s.rax = A (x.a + 0 * x.rs_a0 + t * x.cs_a0) := by
    rw [h.rax]; congr 1; omega
  constructor
  · simp only [rank1_update, h.rax]; rw [Nat.add_mul]; omega
  · simp only [rank1_update, h.rbx]; rw [Nat.add_mul]; omega
  all_goals
    intro q
    rw [dot_upto_succ]
    simp only [rank1_update, vfmadd231ps, vbroadcastss, vmovups_load]
  · rw [h.ymm4 q, ea0, eb0 q]
  · rw [h.ymm5 q, ea0, eb8 q]
  · rw [h.ymm6 q, ea 1 (x.rs_a0 * 1) (by omega), eb0 q]
  · rw [h.ymm7 q, ea 1 (x.rs_a0 * 1) (by omega), eb8 q]
  · rw [h.ymm8 q, ea 2 (x.rs_a0 * 2) (by omega), eb0 q]
  · rw [h.ymm9 q, ea 2 (x.rs_a0 * 2) (by omega), eb8 q]
  · rw [h.ymm10 q, ea 3 ((x.rs_a0 + x.rs_a0 * 2) * 1) (by omega), eb0 q]
  · rw [h.ymm11 q, ea 3 ((x.rs_a0 + x.rs_a0 * 2) * 1) (by omega), eb8 q]
  · rw [h.ymm12 q, ea 4 (x.rs_a0 * 4) (by omega), eb0 q]
  · rw [h.ymm13 q, ea 4 (x.rs_a0 * 4) (by omega), eb8 q]
  · rw [h.ymm14 q, ea 5 ((x.rs_a0 + x.rs_a0 * 4) * 1) (by omega), eb0 q]
  · rw [h.ymm15 q, ea 5 ((x.rs_a0 + x.rs_a0 * 4) * 1) (by omega), eb8 q]

theorem dec_jne_loop_spec (x : SupArgs R) (A B : Nat → R) (body : Acc R → Acc R)
    (step : Nat) (hbody : ∀ t s, AccIs x A B t s → AccIs x A B (t + step) (body s)) :
    ∀ (n t : Nat) (s : Acc R), AccIs x A B t s →
      AccIs x A B (t + n * step) (dec_jne_loop body n s) := by
  intro n
  induction n with
  | zero =>
    intro t s h
    simpa [dec_jne_loop] using h
  | succ n ih =>
    intro t s h
    have h2 := ih (t + step) (body s) (hbody t s h)
    have e : t + step + n * step = t + (n + 1) * step := by
      rw [Nat.add_mul, Nat.one_mul]; omega
    rw [e] at h2
    exact h2

/-- After the main loop and the cleanup loop the accumulators hold the inner products
over all `k0` values of `k`. -/
theorem accumulate_spec (x : SupArgs R) (A B : Nat → R) :
    AccIs x A B x.k0 (accumulate x A B) := by
  obtain ⟨s0, hs0⟩ : ∃ s0 : Acc R, s0 =
      { ymm4 := fun _ => 0, ymm5 := fun _ => 0, ymm6 := fun _ => 0, ymm7 := fun _ => 0,
        ymm8 := fun _ => 0, ymm9 := fun _ => 0, ymm10 := fun _ => 0, ymm11 := fun _ => 0,
        ymm12 := fun _ => 0, ymm13 := fun _ => 0, ymm14 := fun _ => 0, ymm15 := fun _ => 0,
        rax := x.a, rbx := x.b } := ⟨_, rfl⟩
  have h0 : AccIs x A B 0 s0 := by
    rw [hs0]
    constructor <;> simp [dot_upto, Lpgemm.sum_upto]
  have hiter : ∀ t s, AccIs x A B t s → AccIs x A B (t + 4)
      (sloopkiter_body A B x.rs_a0 x.cs_a0 x.rs_b0 (x.rs_a0 + x.rs_a0 * 2)
        (x.rs_a0 + x.rs_a0 * 4) s) := by
    intro t s h
    exact rank1_update_spec x A B (t + 3) _ (rank1_update_spec x A B (t + 2) _
      (rank1_update_spec x A B (t + 1) _ (rank1_update_spec x A B t s h)))
  have h1 : AccIs x A B (x.k0 / 4 * 4)
      (if x.k0 / 4 = 0 then s0
      else dec_jne_loop (sloopkiter_body A B x.rs_a0 x.cs_a0 x.rs_b0
        (x.rs_a0 + x.rs_a0 * 2) (x.rs_a0 + x.rs_a0 * 4)) (x.k0 / 4) s0) := by
    split
    · rename_i hz
      rw [hz]
      exact h0
    · have := dec_jne_loop_spec x A B _ 4 hiter (x.k0 / 4) 0 _ h0
      rwa [Nat.zero_add] at this
  have hk : x.k0 = x.k0 / 4 * 4 + x.k0 % 4 := by omega
  have hacc : accumulate x A B =
      if x.k0 % 4 = 0 then
        (if x.k0 / 4 = 0 then s0
         else dec_jne_loop (sloopkiter_body A B x.rs_a0 x.cs_a0 x.rs_b0
           (x.rs_a0 + x.rs_a0 * 2) (x.rs_a0 + x.rs_a0 * 4)) (x.k0 / 4) s0)
      else dec_jne_loop (rank1_update A B x.rs_a0 x.cs_a0 x.rs_b0
           (x.rs_a0 + x.rs_a0 * 2) (x.rs_a0 + x.rs_a0 * 4)) (x.k0 % 4)
        (if x.k0 / 4 = 0 then s0
         else dec_jne_loop (sloopkiter_body A B x.rs_a0 x.cs_a0 x.rs_b0
           (x.rs_a0 + x.rs_a0 * 2) (x.rs_a0 + x.rs_a0 * 4)) (x.k0 / 4) s0) := by
    rw [hs0]
    rfl
  rw [hacc]
  split
  · rename_i hz
    have e : x.k0 = x.k0 / 4 * 4 := by omega
    rw [e]
    have e2 : x.k0 / 4 * 4 / 4 = x.k0 / 4 := by omega
    rw [e2]
    exact h1
  · have := dec_jne_loop_spec x A B _ 1
      (fun t s h => rank1_update_spec x A B t s h) (x.k0 % 4) _ _ h1
    rw [Nat.mul_one, ← hk] at this
    exact this

theorem lane_of_AccIs (x : SupArgs R) (A B : Nat → R) (t : Nat) (s : Acc R)
    (h : AccIs x A B t s) (i j : Nat) (hi : i < 6) :
    s.lane i j = dot_upto x A B i j t := by
  have e : ∀ j, ¬ j < 8 → 8 + (j - 8) = j := by intro j hj; omega
  interval_cases i <;> simp only [Acc.lane] <;> split <;> rename_i h8
  all_goals first
    | exact h.ymm4 j
    | exact h.ymm6 j
    | exact h.ymm8 j
    | exact h.ymm10 j
    | exact h.ymm12 j
    | exact h.ymm14 j
    | (rw [h.ymm5, e j h8])
    | (rw [h.ymm7, e j h8])
    | (rw [h.ymm9, e j h8])
    | (rw [h.ymm11, e j h8])
    | (rw [h.ymm13, e j h8])
    | (rw [h.ymm15, e j h8])

omit [CommRing R] in
theorem vmovups_store8_apply (M : Nat → R) (p : Nat) (v : Vec R) (a : Nat) :
    vmovups_store8 M p v a = if p ≤ a ∧ a < p + 8 then v (a - p) else M a := rfl

theorem lane_scale (alpha : R) (s : Acc R) (i j : Nat) :
    (s.scale alpha).lane i j = alpha * s.lane i j := by
  unfold Acc.lane Acc.scale vmulps
  split <;> split <;> simp only [mul_comm]

omit [CommRing R] in
/-- The tile after `.SROWSTORBZ`: every element holds its accumulator lane. -/
theorem srowstorbz_apply (C : Nat → R) (rcx rdi : Nat) (s : Acc R) (hrdi : 16 ≤ rdi)
    (i j : Nat) (hi : i < 6) (hj : j < 16) :
    srowstorbz C rcx rdi s (rcx + i * rdi + j) = s.lane i j := by
  simp only [srowstorbz, vmovups_store8_apply]
  interval_cases i <;> by_cases h8 : j < 8 <;>
    simp (disch := omega) only [if_pos, if_neg, Acc.lane] <;> congr 1 <;> omega

theorem srowstored_row_apply (C : Nat → R) (rcx : Nat) (beta : R) (ya yb : Vec R)
    (a : Nat) :
    srowstored_row C rcx (fun _ => beta) ya yb a =
      if rcx ≤ a ∧ a < rcx + 8 then beta * C a + ya (a - rcx)
      else if rcx + 8 ≤ a ∧ a < rcx + 16 then beta * C a + yb (a - (rcx + 8))
      else C a := by
  simp only [srowstored_row, vmovups_store8_apply, vfmadd231ps, vmovups_load]
  by_cases h1 : rcx ≤ a ∧ a < rcx + 8
  · simp (disch := omega) only [if_pos, if_neg]
    congr 3
    omega
  · by_cases h2 : rcx + 8 ≤ a ∧ a < rcx + 16
    · simp (disch := omega) only [if_pos, if_neg]
      congr 3
      omega
    · simp (disch := omega) only [if_pos, if_neg]

theorem srowstored_row_lo (C : Nat → R) (rcx : Nat) (beta : R) (ya yb : Vec R)
    (a : Nat) (h : rcx ≤ a ∧ a < rcx + 8) :
    srowstored_row C rcx (fun _ => beta) ya yb a = beta * C a + ya (a - rcx) := by
  rw [srowstored_row_apply, if_pos h]

theorem srowstored_row_hi (C : Nat → R) (rcx : Nat) (beta : R) (ya yb : Vec R)
    (a : Nat) (h : rcx + 8 ≤ a ∧ a < rcx + 16) :
    srowstored_row C rcx (fun _ => beta) ya yb a = beta * C a + yb (a - (rcx + 8)) := by
  rw [srowstored_row_apply, if_neg (by omega), if_pos h]

theorem srowstored_row_miss (C : Nat → R) (rcx : Nat) (beta : R) (ya yb : Vec R)
    (a : Nat) (h : a < rcx ∨ rcx + 16 ≤ a) :
    srowstored_row C rcx (fun _ => beta) ya yb a = C a := by
  rw [srowstored_row_apply, if_neg (by omega), if_neg (by omega)]

/-- The tile after `.SROWSTORED`: every element holds `beta` times its previous value
plus its accumulator lane. -/
theorem srowstored_apply (C : Nat → R) (rcx rdi : Nat) (beta : R) (s : Acc R)
    (hrdi : 16 ≤ rdi) (i j : Nat) (hi : i < 6) (hj : j < 16) :
    srowstored C rcx rdi (fun _ => beta) s (rcx + i * rdi + j)
      = beta * C (rcx + i * rdi + j) + s.lane i j := by
  simp only [srowstored]
  interval_cases i <;> by_cases h8 : j < 8 <;>
    simp (disch := omega) only [srowstored_row_lo, srowstored_row_hi, srowstored_row_miss,
      if_pos, if_neg, Acc.lane] <;> congr 2 <;> omega

end accumulate

/-! ## The column-stored tile -/

section colstore

variable {R : Type} [Zero R]

omit [Zero R] in
/-- A four-lane store at the top of column `c` of a column-stored tile (`6 <= cs_c`),
seen from the element `(row, col)`. -/
theorem store4_coord {rsi row : Nat} (h6 : 6 ≤ rsi) (hrow : row < 6) (M : Nat → R)
    (rcx c col : Nat) (v : Vec R) :
    vmovups_store4 M (rcx + c * rsi) v (rcx + col * rsi + row)
      = if col = c ∧ row < 4 then v row else M (rcx + col * rsi + row) := by
  simp only [vmovups_store4]
  rcases Nat.lt_trichotomy col c with h | h | h
  · have h1 : (col + 1) * rsi ≤ c * rsi := Nat.mul_le_mul_right _ h
    rw [Nat.add_mul, Nat.one_mul] at h1
    rw [if_neg (by omega), if_neg (by omega)]
  · subst h
    by_cases hr : row < 4
    · rw [if_pos (by omega), if_pos ⟨rfl, hr⟩]
      congr 1
      omega
    · rw [if_neg (by omega), if_neg (by omega)]
  · have h1 : (c + 1) * rsi ≤ col * rsi := Nat.mul_le_mul_right _ h
    rw [Nat.add_mul, Nat.one_mul] at h1
    rw [if_neg (by omega), if_neg (by omega)]

omit [Zero R] in
/-- A store of the lanes 0-1 at the rows 4-5 of column `c`. -/
theorem storelo_coord {rsi row : Nat} (h6 : 6 ≤ rsi) (hrow : row < 6) (M : Nat → R)
    (rcx c col : Nat) (v : Vec R) :
    vmovlpd_store M (rcx + c * rsi + 4) v (rcx + col * rsi + row)
      = if col = c ∧ 4 ≤ row then v (row - 4) else M (rcx + col * rsi + row) := by
  simp only [vmovlpd_store]
  rcases Nat.lt_trichotomy col c with h | h | h
  · have h1 : (col + 1) * rsi ≤ c * rsi := Nat.mul_le_mul_right _ h
    rw [Nat.add_mul, Nat.one_mul] at h1
    rw [if_neg (by omega), if_neg (by omega)]
  · subst h
    by_cases hr : 4 ≤ row
    · rw [if_pos (by omega), if_pos ⟨rfl, hr⟩]
      congr 1
      omega
    · rw [if_neg (by omega), if_neg (by omega)]
  · have h1 : (c + 1) * rsi ≤ col * rsi := Nat.mul_le_mul_right _ h
    rw [Nat.add_mul, Nat.one_mul] at h1
    rw [if_neg (by omega), if_neg (by omega)]

omit [Zero R] in
/-- A store of the lanes 2-3 at the rows 4-5 of column `c`. -/
theorem storehi_coord {rsi row : Nat} (h6 : 6 ≤ rsi) (hrow : row < 6) (M : Nat → R)
    (rcx c col : Nat) (v : Vec R) :
    vmovhpd_store M (rcx + c * rsi + 4) v (rcx + col * rsi + row)
      = if col = c ∧ 4 ≤ row then v (row - 4 + 2) else M (rcx + col * rsi + row) := by
  simp only [vmovhpd_store]
  rcases Nat.lt_trichotomy col c with h | h | h
  · have h1 : (col + 1) * rsi ≤ c * rsi := Nat.mul_le_mul_right _ h
    rw [Nat.add_mul, Nat.one_mul] at h1
    rw [if_neg (by omega), if_neg (by omega)]
  · subst h
    by_cases hr : 4 ≤ row
    · rw [if_pos (by omega), if_pos ⟨rfl, hr⟩]
      congr 1
      omega
    · rw [if_neg (by omega), if_neg (by omega)]
  · have h1 : (c + 1) * rsi ≤ col * rsi := Nat.mul_le_mul_right _ h
    rw [Nat.add_mul, Nat.one_mul] at h1
    rw [if_neg (by omega), if_neg (by omega)]

/-- The transposition of `.SCOLSTORBZ` for the rows 0-3 of the eight columns that start
at column `c0`: the element `(row, col)` receives lane `col - c0` of the register of its
row. -/
theorem rows03_coord {rsi row : Nat} (h6 : 6 ≤ rsi) (hrow : row < 6) (C : Nat → R)
    (rcx c0 col base a : Nat) (hb : base = rcx + c0 * rsi) (ha : a = rcx + col * rsi + row)
    (y0 y1 y2 y3 : Vec R) :
    scolstorbz_rows03 C base rsi (rsi + rsi * 2) (rsi + rsi * 4)
        (rsi + rsi * 2 + rsi * 4) y0 y1 y2 y3 a
      = if c0 ≤ col ∧ col < c0 + 8 ∧ row < 4 then
          (if row = 0 then y0 else if row = 1 then y1 else if row = 2 then y2 else y3)
            (col - c0)
        else C a := by
  subst hb ha
  have e0 : rcx + c0 * rsi = rcx + (c0 + 0) * rsi := rfl
  have e1 : rcx + c0 * rsi + rsi * 1 = rcx + (c0 + 1) * rsi := by ring
  have e2 : rcx + c0 * rsi + rsi * 2 = rcx + (c0 + 2) * rsi := by ring
  have e3 : rcx + c0 * rsi + (rsi + rsi * 2) * 1 = rcx + (c0 + 3) * rsi := by ring
  have e4 : rcx + c0 * rsi + rsi * 4 = rcx + (c0 + 4) * rsi := by ring
  have e5 : rcx + c0 * rsi + (rsi + rsi * 4) * 1 = rcx + (c0 + 5) * rsi := by ring
  have e6 : rcx + c0 * rsi + (rsi + rsi * 2) * 2 = rcx + (c0 + 6) * rsi := by ring
  have e7 : rcx + c0 * rsi + (rsi + rsi * 2 + rsi * 4) * 1 = rcx + (c0 + 7) * rsi := by
    ring
  simp only [scolstorbz_rows03, e1, e2, e3, e4, e5, e6, e7]
  rw [e0]
  simp only [store4_coord h6 hrow]
  by_cases hmem : c0 ≤ col ∧ col < c0 + 8 ∧ row < 4
  · obtain ⟨k, rfl⟩ := Nat.exists_eq_add_of_le hmem.1
    have hk : k < 8 := by omega
    have hr := hmem.2.2
    rw [if_pos hmem, Nat.add_sub_cancel_left]
    interval_cases k <;> interval_cases row <;>
      simp +decide [vextractf128_1, vblendps, vshufps, vunpcklps, vunpckhps]
  · rw [if_neg hmem]
    simp (disch := omega) only [if_neg]

/-- The transposition of `.SCOLSTORBZ` for the rows 4-5 of the eight columns that start
at column `c0`. -/
theorem rows45_coord {rsi row : Nat} (h6 : 6 ≤ rsi) (hrow : row < 6) (C : Nat → R)
    (rcx c0 col base a : Nat) (hb : base = rcx + c0 * rsi + 4)
    (ha : a = rcx + col * rsi + row) (y4 y5 : Vec R) :
    scolstorbz_rows45 C base rsi (rsi + rsi * 2) (rsi + rsi * 4)
        (rsi + rsi * 2 + rsi * 4) y4 y5 a
      = if c0 ≤ col ∧ col < c0 + 8 ∧ 4 ≤ row then
          (if row = 4 then y4 else y5) (col - c0)
        else C a := by
  subst hb ha
  have e0 : rcx + c0 * rsi + 4 = rcx + (c0 + 0) * rsi + 4 := rfl
  have e1 : rcx + c0 * rsi + 4 + rsi * 1 = rcx + (c0 + 1) * rsi + 4 := by ring
  have e2 : rcx + c0 * rsi + 4 + rsi * 2 = rcx + (c0 + 2) * rsi + 4 := by ring
  have e3 : rcx + c0 * rsi + 4 + (rsi + rsi * 2) * 1 = rcx + (c0 + 3) * rsi + 4 := by ring
  have e4 : rcx + c0 * rsi + 4 + rsi * 4 = rcx + (c0 + 4) * rsi + 4 := by ring
  have e5 : rcx + c0 * rsi + 4 + (rsi + rsi * 4) * 1 = rcx + (c0 + 5) * rsi + 4 := by ring
  have e6 : rcx + c0 * rsi + 4 + (rsi + rsi * 2) * 2 = rcx + (c0 + 6) * rsi + 4 := by ring
  have e7 : rcx + c0 * rsi + 4 + (rsi + rsi * 2 + rsi * 4) * 1
      = rcx + (c0 + 7) * rsi + 4 := by ring
  simp only [scolstorbz_rows45, e1, e2, e3, e4, e5, e6, e7]
  rw [e0]
  simp only [storelo_coord h6 hrow, storehi_coord h6 hrow]
  by_cases hmem : c0 ≤ col ∧ col < c0 + 8 ∧ 4 ≤ row
  · obtain ⟨k, rfl⟩ := Nat.exists_eq_add_of_le hmem.1
    have hk : k < 8 := by omega
    have hr := hmem.2.2
    rw [if_pos hmem, Nat.add_sub_cancel_left]
    interval_cases k <;> interval_cases row <;>
      simp +decide [vextractf128_1, vunpcklps, vunpckhps]
  · rw [if_neg hmem]
    simp (disch := omega) only [if_neg]

/-- The tile after `.SCOLSTORBZ` on a column-stored C (`rs_c = 1`, `6 <= cs_c`): every
element holds its accumulator lane. -/
theorem scolstorbz_apply (C : Nat → R) (rcx rsi : Nat) (s : Acc R) (h6 : 6 ≤ rsi)
    (i j : Nat) (hi : i < 6) (hj : j < 16) :
    scolstorbz C rcx (rcx + 4) rsi (rsi + rsi * 2) (rsi + rsi * 4)
        (rsi + rsi * 2 + rsi * 4) s (rcx + j * rsi + i) = s.lane i j := by
  simp only [scolstorbz]
  rw [rows45_coord h6 hi _ rcx 8 j (rcx + 4 + rsi * 8) _ (by omega) rfl,
    rows03_coord h6 hi _ rcx 8 j (rcx + rsi * 8) _ (by omega) rfl,
    rows45_coord h6 hi _ rcx 0 j (rcx + 4) _ (by omega) rfl,
    rows03_coord h6 hi _ rcx 0 j rcx _ (by omega) rfl]
  by_cases hj8 : j < 8 <;> by_cases hi4 : i < 4 <;>
    simp (disch := omega) only [if_pos, if_neg, Nat.sub_zero] <;>
    interval_cases i <;> simp [Acc.lane, hj8]

end colstore

end Haswell

namespace Haswell

/-! ## The full 6x16 tile -/

section fulltile

variable {R : Type} [CommRing R] [DecidableEq R]

/-- The code after the loops over `k`: the accumulators are scaled by `alpha` and stored
by one of the four store paths. -/
theorem spostaccum_eq (x : SupArgs R) (C : Nat → R) (s : Acc R) :
    spostaccum x C s =
      if x.beta = 0 then
        (if x.rs_c0 = 1 then
          scolstorbz C x.c (x.c + x.rs_c0 * 4) x.cs_c0 (x.cs_c0 + x.cs_c0 * 2)
            (x.cs_c0 + x.cs_c0 * 4) (x.cs_c0 + x.cs_c0 * 2 + x.cs_c0 * 4)
            (s.scale x.alpha)
        else srowstorbz C x.c x.rs_c0 (s.scale x.alpha))
      else
        (if x.rs_c0 = 1 then
          scolstored C x.c (x.c + x.rs_c0 * 4) x.cs_c0 (x.cs_c0 + x.cs_c0 * 2)
            (x.cs_c0 + x.cs_c0 * 4) (x.cs_c0 + x.cs_c0 * 2 + x.cs_c0 * 4)
            (fun _ => x.beta) (s.scale x.alpha)
        else srowstored C x.c x.rs_c0 (fun _ => x.beta) (s.scale x.alpha)) := rfl

omit [DecidableEq R] in
/-- The scaled accumulator lane of the element `(i, j)` after the loops over `k`. -/
theorem lane_accumulate (x : SupArgs R) (A B : Nat → R) (i j : Nat) (hi : i < 6) :
    ((accumulate x A B).scale x.alpha).lane i j
      = x.alpha * ∑ l ∈ Finset.range x.k0,
          A (x.a + i * x.rs_a0 + l * x.cs_a0) * B (x.b + l * x.rs_b0 + j) := by
  rw [lane_scale, lane_of_AccIs x A B x.k0 _ (accumulate_spec x A B) i j hi, dot_upto,
    Lpgemm.sum_upto_eq_sum]

/-- C4. Called with `m0 = 6`, `n0 = 16` and a row-stored C whose rows hold the sixteen
columns (`16 <= rs_c`, hence `rs_c != 1`; the elements of a row are adjacent, `cs_c = 1`),
for every `k0 >= 0` and with each fused multiply-add read as the exact `a*b + c`, the
kernel `bli_sgemmsup_rv_haswell_asm_6x16` takes its assembly body and leaves
`C[i][j] = beta * C0[i][j] + alpha * sum_{l<k0} A[i][l] * B[l][j]` for all `i < 6`,
`j < 16`, where `A[i][l]` is read at `a + i*rs_a + l*cs_a` and `B[l][j]` at
`b + l*rs_b + j`; for `k0 = 0` this is `beta * C0[i][j]`. -/
theorem full_tile_row_stored (x : SupArgs R) (A B C : Nat → R)
    (hm : x.m0 = 6) (hn : x.n0 = 16) (hrs : 16 ≤ x.rs_c0) :
    ∃ Cfin : Nat → R,
      bli_sgemmsup_rv_haswell_asm_6x16 x A B C = Outcome.full Cfin ∧
      (∀ i j, i < 6 → j < 16 →
        Cfin (x.c + i * x.rs_c0 + j)
          = x.beta * C (x.c + i * x.rs_c0 + j)
            + x.alpha * ∑ l ∈ Finset.range x.k0,
                A (x.a + i * x.rs_a0 + l * x.cs_a0) * B (x.b + l * x.rs_b0 + j)) ∧
      (x.k0 = 0 → ∀ i j, i < 6 → j < 16 →
        Cfin (x.c + i * x.rs_c0 + j) = x.beta * C (x.c + i * x.rs_c0 + j)) := by
  have hfull : bli_sgemmsup_rv_haswell_asm_6x16 x A B C
      = Outcome.full (asm_6x16 x A B C) := by
    unfold bli_sgemmsup_rv_haswell_asm_6x16
    rw [if_neg (by omega)]
  have hne : ¬ x.rs_c0 = 1 := by omega
  have key : ∀ i j, i < 6 → j < 16 →
      asm_6x16 x A B C (x.c + i * x.rs_c0 + j)
        = x.beta * C (x.c + i * x.rs_c0 + j)
          + x.alpha * ∑ l ∈ Finset.range x.k0,
              A (x.a + i * x.rs_a0 + l * x.cs_a0) * B (x.b + l * x.rs_b0 + j) := by
    intro i j hi hj
    unfold asm_6x16
    rw [spostaccum_eq]
    by_cases hb : x.beta = 0
    · rw [if_pos hb, if_neg hne, srowstorbz_apply C x.c x.rs_c0 _ hrs i j hi hj,
        lane_accumulate x A B i j hi, hb, zero_mul, zero_add]
    · rw [if_neg hb, if_neg hne, srowstored_apply C x.c x.rs_c0 x.beta _ hrs i j hi hj,
        lane_accumulate x A B i j hi]
  refine ⟨_, hfull, key, ?_⟩
  intro hk i j hi hj
  rw [key i j hi hj, hk, Finset.sum_range_zero, mul_zero, add_zero]

/-- The scenario `M = 6`, `N = 16`, `K = 4`, A and B filled with ones, `alpha = 1`,
`beta = 0` and an arbitrary initial C: every `C[i][j]` becomes 4. -/
theorem full_tile_row_stored_witness :
    ∃ Cfin : Nat → Int,
      bli_sgemmsup_rv_haswell_asm_6x16 args_6x16 (fun _ => 1) (fun _ => 1)
          (fun a => 100 + (a : Int)) = Outcome.full Cfin ∧
      ∀ i j, i < 6 → j < 16 → Cfin (i * 16 + j) = 4 := by
  obtain ⟨Cfin, h1, h2, _⟩ := full_tile_row_stored args_6x16 (fun _ => 1) (fun _ => 1)
    (fun a => 100 + (a : Int)) rfl rfl (Nat.le_refl 16)
  refine ⟨Cfin, h1, ?_⟩
  intro i j hi hj
  have h := h2 i j hi hj
  simpa [args_6x16] using h

end fulltile

end Haswell

namespace Lpgemm

/-! ## The C pointer and the post-op attributes of every micro-kernel call -/

section c18

variable {R L : Type} [One R]

/-- C18. With a B that is not REORDERED (positive block sizes, enough fuel) the driver
returns, and every micro-kernel call it makes is handed the C pointer
`c + ic*rs_c + (jc + jr)`, the caller's `rs_c` as row stride and the constant 1 as column
stride; the element `(i, j)` of the tile of the call is thus at
`c + (ic + i)*rs_c + (jc + jr + j)`, the place of the element `(ic + i, jc + jr + j)` of a
row-major C with unit column stride. -/
theorem c_tile_pointer_row_major (blk : BlockSizes) (nav : ReorderNav) (thr : ThreadInfo)
    (x : Args R L) (fuel : Nat) (hB : x.mtag_b ≠ AOCL_MEMORY_TAG.REORDERED)
    (hNR : 0 < blk.NR) (hNC : 0 < blk.NC) (hMC : 0 < blk.MC) (hKC : 0 < blk.KC)
    (hf1 : thr.jc_end - thr.jc_start ≤ fuel) (hf2 : thr.ic_end - thr.ic_start ≤ fuel)
    (hf3 : x.k ≤ fuel) :
    ∃ evs, lpgemm_rowvar_f32f32f32of32 blk nav thr x fuel = some evs ∧
      ∀ jc pc ic jr call, Event.kernel jc pc ic jr call ∈ evs →
        call.c = x.c + ic * x.rs_c + (jc + jr) ∧
        call.rs_c = x.rs_c ∧
        call.cs_c = 1 ∧
        (∀ i j, call.c + i * call.rs_c + j * call.cs_c
            = x.c + (ic + i) * x.rs_c + (jc + jr + j)) ∧
        (∀ a, in_tile call a ↔
          ∃ i, (ic ≤ i ∧ i < ic + call.m) ∧
            ∃ j, (jc + jr ≤ j ∧ j < jc + jr + call.n) ∧ a = x.c + i * x.rs_c + j) := by
  refine ⟨_, lpgemm_events_eq blk nav thr x fuel hB hNR hNC hMC hKC hf1 hf2 hf3, ?_⟩
  refine kernel_events_of_driver blk nav thr x
    (fun jc _ ic jr call =>
      call.c = x.c + ic * x.rs_c + (jc + jr) ∧
      call.rs_c = x.rs_c ∧
      call.cs_c = 1 ∧
      (∀ i j, call.c + i * call.rs_c + j * call.cs_c
          = x.c + (ic + i) * x.rs_c + (jc + jr + j)) ∧
      (∀ a, in_tile call a ↔
        ∃ i, (ic ≤ i ∧ i < ic + call.m) ∧
          ∃ j, (jc + jr ≤ j ∧ j < jc + jr + call.n) ∧ a = x.c + i * x.rs_c + j))
    ?_ fuel _ (lpgemm_events_eq blk nav thr x fuel hB hNR hNC hMC hKC hf1 hf2 hf3)
  intro au bu jc pc ic jr nc0 mc0 _ _
  have hc : (kernel_call blk x au bu jc pc ic jr nc0 (min (x.k - pc) blk.KC) mc0).c
      = x.c + ic * x.rs_c + (jc + jr) := by
    simp only [kernel_call]
    rw [Nat.mul_comm x.rs_c ic]
    omega
  have haddr : ∀ i j, x.c + ic * x.rs_c + (jc + jr) + i * x.rs_c + j * 1
      = x.c + (ic + i) * x.rs_c + (jc + jr + j) := by
    intro i j
    rw [Nat.add_mul]
    omega
  refine ⟨hc, rfl, rfl, ?_, ?_⟩
  · intro i j
    rw [hc]
    exact haddr i j
  · intro a
    unfold in_tile
    rw [hc]
    constructor
    · rintro ⟨i, hi, j, hj, rfl⟩
      exact ⟨ic + i, ⟨by omega, by omega⟩, jc + jr + j, ⟨by omega, by omega⟩, haddr i j⟩
    · rintro ⟨i, ⟨hi1, hi2⟩, j, ⟨hj1, hj2⟩, rfl⟩
      refine ⟨i - ic, by omega, j - (jc + jr), by omega, ?_⟩
      have e := haddr (i - ic) (j - (jc + jr))
      have e1 : ic + (i - ic) = i := by omega
      have e2 : jc + jr + (j - (jc + jr)) = j := by omega
      rw [e1, e2] at e
      exact e.symm

/-- In the small run `M = 3, N = 5, K = 4` (`rs_c = 5`) the call for the first tile of the
K-slice `pc = 3` is handed the pointer `c`, the row stride 5 and the column stride 1. -/
theorem c_tile_pointer_row_major_witness :
    ∃ evs call,
      lpgemm_rowvar_f32f32f32of32 blk_small nav_id (single_thread 3 5) args_3x5 5 = some evs ∧
      Event.kernel 0 3 0 0 call ∈ evs ∧
      call.c = 0 ∧ call.rs_c = 5 ∧ call.cs_c = 1 := by
  obtain ⟨evs, h1, h2⟩ := c_tile_pointer_row_major blk_small nav_id (single_thread 3 5)
    args_3x5 5 (by decide) (by decide) (by decide) (by decide) (by decide) (by decide)
    (by decide) (by decide)
  have hmem := small_kernel_mem 3 (by decide) (by decide)
  rw [← Option.some.inj (small_events_eq.symm.trans h1)] at h2
  obtain ⟨a1, a2, a3, _⟩ := h2 0 3 0 0 _ hmem
  exact ⟨_, _, small_events_eq, hmem, a1, a2, a3⟩

end c18

section c20

variable {R L : Type} [One R]

/-- C20. Whatever the operand tags, the pack flags and the thread, every micro-kernel call
among the events the driver returns receives the caller's `post_op_list` and an attribute
bundle with `post_op_c_i = ic`, `post_op_c_j = jc + jr`, `rs_c_downscale = rs_c`,
`is_first_k = (pc == 0)`, `is_last_k = (pc + KC >= k)` for its K-slice `pc`, and
`buf_downscale = c` when `c_downscale` is true and `NULL` otherwise. -/
theorem post_op_attributes (blk : BlockSizes) (nav : ReorderNav) (thr : ThreadInfo)
    (x : Args R L) (fuel : Nat) (evs : List (Event R L))
    (h : lpgemm_rowvar_f32f32f32of32 blk nav thr x fuel = some evs) :
    ∀ jc pc ic jr call, Event.kernel jc pc ic jr call ∈ evs →
      call.post_op_list = x.post_op_list ∧
      call.post_ops_attr.post_op_c_i = ic ∧
      call.post_ops_attr.post_op_c_j = jc + jr ∧
      call.post_ops_attr.rs_c_downscale = x.rs_c ∧
      call.post_ops_attr.is_first_k = decide (pc = 0) ∧
      call.post_ops_attr.is_last_k = decide (x.k ≤ pc + blk.KC) ∧
      call.post_ops_attr.buf_downscale = (if x.c_downscale = true then some x.c else none) := by
  refine kernel_events_of_driver blk nav thr x
    (fun jc pc ic jr call =>
      call.post_op_list = x.post_op_list ∧
      call.post_ops_attr.post_op_c_i = ic ∧
      call.post_ops_attr.post_op_c_j = jc + jr ∧
      call.post_ops_attr.rs_c_downscale = x.rs_c ∧
      call.post_ops_attr.is_first_k = decide (pc = 0) ∧
      call.post_ops_attr.is_last_k = decide (x.k ≤ pc + blk.KC) ∧
      call.post_ops_attr.buf_downscale = (if x.c_downscale = true then some x.c else none))
    ?_ fuel evs h
  intro au bu jc pc ic jr nc0 mc0 _ _
  refine ⟨rfl, rfl, rfl, rfl, ?_, ?_, rfl⟩
  · simp only [kernel_call]
    by_cases h0 : pc = 0 <;> simp [h0]
  · simp only [kernel_call]
    by_cases h0 : x.k ≤ pc + blk.KC <;> simp [h0]

/-- In the small run `M = 3, N = 5, K = 4` with `KC = 3` and `c_downscale` false, the call
for the first tile of the K-slice `pc = 3` receives the caller's list, the coordinates
`(0, 0)`, `rs_c_downscale = 5`, `is_first_k = false`, `is_last_k = true` and a `NULL`
`buf_downscale`. -/
theorem post_op_attributes_witness :
    ∃ evs call,
      lpgemm_rowvar_f32f32f32of32 blk_small nav_id (single_thread 3 5) args_3x5 5 = some evs ∧
      Event.kernel 0 3 0 0 call ∈ evs ∧
      call.post_op_list = () ∧
      call.post_ops_attr =
        { buf_downscale := none, post_op_c_i := 0, post_op_c_j := 0, rs_c_downscale := 5,
          is_first_k := false, is_last_k := true } := by
  have hmem := small_kernel_mem 3 (by decide) (by decide)
  obtain ⟨a1, a2, a3, a4, a5, a6, a7⟩ :=
    post_op_attributes blk_small nav_id (single_thread 3 5) args_3x5 5 _ small_events_eq
      0 3 0 0 _ hmem
  refine ⟨_, _, small_events_eq, hmem, a1, ?_⟩
  rfl

end c20

end Lpgemm

namespace Lpgemm

/-! ## The layout of C is not checked; the A source pointer -/

section c19

variable {R L : Type} [One R]

/-- C19, as the code has it.  The driver makes no test of the storage layout of C and has
no path that ends the call early: whatever the column stride `cs_c` of the caller's C, a
call with non-empty ranges, `k >= 1` and a B that is not REORDERED runs the same loop nest
as for `cs_c = 1`, makes micro-kernel calls, and hands every one of them the column
stride 1. -/
theorem layout_of_c_not_checked (cs_c : Nat) (blk : BlockSizes) (nav : ReorderNav)
    (thr : ThreadInfo) (x : Args R L) (fuel : Nat)
    (hB : x.mtag_b ≠ AOCL_MEMORY_TAG.REORDERED)
    (hNR : 0 < blk.NR) (hNC : 0 < blk.NC) (hMC : 0 < blk.MC) (hKC : 0 < blk.KC)
    (hjc : thr.jc_start < thr.jc_end) (hic : thr.ic_start < thr.ic_end) (hk : 0 < x.k)
    (hf1 : thr.jc_end - thr.jc_start ≤ fuel) (hf2 : thr.ic_end - thr.ic_start ≤ fuel)
    (hf3 : x.k ≤ fuel) :
    ∃ evs, lpgemm_rowvar_on_layout cs_c blk nav thr x fuel = some evs ∧
      lpgemm_rowvar_on_layout 1 blk nav thr x fuel = some evs ∧
      (∃ call, Event.kernel thr.jc_start 0 thr.ic_start 0 call ∈ evs) ∧
      ∀ jc pc ic jr call, Event.kernel jc pc ic jr call ∈ evs → call.cs_c = 1 := by
  have hev := lpgemm_events_eq blk nav thr x fuel hB hNR hNC hMC hKC hf1 hf2 hf3
  refine ⟨_, hev, hev, ⟨_, List.mem_append_left _
    ((kernel_mem_loop_events blk thr x thr.jc_start 0 thr.ic_start 0 _).2
      ⟨?_, ?_, ?_, ?_, rfl⟩)⟩, ?_⟩
  · exact (mem_starts_iff hNC _ _).2 ⟨le_refl _, hjc, by simp⟩
  · exact (mem_starts_iff hKC _ _).2 ⟨le_refl _, hk, by simp⟩
  · exact (mem_starts_iff hMC _ _).2 ⟨le_refl _, hic, by simp⟩
  · exact (mem_starts_iff hNR _ _).2 ⟨le_refl _, by omega, by simp⟩
  · exact kernel_events_of_driver blk nav thr x (fun _ _ _ _ call => call.cs_c = 1)
      (fun _ _ _ _ _ _ _ _ _ _ => rfl) fuel _ hev

/-- The small run `M = 3, N = 5, K = 4` for a C with column stride 7: the driver runs as
for column stride 1 and its first micro-kernel call is handed the column stride 1. -/
theorem layout_of_c_not_checked_witness :
    ∃ evs call, lpgemm_rowvar_on_layout 7 blk_small nav_id (single_thread 3 5) args_3x5 5
        = some evs ∧
      lpgemm_rowvar_on_layout 1 blk_small nav_id (single_thread 3 5) args_3x5 5 = some evs ∧
      Event.kernel 0 0 0 0 call ∈ evs ∧ call.cs_c = 1 := by
  obtain ⟨evs, h1, h2, ⟨call, h3⟩, h4⟩ := layout_of_c_not_checked 7 blk_small nav_id
    (single_thread 3 5) args_3x5 5 (by decide) (by decide) (by decide) (by decide)
    (by decide) (by decide) (by decide) (by decide) (by decide) (by decide) (by decide)
  exact ⟨evs, call, h1, h2, h3, h4 _ _ _ _ _ h3⟩

/-- A call `M = N = K = 1` whose C has the column stride 2 is not aborted: the driver
makes one micro-kernel call, at the C pointer `c` with row stride 1 and column stride 1,
and the call writes `C[0] = 17` over the initial 5. -/
theorem non_unit_cs_c_not_aborted :
    (lpgemm_rowvar_on_layout 2 blk_6x16 nav_id (single_thread 1 1) args_1x1 1).map
        (fun evs => evs.filterMap Event.c_info) = some [(0, 0, 0, 0, 0, 1, 1)] ∧
    mem_1x1.C 0 = 5 ∧
    (lpgemm_rowvar_on_layout 2 blk_6x16 nav_id (single_thread 1 1) args_1x1 1).map
        (fun evs => (exec_events blk_6x16.MR (fun _ => 3) (fun _ => 2) evs mem_1x1).C 0)
      = some 17 :=
  ⟨rfl, rfl, by decide⟩

end c19

section c13

/-- C13 at a column-major A. For the `2 x 2` column-major matrix `A = [[1, 3], [2, 4]]`
(`rs_a = 1`, `cs_a = 2`) and `KC = 1`, the K-slice `pc = 1` is handed the A pointer
`a + 1`, the place of the element `(1, 0)`, where the element `(0, 1)` is at
`a + 0*rs_a + 1*cs_a = a + 2`: the NATIVE path hands it to the micro-kernel, the pack path
to `lpgemm_pack_a_f32f32f32of32`, and with `B = [1, 1]` the driver leaves `C = [3, 5]`
where `A * B = [4, 6]`. -/
theorem a_source_pointer_column_major :
    (lpgemm_rowvar_f32f32f32of32 blk_kc1 nav_id (single_thread 2 1) args_colmajor_a 2).map
        (fun evs => evs.filterMap Event.a_info)
      = some [(0, 0, 0, 0, ⟨Region.operand, 0⟩, 1, 2), (0, 1, 0, 0, ⟨Region.operand, 1⟩, 1, 2)] ∧
    (lpgemm_rowvar_f32f32f32of32 blk_kc1 nav_id (single_thread 2 1) args_colmajor_a_pack 2).map
        (fun evs => evs.filterMap Event.pack_a_info)
      = some [(0, 1, 2), (1, 1, 2)] ∧
    args_colmajor_a.a + 0 * args_colmajor_a.rs_a + 1 * args_colmajor_a.cs_a = 2 ∧
    (lpgemm_result blk_kc1 nav_id (single_thread 2 1) args_colmajor_a 2 mem_colmajor_a
        (fun _ => 1) mem_zero).map (fun C => (C 0, C 1)) = some (3, 5) ∧
    (lpgemm_result blk_kc1 nav_id (single_thread 2 1) args_colmajor_a_pack 2 mem_colmajor_a
        (fun _ => 1) mem_zero).map (fun C => (C 0, C 1)) = some (3, 5) ∧
    ((List.range 2).map (fun i => ((List.range 2).map (fun l =>
        mem_colmajor_a (args_colmajor_a.a + i * args_colmajor_a.rs_a
          + l * args_colmajor_a.cs_a) * 1)).sum)) = [4, 6] :=
  ⟨rfl, rfl, rfl, by decide, by decide, by decide⟩

end c13

end Lpgemm

namespace Lpgemm

/-! ## Packing of A and B -/

section packm

variable {R : Type} [CommRing R]

/-- Inside its panel `packm_cxk` leaves the scaled source element, or zero in a padding
row. -/
theorem packm_cxk_at (panel_dim panel_dim_max panel_len : Nat) (kappa : R) (src : Nat → R)
    (a inca lda : Nat) (buf : Nat → R) (p ldp : Nat) (hmax : panel_dim_max ≤ ldp)
    (i l : Nat) (hi : i < panel_dim_max) (hl : l < panel_len) :
    packm_cxk panel_dim panel_dim_max panel_len kappa src a inca lda buf p ldp
        (p + i + l * ldp)
      = if i < panel_dim then kappa * src (a + i * inca + l * lda) else 0 := by
  unfold packm_cxk
  apply apply_writes_mem
  · exact ⟨_, List.mem_flatMap.2 ⟨l, List.mem_range.2 hl,
      List.mem_map.2 ⟨i, List.mem_range.2 hi, rfl⟩⟩, rfl⟩
  · intro w hw hx
    simp only [List.mem_flatMap, List.mem_map, List.mem_range] at hw
    obtain ⟨l2, hl2, i2, hi2, rfl⟩ := hw
    simp only at hx
    have h2 : l2 * ldp + i2 = l * ldp + i := by omega
    obtain ⟨e1, e2⟩ := row_major_inj (by omega) (by omega) h2
    subst e1 e2
    rfl

/-- Outside its panel `packm_cxk` changes nothing. -/
theorem packm_cxk_frame (panel_dim panel_dim_max panel_len : Nat) (kappa : R) (src : Nat → R)
    (a inca lda : Nat) (buf : Nat → R) (p ldp : Nat) (hmax : panel_dim_max ≤ ldp)
    (t : Nat) (ht : t < p ∨ p + panel_len * ldp ≤ t) :
    packm_cxk panel_dim panel_dim_max panel_len kappa src a inca lda buf p ldp t = buf t := by
  unfold packm_cxk
  apply apply_writes_not_mem
  intro w hw hx
  simp only [List.mem_flatMap, List.mem_map, List.mem_range] at hw
  obtain ⟨l2, hl2, i2, hi2, rfl⟩ := hw
  simp only at hx
  have h1 : (l2 + 1) * ldp ≤ panel_len * ldp := Nat.mul_le_mul_right _ hl2
  rw [Nat.add_mul, Nat.one_mul] at h1
  omega

/-- The pack buffer after `lpgemm_pack_a_f32f32f32of32` with the panel stride `MR * k`:
row `i` of the panel `it` holds row `it*MR + i` of the source block, or zeros past its
`m` rows, and nothing outside the `(m + MR - 1) / MR` panels is changed. -/
theorem pack_a_spec (src : Nat → R) (ia : Nat) (buf : Nat → R) (dst m k rs_a cs_a MR : Nat)
    (hMR : 0 < MR) :
    (∀ it i l, it < (m + MR - 1) / MR → i < MR → l < k →
      lpgemm_pack_a_f32f32f32of32 src ia buf dst m k rs_a cs_a (MR * k) MR
          (dst + it * (MR * k) + i + l * MR)
        = if it * MR + i < m then src (ia + (it * MR + i) * rs_a + l * cs_a) else 0) ∧
    (∀ t, t < dst ∨ dst + (m + MR - 1) / MR * (MR * k) ≤ t →
      lpgemm_pack_a_f32f32f32of32 src ia buf dst m k rs_a cs_a (MR * k) MR t = buf t) := by
  unfold lpgemm_pack_a_f32f32f32of32
  simp only
  generalize (m + MR - 1) / MR = n
  induction n with
  | zero =>
    refine ⟨fun it i l h => absurd h (by omega), fun t _ => ?_⟩
    simp
  | succ n ih =>
    obtain ⟨ih1, ih2⟩ := ih
    rw [List.range_succ, List.foldl_append, List.foldl_cons, List.foldl_nil]
    have hin : ∀ i l, i < MR → l < k → i + l * MR < MR * k := by
      intro i l hi hl
      have h1 : (l + 1) * MR ≤ k * MR := Nat.mul_le_mul_right _ hl
      rw [Nat.add_mul, Nat.one_mul] at h1
      rw [Nat.mul_comm MR k]
      omega
    constructor
    · intro it i l hit hi hl
      have hil := hin i l hi hl
      by_cases hlast : it = n
      · subst hlast
        rw [packm_cxk_at _ _ _ _ _ _ _ _ _ _ _ (le_refl _) i l hi hl]
        have e : ia + it * MR * rs_a + i * rs_a + l * cs_a
            = ia + (it * MR + i) * rs_a + l * cs_a := by ring
        rw [e, one_mul]
        by_cases hlt : it * MR + i < m
        · rw [if_pos hlt, if_pos (by omega)]
        · rw [if_neg hlt, if_neg (by omega)]
      · have hlt : it < n := by omega
        have h1 : (it + 1) * (MR * k) ≤ n * (MR * k) := Nat.mul_le_mul_right _ hlt
        rw [Nat.add_mul, Nat.one_mul] at h1
        rw [packm_cxk_frame _ _ _ _ _ _ _ _ _ _ _ (le_refl _) _ (Or.inl (by omega))]
        exact ih1 it i l hlt hi hl
    · intro t ht
      have h1 : (n + 1) * (MR * k) = n * (MR * k) + k * MR := by ring
      rw [packm_cxk_frame _ _ _ _ _ _ _ _ _ _ _ (le_refl _) _ (by omega)]
      exact ih2 t (by omega)

/-- The rounding up to a multiple of `MR`. -/
theorem ceil_mul_bounds (mc0 MR : Nat) (hMR : 0 < MR) :
    mc0 ≤ (mc0 + MR - 1) / MR * MR ∧ (mc0 + MR - 1) / MR * MR < mc0 + MR := by
  have h1 := Nat.div_add_mod (mc0 + MR - 1) MR
  have h2 := Nat.mod_lt (mc0 + MR - 1) hMR
  rw [Nat.mul_comm] at h1
  omega

end packm

section c11

variable {R L : Type} [CommRing R]

/-- C11. With `packm_cxk` given by its contract, a row-major A (`cs_a = 1`) packed by the
driver for the row block `(ic, mc0)` and the K-slice `(pc, kc0)`, and `MR >= 1`: the pack
buffer is handed to the micro-kernel with the strides `rs = 1`, `cs = MR` and the panel
stride `MR*kc0`; the element `(i, l)` the micro-kernel reads through it is
`A[ic + i][pc + l]` for `i < mc0`, `l < kc0`, which is also the element it reads on the
NATIVE path; and the rows `mc0 .. ceil(mc0/MR)*MR - 1` read as zero. -/
theorem pack_a_round_trip (blk : BlockSizes) (x : Args R L) (A B : Nat → R)
    (st : MemState R) (pc ic kc0 mc0 : Nat) (hMR : 0 < blk.MR)
    (htag : x.mtag_a ≠ AOCL_MEMORY_TAG.REORDERED) (hpack : x.should_pack_A = true)
    (hrow : x.cs_a = 1) :
    (a_select blk x pc ic kc0 mc0).2
      = { a_use := ⟨Region.packbuf, 0⟩, rs_a_use := 1, cs_a_use := blk.MR,
          ps_a_use := blk.MR * kc0 } ∧
    (∀ i l, i < mc0 → l < kc0 →
      a_elem blk.MR A (exec_events blk.MR A B (a_select blk x pc ic kc0 mc0).1 st).pack_a
          (a_select blk x pc ic kc0 mc0).2 i l
        = A (x.a + (ic + i) * x.rs_a + (pc + l)) ∧
      a_elem blk.MR A st.pack_a
          (a_select blk { x with should_pack_A := false } pc ic kc0 mc0).2 i l
        = A (x.a + (ic + i) * x.rs_a + (pc + l))) ∧
    (∀ i l, mc0 ≤ i → i < (mc0 + blk.MR - 1) / blk.MR * blk.MR → l < kc0 →
      a_elem blk.MR A (exec_events blk.MR A B (a_select blk x pc ic kc0 mc0).1 st).pack_a
          (a_select blk x pc ic kc0 mc0).2 i l = 0) := by
  have hsel : a_select blk x pc ic kc0 mc0
      = ([Event.alloc_a (sizeof_float * ((mc0 + blk.MR - 1) / blk.MR * blk.MR) * kc0),
          Event.pack_a { src := x.a + x.rs_a * ic + pc, dst := 0, mn := mc0, k := kc0,
                         rs := x.rs_a, cs := x.cs_a, ps_p := blk.MR * kc0, XR := blk.MR }],
         { a_use := ⟨Region.packbuf, 0⟩, rs_a_use := 1, cs_a_use := blk.MR,
           ps_a_use := blk.MR * kc0 }) := by
    simp only [a_select, if_neg htag, if_pos hpack]
  have hnat : (a_select blk { x with should_pack_A := false } pc ic kc0 mc0).2
      = { a_use := ⟨Region.operand, x.a + x.rs_a * ic + pc⟩, rs_a_use := x.rs_a,
          cs_a_use := x.cs_a, ps_a_use := blk.MR * x.rs_a } := by
    simp only [a_select, if_neg htag]
    rfl
  have hbuf : ∀ i l, i < (mc0 + blk.MR - 1) / blk.MR * blk.MR → l < kc0 →
      a_elem blk.MR A (exec_events blk.MR A B (a_select blk x pc ic kc0 mc0).1 st).pack_a
          (a_select blk x pc ic kc0 mc0).2 i l
        = if i < mc0 then A (x.a + x.rs_a * ic + pc + i * x.rs_a + l * x.cs_a) else 0 := by
    intro i l hi hl
    rw [hsel]
    simp only [a_elem, read_at, exec_events, List.foldl_cons, List.foldl_nil, exec_event]
    have hit : i / blk.MR < (mc0 + blk.MR - 1) / blk.MR :=
      Nat.div_lt_of_lt_mul (by rw [Nat.mul_comm]; exact hi)
    have hmod : i % blk.MR < blk.MR := Nat.mod_lt _ hMR
    have hdm : i / blk.MR * blk.MR + i % blk.MR = i := Nat.div_add_mod' i blk.MR
    have e : 0 + (i / blk.MR * (blk.MR * kc0) + i % blk.MR * 1 + l * blk.MR)
        = 0 + i / blk.MR * (blk.MR * kc0) + i % blk.MR + l * blk.MR := by omega
    rw [e, (pack_a_spec A _ st.pack_a 0 mc0 kc0 x.rs_a x.cs_a blk.MR hMR).1 _ _ _ hit hmod hl,
      hdm]
  have hceil := ceil_mul_bounds mc0 blk.MR hMR
  refine ⟨by rw [hsel], ?_, ?_⟩
  · intro i l hi hl
    constructor
    · rw [hbuf i l (by omega) hl, if_pos hi, hrow]
      congr 1
      ring
    · rw [hnat]
      simp only [a_elem, read_at]
      have hdm : i / blk.MR * blk.MR + i % blk.MR = i := Nat.div_add_mod' i blk.MR
      have e : x.a + x.rs_a * ic + pc
          + (i / blk.MR * (blk.MR * x.rs_a) + i % blk.MR * x.rs_a + l * x.cs_a)
          = x.a + x.rs_a * ic + pc + (i / blk.MR * blk.MR + i % blk.MR) * x.rs_a
            + l * x.cs_a := by ring
      rw [e, hdm, hrow]
      congr 1
      ring
  · intro i l hi1 hi2 hl
    rw [hbuf i l hi2 hl, if_neg (by omega)]

/-- For `MR = 2`, the row block `ic = 2`, `mc0 = 1` and the K-slice `pc = 3`, `kc0 = 1` of
the row-major `3 x 4` matrix A whose element at the address `p` is `p`: the element
`(0, 0)` read through the pack buffer is `A[2][3] = 11` and the padding row reads 0. -/
theorem pack_a_round_trip_witness :
    a_elem blk_small.MR (fun p => (p : Int))
        (exec_events blk_small.MR (fun p => (p : Int)) (fun _ => 1)
          (a_select blk_small args_3x5_pack_a 3 2 1 1).1 mem_zero).pack_a
        (a_select blk_small args_3x5_pack_a 3 2 1 1).2 0 0 = 11 ∧
    a_elem blk_small.MR (fun p => (p : Int))
        (exec_events blk_small.MR (fun p => (p : Int)) (fun _ => 1)
          (a_select blk_small args_3x5_pack_a 3 2 1 1).1 mem_zero).pack_a
        (a_select blk_small args_3x5_pack_a 3 2 1 1).2 1 0 = 0 := by
  obtain ⟨_, h2, h3⟩ := pack_a_round_trip blk_small args_3x5_pack_a (fun p => (p : Int))
    (fun _ => 1) mem_zero 3 2 1 1 (by decide) (by decide) rfl rfl
  exact ⟨(h2 0 0 (by decide) (by decide)).1, h3 1 0 (by decide) (by decide) (by decide)⟩

end c11

section c14

variable {R L : Type} [CommRing R]

/-- C14. For `MR >= 1` the padded extent `mc0_updated = ((mc0 + MR - 1) / MR) * MR` is the
least multiple of `MR` that is at least `mc0`, with `mc0 <= mc0_updated < mc0 + MR`; when
A is packed the driver asks for `sizeof(float) * mc0_updated * kc0` bytes and calls
`lpgemm_pack_a_f32f32f32of32` with the panel stride `MR*kc0`; the `ceil(mc0/MR)` panels
amount to `mc0_updated * kc0` elements; the call leaves every element of the buffer from
`mc0_updated * kc0` on as it was, and gives every element below it a value that does not
depend on what the buffer held. -/
theorem pack_a_buffer_extent (blk : BlockSizes) (x : Args R L) (A B : Nat → R)
    (pc ic kc0 mc0 : Nat) (hMR : 1 ≤ blk.MR)
    (htag : x.mtag_a ≠ AOCL_MEMORY_TAG.REORDERED) (hpack : x.should_pack_A = true) :
    (blk.MR ∣ (mc0 + blk.MR - 1) / blk.MR * blk.MR ∧
      mc0 ≤ (mc0 + blk.MR - 1) / blk.MR * blk.MR ∧
      (mc0 + blk.MR - 1) / blk.MR * blk.MR < mc0 + blk.MR ∧
      ∀ q, blk.MR ∣ q → mc0 ≤ q → (mc0 + blk.MR - 1) / blk.MR * blk.MR ≤ q) ∧
    (a_select blk x pc ic kc0 mc0).1
      = [Event.alloc_a (sizeof_float * ((mc0 + blk.MR - 1) / blk.MR * blk.MR) * kc0),
         Event.pack_a { src := x.a + x.rs_a * ic + pc, dst := 0, mn := mc0, k := kc0,
                        rs := x.rs_a, cs := x.cs_a, ps_p := blk.MR * kc0, XR := blk.MR }] ∧
    (mc0 + blk.MR - 1) / blk.MR * (blk.MR * kc0)
      = (mc0 + blk.MR - 1) / blk.MR * blk.MR * kc0 ∧
    (∀ (st : MemState R) (t : Nat), (mc0 + blk.MR - 1) / blk.MR * blk.MR * kc0 ≤ t →
      (exec_events blk.MR A B (a_select blk x pc ic kc0 mc0).1 st).pack_a t = st.pack_a t) ∧
    (∀ (st1 st2 : MemState R) (t : Nat), t < (mc0 + blk.MR - 1) / blk.MR * blk.MR * kc0 →
      (exec_events blk.MR A B (a_select blk x pc ic kc0 mc0).1 st1).pack_a t
        = (exec_events blk.MR A B (a_select blk x pc ic kc0 mc0).1 st2).pack_a t) := by
  have hsel : (a_select blk x pc ic kc0 mc0).1
      = [Event.alloc_a (sizeof_float * ((mc0 + blk.MR - 1) / blk.MR * blk.MR) * kc0),
         Event.pack_a { src := x.a + x.rs_a * ic + pc, dst := 0, mn := mc0, k := kc0,
                        rs := x.rs_a, cs := x.cs_a, ps_p := blk.MR * kc0, XR := blk.MR }] := by
    simp only [a_select, if_neg htag, if_pos hpack]
  have hexec : ∀ st : MemState R,
      (exec_events blk.MR A B (a_select blk x pc ic kc0 mc0).1 st).pack_a
        = lpgemm_pack_a_f32f32f32of32 A (x.a + x.rs_a * ic + pc) st.pack_a 0 mc0 kc0
            x.rs_a x.cs_a (blk.MR * kc0) blk.MR := by
    intro st
    rw [hsel]
    rfl
  have hceil := ceil_mul_bounds mc0 blk.MR hMR
  have hmul : (mc0 + blk.MR - 1) / blk.MR * (blk.MR * kc0)
      = (mc0 + blk.MR - 1) / blk.MR * blk.MR * kc0 := by ring
  refine ⟨⟨Nat.dvd_mul_left _ _, hceil.1, hceil.2, ?_⟩, hsel, hmul, ?_, ?_⟩
  · rintro q ⟨c, rfl⟩ hq
    have h1 : (mc0 + blk.MR - 1) / blk.MR ≤ c := by
      apply Nat.le_of_lt_succ
      apply Nat.div_lt_of_lt_mul
      rw [Nat.mul_succ]
      omega
    rw [Nat.mul_comm blk.MR c]
    exact Nat.mul_le_mul_right _ h1
  · intro st t ht
    rw [hexec]
    refine (pack_a_spec A _ st.pack_a 0 mc0 kc0 x.rs_a x.cs_a blk.MR hMR).2 t (Or.inr ?_)
    rw [hmul]
    omega
  · intro st1 st2 t ht
    rw [hexec, hexec]
    have hk : 0 < kc0 := by
      rcases Nat.eq_zero_or_pos kc0 with h | h
      · rw [h] at ht; simp at ht
      · exact h
    have hpos : 0 < blk.MR * kc0 := Nat.mul_pos hMR hk
    have hit : t / (blk.MR * kc0) < (mc0 + blk.MR - 1) / blk.MR := by
      apply Nat.div_lt_of_lt_mul
      rw [Nat.mul_comm, hmul]
      exact ht
    have hrem : t % (blk.MR * kc0) < blk.MR * kc0 := Nat.mod_lt _ hpos
    have hl : t % (blk.MR * kc0) / blk.MR < kc0 := Nat.div_lt_of_lt_mul hrem
    have hi : t % (blk.MR * kc0) % blk.MR < blk.MR := Nat.mod_lt _ hMR
    have e1 := Nat.div_add_mod' t (blk.MR * kc0)
    have e2 := Nat.div_add_mod' (t % (blk.MR * kc0)) blk.MR
    have et : t = 0 + t / (blk.MR * kc0) * (blk.MR * kc0) + t % (blk.MR * kc0) % blk.MR
        + t % (blk.MR * kc0) / blk.MR * blk.MR := by omega
    rw [et,
      (pack_a_spec A _ st1.pack_a 0 mc0 kc0 x.rs_a x.cs_a blk.MR hMR).1 _ _ _ hit hi hl,
      (pack_a_spec A _ st2.pack_a 0 mc0 kc0 x.rs_a x.cs_a blk.MR hMR).1 _ _ _ hit hi hl]

/-- For `MR = 2`, `mc0 = 3`, `kc0 = 3`: the padded extent is 4, the request is 48 bytes,
the two panels take 12 elements, the element 12 of the buffer is left as it was and the
element 11 does not depend on the buffer. -/
theorem pack_a_buffer_extent_witness :
    (3 + blk_small.MR - 1) / blk_small.MR * blk_small.MR = 4 ∧
    (a_select blk_small args_3x5_pack_a 0 0 3 3).1
      = [Event.alloc_a 48,
         Event.pack_a { src := 0, dst := 0, mn := 3, k := 3, rs := 4, cs := 1, ps_p := 6,
                        XR := 2 }] ∧
    (exec_events blk_small.MR (fun p => (p : Int)) (fun _ => 1)
        (a_select blk_small args_3x5_pack_a 0 0 3 3).1 mem_1x1).pack_a 12 = mem_1x1.pack_a 12 ∧
    (exec_events blk_small.MR (fun p => (p : Int)) (fun _ => 1)
        (a_select blk_small args_3x5_pack_a 0 0 3 3).1 mem_1x1).pack_a 11
      = (exec_events blk_small.MR (fun p => (p : Int)) (fun _ => 1)
          (a_select blk_small args_3x5_pack_a 0 0 3 3).1 mem_zero).pack_a 11 := by
  obtain ⟨_, h2, _, h4, h5⟩ := pack_a_buffer_extent blk_small args_3x5_pack_a
    (fun p => (p : Int)) (fun _ => 1) 0 0 3 3 (by decide) (by decide) rfl
  exact ⟨rfl, h2, h4 mem_1x1 12 (by decide), h5 mem_1x1 mem_zero 11 (by decide)⟩

end c14

end Lpgemm

namespace Haswell

/-! ## The plan of the edge path -/

set_option maxRecDepth 100000 in
theorem edge_plan_ok : ∀ m0, m0 < 7 → ∀ n0, n0 < 17 → 0 < m0 → 0 < n0 →
    ∃ plan, edge_plan m0 n0 = some plan ∧ PlanOk m0 n0 plan := by
  intro m0 hm n0 hn hm0 hn0
  interval_cases m0 <;> interval_cases n0 <;> exact ⟨_, rfl, by decide⟩


section plan

variable {R R2 : Type}

theorem map_info_cons (c : SubCall R) :
    (List.map SubCall.info ∘ fun calls => c :: calls)
      = (fun l => c.info :: l) ∘ List.map SubCall.info := by
  funext l
  rfl

/-- The kernels, chunk sizes, table indices and chunk origins of the calls of the `m` loop
depend on the table `mrs`, on the column chunk and on `m_left` only. -/
theorem edge_m_loop_info (x : SupArgs R) (x2 : SupArgs R2) (j nr_cur s : Nat) :
    ∀ (rest : List Nat) (i m_left r bj cij ai bj2 cij2 ai2 : Nat),
      (edge_m_loop x j nr_cur bj s rest i m_left cij ai r).map (List.map SubCall.info)
        = (edge_m_loop x2 j nr_cur bj2 s rest i m_left cij2 ai2 r).map
            (List.map SubCall.info) := by
  intro rest
  induction rest with
  | nil =>
    intro i m_left r bj cij ai bj2 cij2 ai2
    simp only [edge_m_loop]
    split <;> rfl
  | cons mr_cur rest ih =>
    intro i m_left r bj cij ai bj2 cij2 ai2
    simp only [edge_m_loop]
    by_cases h0 : m_left = 0
    · rw [if_pos h0, if_pos h0]; rfl
    · rw [if_neg h0, if_neg h0]
      by_cases hle : mr_cur ≤ m_left
      · rw [if_pos hle, if_pos hle]
        cases hk : (kmap.get? i).bind (fun row => row.get? j) with
        | none => rfl
        | some ker =>
          simp only
          have := ih (i + 1) (m_left - mr_cur) (r + mr_cur) bj (cij + mr_cur * x.rs_c0)
            (ai + mr_cur * x.rs_a0) bj2 (cij2 + mr_cur * x2.rs_c0) (ai2 + mr_cur * x2.rs_a0)
          rw [Option.map_map, Option.map_map, map_info_cons, map_info_cons,
            ← Option.map_map, ← Option.map_map, this]
          rfl
      · rw [if_neg hle, if_neg hle]
        exact ih _ _ _ _ _ _ _ _ _

theorem cols_info_cons (col : Nat × Nat × List (SubCall R)) :
    (cols_info ∘ fun cols => col :: cols)
      = (fun l => (col.1, col.2.1, col.2.2.map SubCall.info) :: l) ∘ cols_info := by
  funext l
  rfl

/-- The column chunks of the `n` loop and the kernels, chunk sizes, table indices and chunk
origins of their calls depend on the tables, on `m0` and on `n_left` only. -/
theorem edge_n_loop_info (x : SupArgs R) (x2 : SupArgs R2) (hm : x2.m0 = x.m0) :
    ∀ (rest : List Nat) (j n_left s cj bj cj2 bj2 : Nat),
      (edge_n_loop x rest j n_left cj bj s).map cols_info
        = (edge_n_loop x2 rest j n_left cj2 bj2 s).map cols_info := by
  intro rest
  induction rest with
  | nil =>
    intro j n_left s cj bj cj2 bj2
    simp only [edge_n_loop]
    split <;> rfl
  | cons nr_cur rest ih =>
    intro j n_left s cj bj cj2 bj2
    simp only [edge_n_loop]
    by_cases h0 : n_left = 0
    · rw [if_pos h0, if_pos h0]; rfl
    · rw [if_neg h0, if_neg h0]
      by_cases hle : nr_cur ≤ n_left
      · rw [if_pos hle, if_pos hle, hm]
        have hmi := edge_m_loop_info x x2 j nr_cur s mrs 0 x.m0 0 bj cj x.a bj2 cj2 x2.a
        cases h1 : edge_m_loop x j nr_cur bj s mrs 0 x.m0 cj x.a 0 with
        | none =>
          rw [h1] at hmi
          cases h2 : edge_m_loop x2 j nr_cur bj2 s mrs 0 x.m0 cj2 x2.a 0 with
          | none => rfl
          | some calls2 => rw [h2] at hmi; exact absurd hmi (by simp)
        | some calls =>
          rw [h1] at hmi
          cases h2 : edge_m_loop x2 j nr_cur bj2 s mrs 0 x.m0 cj2 x2.a 0 with
          | none => rw [h2] at hmi; exact absurd hmi (by simp)
          | some calls2 =>
            rw [h2] at hmi
            simp only [Option.map_some', Option.some.injEq] at hmi
            simp only
            rw [Option.map_map, Option.map_map, cols_info_cons, cols_info_cons,
              ← Option.map_map, ← Option.map_map,
              ih (j + 1) (n_left - nr_cur) (s + nr_cur) (cj + nr_cur * x.cs_c0)
                (bj + nr_cur * x.cs_b0) (cj2 + nr_cur * x2.cs_c0) (bj2 + nr_cur * x2.cs_b0)]
            simp only [hmi]
      · rw [if_neg hle, if_neg hle]
        exact ih _ _ _ _ _ _ _

/-- The plan of the edge path is a function of `(m0, n0)`. -/
theorem edge_cols_info (x : SupArgs R) :
    (edge_cols x).map cols_info = edge_plan x.m0 x.n0 := by
  unfold edge_plan edge_cols
  exact edge_n_loop_info x (shape_args x.m0 x.n0) rfl nrs 0 x.n0 0 x.c x.b _ _

end plan

section c16

variable {R : Type} [CommRing R] [DecidableEq R]

/-- C16. For `0 < m0 <= 6`, `0 < n0 <= 16` on the edge path (`m0 < 6` or `n0 < 16`): the
kernels, chunks, table indices and chunk origins of the calls are the same for all
arguments with the same `(m0, n0)`; every call goes to `kmap[i][j]`, whose nominal shape is
`mrs[i] x nrs[j]`, which is the chunk `(m, n)` passed to it, a reference kernel when the
chunk is one column wide; the height of the chunk is the largest entry of `mrs` that does
not exceed the rows `m0 - r` still uncovered, its width the largest entry of `nrs` that
does not exceed the columns `n0 - s` still uncovered; and every column chunk has the same
row decomposition. -/
theorem edge_calls_greedy_exact (x : SupArgs R) (A B C : Nat → R) (hm : 0 < x.m0)
    (hm6 : x.m0 ≤ 6) (hn : 0 < x.n0) (hn16 : x.n0 ≤ 16) (hedge : x.m0 < 6 ∨ x.n0 < 16) :
    ∃ cols : List (Nat × Nat × List (SubCall R)),
      edge_cols x = some cols ∧
      bli_sgemmsup_rv_haswell_asm_6x16 x A B C
        = Outcome.edge (some (cols.flatMap (fun col => col.2.2))) ∧
      (∀ x2 : SupArgs R, x2.m0 = x.m0 → x2.n0 = x.n0 →
        (edge_cols x2).map cols_info = some (cols_info cols)) ∧
      (∀ col ∈ cols, ∀ c ∈ col.2.2,
        (kmap.get? c.i).bind (fun row => row.get? c.j) = some c.ker_fp ∧
        mrs.get? c.i = some c.m ∧
        nrs.get? c.j = some c.n ∧
        c.ker_fp.shape = (c.m, c.n) ∧
        (c.n = 1 → c.ker_fp.is_ref = true) ∧
        (c.m ≤ x.m0 - c.r ∧ ∀ v ∈ mrs, v ≤ x.m0 - c.r → v ≤ c.m) ∧
        (c.n ≤ x.n0 - c.s ∧ ∀ v ∈ nrs, v ≤ x.n0 - c.s → v ≤ c.n)) ∧
      (∀ col1 ∈ cols, ∀ col2 ∈ cols,
        col1.2.2.map (fun c => (c.i, c.r, c.m)) = col2.2.2.map (fun c => (c.i, c.r, c.m))) := by
  obtain ⟨plan, hplan, hok1, hok2⟩ := edge_plan_ok x.m0 (by omega) x.n0 (by omega) hm hn
  have hinfo := edge_cols_info x
  rw [hplan, Option.map_eq_some'] at hinfo
  obtain ⟨cols, hcols, hci⟩ := hinfo
  have hmem : ∀ col ∈ cols, (col.1, col.2.1, col.2.2.map SubCall.info) ∈ plan := by
    intro col hcol
    rw [← hci]
    exact List.mem_map.2 ⟨col, hcol, rfl⟩
  refine ⟨cols, hcols, ?_, ?_, ?_, ?_⟩
  · simp only [bli_sgemmsup_rv_haswell_asm_6x16, if_pos hedge, edge_path, hcols,
      Option.map_some']
  · intro x2 h1 h2
    rw [edge_cols_info x2, h1, h2, hplan, hci]
  · intro col hcol c hc
    exact hok1 _ (hmem col hcol) c.info (List.mem_map.2 ⟨c, hc, rfl⟩)
  · intro col1 h1 col2 h2
    have := hok2 _ (hmem col1 h1) _ (hmem col2 h2)
    simp only [List.map_map] at this
    exact this

/-- For `m0 = 5`, `n0 = 15` the calls go to the kernels `4x12, 1x12, 4x2, 1x2` and to the
reference kernels `4x1, 1x1`, at the rows 1 and 3 of `kmap` and its columns 1, 4 and 5,
and the three column chunks have the same row decomposition. -/
theorem edge_calls_greedy_exact_witness :
    ∃ cols : List (Nat × Nat × List (SubCall Int)),
      edge_cols args_5x15 = some cols ∧
      (cols.flatMap (fun col => col.2.2)).map (fun c => (c.ker_fp, c.i, c.j))
        = [(.rv_haswell_asm 4 12, 1, 1), (.rv_haswell_asm 1 12, 3, 1),
           (.rv_haswell_asm 4 2, 1, 4), (.rv_haswell_asm 1 2, 3, 4),
           (.r_haswell_ref 4 1, 1, 5), (.r_haswell_ref 1 1, 3, 5)] ∧
      ∀ col1 ∈ cols, ∀ col2 ∈ cols,
        col1.2.2.map (fun c => (c.i, c.r, c.m)) = col2.2.2.map (fun c => (c.i, c.r, c.m)) := by
  obtain ⟨cols, h1, _, _, _, h5⟩ := edge_calls_greedy_exact args_5x15 (fun _ => 1)
    (fun _ => 1) (fun _ => 0) (by decide) (by decide) (by decide) (by decide)
    (Or.inl (by decide))
  refine ⟨cols, h1, ?_, h5⟩
  have hc : edge_cols args_5x15 = some _ := rfl
  rw [hc] at h1
  rw [← Option.some.inj h1]
  rfl

end c16


section c17lemmas

variable {R : Type}

/-- The `m` loop uses every entry of its table at most once: it can only succeed when the
rows left do not exceed the sum of the entries not yet visited. -/
theorem edge_m_loop_le_sum (x : SupArgs R) (j nr_cur bj s : Nat) :
    ∀ (rest : List Nat) (i m_left cij ai r : Nat) (calls : List (SubCall R)),
      edge_m_loop x j nr_cur bj s rest i m_left cij ai r = some calls →
        m_left ≤ rest.sum := by
  intro rest
  induction rest with
  | nil =>
    intro i m_left cij ai r calls h
    simp only [edge_m_loop] at h
    split at h
    · omega
    · exact absurd h (by simp)
  | cons mr_cur rest ih =>
    intro i m_left cij ai r calls h
    simp only [edge_m_loop] at h
    rw [List.sum_cons]
    split at h
    · omega
    · split at h
      · split at h
        · exact absurd h (by simp)
        · rw [Option.map_eq_some'] at h
          obtain ⟨calls1, hrec, _⟩ := h
          have := ih _ _ _ _ _ _ hrec
          omega
      · have := ih _ _ _ _ _ _ h
        omega

/-- The `n` loop can only succeed when the columns left do not exceed the sum of the
entries of `nrs` not yet visited and, if a column is left, `m0` does not exceed the sum of
the entries of `mrs`. -/
theorem edge_n_loop_le_sum (x : SupArgs R) :
    ∀ (rest : List Nat) (j n_left cj bj s : Nat) (cols : List (Nat × Nat × List (SubCall R))),
      edge_n_loop x rest j n_left cj bj s = some cols →
        n_left ≤ rest.sum ∧ (n_left ≠ 0 → x.m0 ≤ mrs.sum) := by
  intro rest
  induction rest with
  | nil =>
    intro j n_left cj bj s cols h
    simp only [edge_n_loop] at h
    split at h
    · exact ⟨by omega, fun h1 => absurd (by assumption) h1⟩
    · exact absurd h (by simp)
  | cons nr_cur rest ih =>
    intro j n_left cj bj s cols h
    simp only [edge_n_loop] at h
    rw [List.sum_cons]
    split at h
    · exact ⟨by omega, fun h1 => absurd (by assumption) h1⟩
    · split at h
      · split at h
        · exact absurd h (by simp)
        · rename_i calls hcalls
          rw [Option.map_eq_some'] at h
          obtain ⟨cols1, hrec, _⟩ := h
          have h1 := (ih _ _ _ _ _ _ hrec).1
          exact ⟨by omega, fun _ => edge_m_loop_le_sum x j nr_cur bj s _ _ _ _ _ _ _ hcalls⟩
      · have := ih _ _ _ _ _ _ h
        exact ⟨by omega, this.2⟩

/-- An entry of `kmap` exists only at a row index below 4 and a column index below 6. -/
theorem kmap_index_bounds (i j : Nat) (k : SupKernel)
    (h : (kmap.get? i).bind (fun row => row.get? j) = some k) : i < 4 ∧ j < 6 := by
  by_cases hi : i < 4
  · refine ⟨hi, ?_⟩
    by_contra hj
    have hj6 : 6 ≤ j := by omega
    interval_cases i <;> simp only [kmap, List.get?_cons_zero, List.get?_cons_succ,
        Option.some_bind] at h <;>
      rw [List.get?_eq_none.2 (by simpa using hj6)] at h <;> exact absurd h (by simp)
  · have : kmap.get? i = none := List.get?_eq_none.2 (by simp [kmap]; omega)
    rw [this] at h
    exact absurd h (by simp)

/-- Every call of the `m` loop goes to the entry of `kmap` at its indices, its row chunk
is the entry of `mrs` at its row index, and its column index is the one of the column
chunk. -/
theorem edge_m_loop_index (x : SupArgs R) (j nr_cur bj s : Nat) :
    ∀ (rest : List Nat) (i m_left cij ai r : Nat) (calls : List (SubCall R)),
      (∀ k, rest.get? k = mrs.get? (i + k)) →
      edge_m_loop x j nr_cur bj s rest i m_left cij ai r = some calls →
        ∀ c ∈ calls, (kmap.get? c.i).bind (fun row => row.get? c.j) = some c.ker_fp ∧
          c.j = j ∧ mrs.get? c.i = some c.m := by
  intro rest
  induction rest with
  | nil =>
    intro i m_left cij ai r calls _ h
    simp only [edge_m_loop] at h
    split at h
    · cases h
      intro c hc
      simp at hc
    · exact absurd h (by simp)
  | cons mr_cur rest ih =>
    intro i m_left cij ai r calls hrest h
    have hrest1 : ∀ k, rest.get? k = mrs.get? (i + 1 + k) := by
      intro k
      have := hrest (k + 1)
      rw [List.get?_cons_succ] at this
      rw [this]
      congr 1
      omega
    simp only [edge_m_loop] at h
    split at h
    · cases h
      intro c hc
      simp at hc
    · split at h
      · split at h
        · exact absurd h (by simp)
        · rename_i ker hk
          rw [Option.map_eq_some'] at h
          obtain ⟨calls1, hrec, rfl⟩ := h
          intro c hc
          rcases List.mem_cons.1 hc with rfl | hc
          · refine ⟨hk, rfl, ?_⟩
            have := hrest 0
            simp only [List.get?_cons_zero, Nat.add_zero] at this
            exact this.symm
          · exact ih _ _ _ _ _ _ hrest1 hrec c hc
      · exact ih _ _ _ _ _ _ hrest1 h

/-- Every call of the `n` loop goes to the entry of `kmap` at indices inside the table,
and its chunk sizes are the entries of `mrs` and `nrs` at these indices. -/
theorem edge_n_loop_index (x : SupArgs R) :
    ∀ (rest : List Nat) (j n_left cj bj s : Nat) (cols : List (Nat × Nat × List (SubCall R))),
      (∀ k, rest.get? k = nrs.get? (j + k)) →
      edge_n_loop x rest j n_left cj bj s = some cols →
        ∀ col ∈ cols, ∀ c ∈ col.2.2,
          (kmap.get? c.i).bind (fun row => row.get? c.j) = some c.ker_fp ∧
          mrs.get? c.i = some c.m ∧ nrs.get? c.j = some c.n := by
  intro rest
  induction rest with
  | nil =>
    intro j n_left cj bj s cols _ h
    simp only [edge_n_loop] at h
    split at h
    · cases h
      intro col hcol
      simp at hcol
    · exact absurd h (by simp)
  | cons nr_cur rest ih =>
    intro j n_left cj bj s cols hrest h
    have hrest1 : ∀ k, rest.get? k = nrs.get? (j + 1 + k) := by
      intro k
      have := hrest (k + 1)
      rw [List.get?_cons_succ] at this
      rw [this]
      congr 1
      omega
    simp only [edge_n_loop] at h
    split at h
    · cases h
      intro col hcol
      simp at hcol
    · split at h
      · split at h
        · exact absurd h (by simp)
        · rename_i calls hcalls
          rw [Option.map_eq_some'] at h
          obtain ⟨cols1, hrec, rfl⟩ := h
          intro col hcol
          rcases List.mem_cons.1 hcol with rfl | hcol
          · intro c hc
            obtain ⟨a1, a2, a3⟩ := edge_m_loop_index x j nr_cur bj s mrs 0 _ _ _ _ _
              (fun k => by rw [Nat.zero_add]) hcalls c hc
            have hn := (edge_m_loop_spec x j nr_cur bj s _ _ _ _ _ _ _ hcalls).1 c hc
            refine ⟨a1, a3, ?_⟩
            have := hrest 0
            simp only [List.get?_cons_zero, Nat.add_zero] at this
            rw [a2, hn.2.1]
            exact this.symm
          · exact ih _ _ _ _ _ _ hrest1 hrec col hcol
      · exact ih _ _ _ _ _ _ hrest1 h

end c17lemmas


section c17

variable {R : Type} [CommRing R] [DecidableEq R]

set_option maxRecDepth 100000 in
/-- Up to 13 rows and 43 columns, the sums of the entries of `mrs` and of `nrs`, the edge
loops read no table out of bounds. -/
theorem edge_plan_some : ∀ m0, m0 < 14 → ∀ n0, n0 < 44 → (edge_plan m0 n0).isSome = true := by
  decide

/-- C17, as the code has it.  Both edge loops advance their table index in every
iteration, so every entry of `mrs = {6, 4, 2, 1}` and of `nrs = {16, 12, 8, 4, 2, 1}` is
used at most once.  For a tile `m0 >= 1`, `n0 >= 1` on the edge path with `m0 <= 13` and
`n0 <= 43` (the sums of the entries) both loops end with nothing left: the calls cover
every element of the tile exactly once, the chunk sizes add up to `m0` and `n0`, and
every index used on `mrs`, `nrs` and `kmap` is inside the table.  For `m0 > 13` or
`n0 > 43` a loop reaches the end of its table with rows or columns left and reads past
it. -/
theorem edge_loops_up_to_table_sums (x : SupArgs R) (A B C : Nat → R) (hm : 1 ≤ x.m0)
    (hn : 1 ≤ x.n0) (hedge : x.m0 < 6 ∨ x.n0 < 16) :
    (x.m0 ≤ 13 → x.n0 ≤ 43 →
      ∃ cols : List (Nat × Nat × List (SubCall R)),
        edge_cols x = some cols ∧
        bli_sgemmsup_rv_haswell_asm_6x16 x A B C
          = Outcome.edge (some (cols.flatMap (fun col => col.2.2))) ∧
        (∀ i j, i < x.m0 → j < x.n0 →
          (cols.flatMap (fun col => col.2.2)).countP (SubCall.covers i j) = 1) ∧
        (cols.map (fun col => col.2.1)).sum = x.n0 ∧
        (∀ col ∈ cols, (col.2.2.map (fun c => c.m)).sum = x.m0) ∧
        (∀ col ∈ cols, ∀ c ∈ col.2.2,
          c.i < 4 ∧ c.j < 6 ∧ mrs.get? c.i = some c.m ∧ nrs.get? c.j = some c.n ∧
          (kmap.get? c.i).bind (fun row => row.get? c.j) = some c.ker_fp)) ∧
    ((13 < x.m0 ∨ 43 < x.n0) →
      bli_sgemmsup_rv_haswell_asm_6x16 x A B C = Outcome.edge none) := by
  have hbli : bli_sgemmsup_rv_haswell_asm_6x16 x A B C = Outcome.edge (edge_path x) := by
    simp only [bli_sgemmsup_rv_haswell_asm_6x16, if_pos hedge]
  constructor
  · intro hm13 hn43
    have hsome := edge_plan_some x.m0 (by omega) x.n0 (by omega)
    rw [← edge_cols_info x, Option.isSome_map', Option.isSome_iff_exists] at hsome
    obtain ⟨cols, hcols⟩ := hsome
    obtain ⟨h1, h2, h3⟩ := edge_n_loop_spec x _ _ _ _ _ _ _ hcols
    have h4 := edge_n_loop_index x nrs 0 x.n0 x.c x.b 0 cols
      (fun k => by rw [Nat.zero_add]) hcols
    refine ⟨cols, hcols, ?_, ?_, h1, ?_, ?_⟩
    · rw [hbli, edge_path, hcols, Option.map_some']
    · intro i j hi hj
      exact h3 i j hi (Nat.zero_le _) (by omega)
    · intro col hcol
      exact (h2 col hcol).2.2.1
    · intro col hcol c hc
      obtain ⟨a1, a2, a3⟩ := h4 col hcol c hc
      obtain ⟨b1, b2⟩ := kmap_index_bounds _ _ _ a1
      exact ⟨b1, b2, a2, a3, a1⟩
  · intro hbig
    rw [hbli]
    cases hc : edge_cols x with
    | none => simp only [edge_path, hc, Option.map_none']
    | some cols =>
      exfalso
      obtain ⟨h1, h2⟩ := edge_n_loop_le_sum x _ _ _ _ _ _ _ hc
      have e1 : nrs.sum = 43 := by decide
      have e2 : mrs.sum = 13 := by decide
      have := h2 (by omega)
      omega

/-- For `m0 = 13`, `n0 = 1` the edge path makes the four calls `6x1, 4x1, 2x1, 1x1`, one
per entry of `mrs`. -/
theorem edge_loops_up_to_table_sums_witness :
    ∃ cols : List (Nat × Nat × List (SubCall Int)),
      edge_cols args_13x1 = some cols ∧
      bli_sgemmsup_rv_haswell_asm_6x16 args_13x1 (fun _ => 1) (fun _ => 1) (fun _ => 0)
        = Outcome.edge (some (cols.flatMap (fun col => col.2.2))) ∧
      (cols.flatMap (fun col => col.2.2)).map (fun c => (c.i, c.m, c.n))
        = [(0, 6, 1), (1, 4, 1), (2, 2, 1), (3, 1, 1)] := by
  obtain ⟨cols, h1, h2, _⟩ := (edge_loops_up_to_table_sums args_13x1 (fun _ => 1)
    (fun _ => 1) (fun _ => 0) (by decide) (by decide) (Or.inr (by decide))).1
    (by decide) (by decide)
  refine ⟨cols, h1, h2, ?_⟩
  have hc : edge_cols args_13x1 = some _ := rfl
  rw [hc] at h1
  rw [← Option.some.inj h1]
  rfl

/-- For `m0 = 14`, `n0 = 1` the `m` loop uses the four entries of `mrs`, has one row left
and reads `mrs[4]`, past the end of the table: the edge path has no defined result. -/
theorem edge_loop_runs_past_table :
    bli_sgemmsup_rv_haswell_asm_6x16 args_14x1 (fun _ => 1) (fun _ => 1) (fun _ => 0)
        = Outcome.edge none ∧
    edge_m_loop args_14x1 5 1 0 0 [] 4 1 13 52 13 = none ∧
    mrs.get? 4 = none :=
  ⟨rfl, rfl, rfl⟩

end c17

end Haswell

namespace Haswell

/-! ## The column-stored tile with `beta != 0` -/

section colload

variable {R : Type} [CommRing R]

omit [CommRing R] in
/-- A four-lane store at the top of column `c`, seen from the top element of column
`col`. -/
theorem store4_coord0 {rsi : Nat} (h6 : 6 ≤ rsi) (M : Nat → R) (rcx c col : Nat)
    (v : Vec R) :
    vmovups_store4 M (rcx + c * rsi) v (rcx + col * rsi)
      = if col = c then v 0 else M (rcx + col * rsi) := by
  have h := store4_coord h6 (by omega : 0 < 6) M rcx c col v
  simp only [Nat.add_zero] at h
  rw [h]
  by_cases hc : col = c
  · rw [if_pos ⟨hc, by omega⟩, if_pos hc]
  · rw [if_neg (fun hh => hc hh.1), if_neg hc]

/-- The transposition of `.SCOLSTORED` for the rows 0-3 of the eight columns that start at
column `c0`: the element `(row, col)` becomes `beta` times its previous value plus lane
`col - c0` of the register of its row. -/
theorem rows03_ld_coord {rsi row : Nat} (h6 : 6 ≤ rsi) (hrow : row < 6) (C : Nat → R)
    (rcx c0 col base a : Nat) (hb : base = rcx + c0 * rsi) (ha : a = rcx + col * rsi + row)
    (beta : R) (y0 y1 y2 y3 : Vec R) :
    (scolstored_rows03 C base rsi (rsi + rsi * 2) (rsi + rsi * 4)
        (rsi + rsi * 2 + rsi * 4) (fun _ => beta) y0 y1 y2 y3).1 a
      = if c0 ≤ col ∧ col < c0 + 8 ∧ row < 4 then
          beta * C a
            + (if row = 0 then y0 else if row = 1 then y1 else if row = 2 then y2 else y3)
                (col - c0)
        else C a := by
  subst hb ha
  have e0 : rcx + c0 * rsi = rcx + (c0 + 0) * rsi := rfl
  have e1 : rcx + c0 * rsi + rsi * 1 = rcx + (c0 + 1) * rsi := by ring
  have e2 : rcx + c0 * rsi + rsi * 2 = rcx + (c0 + 2) * rsi := by ring
  have e3 : rcx + c0 * rsi + (rsi + rsi * 2) * 1 = rcx + (c0 + 3) * rsi := by ring
  have e4 : rcx + c0 * rsi + rsi * 4 = rcx + (c0 + 4) * rsi := by ring
  have e5 : rcx + c0 * rsi + (rsi + rsi * 4) * 1 = rcx + (c0 + 5) * rsi := by ring
  have e6 : rcx + c0 * rsi + (rsi + rsi * 2) * 2 = rcx + (c0 + 6) * rsi := by ring
  have e7 : rcx + c0 * rsi + (rsi + rsi * 2 + rsi * 4) * 1 = rcx + (c0 + 7) * rsi := by
    ring
  simp only [scolstored_rows03, e1, e2, e3, e4, e5, e6, e7]
  rw [e0]
  by_cases hmem : c0 ≤ col ∧ col < c0 + 8 ∧ row < 4
  · obtain ⟨k, rfl⟩ := Nat.exists_eq_add_of_le hmem.1
    have hk : k < 8 := by omega
    have hr := hmem.2.2
    rw [if_pos hmem, Nat.add_sub_cancel_left]
    interval_cases k <;> interval_cases row <;>
      simp +decide [store4_coord h6 hrow, store4_coord0 h6, vfmadd231ps, vmovups_load,
        vextractf128_1, vblendps, vshufps, vunpcklps, vunpckhps]
  · rw [if_neg hmem]
    simp (disch := omega) only [store4_coord h6 hrow, if_neg]

/-- The transposition of `.SCOLSTORED` for the rows 4-5 of the eight columns that start at
column `c0`; the value the register `xmm1` holds on entry is not used. -/
theorem rows45_ld_coord {rsi row : Nat} (h6 : 6 ≤ rsi) (hrow : row < 6) (C : Nat → R)
    (rcx c0 col base a : Nat) (hb : base = rcx + c0 * rsi + 4)
    (ha : a = rcx + col * rsi + row) (beta : R) (xmm1 y4 y5 : Vec R) :
    scolstored_rows45 C base rsi (rsi + rsi * 2) (rsi + rsi * 4)
        (rsi + rsi * 2 + rsi * 4) (fun _ => beta) xmm1 y4 y5 a
      = if c0 ≤ col ∧ col < c0 + 8 ∧ 4 ≤ row then
          beta * C a + (if row = 4 then y4 else y5) (col - c0)
        else C a := by
  subst hb ha
  have e0 : rcx + c0 * rsi + 4 = rcx + (c0 + 0) * rsi + 4 := rfl
  have e1 : rcx + c0 * rsi + 4 + rsi * 1 = rcx + (c0 + 1) * rsi + 4 := by ring
  have e2 : rcx + c0 * rsi + 4 + rsi * 2 = rcx + (c0 + 2) * rsi + 4 := by ring
  have e3 : rcx + c0 * rsi + 4 + (rsi + rsi * 2) * 1 = rcx + (c0 + 3) * rsi + 4 := by ring
  have e4 : rcx + c0 * rsi + 4 + rsi * 4 = rcx + (c0 + 4) * rsi + 4 := by ring
  have e5 : rcx + c0 * rsi + 4 + (rsi + rsi * 4) * 1 = rcx + (c0 + 5) * rsi + 4 := by ring
  have e6 : rcx + c0 * rsi + 4 + (rsi + rsi * 2) * 2 = rcx + (c0 + 6) * rsi + 4 := by ring
  have e7 : rcx + c0 * rsi + 4 + (rsi + rsi * 2 + rsi * 4) * 1
      = rcx + (c0 + 7) * rsi + 4 := by ring
  have lpd0 : ∀ (M : Nat → R) (p : Nat) (src : Vec R), vmovlpd_load M p src 0 = M p :=
    fun _ _ _ => rfl
  have lpd1 : ∀ (M : Nat → R) (t : Nat) (src : Vec R),
      vmovlpd_load M (t + 4) src 1 = M (t + 5) := fun _ _ _ => rfl
  have hpd0 : ∀ (M : Nat → R) (p : Nat) (src : Vec R), vmovhpd_load M p src 0 = src 0 :=
    fun _ _ _ => rfl
  have hpd1 : ∀ (M : Nat → R) (p : Nat) (src : Vec R), vmovhpd_load M p src 1 = src 1 :=
    fun _ _ _ => rfl
  have hpd2 : ∀ (M : Nat → R) (p : Nat) (src : Vec R), vmovhpd_load M p src 2 = M p :=
    fun _ _ _ => rfl
  have hpd3 : ∀ (M : Nat → R) (t : Nat) (src : Vec R),
      vmovhpd_load M (t + 4) src 3 = M (t + 5) := fun _ _ _ => rfl
  simp only [scolstored_rows45, e1, e2, e3, e4, e5, e6, e7]
  rw [e0]
  by_cases hmem : c0 ≤ col ∧ col < c0 + 8 ∧ 4 ≤ row
  · obtain ⟨k, rfl⟩ := Nat.exists_eq_add_of_le hmem.1
    have hk : k < 8 := by omega
    have hr := hmem.2.2
    rw [if_pos hmem, Nat.add_sub_cancel_left]
    interval_cases k <;> interval_cases row <;>
      simp +decide [storelo_coord h6 hrow, storehi_coord h6 hrow, lpd0, lpd1, hpd0, hpd1,
        hpd2, hpd3, vfmadd231ps, vextractf128_1, vunpcklps, vunpckhps]
  · rw [if_neg hmem]
    simp (disch := omega) only [storelo_coord h6 hrow, storehi_coord h6 hrow, if_neg]

/-- The tile after `.SCOLSTORED` on a column-stored C (`rs_c = 1`, `6 <= cs_c`): every
element holds `beta` times its previous value plus its accumulator lane. -/
theorem scolstored_apply (C : Nat → R) (rcx rsi : Nat) (beta : R) (s : Acc R) (h6 : 6 ≤ rsi)
    (i j : Nat) (hi : i < 6) (hj : j < 16) :
    scolstored C rcx (rcx + 4) rsi (rsi + rsi * 2) (rsi + rsi * 4)
        (rsi + rsi * 2 + rsi * 4) (fun _ => beta) s (rcx + j * rsi + i)
      = beta * C (rcx + j * rsi + i) + s.lane i j := by
  simp only [scolstored]
  rw [rows45_ld_coord h6 hi _ rcx 8 j (rcx + 4 + rsi * 8) _ (by omega) rfl,
    rows03_ld_coord h6 hi _ rcx 8 j (rcx + rsi * 8) _ (by omega) rfl,
    rows45_ld_coord h6 hi _ rcx 0 j (rcx + 4) _ (by omega) rfl,
    rows03_ld_coord h6 hi _ rcx 0 j rcx _ (by omega) rfl]
  by_cases hj8 : j < 8 <;> by_cases hi4 : i < 4 <;>
    simp (disch := omega) only [if_pos, if_neg, Nat.sub_zero] <;>
    interval_cases i <;> simp [Acc.lane, hj8]

end colload

section c15

variable {R : Type} [CommRing R] [DecidableEq R]

/-- The assembly body on a row-stored C whose rows hold the sixteen columns. -/
theorem asm_row_stored (x : SupArgs R) (A B C : Nat → R) (hrs : 16 ≤ x.rs_c0)
    (i j : Nat) (hi : i < 6) (hj : j < 16) :
    asm_6x16 x A B C (x.c + i * x.rs_c0 + j)
      = x.beta * C (x.c + i * x.rs_c0 + j)
        + x.alpha * ∑ l ∈ Finset.range x.k0,
            A (x.a + i * x.rs_a0 + l * x.cs_a0) * B (x.b + l * x.rs_b0 + j) := by
  have hne : ¬ x.rs_c0 = 1 := by omega
  unfold asm_6x16
  rw [spostaccum_eq]
  by_cases hb : x.beta = 0
  · rw [if_pos hb, if_neg hne, srowstorbz_apply C x.c x.rs_c0 _ hrs i j hi hj,
      lane_accumulate x A B i j hi, hb, zero_mul, zero_add]
  · rw [if_neg hb, if_neg hne, srowstored_apply C x.c x.rs_c0 x.beta _ hrs i j hi hj,
      lane_accumulate x A B i j hi]

/-- The assembly body on a column-stored C whose columns hold the six rows. -/
theorem asm_col_stored (x : SupArgs R) (A B C : Nat → R) (hrs : x.rs_c0 = 1)
    (hcs : 6 ≤ x.cs_c0) (i j : Nat) (hi : i < 6) (hj : j < 16) :
    asm_6x16 x A B C (x.c + i + j * x.cs_c0)
      = x.beta * C (x.c + i + j * x.cs_c0)
        + x.alpha * ∑ l ∈ Finset.range x.k0,
            A (x.a + i * x.rs_a0 + l * x.cs_a0) * B (x.b + l * x.rs_b0 + j) := by
  have e : x.c + i + j * x.cs_c0 = x.c + j * x.cs_c0 + i := by omega
  have e4 : x.c + x.rs_c0 * 4 = x.c + 4 := by rw [hrs]
  rw [e]
  unfold asm_6x16
  rw [spostaccum_eq]
  by_cases hb : x.beta = 0
  · rw [if_pos hb, if_pos hrs, e4, scolstorbz_apply C x.c x.cs_c0 _ hcs i j hi hj,
      lane_accumulate x A B i j hi, hb, zero_mul, zero_add]
  · rw [if_neg hb, if_pos hrs, e4, scolstored_apply C x.c x.cs_c0 x.beta _ hcs i j hi hj,
      lane_accumulate x A B i j hi]

/-- C15. On a full 6x16 tile of a column-stored C (`rs_c = 1`, any `cs_c` for which the
elements `c + i + j*cs_c` of the tile are distinct places) the kernel takes its assembly
body and leaves at `c + i + j*cs_c`, for every `i < 6`, `j < 16`, the value
`beta * C0[i][j] + alpha * sum_{l<k0} A[i][l] * B[l][j]`: the value the row-stored path
leaves at `c + i*rs_c + j` when run on the same tile stored by rows, for `beta != 0`
(`.SCOLSTORED`, `.SROWSTORED`) and `beta == 0` (`.SCOLSTORBZ`, `.SROWSTORBZ`) alike.  Every
element of the tile receives its own value, once: the unpack/shuffle/blend sequence
transposes the accumulators exactly. -/
theorem col_stored_is_transpose (x : SupArgs R) (A B Cc Cr : Nat → R) (rs_r : Nat)
    (hm : x.m0 = 6) (hn : x.n0 = 16) (hrs : x.rs_c0 = 1)
    (hcol : ∀ i i2 j j2, i < 6 → i2 < 6 → j < 16 → j2 < 16 →
      x.c + i + j * x.cs_c0 = x.c + i2 + j2 * x.cs_c0 → i = i2 ∧ j = j2)
    (hrow : ∀ i i2 j j2, i < 6 → i2 < 6 → j < 16 → j2 < 16 →
      x.c + i * rs_r + j = x.c + i2 * rs_r + j2 → i = i2 ∧ j = j2)
    (hC : ∀ i j, i < 6 → j < 16 → Cc (x.c + i + j * x.cs_c0) = Cr (x.c + i * rs_r + j)) :
    ∃ Fc Fr : Nat → R,
      bli_sgemmsup_rv_haswell_asm_6x16 x A B Cc = Outcome.full Fc ∧
      bli_sgemmsup_rv_haswell_asm_6x16 { x with rs_c0 := rs_r, cs_c0 := 1 } A B Cr
        = Outcome.full Fr ∧
      ∀ i j, i < 6 → j < 16 →
        Fc (x.c + i + j * x.cs_c0) = Fr (x.c + i * rs_r + j) ∧
        Fc (x.c + i + j * x.cs_c0)
          = x.beta * Cc (x.c + i + j * x.cs_c0)
            + x.alpha * ∑ l ∈ Finset.range x.k0,
                A (x.a + i * x.rs_a0 + l * x.cs_a0) * B (x.b + l * x.rs_b0 + j) := by
  have hcs : 6 ≤ x.cs_c0 := by
    by_contra hlt
    rcases Nat.eq_zero_or_pos x.cs_c0 with h0 | hpos
    · have := hcol 0 0 0 1 (by omega) (by omega) (by omega) (by omega) (by rw [h0])
      omega
    · have := hcol x.cs_c0 0 0 1 (by omega) (by omega) (by omega) (by omega) (by omega)
      omega
  have hrr : 16 ≤ rs_r := by
    by_contra hlt
    rcases Nat.eq_zero_or_pos rs_r with h0 | hpos
    · have := hrow 0 1 0 0 (by omega) (by omega) (by omega) (by omega) (by rw [h0])
      omega
    · have := hrow 0 1 rs_r 0 (by omega) (by omega) (by omega) (by omega) (by omega)
      omega
  have hfc : bli_sgemmsup_rv_haswell_asm_6x16 x A B Cc
      = Outcome.full (asm_6x16 x A B Cc) := by
    unfold bli_sgemmsup_rv_haswell_asm_6x16
    rw [if_neg (by omega)]
  have hfr : bli_sgemmsup_rv_haswell_asm_6x16 { x with rs_c0 := rs_r, cs_c0 := 1 } A B Cr
      = Outcome.full (asm_6x16 { x with rs_c0 := rs_r, cs_c0 := 1 } A B Cr) := by
    unfold bli_sgemmsup_rv_haswell_asm_6x16
    rw [if_neg (by simp only; omega)]
  refine ⟨_, _, hfc, hfr, ?_⟩
  intro i j hi hj
  have h1 := asm_col_stored x A B Cc hrs hcs i j hi hj
  have h2 := asm_row_stored { x with rs_c0 := rs_r, cs_c0 := 1 } A B Cr hrr i j hi hj
  simp only at h2
  refine ⟨?_, h1⟩
  rw [h1, h2, hC i j hi hj]

/-- The scenario `K = 4`, A and B filled with ones, `alpha = 1`, `beta = 2` and the tile
`C0[i][j] = 16*i + j`, stored by columns with `cs_c = 6` and by rows with `rs_c = 16`:
both runs leave `2*(16*i + j) + 4` at the place of the element `(i, j)`. -/
theorem col_stored_is_transpose_witness :
    ∃ Fc Fr : Nat → Int,
      bli_sgemmsup_rv_haswell_asm_6x16 args_6x16_col_beta (fun _ => 1) (fun _ => 1)
          mem_tile_cols = Outcome.full Fc ∧
      bli_sgemmsup_rv_haswell_asm_6x16 { args_6x16_col_beta with rs_c0 := 16, cs_c0 := 1 }
          (fun _ => 1) (fun _ => 1) mem_tile_rows = Outcome.full Fr ∧
      ∀ i j, i < 6 → j < 16 →
        Fc (i + j * 6) = Fr (i * 16 + j) ∧
        Fc (i + j * 6) = 2 * ((i * 16 + j : Nat) : Int) + 4 := by
  obtain ⟨Fc, Fr, h1, h2, h3⟩ := col_stored_is_transpose args_6x16_col_beta (fun _ => 1)
    (fun _ => 1) mem_tile_cols mem_tile_rows 16 rfl rfl rfl
    (by
      intro i i2 j j2 _ _ _ _ h
      simp only [args_6x16_col_beta, args_6x16_col, args_6x16] at h
      omega)
    (by
      intro i i2 j j2 _ _ _ _ h
      simp only [args_6x16_col_beta, args_6x16_col, args_6x16] at h
      omega)
    (by
      intro i j hi hj
      simp only [args_6x16_col_beta, args_6x16_col, args_6x16, mem_tile_cols,
        mem_tile_rows]
      congr 1
      omega)
  refine ⟨Fc, Fr, h1, h2, ?_⟩
  intro i j hi hj
  obtain ⟨a1, a2⟩ := h3 i j hi hj
  have e : (0 + i + j * 6) % 6 * 16 + (0 + i + j * 6) / 6 = i * 16 + j := by omega
  simp only [args_6x16_col_beta, args_6x16_col, args_6x16, mem_tile_cols, e] at a1 a2
  simp only [Nat.zero_add] at a1 a2
  refine ⟨a1, ?_⟩
  rw [a2]
  simp

end c15

end Haswell

namespace Lpgemm

/-! ## Termination and the number of iterations -/

section counting

theorem foldl_const_eq_iterate {σ α : Type} (g : σ → σ) (l : List α) (s : σ) :
    l.foldl (fun s _ => g s) s = g^[l.length] s := by
  induction l generalizing s with
  | nil => rfl
  | cons a l ih => simp [ih]

theorem length_starts {stop step : Nat} (hstep : 0 < step) (i : Nat) :
    (starts i stop step).length = ceil_div (stop - i) step := by
  rw [starts_eq_map_range hstep, List.length_map, List.length_range]
  rfl

theorem ceil_div_le {a b : Nat} (hb : 0 < b) : ceil_div a b ≤ a := by
  unfold ceil_div
  rcases Nat.eq_zero_or_pos a with h | h
  · subst h
    have : (0 + b - 1) / b = 0 := Nat.div_eq_of_lt (by omega)
    omega
  · calc (a + b - 1) / b ≤ (a * b) / b := by
          apply Nat.div_le_div_right
          have : a + b ≤ a * b + 1 := by
            obtain ⟨a1, rfl⟩ : ∃ a1, a = a1 + 1 := ⟨a - 1, by omega⟩
            obtain ⟨b1, rfl⟩ : ∃ b1, b = b1 + 1 := ⟨b - 1, by omega⟩
            ring_nf
            nlinarith [Nat.zero_le (a1 * b1)]
          omega
      _ = a := Nat.mul_div_cancel _ hb

/-- The quotient `( a + b - 1 ) / b` is the least `t` with `a ≤ t * b`. -/
theorem ceil_div_spec {a b : Nat} (hb : 0 < b) (t : Nat) : ceil_div a b ≤ t ↔ a ≤ t * b := by
  unfold ceil_div
  constructor
  · intro h
    have h1 : a + b - 1 < (t + 1) * b := by
      have := Nat.lt_succ_of_le h
      exact (Nat.div_lt_iff_lt_mul hb).1 this
    rw [Nat.add_mul, Nat.one_mul] at h1
    omega
  · intro h
    have h1 : a + b - 1 < (t + 1) * b := by
      rw [Nat.add_mul, Nat.one_mul]; omega
    exact Nat.le_of_lt_succ ((Nat.div_lt_iff_lt_mul hb).2 h1)

variable {R : Type} [One R]

theorem pack_a_iterate (input_buf_addr_a reorder_buf_addr_a m k rs_a cs_a ps_p MR : Nat) :
    ∀ n : Nat,
      (pack_a_next input_buf_addr_a m k rs_a cs_a MR ps_p)^[n]
          ({ ir := 0, p_temp := reorder_buf_addr_a, calls := [] } : PackLoop R)
        = { ir := n * MR
            p_temp := reorder_buf_addr_a + n * ps_p
            calls := (List.range n).map
              (pack_a_chunk input_buf_addr_a reorder_buf_addr_a m k rs_a cs_a ps_p MR) } := by
  intro n
  induction n with
  | zero => simp
  | succ n ih =>
    rw [Function.iterate_succ_apply', ih]
    simp only [pack_a_next, List.range_succ, List.map_append, List.map_cons, List.map_nil,
      pack_a_chunk, Nat.add_mul, Nat.one_mul, Nat.add_assoc]

theorem pack_b_iterate (input_buf_addr_b reorder_buf_addr_b n k rs_b cs_b ps_p NR : Nat) :
    ∀ t : Nat,
      (pack_b_next input_buf_addr_b n k rs_b cs_b NR ps_p)^[t]
          ({ ir := 0, p_temp := reorder_buf_addr_b, calls := [] } : PackLoop R)
        = { ir := t * NR
            p_temp := reorder_buf_addr_b + t * ps_p
            calls := (List.range t).map
              (pack_b_chunk input_buf_addr_b reorder_buf_addr_b n k rs_b cs_b ps_p NR) } := by
  intro t
  induction t with
  | zero => simp
  | succ t ih =>
    rw [Function.iterate_succ_apply', ih]
    simp only [pack_b_next, List.range_succ, List.map_append, List.map_cons, List.map_nil,
      pack_b_chunk, Nat.add_mul, Nat.one_mul, Nat.add_assoc]

/-- The loop of `lpgemm_pack_a_f32f32f32of32` ends after `( m + MR - 1 ) / MR` iterations
and has then made the call `pack_a_chunk` for each of them, in order. -/
theorem pack_a_run_eq (input_buf_addr_a reorder_buf_addr_a m k rs_a cs_a ps_p MR : Nat)
    (fuel : Nat) (hf : ceil_div m MR ≤ fuel) :
    pack_a_run input_buf_addr_a reorder_buf_addr_a m k rs_a cs_a ps_p MR fuel
      = some ((List.range (ceil_div m MR)).map
          (pack_a_chunk input_buf_addr_a reorder_buf_addr_a m k rs_a cs_a ps_p MR
            : Nat → PackmCxkCall R)) := by
  simp only [pack_a_run]
  rw [forLoop_eq_foldl Nat.one_pos (pack_a_body input_buf_addr_a m k rs_a cs_a ps_p MR)
    (fun _ s => pack_a_next input_buf_addr_a m k rs_a cs_a MR ps_p s) (fun _ _ _ => rfl)
    fuel 0 _ (by unfold ceil_div at hf; omega)]
  rw [foldl_const_eq_iterate, length_starts Nat.one_pos, pack_a_iterate]
  have e : ceil_div ((m + MR - 1) / MR - 0) 1 = ceil_div m MR := by
    unfold ceil_div; simp
  rw [e]
  rfl

/-- The loop of `lpgemm_pack_b_f32f32f32of32` ends after `( n + NR - 1 ) / NR` iterations
and has then made the call `pack_b_chunk` for each of them, in order. -/
theorem pack_b_run_eq (input_buf_addr_b reorder_buf_addr_b n k rs_b cs_b ps_p NR : Nat)
    (fuel : Nat) (hf : ceil_div n NR ≤ fuel) :
    pack_b_run input_buf_addr_b reorder_buf_addr_b n k rs_b cs_b ps_p NR fuel
      = some ((List.range (ceil_div n NR)).map
          (pack_b_chunk input_buf_addr_b reorder_buf_addr_b n k rs_b cs_b ps_p NR
            : Nat → PackmCxkCall R)) := by
  simp only [pack_b_run]
  rw [forLoop_eq_foldl Nat.one_pos (pack_b_body input_buf_addr_b n k rs_b cs_b ps_p NR)
    (fun _ s => pack_b_next input_buf_addr_b n k rs_b cs_b NR ps_p s) (fun _ _ _ => rfl)
    fuel 0 _ (by unfold ceil_div at hf; omega)]
  rw [foldl_const_eq_iterate, length_starts Nat.one_pos, pack_b_iterate]
  have e : ceil_div ((n + NR - 1) / NR - 0) 1 = ceil_div n NR := by
    unfold ceil_div; simp
  rw [e]
  rfl

end counting

section driver_count

variable {R L : Type} [One R]

/-- The events of the loop nest that satisfy `p`, counted loop by loop. -/
theorem countP_loop_events (blk : BlockSizes) (thr : ThreadInfo) (x : Args R L)
    (p : Event R L → Bool) :
    (loop_events blk thr x).countP p
      = ((starts thr.jc_start thr.jc_end blk.NC).map (fun jc =>
          ((starts 0 x.k blk.KC).map (fun pc =>
            (b_select blk thr x jc pc (min (thr.jc_end - jc) blk.NC)
                (min (x.k - pc) blk.KC) jc 0 0).1.countP p +
              ((starts thr.ic_start thr.ic_end blk.MC).map (fun ic =>
                (a_select blk x pc ic (min (x.k - pc) blk.KC)
                    (min (thr.ic_end - ic) blk.MC)).1.countP p +
                  (jr_events blk x
                    (a_select blk x pc ic (min (x.k - pc) blk.KC)
                      (min (thr.ic_end - ic) blk.MC)).2
                    (b_select blk thr x jc pc (min (thr.jc_end - jc) blk.NC)
                      (min (x.k - pc) blk.KC) jc 0 0).2
                    jc pc ic (min (thr.jc_end - jc) blk.NC) (min (x.k - pc) blk.KC)
                    (min (thr.ic_end - ic) blk.MC)).countP p)).sum)).sum)).sum := by
  simp only [loop_events, jc_events, pc_events, ic_events, List.countP_flatMap,
    List.countP_append, Function.comp_def]

omit [One R] in
theorem sum_map_const {α : Type} (l : List α) (c : Nat) :
    (l.map (fun _ => c)).sum = l.length * c := by
  rw [List.map_const', List.sum_const_nat]

omit [One R] in
theorem is_kernel_a_select (blk : BlockSizes) (x : Args R L) (pc ic kc0 mc0 : Nat) :
    (a_select blk x pc ic kc0 mc0).1.countP Event.is_kernel = 0 := by
  unfold a_select
  split_ifs <;> rfl

omit [One R] in
theorem is_kernel_b_select (blk : BlockSizes) (thr : ThreadInfo) (x : Args R L)
    (jc pc nc0 kc0 j1 j2 j3 : Nat) :
    (b_select blk thr x jc pc nc0 kc0 j1 j2 j3).1.countP Event.is_kernel = 0 := by
  rw [List.countP_eq_zero]
  intro e he hk
  cases e with
  | kernel jc1 pc1 ic1 jr1 call =>
    exact kernel_not_mem_b_select blk thr x jc pc nc0 kc0 j1 j2 j3 jc1 pc1 ic1 jr1 call he
  | _ => simp [Event.is_kernel] at hk

omit [One R] in
theorem is_kernel_release (thr : ThreadInfo) (x : Args R L) (evs : List (Event R L)) :
    (release_events thr x evs).countP Event.is_kernel = 0 := by
  unfold release_events
  split_ifs <;> simp [Event.is_kernel, List.countP_cons, List.countP_nil]

theorem is_kernel_jr_events (blk : BlockSizes) (x : Args R L) (au : AUse) (bu : BUse)
    (jc pc ic nc0 kc0 mc0 : Nat) (hNR : 0 < blk.NR) :
    (jr_events blk x au bu jc pc ic nc0 kc0 mc0).countP Event.is_kernel
      = ceil_div nc0 blk.NR := by
  unfold jr_events
  rw [List.countP_map, List.countP_eq_length.2 (by intro a _; rfl), length_starts hNR]
  rfl

/-- The number of micro-kernel calls among the events of the loop nest. -/
theorem kernel_count_loop_events (blk : BlockSizes) (thr : ThreadInfo) (x : Args R L)
    (hNR : 0 < blk.NR) (hNC : 0 < blk.NC) (hMC : 0 < blk.MC) (hKC : 0 < blk.KC) :
    (loop_events blk thr x).countP Event.is_kernel
      = ((List.range (ceil_div (thr.jc_end - thr.jc_start) blk.NC)).map (fun t =>
          ceil_div x.k blk.KC * ceil_div (thr.ic_end - thr.ic_start) blk.MC *
            ceil_div (min (thr.jc_end - (thr.jc_start + t * blk.NC)) blk.NC) blk.NR)).sum := by
  rw [countP_loop_events]
  simp only [is_kernel_a_select, is_kernel_b_select, is_kernel_jr_events _ _ _ _ _ _ _ _ _ _ hNR,
    Nat.zero_add, sum_map_const, length_starts hMC, length_starts hKC, Nat.sub_zero]
  rw [starts_eq_map_range hNC, List.map_map]
  simp only [Function.comp_def, Nat.mul_assoc]
  rfl

/-- C21. Termination and the number of iterations.  For all extents `m, n, k`, thread
ranges inside `[0, n)` and `[0, m)`, block sizes `NC, KC, MC, NR >= 1` and a B that is not
REORDERED, the driver returns whenever the fuel is at least `m`, `n` and `k`, and the number
of micro-kernel calls among its events is the sum, over the column blocks
`jc = jc_start + t*NC`, `t < ceil((jc_end - jc_start)/NC)`, of
`ceil(k/KC) * ceil((ic_end - ic_start)/MC) * ceil(nc0/NR)` with
`nc0 = min(jc_end - jc, NC)`.  The loops of `lpgemm_pack_a_f32f32f32of32` and of
`lpgemm_pack_b_f32f32f32of32` end as well (fuel at least the extent) after exactly
`ceil(m/MR)`, resp. `ceil(n/NR)`, iterations, one call of `packm_cxk` each.  Here
`ceil(a/b)` is `( a + b - 1 ) / b`, the least `t` with `a <= t*b`. -/
theorem loops_terminate_with_counts (blk : BlockSizes) (nav : ReorderNav) (thr : ThreadInfo)
    (x : Args R L) (fuel : Nat) (hB : x.mtag_b ≠ AOCL_MEMORY_TAG.REORDERED)
    (hNR : 0 < blk.NR) (hNC : 0 < blk.NC) (hMC : 0 < blk.MC) (hKC : 0 < blk.KC)
    (hjc : thr.jc_end ≤ x.n) (hic : thr.ic_end ≤ x.m)
    (hfm : x.m ≤ fuel) (hfn : x.n ≤ fuel) (hfk : x.k ≤ fuel) :
    (∃ evs, lpgemm_rowvar_f32f32f32of32 blk nav thr x fuel = some evs ∧
      evs.countP Event.is_kernel
        = ((List.range (ceil_div (thr.jc_end - thr.jc_start) blk.NC)).map (fun t =>
            ceil_div x.k blk.KC * ceil_div (thr.ic_end - thr.ic_start) blk.MC *
              ceil_div (min (thr.jc_end - (thr.jc_start + t * blk.NC)) blk.NC)
                blk.NR)).sum) ∧
    (∀ (src dst mn k rs cs ps_p XR f : Nat), 0 < XR → mn ≤ f →
      (pack_a_run src dst mn k rs cs ps_p XR f : Option (List (PackmCxkCall R))).map
          List.length = some (ceil_div mn XR) ∧
      (pack_b_run src dst mn k rs cs ps_p XR f : Option (List (PackmCxkCall R))).map
          List.length = some (ceil_div mn XR)) ∧
    (∀ a b t : Nat, 0 < b → (ceil_div a b ≤ t ↔ a ≤ t * b)) := by
  refine ⟨⟨_, lpgemm_events_eq blk nav thr x fuel hB hNR hNC hMC hKC (by omega) (by omega) hfk,
    ?_⟩, ?_, ?_⟩
  · rw [List.countP_append, is_kernel_release, Nat.add_zero,
      kernel_count_loop_events blk thr x hNR hNC hMC hKC]
  · intro src dst mn k rs cs ps_p XR f hXR hf
    have hle : ceil_div mn XR ≤ f := le_trans (ceil_div_le hXR) hf
    rw [pack_a_run_eq src dst mn k rs cs ps_p XR f hle,
      pack_b_run_eq src dst mn k rs cs ps_p XR f hle]
    simp
  · intro a b t hb
    exact ceil_div_spec hb t

/-- The run `M = 3, N = 5, K = 4` with `NR = 2, NC = 4, MC = 2, KC = 3` on one thread
returns with fuel 5 and makes `2*2*2 + 2*2*1 = 12` micro-kernel calls; packing 3 rows in
chunks of 2 takes 2 iterations. -/
theorem loops_terminate_with_counts_witness :
    (∃ evs, lpgemm_rowvar_f32f32f32of32 blk_small nav_id (single_thread 3 5) args_3x5 5
        = some evs ∧ evs.countP Event.is_kernel = 12) ∧
    (pack_a_run 0 0 3 4 4 1 8 2 3 : Option (List (PackmCxkCall Int))).map List.length
      = some 2 := by
  have h := loops_terminate_with_counts blk_small nav_id (single_thread 3 5) args_3x5 5
    (by decide) (by decide) (by decide) (by decide) (by decide) (by decide) (by decide)
    (by decide) (by decide) (by decide)
  obtain ⟨⟨evs, h1, h2⟩, h3, _⟩ := h
  refine ⟨⟨evs, h1, ?_⟩, ?_⟩
  · rw [h2]; decide
  · exact (h3 0 0 3 4 4 1 8 2 3 (by decide) (by decide)).1

end driver_count

end Lpgemm

namespace Lpgemm

/-! ## The chunks of `lpgemm_pack_a_f32f32f32of32` -/

section c25

theorem ceil_div_bounds {a b : Nat} (ha : 1 ≤ a) (hb : 1 ≤ b) :
    1 ≤ ceil_div a b ∧ (ceil_div a b - 1) * b < a ∧ a ≤ ceil_div a b * b := by
  have h2 : a ≤ ceil_div a b * b := (ceil_div_spec hb _).1 (le_refl _)
  have h1 : 1 ≤ ceil_div a b := by
    rcases Nat.eq_zero_or_pos (ceil_div a b) with h | h
    · rw [h] at h2; omega
    · exact h
  refine ⟨h1, ?_, h2⟩
  by_contra hc
  have hc2 : a ≤ (ceil_div a b - 1) * b := Nat.le_of_not_lt hc
  have := (ceil_div_spec hb (ceil_div a b - 1)).2 hc2
  omega

theorem sum_chunk_heights (m MR : Nat) (hMR : 0 < MR) :
    ((List.range (ceil_div m MR)).map (fun it => min MR (m - it * MR))).sum = m := by
  have h := @sum_blockLen_starts m MR hMR 0
  rw [starts_eq_map_range hMR, List.map_map] at h
  simp only [Nat.sub_zero] at h
  refine Eq.trans ?_ h
  unfold ceil_div
  congr 1
  apply List.map_congr_left
  intro t _
  simp only [Function.comp_apply, blockLen, Nat.zero_add]
  exact Nat.min_comm _ _

variable {R : Type}

/-- The two views of `lpgemm_pack_a_f32f32f32of32` agree: the pack buffer after the call is
the one obtained by the calls of `packm_cxk` of its loop, done in order. -/
theorem pack_a_run_mem [CommRing R] (A : Nat → R) (src : Nat) (buf : Nat → R)
    (dst m k rs_a cs_a ps_p MR : Nat) :
    lpgemm_pack_a_f32f32f32of32 A src buf dst m k rs_a cs_a ps_p MR
      = ((List.range (ceil_div m MR)).map
          (pack_a_chunk src dst m k rs_a cs_a ps_p MR)).foldl (PackmCxkCall.apply A) buf := by
  unfold lpgemm_pack_a_f32f32f32of32 ceil_div
  rw [List.foldl_map]
  rfl

/-- The two views of `lpgemm_pack_b_f32f32f32of32` agree as well. -/
theorem pack_b_run_mem [CommRing R] (B : Nat → R) (src : Nat) (buf : Nat → R)
    (dst n k rs_b cs_b ps_p NR : Nat) :
    lpgemm_pack_b_f32f32f32of32 B src buf dst n k rs_b cs_b ps_p NR
      = ((List.range (ceil_div n NR)).map
          (pack_b_chunk src dst n k rs_b cs_b ps_p NR)).foldl (PackmCxkCall.apply B) buf := by
  unfold lpgemm_pack_b_f32f32f32of32 ceil_div
  rw [List.foldl_map]
  rfl

/-- C25. For `m >= 1` and `MR >= 1` the loop of `lpgemm_pack_a_f32f32f32of32` ends (fuel at
least `m`) after `ceil(m/MR)` calls of `packm_cxk`, where `ceil(m/MR) >= 1` is the number
with `(ceil(m/MR) - 1)*MR < m <= ceil(m/MR)*MR`.  The call of chunk `it` reads from
`input_buf_addr_a + it*MR*rs_a` with the strides `rs_a`, `cs_a`, writes to
`reorder_buf_addr_a + it*ps_p`, has the height `min(MR, m - it*MR)`, `panel_dim_max = MR`,
leading dimension `MR`, `k` columns, `kappa = 1`, no conjugation and the row-panel schema.
The height lies in `[1, MR]`, is `MR` for every chunk but the last, and the heights sum
to `m`. -/
theorem pack_a_chunks [One R] (input_buf_addr_a reorder_buf_addr_a m k rs_a cs_a ps_p MR : Nat)
    (fuel : Nat) (hm : 1 ≤ m) (hMR : 1 ≤ MR) (hf : m ≤ fuel) :
    ∃ calls : List (PackmCxkCall R),
      pack_a_run input_buf_addr_a reorder_buf_addr_a m k rs_a cs_a ps_p MR fuel = some calls ∧
      calls.length = ceil_div m MR ∧
      (1 ≤ ceil_div m MR ∧ (ceil_div m MR - 1) * MR < m ∧ m ≤ ceil_div m MR * MR) ∧
      (∀ it, it < ceil_div m MR →
        calls.get? it = some
          { conjc := conj_t.BLIS_NO_CONJUGATE
            schema := pack_t.BLIS_PACKED_ROW_PANELS
            panel_dim := min MR (m - it * MR)
            panel_dim_max := MR
            panel_len := k
            panel_len_max := k
            kappa := 1
            a := input_buf_addr_a + it * MR * rs_a
            inca := rs_a
            lda := cs_a
            p := reorder_buf_addr_a + it * ps_p
            ldp := MR } ∧
        1 ≤ min MR (m - it * MR) ∧ min MR (m - it * MR) ≤ MR ∧
        (it + 1 < ceil_div m MR → min MR (m - it * MR) = MR)) ∧
      (calls.map (fun c => c.panel_dim)).sum = m := by
  have hb := ceil_div_bounds hm hMR
  refine ⟨_, pack_a_run_eq input_buf_addr_a reorder_buf_addr_a m k rs_a cs_a ps_p MR fuel
    (le_trans (ceil_div_le hMR) hf), by simp, hb, ?_, ?_⟩
  · intro it hit
    have h1 : it * MR ≤ (ceil_div m MR - 1) * MR := Nat.mul_le_mul_right _ (by omega)
    refine ⟨?_, by omega, Nat.min_le_left _ _, ?_⟩
    · rw [List.get?_eq_getElem?, List.getElem?_map, List.getElem?_range hit]
      rfl
    · intro hlast
      have h2 : (it + 1) * MR ≤ (ceil_div m MR - 1) * MR := Nat.mul_le_mul_right _ (by omega)
      rw [Nat.add_mul, Nat.one_mul] at h2
      omega
  · rw [List.map_map]
    exact sum_chunk_heights m MR hMR

/-- Packing `m = 5` rows with `MR = 2` takes three chunks, of the heights 2, 2 and 1, read
from `a + 0`, `a + 2*rs_a`, `a + 4*rs_a`. -/
theorem pack_a_chunks_witness :
    (pack_a_run 100 0 5 3 7 1 6 2 5 : Option (List (PackmCxkCall Int))).map
        (fun calls => calls.map (fun c => (c.a, c.p, c.panel_dim)))
      = some [(100, 0, 2), (114, 6, 2), (128, 12, 1)] := by
  obtain ⟨calls, h1, h2, _, h4, _⟩ :=
    pack_a_chunks (R := Int) 100 0 5 3 7 1 6 2 5 (by decide) (by decide) (by decide)
  rw [h1]
  have e : ceil_div 5 2 = 3 := by decide
  rw [e] at h2 h4
  have c0 := (h4 0 (by decide)).1
  have c1 := (h4 1 (by decide)).1
  have c2 := (h4 2 (by decide)).1
  match calls, h2, c0, c1, c2 with
  | [a0, a1, a2], _, c0, c1, c2 =>
    simp only [List.get?_cons_zero, List.get?_cons_succ, Option.some.injEq] at c0 c1 c2
    subst c0 c1 c2
    rfl

end c25

end Lpgemm

namespace Lpgemm

/-! ## The barriers a thread executes -/

section c23

variable {R L : Type} [One R]

/-- A property of events that holds of the events of the A part, of the B part, of every
micro-kernel call and of the release of the buffers holds of every event the driver
returns, whatever the operand tags and the helpers for a REORDERED B. -/
theorem events_of_driver (blk : BlockSizes) (nav : ReorderNav) (thr : ThreadInfo)
    (x : Args R L) (P : Event R L → Prop)
    (ha : ∀ pc ic kc0 mc0, ∀ e ∈ (a_select blk x pc ic kc0 mc0).1, P e)
    (hb : ∀ jc pc nc0 kc0 j1 j2 j3, ∀ e ∈ (b_select blk thr x jc pc nc0 kc0 j1 j2 j3).1, P e)
    (hk : ∀ jc pc ic jr call, P (Event.kernel jc pc ic jr call))
    (hr : ∀ evs : List (Event R L), ∀ e ∈ release_events thr x evs, P e)
    (fuel : Nat) (evs : List (Event R L))
    (h : lpgemm_rowvar_f32f32f32of32 blk nav thr x fuel = some evs) :
    ∀ e ∈ evs, P e := by
  let Q : List (Event R L) → Prop := fun evs => ∀ e ∈ evs, P e
  have hjr : ∀ (au : AUse) (bu : BUse) (jc pc ic nc0 kc0 mc0 : Nat)
      (f jr0 : Nat) (s s1 : List (Event R L)), Q s →
        forLoop nc0 blk.NR (jr_body blk x au bu jc pc ic nc0 kc0 mc0) f jr0 s = some s1 →
          Q s1 := by
    intro au bu jc pc ic nc0 kc0 mc0 f jr0 s s1 hQ hrun
    refine forLoop_inv _ Q jr0 ?_ f jr0 s s1 (le_refl _) (by simp) hQ hrun
    intro jr s s2 _ _ _ hQs hbody
    simp only [jr_body, Option.some.injEq] at hbody
    subst hbody
    intro e hmem
    rcases List.mem_append.1 hmem with hm | hm
    · exact hQs _ hm
    · rw [List.mem_singleton] at hm
      subst hm
      exact hk _ _ _ _ _
  have hic : ∀ (bu : BUse) (jc pc nc0 kc0 ic_end : Nat) (ic : Nat) (s s1 : List (Event R L)),
      Q s → ic_body blk x bu fuel jc pc nc0 kc0 ic_end ic s = some s1 → Q s1 := by
    intro bu jc pc nc0 kc0 ic_end ic s s1 hQ hrun
    simp only [ic_body] at hrun
    refine hjr _ bu jc pc ic nc0 kc0 _ fuel 0 _ s1 ?_ hrun
    intro e hmem
    rcases List.mem_append.1 hmem with hm | hm
    · exact hQ _ hm
    · exact ha _ _ _ _ _ hm
  have hpc : ∀ (jc nc0 j1 j2 j3 : Nat) (f p0 : Nat) (s s1 : List (Event R L)), Q s →
      forLoop x.k blk.KC (pc_body blk thr x fuel jc nc0 j1 j2 j3) f p0 s = some s1 →
        Q s1 := by
    intro jc nc0 j1 j2 j3 f p0 s s1 hQ hrun
    refine forLoop_inv _ Q p0 ?_ f p0 s s1 (le_refl _) (by simp) hQ hrun
    intro pc s s2 _ _ _ hQs hbody
    simp only [pc_body] at hbody
    refine forLoop_inv _ Q thr.ic_start ?_ fuel thr.ic_start _ s2 (le_refl _) (by simp) ?_
      hbody
    · intro ic s3 s4 _ _ _ hQ3 hb3
      exact hic _ jc pc nc0 _ thr.ic_end ic s3 s4 hQ3 hb3
    · intro e hmem
      rcases List.mem_append.1 hmem with hm | hm
      · exact hQs _ hm
      · exact hb _ _ _ _ _ _ _ _ hm
  have hjc : ∀ (f jc : Nat) (s s1 : List (Event R L)), Q s →
      jc_loop blk nav thr x fuel f jc s = some s1 → Q s1 := by
    intro f
    induction f with
    | zero =>
      intro jc s s1 hQ hrun
      simp only [jc_loop] at hrun
      split at hrun
      · exact absurd hrun (by simp)
      · cases hrun; exact hQ
    | succ f ih =>
      intro jc s s1 hQ hrun
      simp only [jc_loop] at hrun
      split at hrun
      · cases hbd : jc_body blk nav thr x fuel jc s with
        | none => rw [hbd] at hrun; exact absurd hrun (by simp)
        | some r =>
          rw [hbd, Option.some_bind] at hrun
          refine ih (r.1 + blk.NC) r.2 s1 ?_ hrun
          simp only [jc_body, Option.map_eq_some'] at hbd
          obtain ⟨evs1, hrun1, rfl⟩ := hbd
          exact hpc _ _ _ _ _ fuel 0 s evs1 hQ hrun1
      · cases hrun; exact hQ
  simp only [lpgemm_rowvar_f32f32f32of32, Option.map_eq_some'] at h
  obtain ⟨evs1, hrun, rfl⟩ := h
  have hQ1 : Q evs1 := hjc fuel thr.jc_start [] evs1 (by intro _ hm; simp at hm) hrun
  intro e hmem
  rcases List.mem_append.1 hmem with hm | hm
  · exact hQ1 _ hm
  · exact hr _ _ hm

omit [One R] in
theorem is_barrier_a_select (blk : BlockSizes) (x : Args R L) (pc ic kc0 mc0 : Nat) :
    (a_select blk x pc ic kc0 mc0).1.countP Event.is_barrier = 0 := by
  unfold a_select
  split_ifs <;> rfl

omit [One R] in
theorem is_barrier_b_select (blk : BlockSizes) (thr : ThreadInfo) (x : Args R L)
    (jc pc nc0 kc0 j1 j2 j3 : Nat) :
    (b_select blk thr x jc pc nc0 kc0 j1 j2 j3).1.countP Event.is_barrier
      = if x.mtag_b = AOCL_MEMORY_TAG.PACK ∧ x.should_pack_B = true then 2 else 0 := by
  unfold b_select
  by_cases hp : x.mtag_b = AOCL_MEMORY_TAG.PACK ∧ x.should_pack_B = true
  · simp only [hp, and_self, if_true]
    by_cases hc : thr.am_ochief = true <;>
      by_cases hr : (thr.packb_range nc0).2 > (thr.packb_range nc0).1 ∧
        (thr.packb_range nc0).1 < jc + nc0 <;>
      simp [hc, hr, List.countP_append, List.countP_cons, Event.is_barrier]
  · simp only [hp, if_false]
    split_ifs <;> rfl

omit [One R] in
theorem is_barrier_release (thr : ThreadInfo) (x : Args R L) (evs : List (Event R L)) :
    (release_events thr x evs).countP Event.is_barrier
      = if x.mtag_b = AOCL_MEMORY_TAG.PACK then 1 else 0 := by
  unfold release_events
  split_ifs <;> simp [List.countP_append, List.countP_cons, Event.is_barrier]

theorem is_barrier_jr_events (blk : BlockSizes) (x : Args R L) (au : AUse) (bu : BUse)
    (jc pc ic nc0 kc0 mc0 : Nat) :
    (jr_events blk x au bu jc pc ic nc0 kc0 mc0).countP Event.is_barrier = 0 := by
  unfold jr_events
  rw [List.countP_map, List.countP_eq_zero]
  intro a _
  simp [Event.is_barrier]

/-- The number of barriers among the events of the loop nest. -/
theorem loop_events_barrier_count (blk : BlockSizes) (thr : ThreadInfo) (x : Args R L)
    (hNC : 0 < blk.NC) (hKC : 0 < blk.KC) :
    (loop_events blk thr x).countP Event.is_barrier
      = if x.mtag_b = AOCL_MEMORY_TAG.PACK ∧ x.should_pack_B = true then
          2 * ceil_div (thr.jc_end - thr.jc_start) blk.NC * ceil_div x.k blk.KC
        else 0 := by
  rw [countP_loop_events]
  simp only [is_barrier_a_select, is_barrier_b_select, is_barrier_jr_events, Nat.add_zero,
    sum_map_const, length_starts hNC, length_starts hKC, Nat.sub_zero, Nat.mul_zero]
  split_ifs
  · ring
  · simp

/-- C23. The number of barrier calls of one thread in one call of the driver.  With a B
that is not REORDERED (positive block sizes, enough fuel) the driver returns and the number
of barriers among its events is `2 * ceil((jc_end - jc_start)/NC) * ceil(k/KC) + 1` when
`mtag_b = PACK` and the pack-B flag is set, 1 when `mtag_b = PACK` without the flag, and 0
otherwise; with a REORDERED B every run that returns has no barrier.  The count is a
function of the column range of the thread, of `k` and of the block sizes alone: neither
the row range `[ic_start, ic_end)` nor the pack range `packb_range` of the thread occurs
in it, so that two threads with the same column range execute the same number of
barriers, also when one of them has an empty row range or an empty pack range. -/
theorem barrier_count (blk : BlockSizes) (nav : ReorderNav) (thr thr2 : ThreadInfo)
    (x : Args R L) (fuel : Nat)
    (hNR : 0 < blk.NR) (hNC : 0 < blk.NC) (hMC : 0 < blk.MC) (hKC : 0 < blk.KC)
    (hf1 : thr.jc_end - thr.jc_start ≤ fuel) (hf2 : thr.ic_end - thr.ic_start ≤ fuel)
    (hf3 : x.k ≤ fuel) (hf4 : thr2.ic_end - thr2.ic_start ≤ fuel)
    (hs : thr2.jc_start = thr.jc_start) (he : thr2.jc_end = thr.jc_end) :
    (x.mtag_b ≠ AOCL_MEMORY_TAG.REORDERED →
      ∃ evs evs2, lpgemm_rowvar_f32f32f32of32 blk nav thr x fuel = some evs ∧
        lpgemm_rowvar_f32f32f32of32 blk nav thr2 x fuel = some evs2 ∧
        evs.countP Event.is_barrier
          = (if x.mtag_b = AOCL_MEMORY_TAG.PACK ∧ x.should_pack_B = true then
              2 * ceil_div (thr.jc_end - thr.jc_start) blk.NC * ceil_div x.k blk.KC + 1
            else if x.mtag_b = AOCL_MEMORY_TAG.PACK then 1 else 0) ∧
        evs2.countP Event.is_barrier = evs.countP Event.is_barrier) ∧
    (x.mtag_b = AOCL_MEMORY_TAG.REORDERED →
      ∀ evs, lpgemm_rowvar_f32f32f32of32 blk nav thr x fuel = some evs →
        evs.countP Event.is_barrier = 0) := by
  constructor
  · intro hB
    have key : ∀ t : ThreadInfo,
        (loop_events blk t x ++ release_events t x (loop_events blk t x)).countP
            Event.is_barrier
          = (if x.mtag_b = AOCL_MEMORY_TAG.PACK ∧ x.should_pack_B = true then
              2 * ceil_div (t.jc_end - t.jc_start) blk.NC * ceil_div x.k blk.KC + 1
            else if x.mtag_b = AOCL_MEMORY_TAG.PACK then 1 else 0) := by
      intro t
      rw [List.countP_append, is_barrier_release, loop_events_barrier_count blk t x hNC hKC]
      by_cases hp : x.mtag_b = AOCL_MEMORY_TAG.PACK
      · by_cases hq : x.should_pack_B = true <;> simp [hp, hq]
      · simp [hp]
    refine ⟨_, _, lpgemm_events_eq blk nav thr x fuel hB hNR hNC hMC hKC hf1 hf2 hf3,
      lpgemm_events_eq blk nav thr2 x fuel hB hNR hNC hMC hKC (by rw [hs, he]; exact hf1)
        hf4 hf3, key thr, ?_⟩
    rw [key thr, key thr2, hs, he]
  · intro hB evs hrun
    rw [List.countP_eq_zero]
    refine events_of_driver blk nav thr x (fun e => ¬ Event.is_barrier e = true) ?_ ?_ ?_ ?_
      fuel evs hrun
    · intro pc ic kc0 mc0
      exact List.countP_eq_zero.1 (is_barrier_a_select blk x pc ic kc0 mc0)
    · intro jc pc nc0 kc0 j1 j2 j3
      refine List.countP_eq_zero.1 ?_
      rw [is_barrier_b_select, hB]
      simp
    · intro jc pc ic jr call
      simp [Event.is_barrier]
    · intro evs1
      refine List.countP_eq_zero.1 ?_
      rw [is_barrier_release, hB]
      simp

/-- In the run `M = 3, N = 5, K = 4` with B packed on the fly (`NC = 4`, `KC = 3`: two
column blocks and two K-slices) the thread with all the rows and the thread of the same
group with no row and an empty pack range both execute `2*2*2 + 1 = 9` barriers. -/
theorem barrier_count_witness :
    ∃ evs evs2,
      lpgemm_rowvar_f32f32f32of32 blk_small nav_id (threads_empty_ic 0) args_3x5_pack_b 5
        = some evs ∧
      lpgemm_rowvar_f32f32f32of32 blk_small nav_id (threads_empty_ic 1) args_3x5_pack_b 5
        = some evs2 ∧
      evs.countP Event.is_barrier = 9 ∧ evs2.countP Event.is_barrier = 9 := by
  obtain ⟨evs, evs2, h1, h2, h3, h4⟩ :=
    (barrier_count blk_small nav_id (threads_empty_ic 0) (threads_empty_ic 1) args_3x5_pack_b 5
      (by decide) (by decide) (by decide) (by decide) (by decide) (by decide) (by decide)
      (by decide) rfl rfl).1 (by decide)
  refine ⟨evs, evs2, h1, h2, ?_, ?_⟩
  · rw [h3]; decide
  · rw [h4, h3]; decide

end c23

end Lpgemm

namespace Lpgemm

/-! ## The B pointer of a NATIVE B -/

section c24

/-- C24 at a B with a column stride other than one. For the `1 x 3` matrix `B = [1, 3, 5]`
with `cs_b = 2` (`rs_b = 6`) and `NR = 2`, the micro-kernel call of the micro-column
`jr = 2` is handed the B pointer `b + 2` with the strides `(6, 2)`, where the element
`(0, 2)` of B is at `b + 0*rs_b + (0 + 2)*cs_b = b + 4`; `b + 2` is the place of the
element `(0, 1)`.  With `A = [1]`, `alpha = 1`, `beta = 0` the driver leaves
`C = [1, 3, 3]` where `A * B = [1, 3, 5]`.  The pack path of the same loop body computes
the source of `lpgemm_pack_b_f32f32f32of32` with the column offsets multiplied by `cs_b`,
and the driver then leaves `C = [1, 3, 5]`. -/
theorem b_pointer_native_strided :
    (lpgemm_rowvar_f32f32f32of32 blk_small nav_id (single_thread 1 3) args_strided_b 3).map
        (fun evs => evs.filterMap Event.b_info)
      = some [(0, 0, 0, 0, ⟨Region.operand, 0⟩, 6, 2), (0, 0, 0, 2, ⟨Region.operand, 2⟩, 6, 2)] ∧
    args_strided_b.b + 0 * args_strided_b.rs_b + (0 + 2) * args_strided_b.cs_b = 4 ∧
    (lpgemm_result blk_small nav_id (single_thread 1 3) args_strided_b 3 (fun _ => 1)
        mem_succ mem_zero).map (fun C => [C 0, C 1, C 2]) = some [1, 3, 3] ∧
    (List.range 3).map (fun j => (1 : Int) * mem_succ
        (args_strided_b.b + 0 * args_strided_b.rs_b + j * args_strided_b.cs_b)) = [1, 3, 5] ∧
    (lpgemm_result blk_small nav_id (single_thread 1 3) args_strided_b_pack 3 (fun _ => 1)
        mem_succ mem_zero).map (fun C => [C 0, C 1, C 2]) = some [1, 3, 5] :=
  ⟨rfl, rfl, by decide, by decide, by decide⟩

end c24

end Lpgemm

namespace Lpgemm

/-! ## The path taken for each operand -/

section c22

theorem flatMap_split {α β : Type} (f : α → List β) {l : List α} {a : α} (h : a ∈ l) :
    ∃ l1 l2 : List α, l.flatMap f = l1.flatMap f ++ f a ++ l2.flatMap f := by
  obtain ⟨l1, l2, rfl⟩ := List.append_of_mem h
  exact ⟨l1, l2, by simp [List.flatMap_append, List.flatMap_cons, List.append_assoc]⟩

variable {R L : Type} [One R]

omit [One R] in
theorem a_select_events_quiet (blk : BlockSizes) (x : Args R L) (pc ic kc0 mc0 : Nat) :
    ∀ e ∈ (a_select blk x pc ic kc0 mc0).1,
      Event.is_barrier e = false ∧ Event.is_pack_b e = false := by
  unfold a_select
  split_ifs <;> simp [Event.is_barrier, Event.is_pack_b]

theorem jr_events_kernel (blk : BlockSizes) (x : Args R L) (au : AUse) (bu : BUse)
    (jc pc ic nc0 kc0 mc0 : Nat) :
    ∀ e ∈ jr_events blk x au bu jc pc ic nc0 kc0 mc0, Event.is_kernel e = true := by
  intro e he
  unfold jr_events at he
  obtain ⟨jr, _, rfl⟩ := List.mem_map.1 he
  rfl

omit [One R] in
theorem kernel_quiet (e : Event R L) (h : Event.is_kernel e = true) :
    Event.is_barrier e = false ∧ Event.is_pack_b e = false := by
  cases e <;> simp_all [Event.is_kernel, Event.is_barrier, Event.is_pack_b]

theorem ic_events_quiet (blk : BlockSizes) (x : Args R L) (bu : BUse)
    (jc pc nc0 kc0 ic_end ic : Nat) :
    ∀ e ∈ ic_events blk x bu jc pc nc0 kc0 ic_end ic,
      Event.is_barrier e = false ∧ Event.is_pack_b e = false := by
  intro e he
  unfold ic_events at he
  rcases List.mem_append.1 he with h | h
  · exact a_select_events_quiet blk x _ _ _ _ e h
  · exact kernel_quiet e (jr_events_kernel blk x _ _ _ _ _ _ _ _ e h)

/-- Where a micro-kernel call stands among the events of the loop nest: after the events of
the B part of its K-slice, with no barrier and no packing of B in between, and after the
events of the A part of its row block, with only micro-kernel calls in between. -/
theorem kernel_event_context (blk : BlockSizes) (thr : ThreadInfo) (x : Args R L)
    (jc pc ic jr : Nat) (call : KernelCall R L)
    (h : Event.kernel jc pc ic jr call ∈ loop_events blk thr x) :
    ∃ pre mid_b mid_a post,
      loop_events blk thr x
        = pre ++
          (b_select blk thr x jc pc (min (thr.jc_end - jc) blk.NC) (min (x.k - pc) blk.KC)
            jc 0 0).1 ++ mid_b ++
          (a_select blk x pc ic (min (x.k - pc) blk.KC) (min (thr.ic_end - ic) blk.MC)).1 ++
          mid_a ++ [Event.kernel jc pc ic jr call] ++ post ∧
      (∀ e ∈ mid_b, Event.is_barrier e = false ∧ Event.is_pack_b e = false) ∧
      (∀ e ∈ mid_a, Event.is_kernel e = true) := by
  obtain ⟨hjc, hpc, hic, hjr, hcall⟩ := (kernel_mem_loop_events blk thr x jc pc ic jr call).1 h
  obtain ⟨a1, a2, e1⟩ := flatMap_split (jc_events blk thr x) hjc
  obtain ⟨b1, b2, e2⟩ := flatMap_split
    (pc_events blk thr x jc (min (thr.jc_end - jc) blk.NC) jc 0 0) hpc
  obtain ⟨c1, c2, e3⟩ := flatMap_split
    (ic_events blk x
      (b_select blk thr x jc pc (min (thr.jc_end - jc) blk.NC) (min (x.k - pc) blk.KC)
        jc 0 0).2 jc pc (min (thr.jc_end - jc) blk.NC) (min (x.k - pc) blk.KC) thr.ic_end) hic
  obtain ⟨d1, d2, e4⟩ := List.append_of_mem hjr
  refine ⟨a1.flatMap (jc_events blk thr x) ++
      b1.flatMap (pc_events blk thr x jc (min (thr.jc_end - jc) blk.NC) jc 0 0),
    c1.flatMap (ic_events blk x
      (b_select blk thr x jc pc (min (thr.jc_end - jc) blk.NC) (min (x.k - pc) blk.KC)
        jc 0 0).2 jc pc (min (thr.jc_end - jc) blk.NC) (min (x.k - pc) blk.KC) thr.ic_end),
    d1.map (fun jr => Event.kernel jc pc ic jr
      (kernel_call blk x
        (a_select blk x pc ic (min (x.k - pc) blk.KC) (min (thr.ic_end - ic) blk.MC)).2
        (b_select blk thr x jc pc (min (thr.jc_end - jc) blk.NC) (min (x.k - pc) blk.KC)
          jc 0 0).2
        jc pc ic jr (min (thr.jc_end - jc) blk.NC) (min (x.k - pc) blk.KC)
        (min (thr.ic_end - ic) blk.MC))),
    d2.map (fun jr => Event.kernel jc pc ic jr
      (kernel_call blk x
        (a_select blk x pc ic (min (x.k - pc) blk.KC) (min (thr.ic_end - ic) blk.MC)).2
        (b_select blk thr x jc pc (min (thr.jc_end - jc) blk.NC) (min (x.k - pc) blk.KC)
          jc 0 0).2
        jc pc ic jr (min (thr.jc_end - jc) blk.NC) (min (x.k - pc) blk.KC)
        (min (thr.ic_end - ic) blk.MC))) ++
      c2.flatMap (ic_events blk x
        (b_select blk thr x jc pc (min (thr.jc_end - jc) blk.NC) (min (x.k - pc) blk.KC)
          jc 0 0).2 jc pc (min (thr.jc_end - jc) blk.NC) (min (x.k - pc) blk.KC)
          thr.ic_end) ++
      b2.flatMap (pc_events blk thr x jc (min (thr.jc_end - jc) blk.NC) jc 0 0) ++
      a2.flatMap (jc_events blk thr x), ?_, ?_, ?_⟩
  · unfold loop_events
    rw [e1]
    conv_lhs => rw [jc_events, e2]
    conv_lhs => rw [pc_events, e3]
    conv_lhs => rw [ic_events, jr_events, e4]
    rw [hcall]
    simp only [List.map_append, List.map_cons, List.append_assoc, List.singleton_append,
      List.cons_append, List.nil_append]
  · intro e he
    obtain ⟨ic1, _, h1⟩ := List.mem_flatMap.1 he
    exact ic_events_quiet blk x _ _ _ _ _ _ _ e h1
  · intro e he
    obtain ⟨jr1, _, rfl⟩ := List.mem_map.1 he
    rfl

omit [One R] in
theorem b_select_packed (blk : BlockSizes) (thr : ThreadInfo) (x : Args R L)
    (jc pc nc0 kc0 j1 j2 j3 : Nat)
    (hp : x.mtag_b = AOCL_MEMORY_TAG.PACK ∧ x.should_pack_B = true) :
    b_select blk thr x jc pc nc0 kc0 j1 j2 j3
      = ((if thr.am_ochief = true then
            [Event.alloc_b (sizeof_float * make_multiple_of_n nc0 blk.NR * kc0)]
          else []) ++
          [Event.barrier Comm.ic thr.jc_work_id] ++
          (if (thr.packb_range nc0).2 > (thr.packb_range nc0).1 ∧
              (thr.packb_range nc0).1 < jc + nc0 then
            [Event.pack_b
              { src := x.b + x.rs_b * pc + x.cs_b * jc + x.cs_b * (thr.packb_range nc0).1
                dst := (thr.packb_range nc0).1 * kc0
                mn := (thr.packb_range nc0).2 - (thr.packb_range nc0).1
                k := kc0
                rs := x.rs_b
                cs := x.cs_b
                ps_p := blk.NR * kc0
                XR := blk.NR }]
          else []) ++
          [Event.barrier Comm.ic thr.jc_work_id],
        { b_use := ⟨Region.packbuf, 0⟩
          rs_b_use := blk.NR
          cs_b_use := 1
          ps_b_use := kc0 }) := by
  unfold b_select
  rw [if_pos hp]

omit [One R] in
theorem b_select_not_packed (blk : BlockSizes) (thr : ThreadInfo) (x : Args R L)
    (jc pc nc0 kc0 j1 j2 j3 : Nat) (hB : x.mtag_b ≠ AOCL_MEMORY_TAG.REORDERED)
    (hp : ¬ (x.mtag_b = AOCL_MEMORY_TAG.PACK ∧ x.should_pack_B = true)) :
    b_select blk thr x jc pc nc0 kc0 j1 j2 j3
      = ([], { b_use := ⟨Region.operand, x.b + pc * x.rs_b + jc * x.cs_b⟩
               rs_b_use := x.rs_b
               cs_b_use := x.cs_b
               ps_b_use := 1 }) := by
  unfold b_select
  rw [if_neg hp, if_neg hB]

omit [One R] in
theorem a_select_packed (blk : BlockSizes) (x : Args R L) (pc ic kc0 mc0 : Nat)
    (hA : x.mtag_a ≠ AOCL_MEMORY_TAG.REORDERED) (hp : x.should_pack_A = true) :
    a_select blk x pc ic kc0 mc0
      = ([Event.alloc_a (sizeof_float * (((mc0 + blk.MR - 1) / blk.MR) * blk.MR) * kc0),
          Event.pack_a
            { src := x.a + x.rs_a * ic + pc
              dst := 0
              mn := mc0
              k := kc0
              rs := x.rs_a
              cs := x.cs_a
              ps_p := blk.MR * kc0
              XR := blk.MR }],
         { a_use := ⟨Region.packbuf, 0⟩
           rs_a_use := 1
           cs_a_use := blk.MR
           ps_a_use := blk.MR * kc0 }) := by
  unfold a_select
  rw [if_neg hA, if_pos hp]

omit [One R] in
theorem a_select_not_packed (blk : BlockSizes) (x : Args R L) (pc ic kc0 mc0 : Nat)
    (hA : x.mtag_a ≠ AOCL_MEMORY_TAG.REORDERED) (hp : x.should_pack_A = false) :
    a_select blk x pc ic kc0 mc0
      = ([], { a_use := ⟨Region.operand, x.a + x.rs_a * ic + pc⟩
               rs_a_use := x.rs_a
               cs_a_use := x.cs_a
               ps_a_use := blk.MR * x.rs_a }) := by
  unfold a_select
  rw [if_neg hA, if_neg (by simp [hp])]

omit [One R] in
theorem is_pack_release (thr : ThreadInfo) (x : Args R L) (evs : List (Event R L)) :
    (release_events thr x evs).countP Event.is_pack_a = 0 ∧
    (release_events thr x evs).countP Event.is_pack_b = 0 := by
  unfold release_events
  split_ifs <;> simp [List.countP_append, List.countP_cons, Event.is_pack_a, Event.is_pack_b]

theorem is_pack_jr_events (blk : BlockSizes) (x : Args R L) (au : AUse) (bu : BUse)
    (jc pc ic nc0 kc0 mc0 : Nat) :
    (jr_events blk x au bu jc pc ic nc0 kc0 mc0).countP Event.is_pack_a = 0 ∧
    (jr_events blk x au bu jc pc ic nc0 kc0 mc0).countP Event.is_pack_b = 0 := by
  unfold jr_events
  constructor <;>
  · rw [List.countP_map, List.countP_eq_zero]
    intro a _
    simp [Event.is_pack_a, Event.is_pack_b]

omit [One R] in
theorem is_pack_b_a_select (blk : BlockSizes) (x : Args R L) (pc ic kc0 mc0 : Nat) :
    (a_select blk x pc ic kc0 mc0).1.countP Event.is_pack_b = 0 := by
  rw [List.countP_eq_zero]
  intro e he
  rw [(a_select_events_quiet blk x pc ic kc0 mc0 e he).2]
  simp

omit [One R] in
theorem is_pack_a_b_select (blk : BlockSizes) (thr : ThreadInfo) (x : Args R L)
    (jc pc nc0 kc0 j1 j2 j3 : Nat) :
    (b_select blk thr x jc pc nc0 kc0 j1 j2 j3).1.countP Event.is_pack_a = 0 := by
  unfold b_select
  by_cases hp : x.mtag_b = AOCL_MEMORY_TAG.PACK ∧ x.should_pack_B = true
  · simp only [hp, and_self, if_true]
    by_cases hc : thr.am_ochief = true <;>
      by_cases hr : (thr.packb_range nc0).2 > (thr.packb_range nc0).1 ∧
        (thr.packb_range nc0).1 < jc + nc0 <;>
      simp [hc, hr, List.countP_append, List.countP_cons, Event.is_pack_a]
  · simp only [hp, if_false]
    split_ifs <;> rfl

/-- Without the pack-B flag or without the tag PACK no event of the loop nest is a call of
`lpgemm_pack_b_f32f32f32of32`. -/
theorem no_pack_b_loop_events (blk : BlockSizes) (thr : ThreadInfo) (x : Args R L)
    (hB : x.mtag_b ≠ AOCL_MEMORY_TAG.REORDERED)
    (hp : ¬ (x.mtag_b = AOCL_MEMORY_TAG.PACK ∧ x.should_pack_B = true)) :
    (loop_events blk thr x).countP Event.is_pack_b = 0 := by
  rw [countP_loop_events]
  simp only [is_pack_b_a_select, (is_pack_jr_events _ _ _ _ _ _ _ _ _ _).2,
    b_select_not_packed _ _ _ _ _ _ _ _ _ _ hB hp, List.countP_nil, Nat.add_zero,
    sum_map_const, Nat.mul_zero]

/-- Without the pack-A flag no event of the loop nest is a call of
`lpgemm_pack_a_f32f32f32of32`. -/
theorem no_pack_a_loop_events (blk : BlockSizes) (thr : ThreadInfo) (x : Args R L)
    (hA : x.mtag_a ≠ AOCL_MEMORY_TAG.REORDERED) (hp : x.should_pack_A = false) :
    (loop_events blk thr x).countP Event.is_pack_a = 0 := by
  rw [countP_loop_events]
  simp only [is_pack_a_b_select, (is_pack_jr_events _ _ _ _ _ _ _ _ _ _).1,
    a_select_not_packed _ _ _ _ _ _ hA hp, List.countP_nil, Nat.add_zero,
    sum_map_const, Nat.mul_zero]

end c22

end Lpgemm

namespace Lpgemm

/-! ## The A pointer of a REORDERED A -/

section c26

/-- The K-blocks before the block that starts at `pc < k` are full, so that this block
starts `pc * ceil(m/MR) * MR` elements after the start of A. -/
theorem reordered_a_panel_start_eq (m k MR KC pc ic : Nat) (hKC : 0 < KC)
    (hpc : pc < k) (hal : pc % KC = 0) (hic : ic % MR = 0) :
    reordered_a_panel_start m k MR KC (pc / KC) (ic / MR)
      = pc * (ceil_div m MR * MR) + min (k - pc) KC * ic := by
  unfold reordered_a_panel_start
  have e1 : pc / KC * KC = pc := Nat.div_mul_cancel (Nat.dvd_of_mod_eq_zero hal)
  have e2 : ic / MR * MR = ic := Nat.div_mul_cancel (Nat.dvd_of_mod_eq_zero hic)
  have e3 : (List.range (pc / KC)).map
        (fun t1 => ceil_div m MR * (MR * min (k - t1 * KC) KC))
      = (List.range (pc / KC)).map (fun _ => ceil_div m MR * (MR * KC)) := by
    apply List.map_congr_left
    intro t1 ht1
    have h1 : t1 < pc / KC := List.mem_range.1 ht1
    have h2 : (t1 + 1) * KC ≤ pc / KC * KC := Nat.mul_le_mul_right _ h1
    rw [e1, Nat.add_mul, Nat.one_mul] at h2
    have h3 : min (k - t1 * KC) KC = KC := by omega
    rw [h3]
  rw [e3, sum_map_const, List.length_range, e1]
  have e4 : pc / KC * (ceil_div m MR * (MR * KC)) = pc * (ceil_div m MR * MR) := by
    calc pc / KC * (ceil_div m MR * (MR * KC))
        = (pc / KC * KC) * (ceil_div m MR * MR) := by ring
      _ = pc * (ceil_div m MR * MR) := by rw [e1]
  have e5 : ic / MR * (MR * min (k - pc) KC) = min (k - pc) KC * ic := by
    calc ic / MR * (MR * min (k - pc) KC)
        = min (k - pc) KC * (ic / MR * MR) := by ring
      _ = min (k - pc) KC * ic := by rw [e2]
  rw [e4, e5]

variable {R L : Type} [One R]

/-- Every micro-kernel call among the events the driver returns, whatever the operand tags,
the pack flags and the helpers for a REORDERED B, is the call of the `jr` loop body with
the A pointer and strides chosen by the A part of its row block `ic`, at a K-slice
`pc < k` that is a multiple of `KC` and a row block `ic_start <= ic < ic_end` that is
a multiple of `MC` away from `ic_start`. -/
theorem kernel_events_of_driver_a (blk : BlockSizes) (nav : ReorderNav) (thr : ThreadInfo)
    (x : Args R L) (Q : Nat → Nat → Nat → Nat → KernelCall R L → Prop)
    (hQ : ∀ (bu : BUse) (jc pc ic jr nc0 : Nat),
      pc < x.k → pc % blk.KC = 0 →
      thr.ic_start ≤ ic → ic < thr.ic_end → (ic - thr.ic_start) % blk.MC = 0 →
      Q jc pc ic jr (kernel_call blk x
        (a_select blk x pc ic (min (x.k - pc) blk.KC) (min (thr.ic_end - ic) blk.MC)).2 bu
        jc pc ic jr nc0 (min (x.k - pc) blk.KC) (min (thr.ic_end - ic) blk.MC)))
    (fuel : Nat) (evs : List (Event R L))
    (h : lpgemm_rowvar_f32f32f32of32 blk nav thr x fuel = some evs) :
    ∀ jc pc ic jr call, Event.kernel jc pc ic jr call ∈ evs → Q jc pc ic jr call := by
  let P : List (Event R L) → Prop :=
    fun evs => ∀ jc pc ic jr call, Event.kernel jc pc ic jr call ∈ evs → Q jc pc ic jr call
  have hjr : ∀ (bu : BUse) (jc pc ic nc0 : Nat), pc < x.k → pc % blk.KC = 0 →
      thr.ic_start ≤ ic → ic < thr.ic_end → (ic - thr.ic_start) % blk.MC = 0 →
      ∀ (f jr0 : Nat) (s s1 : List (Event R L)), P s →
        forLoop nc0 blk.NR (jr_body blk x
          (a_select blk x pc ic (min (x.k - pc) blk.KC) (min (thr.ic_end - ic) blk.MC)).2 bu
          jc pc ic nc0 (min (x.k - pc) blk.KC) (min (thr.ic_end - ic) blk.MC))
          f jr0 s = some s1 → P s1 := by
    intro bu jc pc ic nc0 hpc hal hi1 hi2 hi3 f jr0 s s1 hP hrun
    refine forLoop_inv _ P jr0 ?_ f jr0 s s1 (le_refl _) (by simp) hP hrun
    intro jr s s2 _ _ _ hPs hb
    simp only [jr_body, Option.some.injEq] at hb
    subst hb
    intro jc1 pc1 ic1 jr1 call hmem
    rcases List.mem_append.1 hmem with hm | hm
    · exact hPs _ _ _ _ _ hm
    · rw [List.mem_singleton] at hm
      injection hm with e1 e2 e3 e4 e5
      subst e1 e2 e3 e4 e5
      exact hQ bu _ _ _ _ nc0 hpc hal hi1 hi2 hi3
  have hic : ∀ (bu : BUse) (jc pc nc0 : Nat), pc < x.k → pc % blk.KC = 0 →
      ∀ (ic : Nat), thr.ic_start ≤ ic → ic < thr.ic_end →
        (ic - thr.ic_start) % blk.MC = 0 → ∀ (s s1 : List (Event R L)), P s →
        ic_body blk x bu fuel jc pc nc0 (min (x.k - pc) blk.KC) thr.ic_end ic s = some s1 →
          P s1 := by
    intro bu jc pc nc0 hpc hal ic hi1 hi2 hi3 s s1 hP hrun
    simp only [ic_body] at hrun
    refine hjr bu jc pc ic nc0 hpc hal hi1 hi2 hi3 fuel 0 _ s1 ?_ hrun
    intro jc1 pc1 ic1 jr1 call hmem
    rcases List.mem_append.1 hmem with hm | hm
    · exact hP _ _ _ _ _ hm
    · exact absurd hm (kernel_not_mem_a_select blk x _ _ _ _ _ _ _ _ _)
  have hpc : ∀ (jc nc0 j1 j2 j3 : Nat) (f p0 : Nat) (s s1 : List (Event R L)),
      p0 % blk.KC = 0 → P s →
        forLoop x.k blk.KC (pc_body blk thr x fuel jc nc0 j1 j2 j3) f p0 s = some s1 →
          P s1 := by
    intro jc nc0 j1 j2 j3 f p0 s s1 hp0 hP hrun
    refine forLoop_inv _ P 0 ?_ f p0 s s1 (Nat.zero_le _) (by simpa using hp0) hP hrun
    intro pc s s2 _ hlt hal hPs hb
    simp only [pc_body] at hb
    have hal2 : pc % blk.KC = 0 := by simpa using hal
    refine forLoop_inv _ P thr.ic_start ?_ fuel thr.ic_start _ s2 (le_refl _) (by simp) ?_ hb
    · intro ic s3 s4 hi1 hi2 hi3 hP3 hb3
      exact hic _ jc pc nc0 hlt hal2 ic hi1 hi2 hi3 s3 s4 hP3 hb3
    · intro jc1 pc1 ic1 jr1 call hmem
      rcases List.mem_append.1 hmem with hm | hm
      · exact hPs _ _ _ _ _ hm
      · exact absurd hm (kernel_not_mem_b_select blk thr x _ _ _ _ _ _ _ _ _ _ _ _)
  have hjc : ∀ (f jc : Nat) (s s1 : List (Event R L)), P s →
      jc_loop blk nav thr x fuel f jc s = some s1 → P s1 := by
    intro f
    induction f with
    | zero =>
      intro jc s s1 hP hrun
      simp only [jc_loop] at hrun
      split at hrun
      · exact absurd hrun (by simp)
      · cases hrun; exact hP
    | succ f ih =>
      intro jc s s1 hP hrun
      simp only [jc_loop] at hrun
      split at hrun
      · cases hb : jc_body blk nav thr x fuel jc s with
        | none => rw [hb] at hrun; exact absurd hrun (by simp)
        | some r =>
          rw [hb, Option.some_bind] at hrun
          refine ih (r.1 + blk.NC) r.2 s1 ?_ hrun
          simp only [jc_body, Option.map_eq_some'] at hb
          obtain ⟨evs1, hrun1, rfl⟩ := hb
          exact hpc _ _ _ _ _ fuel 0 s evs1 (by simp) hP hrun1
      · cases hrun; exact hP
  simp only [lpgemm_rowvar_f32f32f32of32, Option.map_eq_some'] at h
  obtain ⟨evs1, hrun, rfl⟩ := h
  have hP1 : P evs1 := hjc fuel thr.jc_start [] evs1 (by intro _ _ _ _ _ hm; simp at hm) hrun
  intro jc pc ic jr call hmem
  rcases List.mem_append.1 hmem with hm | hm
  · exact hP1 _ _ _ _ _ hm
  · exact absurd hm (kernel_not_mem_release thr x _ jc pc ic jr call)

/-- C26. For a REORDERED A every micro-kernel call among the events the driver returns,
made for the row block `ic` and the K-slice `pc` of width `kc0 = min(k - pc, KC)`, is
handed the A pointer `a + pc*m_updated + kc0*ic` with `m_updated = ceil(m/MR)*MR`, the
strides `(rs, cs) = (1, MR)` and the panel stride `MR*kc0`, whatever the tag of B and the
thread; with a B that is not REORDERED and enough fuel the driver does return.  When `MC`
is a multiple of `MR` and the `ic_start` of the thread is a multiple of `MR`, `ic` is a
multiple of `MR`, `pc` is a multiple of `KC`, and the pointer is the start of the
micro-panel `ic/MR` of the K-block `pc/KC` in the layout `reordered_a_panel_start`; the
element `(i, l)` of the row block, as the micro-kernel addresses it, is then the row
`(ic + i) % MR`, column `l`, of the micro-panel `(ic + i)/MR` of that K-block. -/
theorem reordered_a_pointer (blk : BlockSizes) (nav : ReorderNav) (thr : ThreadInfo)
    (x : Args R L) (fuel : Nat) (hA : x.mtag_a = AOCL_MEMORY_TAG.REORDERED)
    (hNR : 0 < blk.NR) (hNC : 0 < blk.NC) (hMC : 0 < blk.MC) (hKC : 0 < blk.KC) :
    (x.mtag_b ≠ AOCL_MEMORY_TAG.REORDERED → thr.jc_end - thr.jc_start ≤ fuel →
      thr.ic_end - thr.ic_start ≤ fuel → x.k ≤ fuel →
      ∃ evs, lpgemm_rowvar_f32f32f32of32 blk nav thr x fuel = some evs) ∧
    ∀ evs, lpgemm_rowvar_f32f32f32of32 blk nav thr x fuel = some evs →
      ∀ jc pc ic jr call, Event.kernel jc pc ic jr call ∈ evs →
        call.a = ⟨Region.operand,
          x.a + pc * (ceil_div x.m blk.MR * blk.MR) + min (x.k - pc) blk.KC * ic⟩ ∧
        call.rs_a = 1 ∧ call.cs_a = blk.MR ∧
        call.ps_a = blk.MR * min (x.k - pc) blk.KC ∧
        (blk.MC % blk.MR = 0 → thr.ic_start % blk.MR = 0 →
          ic % blk.MR = 0 ∧ pc % blk.KC = 0 ∧
          call.a = ⟨Region.operand,
            x.a + reordered_a_panel_start x.m x.k blk.MR blk.KC (pc / blk.KC)
              (ic / blk.MR)⟩ ∧
          ∀ i l, l < min (x.k - pc) blk.KC →
            call.a.addr + ((i / blk.MR) * call.ps_a + (i % blk.MR) * call.rs_a
                + l * call.cs_a)
              = x.a + reordered_a_panel_start x.m x.k blk.MR blk.KC (pc / blk.KC)
                  ((ic + i) / blk.MR) + (ic + i) % blk.MR + l * blk.MR) := by
  refine ⟨fun hB hf1 hf2 hf3 =>
    ⟨_, lpgemm_events_eq blk nav thr x fuel hB hNR hNC hMC hKC hf1 hf2 hf3⟩, ?_⟩
  intro evs hrun
  refine kernel_events_of_driver_a blk nav thr x
    (fun _ pc ic _ call =>
      call.a = ⟨Region.operand,
          x.a + pc * (ceil_div x.m blk.MR * blk.MR) + min (x.k - pc) blk.KC * ic⟩ ∧
        call.rs_a = 1 ∧ call.cs_a = blk.MR ∧
        call.ps_a = blk.MR * min (x.k - pc) blk.KC ∧
        (blk.MC % blk.MR = 0 → thr.ic_start % blk.MR = 0 →
          ic % blk.MR = 0 ∧ pc % blk.KC = 0 ∧
          call.a = ⟨Region.operand,
            x.a + reordered_a_panel_start x.m x.k blk.MR blk.KC (pc / blk.KC)
              (ic / blk.MR)⟩ ∧
          ∀ i l, l < min (x.k - pc) blk.KC →
            call.a.addr + ((i / blk.MR) * call.ps_a + (i % blk.MR) * call.rs_a
                + l * call.cs_a)
              = x.a + reordered_a_panel_start x.m x.k blk.MR blk.KC (pc / blk.KC)
                  ((ic + i) / blk.MR) + (ic + i) % blk.MR + l * blk.MR))
    ?_ fuel evs hrun
  intro bu jc pc ic jr nc0 hpc1 hpc3 hic0 _ hic2
  have hsel : a_select blk x pc ic (min (x.k - pc) blk.KC) (min (thr.ic_end - ic) blk.MC)
      = ([], { a_use := ⟨Region.operand,
                 x.a + pc * (ceil_div x.m blk.MR * blk.MR) + min (x.k - pc) blk.KC * ic⟩
               rs_a_use := 1
               cs_a_use := blk.MR
               ps_a_use := blk.MR * min (x.k - pc) blk.KC }) := by
    unfold a_select
    rw [if_pos hA]
    rfl
  rw [hsel]
  obtain ⟨call, hcall⟩ : ∃ call : KernelCall R L, call = kernel_call blk x
      ({ a_use := ⟨Region.operand,
           x.a + pc * (ceil_div x.m blk.MR * blk.MR) + min (x.k - pc) blk.KC * ic⟩
         rs_a_use := 1
         cs_a_use := blk.MR
         ps_a_use := blk.MR * min (x.k - pc) blk.KC } : AUse) bu jc pc ic jr nc0
      (min (x.k - pc) blk.KC) (min (thr.ic_end - ic) blk.MC) := ⟨_, rfl⟩
  simp only
  rw [← hcall]
  have ha : call.a = ⟨Region.operand,
      x.a + pc * (ceil_div x.m blk.MR * blk.MR) + min (x.k - pc) blk.KC * ic⟩ := by
    rw [hcall]; rfl
  have hrs : call.rs_a = 1 := by rw [hcall]; rfl
  have hcs : call.cs_a = blk.MR := by rw [hcall]; rfl
  have hps : call.ps_a = blk.MR * min (x.k - pc) blk.KC := by rw [hcall]; rfl
  refine ⟨ha, hrs, hcs, hps, ?_⟩
  intro hdiv hstart
  have hMR : 0 < blk.MR := by
    rcases Nat.eq_zero_or_pos blk.MR with h | h
    · rw [h, Nat.mod_zero] at hdiv; omega
    · exact h
  have hicm : ic % blk.MR = 0 := by
    have h1 : blk.MR ∣ ic - thr.ic_start :=
      Nat.dvd_trans (Nat.dvd_of_mod_eq_zero hdiv) (Nat.dvd_of_mod_eq_zero hic2)
    have h2 : blk.MR ∣ thr.ic_start := Nat.dvd_of_mod_eq_zero hstart
    have h3 : ic = (ic - thr.ic_start) + thr.ic_start := by omega
    rw [h3]
    exact Nat.mod_eq_zero_of_dvd (Nat.dvd_add h1 h2)
  refine ⟨hicm, hpc3, ?_, ?_⟩
  · rw [ha, reordered_a_panel_start_eq x.m x.k blk.MR blk.KC pc ic hKC hpc1 hpc3 hicm,
      Nat.add_assoc]
  · intro i l _
    have hq : (ic + i) / blk.MR = ic / blk.MR + i / blk.MR := by
      obtain ⟨q, hq⟩ := Nat.dvd_of_mod_eq_zero hicm
      rw [hq, Nat.mul_add_div hMR, Nat.mul_div_cancel_left _ hMR]
    have hr : (ic + i) % blk.MR = i % blk.MR := by
      obtain ⟨q, hq⟩ := Nat.dvd_of_mod_eq_zero hicm
      rw [hq, Nat.mul_add_mod]
    have e0 := reordered_a_panel_start_eq x.m x.k blk.MR blk.KC pc ic hKC hpc1 hpc3 hicm
    have e1 : reordered_a_panel_start x.m x.k blk.MR blk.KC (pc / blk.KC)
          ((ic + i) / blk.MR)
        = reordered_a_panel_start x.m x.k blk.MR blk.KC (pc / blk.KC) (ic / blk.MR)
          + (i / blk.MR) * (blk.MR * min (x.k - pc / blk.KC * blk.KC) blk.KC) := by
      unfold reordered_a_panel_start
      rw [hq, Nat.add_mul, Nat.add_assoc]
    have e2 : pc / blk.KC * blk.KC = pc := Nat.div_mul_cancel (Nat.dvd_of_mod_eq_zero hpc3)
    rw [e1, e0, e2, hr, ha, hrs, hcs, hps]
    simp only [Nat.mul_one]
    omega

/-- In the run `M = 3, N = 5, K = 4` with a REORDERED A (`MR = MC = 2`, `KC = 3`,
`m_updated = 4`) the call for the row block `ic = 2` of the K-slice `pc = 3` is handed
`a + 3*4 + 1*2 = a + 14`, the start of the micro-panel 1 of the K-block 1: the K-block 0
holds two panels of `2 x 3` elements and the panel 0 of the K-block 1 holds `2 x 1`. -/
theorem reordered_a_pointer_witness :
    ∃ evs call,
      lpgemm_rowvar_f32f32f32of32 blk_small nav_id (single_thread 3 5) args_3x5_reordered_a 5
        = some evs ∧
      Event.kernel 0 3 2 0 call ∈ evs ∧
      call.a = ⟨Region.operand, 14⟩ ∧ call.rs_a = 1 ∧ call.cs_a = 2 ∧ call.ps_a = 2 ∧
      reordered_a_panel_start 3 4 2 3 1 1 = 14 := by
  obtain ⟨h1, h2⟩ := reordered_a_pointer blk_small nav_id (single_thread 3 5)
    args_3x5_reordered_a 5 rfl (by decide) (by decide) (by decide) (by decide)
  have h0 := lpgemm_events_eq blk_small nav_id (single_thread 3 5) args_3x5_reordered_a 5
    (by decide) (by decide) (by decide) (by decide) (by decide) (by decide) (by decide)
    (by decide)
  have hmem : Event.kernel 0 3 2 0 (kernel_call blk_small args_3x5_reordered_a
        (a_select blk_small args_3x5_reordered_a 3 2 (min (4 - 3) 3) (min (3 - 2) 2)).2
        (b_select blk_small (single_thread 3 5) args_3x5_reordered_a 0 3 (min (5 - 0) 4)
          (min (4 - 3) 3) 0 0 0).2
        0 3 2 0 (min (5 - 0) 4) (min (4 - 3) 3) (min (3 - 2) 2))
      ∈ loop_events blk_small (single_thread 3 5) args_3x5_reordered_a ++
        release_events (single_thread 3 5) args_3x5_reordered_a
          (loop_events blk_small (single_thread 3 5) args_3x5_reordered_a) := by
    refine List.mem_append_left _
      ((kernel_mem_loop_events blk_small (single_thread 3 5) args_3x5_reordered_a 0 3 2 0
        _).2 ⟨?_, ?_, ?_, ?_, rfl⟩)
    · exact (mem_starts_iff (by decide) _ _).2 (by decide)
    · exact (mem_starts_iff (by decide) _ _).2 (by decide)
    · exact (mem_starts_iff (by decide) _ _).2 (by decide)
    · exact (mem_starts_iff (by decide) _ _).2 (by decide)
  obtain ⟨a1, a2, a3, a4, _⟩ := h2 _ h0 0 3 2 0 _ hmem
  exact ⟨_, _, h0, hmem, a1, a2, a3, a4, by decide⟩

end c26

end Lpgemm

namespace Haswell

/-! ## Every call of the edge path -/

section edge_trace

variable {R : Type}

/-- The two views of the `m` loop agree: it has a result exactly when its trace ends
inside the table, and the result is then the trace. -/
theorem edge_m_loop_eq_trace (x : SupArgs R) (j nr_cur bj s : Nat) :
    ∀ (rest : List Nat) (i m_left cij ai r : Nat),
      edge_m_loop x j nr_cur bj s rest i m_left cij ai r
        = if (edge_m_trace x j nr_cur bj s rest i m_left cij ai r).2 = true then
            some (edge_m_trace x j nr_cur bj s rest i m_left cij ai r).1
          else none := by
  intro rest
  induction rest with
  | nil =>
    intro i m_left cij ai r
    simp only [edge_m_loop, edge_m_trace]
    by_cases h : m_left = 0 <;> simp [h]
  | cons mr_cur rest ih =>
    intro i m_left cij ai r
    simp only [edge_m_loop, edge_m_trace]
    by_cases h : m_left = 0
    · simp [h]
    · simp only [h, if_false]
      by_cases hle : mr_cur ≤ m_left
      · simp only [hle, if_true]
        cases hk : (kmap.get? i).bind (fun row => row.get? j) with
        | none => simp
        | some ker =>
          simp only [ih]
          split <;> simp_all
      · simp only [hle, if_false]
        exact ih _ _ _ _ _

/-- The two views of the `n` loop agree. -/
theorem edge_n_loop_eq_trace (x : SupArgs R) :
    ∀ (rest : List Nat) (j n_left cj bj s : Nat),
      edge_n_loop x rest j n_left cj bj s
        = if (edge_n_trace x rest j n_left cj bj s).2 = true then
            some (edge_n_trace x rest j n_left cj bj s).1
          else none := by
  intro rest
  induction rest with
  | nil =>
    intro j n_left cj bj s
    simp only [edge_n_loop, edge_n_trace]
    by_cases h : n_left = 0 <;> simp [h]
  | cons nr_cur rest ih =>
    intro j n_left cj bj s
    simp only [edge_n_loop, edge_n_trace]
    by_cases h : n_left = 0
    · simp [h]
    · simp only [h, if_false]
      by_cases hle : nr_cur ≤ n_left
      · simp only [hle, if_true]
        rw [edge_m_loop_eq_trace]
        by_cases ht : (edge_m_trace x j nr_cur bj s mrs 0 x.m0 cj x.a 0).2 = true
        · simp only [ht, if_true, ih]
          split <;> simp_all
        · simp [ht]
      · simp only [hle, if_false]
        exact ih _ _ _ _ _

/-- The edge path has a result exactly when its trace ends inside the tables, and the
result is then the list of the calls made. -/
theorem edge_path_eq_trace (x : SupArgs R) :
    edge_path x = if (edge_trace x).2 = true then some (edge_calls_made x) else none := by
  unfold edge_path edge_cols edge_calls_made edge_trace
  rw [edge_n_loop_eq_trace]
  split <;> simp

/-- Every call the `m` loop makes before it ends or leaves its table: it carries the column
chunk and the B pointer of the chunk, its row chunk lies in `[r, r + m_left)`, its A and C
pointers are those of the loop advanced by the rows between `r` and its first row, it goes
to the entry of `kmap` at its indices, its height is the entry of `mrs` at its row index,
and it hands on the other arguments unchanged. -/
theorem edge_m_trace_spec (x : SupArgs R) (j nr_cur bj s : Nat) :
    ∀ (rest : List Nat) (i m_left cij ai r : Nat),
      (∀ k, rest.get? k = mrs.get? (i + k)) →
      ∀ c ∈ (edge_m_trace x j nr_cur bj s rest i m_left cij ai r).1,
        c.s = s ∧ c.n = nr_cur ∧ c.j = j ∧ c.b = bj ∧ r ≤ c.r ∧ c.r + c.m ≤ r + m_left ∧
        c.a + r * x.rs_a0 = ai + c.r * x.rs_a0 ∧
        c.c + r * x.rs_c0 = cij + c.r * x.rs_c0 ∧
        (kmap.get? c.i).bind (fun row => row.get? c.j) = some c.ker_fp ∧
        mrs.get? c.i = some c.m ∧ c.passes_on x := by
  intro rest
  induction rest with
  | nil =>
    intro i m_left cij ai r _ c hc
    simp [edge_m_trace] at hc
  | cons mr_cur rest ih =>
    intro i m_left cij ai r hrest c hc
    have hrest1 : ∀ k, rest.get? k = mrs.get? (i + 1 + k) := by
      intro k
      have := hrest (k + 1)
      rw [List.get?_cons_succ] at this
      rw [this]
      congr 1
      omega
    simp only [edge_m_trace] at hc
    by_cases h : m_left = 0
    · simp [h] at hc
    · simp only [h, if_false] at hc
      by_cases hle : mr_cur ≤ m_left
      · simp only [hle, if_true] at hc
        cases hk : (kmap.get? i).bind (fun row => row.get? j) with
        | none => rw [hk] at hc; simp at hc
        | some ker =>
          rw [hk] at hc
          simp only at hc
          rcases List.mem_cons.1 hc with rfl | hc
          · refine ⟨rfl, rfl, rfl, rfl, le_refl _, by simp only; omega, rfl, rfl, hk, ?_,
              ⟨rfl, rfl, rfl, rfl, rfl, rfl, rfl, rfl, rfl, rfl, rfl, rfl, rfl⟩⟩
            have := hrest 0
            simp only [List.get?_cons_zero, Nat.add_zero] at this
            exact this.symm
          · obtain ⟨a1, a2, a3, a4, a5, a6, a7, a8, a9, a10, a11⟩ :=
              ih _ _ _ _ _ hrest1 c hc
            refine ⟨a1, a2, a3, a4, by omega, by omega, ?_, ?_, a9, a10, a11⟩
            · rw [Nat.add_mul] at a7
              omega
            · rw [Nat.add_mul] at a8
              omega
      · simp only [hle, if_false] at hc
        obtain ⟨a1, a2, a3, a4, a5, a6, a7, a8, a9, a10, a11⟩ := ih _ _ _ _ _ hrest1 c hc
        exact ⟨a1, a2, a3, a4, a5, a6, a7, a8, a9, a10, a11⟩

/-- The first row of the call number `p` of the `m` loop is `r` plus the sum of the heights
of the calls before it. -/
theorem edge_m_trace_rows (x : SupArgs R) (j nr_cur bj s : Nat) :
    ∀ (rest : List Nat) (i m_left cij ai r : Nat) (p : Nat) (c : SubCall R),
      (edge_m_trace x j nr_cur bj s rest i m_left cij ai r).1.get? p = some c →
        c.r = r + (((edge_m_trace x j nr_cur bj s rest i m_left cij ai r).1.take p).map
          (fun c => c.m)).sum := by
  intro rest
  induction rest with
  | nil =>
    intro i m_left cij ai r p c hc
    simp [edge_m_trace] at hc
  | cons mr_cur rest ih =>
    intro i m_left cij ai r p c hc
    simp only [edge_m_trace] at hc ⊢
    by_cases h : m_left = 0
    · simp [h] at hc
    · simp only [h, if_false] at hc ⊢
      by_cases hle : mr_cur ≤ m_left
      · simp only [hle, if_true] at hc ⊢
        cases hk : (kmap.get? i).bind (fun row => row.get? j) with
        | none => rw [hk] at hc; simp at hc
        | some ker =>
          rw [hk] at hc
          simp only at hc ⊢
          cases p with
          | zero =>
            simp only [List.get?_cons_zero, Option.some.injEq] at hc
            subst hc
            simp
          | succ p =>
            simp only [List.get?_cons_succ] at hc
            rw [ih _ _ _ _ _ p c hc]
            simp only [List.take_succ_cons, List.map_cons, List.sum_cons]
            omega
      · simp only [hle, if_false] at hc ⊢
        exact ih _ _ _ _ _ p c hc

/-- Every call the `n` loop makes before it ends or leaves a table. -/
theorem edge_n_trace_spec (x : SupArgs R) :
    ∀ (rest : List Nat) (j n_left cj bj s : Nat),
      (∀ k, rest.get? k = nrs.get? (j + k)) →
      ∀ col ∈ (edge_n_trace x rest j n_left cj bj s).1,
        s ≤ col.1 ∧ col.1 + col.2.1 ≤ s + n_left ∧
        ∀ c ∈ col.2.2,
          c.s = col.1 ∧ c.n = col.2.1 ∧ c.r + c.m ≤ x.m0 ∧
          c.a = x.a + c.r * x.rs_a0 ∧
          c.b + s * x.cs_b0 = bj + c.s * x.cs_b0 ∧
          c.c + s * x.cs_c0 = cj + c.s * x.cs_c0 + c.r * x.rs_c0 ∧
          (kmap.get? c.i).bind (fun row => row.get? c.j) = some c.ker_fp ∧
          mrs.get? c.i = some c.m ∧ nrs.get? c.j = some c.n ∧ c.passes_on x := by
  intro rest
  induction rest with
  | nil =>
    intro j n_left cj bj s _ col hcol
    simp [edge_n_trace] at hcol
  | cons nr_cur rest ih =>
    intro j n_left cj bj s hrest col hcol
    have hrest1 : ∀ k, rest.get? k = nrs.get? (j + 1 + k) := by
      intro k
      have := hrest (k + 1)
      rw [List.get?_cons_succ] at this
      rw [this]
      congr 1
      omega
    have hhead : ∀ c ∈ (edge_m_trace x j nr_cur bj s mrs 0 x.m0 cj x.a 0).1,
        c.s = s ∧ c.n = nr_cur ∧ c.r + c.m ≤ x.m0 ∧
        c.a = x.a + c.r * x.rs_a0 ∧
        c.b + s * x.cs_b0 = bj + c.s * x.cs_b0 ∧
        c.c + s * x.cs_c0 = cj + c.s * x.cs_c0 + c.r * x.rs_c0 ∧
        (kmap.get? c.i).bind (fun row => row.get? c.j) = some c.ker_fp ∧
        mrs.get? c.i = some c.m ∧ nrs.get? c.j = some c.n ∧ c.passes_on x := by
      intro c hc
      obtain ⟨a1, a2, a3, a4, a5, a6, a7, a8, a9, a10, a11⟩ :=
        edge_m_trace_spec x j nr_cur bj s mrs 0 x.m0 cj x.a 0
          (fun k => by rw [Nat.zero_add]) c hc
      refine ⟨a1, a2, by omega, by omega, by rw [a1, a4], by rw [a1]; omega, a9, a10, ?_,
        a11⟩
      have := hrest 0
      simp only [List.get?_cons_zero, Nat.add_zero] at this
      rw [a3, a2]
      exact this.symm
    have htail : ∀ col ∈ (edge_n_trace x rest (j + 1) (n_left - nr_cur)
          (cj + nr_cur * x.cs_c0) (bj + nr_cur * x.cs_b0) (s + nr_cur)).1,
        nr_cur ≤ n_left →
        s ≤ col.1 ∧ col.1 + col.2.1 ≤ s + n_left ∧
        ∀ c ∈ col.2.2,
          c.s = col.1 ∧ c.n = col.2.1 ∧ c.r + c.m ≤ x.m0 ∧
          c.a = x.a + c.r * x.rs_a0 ∧
          c.b + s * x.cs_b0 = bj + c.s * x.cs_b0 ∧
          c.c + s * x.cs_c0 = cj + c.s * x.cs_c0 + c.r * x.rs_c0 ∧
          (kmap.get? c.i).bind (fun row => row.get? c.j) = some c.ker_fp ∧
          mrs.get? c.i = some c.m ∧ nrs.get? c.j = some c.n ∧ c.passes_on x := by
      intro col hcol hle
      obtain ⟨b1, b2, b3⟩ := ih _ _ _ _ _ hrest1 col hcol
      refine ⟨by omega, by omega, ?_⟩
      intro c hc
      obtain ⟨a1, a2, a3, a4, a5, a6, a7, a8, a9, a10⟩ := b3 c hc
      refine ⟨a1, a2, a3, a4, ?_, ?_, a7, a8, a9, a10⟩
      · rw [Nat.add_mul] at a5
        omega
      · rw [Nat.add_mul] at a6
        omega
    simp only [edge_n_trace] at hcol
    by_cases h : n_left = 0
    · simp [h] at hcol
    · simp only [h, if_false] at hcol
      by_cases hle : nr_cur ≤ n_left
      · simp only [hle, if_true] at hcol
        by_cases ht : (edge_m_trace x j nr_cur bj s mrs 0 x.m0 cj x.a 0).2 = true
        · simp only [ht, if_true] at hcol
          rcases List.mem_cons.1 hcol with rfl | hcol
          · exact ⟨le_refl _, by simp only; omega, hhead⟩
          · exact htail col hcol hle
        · rw [if_neg ht] at hcol
          rw [List.mem_singleton] at hcol
          subst hcol
          exact ⟨le_refl _, by simp only; omega, hhead⟩
      · simp only [hle, if_false] at hcol
        obtain ⟨b1, b2, b3⟩ := ih _ _ _ _ _ hrest1 col hcol
        exact ⟨b1, b2, b3⟩

/-- The first column of the column chunk number `q` of the `n` loop is `s` plus the sum of
the widths of the chunks before it, and the first row of its call number `p` is the sum of
the heights of the calls before it in the chunk: the rows restart at 0 in every column
chunk. -/
theorem edge_n_trace_cols (x : SupArgs R) :
    ∀ (rest : List Nat) (j n_left cj bj s : Nat) (q : Nat)
      (col : Nat × Nat × List (SubCall R)),
      (edge_n_trace x rest j n_left cj bj s).1.get? q = some col →
        col.1 = s + (((edge_n_trace x rest j n_left cj bj s).1.take q).map
          (fun col => col.2.1)).sum ∧
        ∀ p c, col.2.2.get? p = some c →
          c.r = ((col.2.2.take p).map (fun c => c.m)).sum := by
  intro rest
  induction rest with
  | nil =>
    intro j n_left cj bj s q col hcol
    simp [edge_n_trace] at hcol
  | cons nr_cur rest ih =>
    intro j n_left cj bj s q col hcol
    have hhead : ∀ p c, (edge_m_trace x j nr_cur bj s mrs 0 x.m0 cj x.a 0).1.get? p = some c →
        c.r = (((edge_m_trace x j nr_cur bj s mrs 0 x.m0 cj x.a 0).1.take p).map
          (fun c => c.m)).sum := by
      intro p c hc
      have := edge_m_trace_rows x j nr_cur bj s mrs 0 x.m0 cj x.a 0 p c hc
      rw [Nat.zero_add] at this
      exact this
    simp only [edge_n_trace] at hcol ⊢
    by_cases h : n_left = 0
    · simp [h] at hcol
    · simp only [h, if_false] at hcol ⊢
      by_cases hle : nr_cur ≤ n_left
      · simp only [hle, if_true] at hcol ⊢
        by_cases ht : (edge_m_trace x j nr_cur bj s mrs 0 x.m0 cj x.a 0).2 = true
        · simp only [ht, if_true] at hcol ⊢
          cases q with
          | zero =>
            simp only [List.get?_cons_zero, Option.some.injEq] at hcol
            subst hcol
            exact ⟨by simp, hhead⟩
          | succ q =>
            simp only [List.get?_cons_succ] at hcol
            obtain ⟨b1, b2⟩ := ih _ _ _ _ _ q col hcol
            refine ⟨?_, b2⟩
            rw [b1]
            simp only [List.take_succ_cons, List.map_cons, List.sum_cons]
            omega
        · rw [if_neg ht] at hcol ⊢
          cases q with
          | zero =>
            simp only [List.get?_cons_zero, Option.some.injEq] at hcol
            subst hcol
            exact ⟨by simp, hhead⟩
          | succ q =>
            simp at hcol
      · simp only [hle, if_false] at hcol ⊢
        exact ih _ _ _ _ _ q col hcol

/-- An entry of `kmap` has the nominal shape given by the entries of `mrs` and `nrs` at its
indices, and only the entry `kmap[0][0]` is the kernel `6x16`. -/
theorem kmap_shape (i j : Nat) (ker : SupKernel) (m n : Nat)
    (hk : (kmap.get? i).bind (fun row => row.get? j) = some ker)
    (hm : mrs.get? i = some m) (hn : nrs.get? j = some n) :
    ker.shape = (m, n) ∧ (ker = SupKernel.rv_haswell_asm 6 16 → i = 0 ∧ j = 0) := by
  obtain ⟨hi, hj⟩ := kmap_index_bounds i j ker hk
  interval_cases i <;> interval_cases j <;>
    simp only [kmap, mrs, nrs, List.get?_cons_zero, List.get?_cons_succ, Option.some_bind,
      Option.some.injEq] at hk hm hn <;>
    subst hk hm hn <;> exact ⟨rfl, by decide⟩

end edge_trace

end Haswell

namespace Haswell

/-! ## The arguments of the calls of the edge path -/

section edge_calls

variable {R : Type}

/-- Up to 13 rows and 43 columns the trace of the edge path ends inside the tables. -/
theorem edge_trace_ends (x : SupArgs R) (hm : x.m0 ≤ 13) (hn : x.n0 ≤ 43) :
    (edge_trace x).2 = true := by
  have h1 := edge_plan_some x.m0 (by omega) x.n0 (by omega)
  rw [← edge_cols_info x, Option.isSome_map'] at h1
  unfold edge_cols at h1
  rw [edge_n_loop_eq_trace] at h1
  unfold edge_trace
  by_contra hc
  rw [if_neg hc] at h1
  exact absurd h1 (by simp)

/-- Every call the edge path makes, before it returns or leaves a table. -/
theorem edge_calls_made_spec (x : SupArgs R) :
    ∀ col ∈ (edge_trace x).1, col.1 + col.2.1 ≤ x.n0 ∧ ∀ c ∈ col.2.2,
      c.s = col.1 ∧ c.n = col.2.1 ∧ c.r + c.m ≤ x.m0 ∧
      c.a = x.a + c.r * x.rs_a0 ∧ c.b = x.b + c.s * x.cs_b0 ∧
      c.c = x.c + c.r * x.rs_c0 + c.s * x.cs_c0 ∧
      (kmap.get? c.i).bind (fun row => row.get? c.j) = some c.ker_fp ∧
      mrs.get? c.i = some c.m ∧ nrs.get? c.j = some c.n ∧ c.passes_on x := by
  intro col hcol
  obtain ⟨_, h2, h3⟩ := edge_n_trace_spec x nrs 0 x.n0 x.c x.b 0
    (fun k => by rw [Nat.zero_add]) col hcol
  refine ⟨by omega, ?_⟩
  intro c hc
  obtain ⟨a1, a2, a3, a4, a5, a6, a7, a8, a9, a10⟩ := h3 c hc
  exact ⟨a1, a2, a3, a4, by omega, by omega, a7, a8, a9, a10⟩

end edge_calls

section c27

variable {R : Type} [CommRing R] [DecidableEq R]

/-- C27. On the edge path (`m0 < 6` or `n0 < 16`) every call made, up to the point where the
loops end or read a table out of bounds, for the row chunk that begins at the row `r` and
the column chunk that begins at the column `s`, receives `a + r*rs_a0`, `b + s*cs_b0` and
`c + r*rs_c0 + s*cs_c0`, and hands on `k0`, `alpha`, `beta`, the conjugation flags, the six
strides, `data` and `cntx` unchanged.  Here `s` is the sum of the widths of the column
chunks made before and `r` the sum of the heights of the calls made before in the same
column chunk, so that the first call of every column chunk has `r = 0`, the A pointer `a`
and the C pointer `c + s*cs_c0`.  Up to `m0 = 13` and `n0 = 43` the loops end inside the
tables and these calls are all the calls of the edge path. -/
theorem edge_call_pointers (x : SupArgs R) (A B C : Nat → R) (hedge : x.m0 < 6 ∨ x.n0 < 16) :
    bli_sgemmsup_rv_haswell_asm_6x16 x A B C
      = Outcome.edge (if (edge_trace x).2 = true then some (edge_calls_made x) else none) ∧
    (x.m0 ≤ 13 → x.n0 ≤ 43 → (edge_trace x).2 = true) ∧
    (∀ col ∈ (edge_trace x).1, ∀ c ∈ col.2.2,
      c.s = col.1 ∧ c.n = col.2.1 ∧
      c.a = x.a + c.r * x.rs_a0 ∧ c.b = x.b + c.s * x.cs_b0 ∧
      c.c = x.c + c.r * x.rs_c0 + c.s * x.cs_c0 ∧ c.passes_on x) ∧
    (∀ q col, (edge_trace x).1.get? q = some col →
      col.1 = (((edge_trace x).1.take q).map (fun col => col.2.1)).sum ∧
      ∀ p c, col.2.2.get? p = some c →
        c.r = ((col.2.2.take p).map (fun c => c.m)).sum) ∧
    (∀ col ∈ (edge_trace x).1, ∀ c, col.2.2.head? = some c →
      c.r = 0 ∧ c.a = x.a ∧ c.c = x.c + col.1 * x.cs_c0) := by
  have hcols : ∀ q col, (edge_trace x).1.get? q = some col →
      col.1 = (((edge_trace x).1.take q).map (fun col => col.2.1)).sum ∧
      ∀ p c, col.2.2.get? p = some c →
        c.r = ((col.2.2.take p).map (fun c => c.m)).sum := by
    intro q col hq
    have := edge_n_trace_cols x nrs 0 x.n0 x.c x.b 0 q col hq
    rw [Nat.zero_add] at this
    exact this
  refine ⟨?_, edge_trace_ends x, ?_, hcols, ?_⟩
  · simp only [bli_sgemmsup_rv_haswell_asm_6x16, if_pos hedge, edge_path_eq_trace]
  · intro col hcol c hc
    obtain ⟨a1, a2, _, a4, a5, a6, _, _, _, a10⟩ := (edge_calls_made_spec x col hcol).2 c hc
    exact ⟨a1, a2, a4, a5, a6, a10⟩
  · intro col hcol c hc
    obtain ⟨q, hq⟩ := List.get?_of_mem hcol
    have hc0 : col.2.2.get? 0 = some c := by
      cases hl : col.2.2 with
      | nil => rw [hl] at hc; simp at hc
      | cons c1 l => rw [hl] at hc; simpa using hc
    have hr : c.r = 0 := by
      rw [(hcols q col hq).2 0 c hc0]
      simp
    have hmem : c ∈ col.2.2 := List.get?_mem hc0
    obtain ⟨a1, _, _, a4, _, a6, _⟩ := (edge_calls_made_spec x col hcol).2 c hmem
    refine ⟨hr, ?_, ?_⟩
    · rw [a4, hr]; simp
    · rw [a6, hr, a1]; simp

/-- For `m0 = 5`, `n0 = 15` with `a = 1000`, `b = 2000`, `c = 3000`, `rs_a = 4`,
`cs_b = 1`, `rs_c = 16`, `cs_c = 1` the six calls receive `a + 4*r`, `b + s` and
`c + 16*r + s` for `(r, s) = (0, 0), (4, 0), (0, 12), (4, 12), (0, 14), (4, 14)`. -/
theorem edge_call_pointers_witness :
    (args_5x15_at.m0 < 6 ∨ args_5x15_at.n0 < 16) ∧
    (edge_calls_made args_5x15_at).map SubCall.pointers
      = [((0, 0), 1000, 2000, 3000), ((4, 0), 1016, 2000, 3064),
         ((0, 12), 1000, 2012, 3012), ((4, 12), 1016, 2012, 3076),
         ((0, 14), 1000, 2014, 3014), ((4, 14), 1016, 2014, 3078)] ∧
    bli_sgemmsup_rv_haswell_asm_6x16 args_5x15_at (fun _ => 1) (fun _ => 1) (fun _ => 0)
      = Outcome.edge (some (edge_calls_made args_5x15_at)) ∧
    ∀ col ∈ (edge_trace args_5x15_at).1, ∀ c ∈ col.2.2,
      c.a = 1000 + c.r * 4 ∧ c.b = 2000 + c.s * 1 ∧ c.c = 3000 + c.r * 16 + c.s * 1 := by
  obtain ⟨h1, h2, h3, _⟩ := edge_call_pointers args_5x15_at (fun _ => 1) (fun _ => 1)
    (fun _ => 0) (Or.inl (by decide))
  refine ⟨Or.inl (by decide), rfl, ?_, ?_⟩
  · rw [h1, if_pos (h2 (by decide) (by decide))]
  · intro col hcol c hc
    obtain ⟨_, _, a3, a4, a5, _⟩ := h3 col hcol c hc
    exact ⟨a3, a4, a5⟩

end c27

section c29

variable {R : Type} [CommRing R] [DecidableEq R]

/-- C29. When `n0 = 0` (any `m0`), or `m0 = 0` and `n0 <= 16`, the call takes the edge
path, the two loops end without a call of a sub-kernel and without reading `mrs`, `nrs` or
`kmap` out of bounds, and C is left as it was, whatever the sub-kernels do. -/
theorem empty_tile_no_calls (x : SupArgs R) (A B C : Nat → R)
    (ker : SubCall R → (Nat → R) → (Nat → R))
    (h : x.n0 = 0 ∨ (x.m0 = 0 ∧ x.n0 ≤ 16)) :
    (x.m0 < 6 ∨ x.n0 < 16) ∧
    (edge_trace x).2 = true ∧
    edge_calls_made x = [] ∧
    bli_sgemmsup_rv_haswell_asm_6x16 x A B C = Outcome.edge (some []) ∧
    (bli_sgemmsup_rv_haswell_asm_6x16 x A B C).result ker C = some C := by
  have hedge : x.m0 < 6 ∨ x.n0 < 16 := by
    rcases h with h | h
    · exact Or.inr (by omega)
    · exact Or.inl (by omega)
  have hend : (edge_trace x).2 = true := by
    rcases h with h | h
    · simp [edge_trace, edge_n_trace, nrs, h]
    · exact edge_trace_ends x (by omega) (by omega)
  have hnone : edge_calls_made x = [] := by
    rcases h with h | h
    · simp [edge_calls_made, edge_trace, edge_n_trace, nrs, h]
    · unfold edge_calls_made
      rw [List.flatMap_eq_nil_iff]
      intro col hcol
      cases hl : col.2.2 with
      | nil => rfl
      | cons c l =>
        exfalso
        obtain ⟨_, _, a3, _, _, _, a7, a8, _⟩ :=
          (edge_calls_made_spec x col hcol).2 c (by rw [hl]; exact List.mem_cons_self _ _)
        obtain ⟨hi, _⟩ := kmap_index_bounds c.i c.j c.ker_fp a7
        have hi := hi
        have hm0 : c.m = 0 := by omega
        rw [hm0] at a8
        interval_cases hci : c.i <;> simp [mrs] at a8
  have hout : bli_sgemmsup_rv_haswell_asm_6x16 x A B C = Outcome.edge (some []) := by
    simp only [bli_sgemmsup_rv_haswell_asm_6x16, if_pos hedge, edge_path_eq_trace,
      if_pos hend, hnone]
  refine ⟨hedge, hend, hnone, hout, ?_⟩
  rw [hout]
  rfl

/-- For `m0 = 0`, `n0 = 16` and for `m0 = 20`, `n0 = 0` the call makes no sub-kernel call
and leaves C as it was. -/
theorem empty_tile_no_calls_witness :
    bli_sgemmsup_rv_haswell_asm_6x16 args_0x16 (fun _ => 1) (fun _ => 1) (fun _ => 7)
      = Outcome.edge (some []) ∧
    bli_sgemmsup_rv_haswell_asm_6x16 args_20x0 (fun _ => 1) (fun _ => 1) (fun _ => 7)
      = Outcome.edge (some []) ∧
    ((bli_sgemmsup_rv_haswell_asm_6x16 args_0x16 (fun _ => 1) (fun _ => 1)
        (fun _ => 7)).result (fun _ _ => fun _ => 0) (fun _ => 7)).map (fun M => M 3)
      = some 7 := by
  have h1 := empty_tile_no_calls args_0x16 (fun _ => 1) (fun _ => 1) (fun _ => 7)
    (fun _ _ => fun _ => 0) (Or.inr ⟨rfl, by decide⟩)
  have h2 := empty_tile_no_calls args_20x0 (fun _ => 1) (fun _ => 1) (fun _ => 7)
    (fun _ _ => fun _ => 0) (Or.inl rfl)
  refine ⟨h1.2.2.2.1, h2.2.2.2.1, ?_⟩
  rw [h1.2.2.2.2]
  rfl

end c29

end Haswell

namespace Haswell

/-! ## The loops over `k` -/

section c30

theorem dec_jne_loop_eq_iterate {σ : Type} (body : σ → σ) :
    ∀ (n : Nat) (s : σ), dec_jne_loop body n s = body^[n] s := by
  intro n
  induction n with
  | zero => intro s; rfl
  | succ n ih => intro s; simp only [dec_jne_loop, ih, Function.iterate_succ_apply]

/-- The two loops over `k` run the instruction block of one value of `k` exactly `k0`
times. -/
theorem k_loops_eq_iterate {σ : Type} (k0 : Nat) (body : σ → σ) (s0 : σ) :
    k_loops k0 body s0 = body^[k0] s0 := by
  have h4 : (fun s => body (body (body (body s)))) = body^[4] := rfl
  have h1 : (if k0 / 4 = 0 then s0
      else dec_jne_loop (fun s => body (body (body (body s)))) (k0 / 4) s0)
      = body^[4 * (k0 / 4)] s0 := by
    split
    · rename_i hz
      rw [hz]
      rfl
    · rw [dec_jne_loop_eq_iterate, h4, ← Function.iterate_mul]
  simp only [k_loops]
  rw [h1]
  split
  · rename_i hz
    have e : 4 * (k0 / 4) = k0 := by omega
    rw [e]
  · rw [dec_jne_loop_eq_iterate, ← Function.iterate_add_apply]
    have e : k0 % 4 + 4 * (k0 / 4) = k0 := by omega
    rw [e]

variable {R : Type} [CommRing R]

/-- The accumulation of the kernel `6x16` is the loop skeleton `k_loops` around its
instruction block. -/
theorem accumulate_eq_k_loops (x : SupArgs R) (A B : Nat → R) :
    accumulate x A B
      = k_loops x.k0 (rank1_update A B x.rs_a0 x.cs_a0 x.rs_b0 (x.rs_a0 + x.rs_a0 * 2)
          (x.rs_a0 + x.rs_a0 * 4)) (acc_init x) := rfl

/-- In each of the six kernels the accumulators at `.SPOSTACCUM` are those after `k0` runs
of the instruction block of the kernel. -/
theorem sMx16_accumulate_eq (M : Nat) (x : SupArgs R) (A B : Nat → R) :
    sMx16_accumulate M x A B = (sMx16_update M x A B)^[x.k0] (acc_init x) := by
  have h6 : accumulate x A B
      = (rank1_update A B x.rs_a0 x.cs_a0 x.rs_b0 (x.rs_a0 + x.rs_a0 * 2)
          (x.rs_a0 + x.rs_a0 * 4))^[x.k0] (acc_init x) := by
    rw [accumulate_eq_k_loops, k_loops_eq_iterate]
  unfold sMx16_accumulate sMx16_update
  split
  · simp only [accumulate_1x16, k_loops_eq_iterate]
  · simp only [accumulate_2x16, k_loops_eq_iterate]
  · simp only [accumulate_3x16, k_loops_eq_iterate]
  · simp only [accumulate_4x16, k_loops_eq_iterate]
  · simp only [accumulate_5x16, k_loops_eq_iterate]
  · exact h6

/-- One run of the instruction block of the kernel `Mx16` advances `a` by `cs_a` and `b` by
`rs_b`, and adds to the accumulator lane of the element `(i, j)`, `i < M`, `j < 16`, the
product of the element of A in row `i` at `a` and of the element of B in column `j` at
`b`. -/
theorem sMx16_update_spec (M : Nat) (hM1 : 1 ≤ M) (hM6 : M ≤ 6) (x : SupArgs R)
    (A B : Nat → R) (s : Acc R) :
    (sMx16_update M x A B s).rax = s.rax + x.cs_a0 ∧
    (sMx16_update M x A B s).rbx = s.rbx + x.rs_b0 ∧
    ∀ i j, i < M → j < 16 →
      (sMx16_update M x A B s).lane i j
        = A (s.rax + i * x.rs_a0) * B (s.rbx + j) + s.lane i j := by
  have eb : ∀ j, ¬ j < 8 → s.rbx + 8 + (j - 8) = s.rbx + j := by intro j hj; omega
  have e1 : s.rax + x.rs_a0 * 1 = s.rax + 1 * x.rs_a0 := by omega
  have e2 : s.rax + x.rs_a0 * 2 = s.rax + 2 * x.rs_a0 := by omega
  have e3 : s.rax + (x.rs_a0 + x.rs_a0 * 2) * 1 = s.rax + 3 * x.rs_a0 := by omega
  have e4 : s.rax + x.rs_a0 * 4 = s.rax + 4 * x.rs_a0 := by omega
  have e5 : s.rax + (x.rs_a0 + x.rs_a0 * 4) * 1 = s.rax + 5 * x.rs_a0 := by omega
  have e0 : s.rax = s.rax + 0 * x.rs_a0 := by omega
  interval_cases M
  all_goals
    refine ⟨rfl, rfl, ?_⟩
    intro i j hi hj
    interval_cases i <;> by_cases h8 : j < 8 <;>
      simp only [sMx16_update, rank1_update, rank1_update_5x16, rank1_update_4x16,
        rank1_update_3x16, rank1_update_2x16, rank1_update_1x16, Acc.lane, h8, if_true,
        if_false, vfmadd231ps, vbroadcastss, vmovups_load, Nat.add_zero, e1, e2, e3,
        e4, e5, Nat.zero_mul] <;>
      first
        | rfl
        | rw [eb j h8]

omit [CommRing R] in
/-- The loops over `k` as the main loop followed by the cleanup loop. -/
theorem k_loops_split {σ : Type} (k0 : Nat) (body : σ → σ) (s0 : σ) :
    k_loops k0 body s0
      = body^[k0 % 4] ((fun s => body (body (body (body s))))^[k0 / 4] s0) := by
  simp only [k_loops]
  have h1 : (if k0 / 4 = 0 then s0
      else dec_jne_loop (fun s => body (body (body (body s)))) (k0 / 4) s0)
      = (fun s => body (body (body (body s))))^[k0 / 4] s0 := by
    split
    · rename_i hz
      rw [hz]
      rfl
    · rw [dec_jne_loop_eq_iterate]
  rw [h1]
  split
  · rename_i hz
    rw [hz]
    rfl
  · rw [dec_jne_loop_eq_iterate]

theorem acc_init_lane (x : SupArgs R) (i j : Nat) : (acc_init x).lane i j = 0 := by
  unfold Acc.lane acc_init
  split <;> split <;> rfl

/-- C30. In each of the kernels `Mx16`, `M = 1 .. 6`, and for every `k0`: `k_iter = k0 / 4`
and `k_left = k0 % 4` satisfy `4*k_iter + k_left = k0` and `k_left < 4`; the code up to
`.SPOSTACCUM` is `k_iter` runs of the four-fold unrolled block followed by `k_left` runs of
the block, which are `k0` runs of the instruction block of one value of `k`; before the
run number `l` (counted from 0) the pointers are `a + l*cs_a` and `b + l*rs_b`, and the run
adds `A[i][l] * B[l][j]`, read at `a + i*rs_a + l*cs_a` and `b + l*rs_b + j`, to the
accumulator of the element `(i, j)`; at the end the accumulator of `(i, j)` holds the sum
of these products over `l = 0, ..., k0 - 1`, and for `k0 = 0` the registers are as
`vzeroall()` left them. -/
theorem k_loops_rank1_updates (M : Nat) (hM1 : 1 ≤ M) (hM6 : M ≤ 6) (x : SupArgs R)
    (A B : Nat → R) :
    (4 * (x.k0 / 4) + x.k0 % 4 = x.k0 ∧ x.k0 % 4 < 4) ∧
    sMx16_accumulate M x A B
      = (sMx16_update M x A B)^[x.k0 % 4]
          ((fun s => sMx16_update M x A B (sMx16_update M x A B
            (sMx16_update M x A B (sMx16_update M x A B s))))^[x.k0 / 4] (acc_init x)) ∧
    sMx16_accumulate M x A B = (sMx16_update M x A B)^[x.k0] (acc_init x) ∧
    (∀ l, ((sMx16_update M x A B)^[l] (acc_init x)).rax = x.a + l * x.cs_a0 ∧
      ((sMx16_update M x A B)^[l] (acc_init x)).rbx = x.b + l * x.rs_b0) ∧
    (∀ l i j, i < M → j < 16 →
      ((sMx16_update M x A B)^[l + 1] (acc_init x)).lane i j
        = A (x.a + i * x.rs_a0 + l * x.cs_a0) * B (x.b + l * x.rs_b0 + j)
          + ((sMx16_update M x A B)^[l] (acc_init x)).lane i j) ∧
    (∀ i j, i < M → j < 16 →
      (sMx16_accumulate M x A B).lane i j = dot_upto x A B i j x.k0) ∧
    (x.k0 = 0 → sMx16_accumulate M x A B = acc_init x) := by
  have hptr : ∀ l, ((sMx16_update M x A B)^[l] (acc_init x)).rax = x.a + l * x.cs_a0 ∧
      ((sMx16_update M x A B)^[l] (acc_init x)).rbx = x.b + l * x.rs_b0 := by
    intro l
    induction l with
    | zero => exact ⟨by simp [acc_init], by simp [acc_init]⟩
    | succ l ih =>
      rw [Function.iterate_succ_apply']
      obtain ⟨h1, h2, _⟩ := sMx16_update_spec M hM1 hM6 x A B
        ((sMx16_update M x A B)^[l] (acc_init x))
      rw [h1, h2, ih.1, ih.2, Nat.add_mul, Nat.add_mul, Nat.one_mul, Nat.one_mul]
      exact ⟨by omega, by omega⟩
  have hlane : ∀ l i j, i < M → j < 16 →
      ((sMx16_update M x A B)^[l + 1] (acc_init x)).lane i j
        = A (x.a + i * x.rs_a0 + l * x.cs_a0) * B (x.b + l * x.rs_b0 + j)
          + ((sMx16_update M x A B)^[l] (acc_init x)).lane i j := by
    intro l i j hi hj
    rw [Function.iterate_succ_apply']
    obtain ⟨_, _, h3⟩ := sMx16_update_spec M hM1 hM6 x A B
      ((sMx16_update M x A B)^[l] (acc_init x))
    rw [h3 i j hi hj, (hptr l).1, (hptr l).2]
    have e : x.a + l * x.cs_a0 + i * x.rs_a0 = x.a + i * x.rs_a0 + l * x.cs_a0 := by omega
    rw [e]
  have hdot : ∀ l i j, i < M → j < 16 →
      ((sMx16_update M x A B)^[l] (acc_init x)).lane i j = dot_upto x A B i j l := by
    intro l
    induction l with
    | zero =>
      intro i j _ _
      rw [Function.iterate_zero_apply, acc_init_lane]
      simp [dot_upto, Lpgemm.sum_upto]
    | succ l ih =>
      intro i j hi hj
      rw [hlane l i j hi hj, ih i j hi hj, dot_upto_succ]
  have hacc := sMx16_accumulate_eq M x A B
  refine ⟨⟨by omega, Nat.mod_lt _ (by decide)⟩, ?_, hacc, hptr, hlane, ?_, ?_⟩
  · rw [hacc, ← k_loops_split, k_loops_eq_iterate]
  · intro i j hi hj
    rw [hacc]
    exact hdot x.k0 i j hi hj
  · intro hk
    rw [hacc, hk]
    rfl

/-- The kernel `3x16` on `k0 = 7` (`k_iter = 1`, `k_left = 3`) leaves the pointers at
`a + 7*cs_a` and `b + 7*rs_b`, and the accumulator of the element `(2, 5)` holds the inner
product over the seven values of `k`. -/
theorem k_loops_rank1_updates_witness :
    (1 ≤ 3 ∧ 3 ≤ 6) ∧
    (4 * (args_k7.k0 / 4) + args_k7.k0 % 4 = 7 ∧ args_k7.k0 / 4 = 1 ∧ args_k7.k0 % 4 = 3) ∧
    (sMx16_accumulate 3 args_k7 mem_tile_rows (fun _ => 1)).rax = 7 ∧
    (sMx16_accumulate 3 args_k7 mem_tile_rows (fun _ => 1)).rbx = 112 ∧
    (sMx16_accumulate 3 args_k7 mem_tile_rows (fun _ => 1)).lane 2 5
      = dot_upto args_k7 mem_tile_rows (fun _ => 1) 2 5 7 := by
  obtain ⟨h1, _, h3, h4, _, h6, _⟩ := k_loops_rank1_updates 3 (by decide) (by decide) args_k7
    mem_tile_rows (fun _ => 1)
  refine ⟨⟨by decide, by decide⟩, ⟨h1.1, by decide, by decide⟩, ?_, ?_,
    h6 2 5 (by decide) (by decide)⟩
  · rw [h3]; exact (h4 7).1
  · rw [h3]; exact (h4 7).2

end c30

end Haswell

namespace Haswell

/-! ## The kernel does not read C when `beta` is zero

The lemmas of this part use no law of arithmetic: the carrier `R` has a zero, a sum and a
product, and nothing is assumed about them. -/

section fma

variable {R : Type} [Zero R] [Add R] [Mul R]

/-- One rank-1 update adds the products of the next value of `k`. -/
theorem rank1_update_fma (x : SupArgs R) (A B : Nat → R) (t : Nat) (s : Acc R)
    (h : AccFma x A B t s) :
    AccFma x A B (t + 1)
      (rank1_update A B x.rs_a0 x.cs_a0 x.rs_b0 (x.rs_a0 + x.rs_a0 * 2)
        (x.rs_a0 + x.rs_a0 * 4) s) := by
  have ea : ∀ i off, off = i * x.rs_a0 →
      A (s.rax + off) = A (x.a + i * x.rs_a0 + t * x.cs_a0) := by
    intro i off ho
    rw [h.rax, ho]
    congr 1
    omega
  have eb0 : ∀ q, B (s.rbx + 0 + q) = B (x.b + t * x.rs_b0 + q) := by
    intro q
    rw [h.rbx, Nat.add_zero]
  have eb8 : ∀ q, B (s.rbx + 8 + q) = B (x.b + t * x.rs_b0 + (8 + q)) := by
    intro q
    rw [h.rbx]
    congr 1
    omega
  have ea0 : A s.rax = A (x.a + 0 * x.rs_a0 + t * x.cs_a0) := by
    rw [h.rax]; congr 1; omega
  constructor
  · simp only [rank1_update, h.rax]; rw [Nat.add_mul]; omega
  · simp only [rank1_update, h.rbx]; rw [Nat.add_mul]; omega
  all_goals
    intro q
    simp only [fma_dot, rank1_update, vfmadd231ps, vbroadcastss, vmovups_load]
  · rw [h.ymm4 q, ea0, eb0 q]
  · rw [h.ymm5 q, ea0, eb8 q]
  · rw [h.ymm6 q, ea 1 (x.rs_a0 * 1) (by omega), eb0 q]
  · rw [h.ymm7 q, ea 1 (x.rs_a0 * 1) (by omega), eb8 q]
  · rw [h.ymm8 q, ea 2 (x.rs_a0 * 2) (by omega), eb0 q]
  · rw [h.ymm9 q, ea 2 (x.rs_a0 * 2) (by omega), eb8 q]
  · rw [h.ymm10 q, ea 3 ((x.rs_a0 + x.rs_a0 * 2) * 1) (by omega), eb0 q]
  · rw [h.ymm11 q, ea 3 ((x.rs_a0 + x.rs_a0 * 2) * 1) (by omega), eb8 q]
  · rw [h.ymm12 q, ea 4 (x.rs_a0 * 4) (by omega), eb0 q]
  · rw [h.ymm13 q, ea 4 (x.rs_a0 * 4) (by omega), eb8 q]
  · rw [h.ymm14 q, ea 5 ((x.rs_a0 + x.rs_a0 * 4) * 1) (by omega), eb0 q]
  · rw [h.ymm15 q, ea 5 ((x.rs_a0 + x.rs_a0 * 4) * 1) (by omega), eb8 q]

theorem dec_jne_loop_fma (x : SupArgs R) (A B : Nat → R) (body : Acc R → Acc R)
    (step : Nat) (hbody : ∀ t s, AccFma x A B t s → AccFma x A B (t + step) (body s)) :
    ∀ (n t : Nat) (s : Acc R), AccFma x A B t s →
      AccFma x A B (t + n * step) (dec_jne_loop body n s) := by
  intro n
  induction n with
  | zero =>
    intro t s h
    simpa [dec_jne_loop] using h
  | succ n ih =>
    intro t s h
    have h2 := ih (t + step) (body s) (hbody t s h)
    have e : t + step + n * step = t + (n + 1) * step := by
      rw [Nat.add_mul, Nat.one_mul]; omega
    rw [e] at h2
    exact h2

/-- After the main loop and the cleanup loop the accumulators hold the values `fma_dot`
over all `k0` values of `k`. -/
theorem accumulate_fma (x : SupArgs R) (A B : Nat → R) :
    AccFma x A B x.k0 (accumulate x A B) := by
  obtain ⟨s0, hs0⟩ : ∃ s0 : Acc R, s0 =
      { ymm4 := fun _ => 0, ymm5 := fun _ => 0, ymm6 := fun _ => 0, ymm7 := fun _ => 0,
        ymm8 := fun _ => 0, ymm9 := fun _ => 0, ymm10 := fun _ => 0, ymm11 := fun _ => 0,
        ymm12 := fun _ => 0, ymm13 := fun _ => 0, ymm14 := fun _ => 0, ymm15 := fun _ => 0,
        rax := x.a, rbx := x.b } := ⟨_, rfl⟩
  have h0 : AccFma x A B 0 s0 := by
    rw [hs0]
    constructor <;> simp [fma_dot]
  have hiter : ∀ t s, AccFma x A B t s → AccFma x A B (t + 4)
      (sloopkiter_body A B x.rs_a0 x.cs_a0 x.rs_b0 (x.rs_a0 + x.rs_a0 * 2)
        (x.rs_a0 + x.rs_a0 * 4) s) := by
    intro t s h
    exact rank1_update_fma x A B (t + 3) _ (rank1_update_fma x A B (t + 2) _
      (rank1_update_fma x A B (t + 1) _ (rank1_update_fma x A B t s h)))
  have h1 : AccFma x A B (x.k0 / 4 * 4)
      (if x.k0 / 4 = 0 then s0
      else dec_jne_loop (sloopkiter_body A B x.rs_a0 x.cs_a0 x.rs_b0
        (x.rs_a0 + x.rs_a0 * 2) (x.rs_a0 + x.rs_a0 * 4)) (x.k0 / 4) s0) := by
    split
    · rename_i hz
      rw [hz]
      exact h0
    · have := dec_jne_loop_fma x A B _ 4 hiter (x.k0 / 4) 0 _ h0
      rwa [Nat.zero_add] at this
  have hk : x.k0 = x.k0 / 4 * 4 + x.k0 % 4 := by omega
  have hacc : accumulate x A B =
      if x.k0 % 4 = 0 then
        (if x.k0 / 4 = 0 then s0
         else dec_jne_loop (sloopkiter_body A B x.rs_a0 x.cs_a0 x.rs_b0
           (x.rs_a0 + x.rs_a0 * 2) (x.rs_a0 + x.rs_a0 * 4)) (x.k0 / 4) s0)
      else dec_jne_loop (rank1_update A B x.rs_a0 x.cs_a0 x.rs_b0
           (x.rs_a0 + x.rs_a0 * 2) (x.rs_a0 + x.rs_a0 * 4)) (x.k0 % 4)
        (if x.k0 / 4 = 0 then s0
         else dec_jne_loop (sloopkiter_body A B x.rs_a0 x.cs_a0 x.rs_b0
           (x.rs_a0 + x.rs_a0 * 2) (x.rs_a0 + x.rs_a0 * 4)) (x.k0 / 4) s0) := by
    rw [hs0]
    rfl
  rw [hacc]
  split
  · rename_i hz
    have e : x.k0 = x.k0 / 4 * 4 := by omega
    rw [e]
    have e2 : x.k0 / 4 * 4 / 4 = x.k0 / 4 := by omega
    rw [e2]
    exact h1
  · have := dec_jne_loop_fma x A B _ 1
      (fun t s h => rank1_update_fma x A B t s h) (x.k0 % 4) _ _ h1
    rw [Nat.mul_one, ← hk] at this
    exact this

theorem lane_of_AccFma (x : SupArgs R) (A B : Nat → R) (t : Nat) (s : Acc R)
    (h : AccFma x A B t s) (i j : Nat) (hi : i < 6) :
    s.lane i j = fma_dot x A B i j t := by
  have e : ∀ j, ¬ j < 8 → 8 + (j - 8) = j := by intro j hj; omega
  interval_cases i <;> simp only [Acc.lane] <;> split <;> rename_i h8
  all_goals first
    | exact h.ymm4 j
    | exact h.ymm6 j
    | exact h.ymm8 j
    | exact h.ymm10 j
    | exact h.ymm12 j
    | exact h.ymm14 j
    | (rw [h.ymm5, e j h8])
    | (rw [h.ymm7, e j h8])
    | (rw [h.ymm9, e j h8])
    | (rw [h.ymm11, e j h8])
    | (rw [h.ymm13, e j h8])
    | (rw [h.ymm15, e j h8])

omit [Zero R] [Add R] in
/-- The scaling by `alpha` multiplies every lane by `alpha` from the right, as `vmulps`
does. -/
theorem lane_scale_right (alpha : R) (s : Acc R) (i j : Nat) :
    (s.scale alpha).lane i j = s.lane i j * alpha := by
  unfold Acc.lane Acc.scale vmulps
  split <;> split <;> rfl

variable [DecidableEq R]

/-- With `beta = 0` the code after the loops over `k` is the scaling by `alpha` followed
by `.SCOLSTORBZ` (`rs_c = 1`) or `.SROWSTORBZ`, which store and do not load. -/
theorem spostaccum_beta_zero (x : SupArgs R) (C : Nat → R) (s : Acc R) (hb : x.beta = 0) :
    spostaccum x C s =
      if x.rs_c0 = 1 then
        scolstorbz C x.c (x.c + x.rs_c0 * 4) x.cs_c0 (x.cs_c0 + x.cs_c0 * 2)
          (x.cs_c0 + x.cs_c0 * 4) (x.cs_c0 + x.cs_c0 * 2 + x.cs_c0 * 4)
          (s.scale x.alpha)
      else srowstorbz C x.c x.rs_c0 (s.scale x.alpha) := by
  unfold spostaccum
  simp only [if_pos hb]
  rfl

/-- With `beta = 0` the assembly body stores into every element of the tile the value
`fma_dot` of the loops over `k` times `alpha`, whatever C held before: no value of C
enters the result. -/
theorem asm_beta_zero_fma (x : SupArgs R) (A B C : Nat → R) (hb : x.beta = 0)
    (hlay : (x.cs_c0 = 1 ∧ 16 ≤ x.rs_c0) ∨ (x.rs_c0 = 1 ∧ 6 ≤ x.cs_c0))
    (i j : Nat) (hi : i < 6) (hj : j < 16) :
    asm_6x16 x A B C (x.c + i * x.rs_c0 + j * x.cs_c0)
      = fma_dot x A B i j x.k0 * x.alpha := by
  rcases hlay with ⟨hcc, hrs⟩ | ⟨hrs, hcs⟩
  · have e : x.c + i * x.rs_c0 + j * x.cs_c0 = x.c + i * x.rs_c0 + j := by
      rw [hcc, Nat.mul_one]
    have hne : ¬ x.rs_c0 = 1 := by omega
    rw [e]
    unfold asm_6x16
    rw [spostaccum_beta_zero x C _ hb, if_neg hne,
      srowstorbz_apply C x.c x.rs_c0 _ hrs i j hi hj, lane_scale_right,
      lane_of_AccFma x A B x.k0 _ (accumulate_fma x A B) i j hi]
  · have e : x.c + i * x.rs_c0 + j * x.cs_c0 = x.c + j * x.cs_c0 + i := by
      rw [hrs]
      omega
    have e4 : x.c + x.rs_c0 * 4 = x.c + 4 := by
      rw [hrs]
    rw [e]
    unfold asm_6x16
    rw [spostaccum_beta_zero x C _ hb, if_pos hrs, e4,
      scolstorbz_apply C x.c x.cs_c0 _ hcs i j hi hj, lane_scale_right,
      lane_of_AccFma x A B x.k0 _ (accumulate_fma x A B) i j hi]

end fma

section betazero

variable {R : Type} [AddCommMonoid R] [CommMagma R] [DecidableEq R]

omit [CommMagma R] [DecidableEq R] in
/-- In a carrier whose sum is associative and commutative with the neutral element zero,
`fma_dot` is the sum of the products. -/
theorem fma_dot_eq_sum [Mul R] (x : SupArgs R) (A B : Nat → R) (i j t : Nat) :
    fma_dot x A B i j t
      = ∑ l ∈ Finset.range t,
          A (x.a + i * x.rs_a0 + l * x.cs_a0) * B (x.b + l * x.rs_b0 + j) := by
  induction t with
  | zero => simp [fma_dot]
  | succ t ih => rw [Finset.sum_range_succ, ← ih, fma_dot, add_comm]

/-- C5. Let the carrier `R` have an associative and commutative sum with zero and a
commutative product, and nothing else: no law connects the product with zero, so `R` may
hold a NaN with `0 * NaN = NaN`.  When `beta = 0`, on a full 6x16 tile and in both output
paths (row-stored C: `cs_c = 1` and rows of at least sixteen elements; column-stored C:
`rs_c = 1` and columns of at least six elements), two runs of
`bli_sgemmsup_rv_haswell_asm_6x16` that differ only in the initial contents of C leave the
same tile, and every element `C[i][j]` of it is `alpha * sum_{l<k0} A[i][l] * B[l][j]`:
no value loaded from C enters the result. -/
theorem beta_zero_kernel_ignores_c (x : SupArgs R) (A B C1 C2 : Nat → R)
    (hm : x.m0 = 6) (hn : x.n0 = 16) (hb : x.beta = 0)
    (hlay : (x.cs_c0 = 1 ∧ 16 ≤ x.rs_c0) ∨ (x.rs_c0 = 1 ∧ 6 ≤ x.cs_c0)) :
    ∃ F1 F2 : Nat → R,
      bli_sgemmsup_rv_haswell_asm_6x16 x A B C1 = Outcome.full F1 ∧
      bli_sgemmsup_rv_haswell_asm_6x16 x A B C2 = Outcome.full F2 ∧
      ∀ i j, i < 6 → j < 16 →
        F1 (x.c + i * x.rs_c0 + j * x.cs_c0) = F2 (x.c + i * x.rs_c0 + j * x.cs_c0) ∧
        F1 (x.c + i * x.rs_c0 + j * x.cs_c0)
          = x.alpha * ∑ l ∈ Finset.range x.k0,
              A (x.a + i * x.rs_a0 + l * x.cs_a0) * B (x.b + l * x.rs_b0 + j) := by
  have hfull : ∀ C, bli_sgemmsup_rv_haswell_asm_6x16 x A B C
      = Outcome.full (asm_6x16 x A B C) := by
    intro C
    unfold bli_sgemmsup_rv_haswell_asm_6x16
    rw [if_neg (by omega)]
  refine ⟨_, _, hfull C1, hfull C2, ?_⟩
  intro i j hi hj
  rw [asm_beta_zero_fma x A B C1 hb hlay i j hi hj,
    asm_beta_zero_fma x A B C2 hb hlay i j hi hj, fma_dot_eq_sum, mul_comm]
  exact ⟨rfl, rfl⟩

/-- The scenario `K = 4`, A and B filled with ones, `alpha = 1`, `beta = 0` on a
column-stored C (`rs_c = 1`, `cs_c = 6`) over the carrier `NanInt`, in which
`0 * nan = nan`: a run on a C filled with `nan` and a run on a zeroed C leave the same
tile, every element being 4. -/
theorem beta_zero_kernel_ignores_c_witness :
    (0 : NanInt) * NanInt.nan = NanInt.nan ∧
    ∃ F1 F2 : Nat → NanInt,
      bli_sgemmsup_rv_haswell_asm_6x16 args_6x16_nan (fun _ => NanInt.val 1)
          (fun _ => NanInt.val 1) (fun _ => NanInt.nan) = Outcome.full F1 ∧
      bli_sgemmsup_rv_haswell_asm_6x16 args_6x16_nan (fun _ => NanInt.val 1)
          (fun _ => NanInt.val 1) (fun _ => 0) = Outcome.full F2 ∧
      ∀ i j, i < 6 → j < 16 →
        F1 (i + j * 6) = F2 (i + j * 6) ∧ F1 (i + j * 6) = NanInt.val 4 := by
  obtain ⟨F1, F2, h1, h2, h3⟩ := beta_zero_kernel_ignores_c args_6x16_nan
    (fun _ => NanInt.val 1) (fun _ => NanInt.val 1) (fun _ => NanInt.nan) (fun _ => 0)
    rfl rfl rfl (Or.inr ⟨rfl, Nat.le_refl 6⟩)
  refine ⟨rfl, F1, F2, h1, h2, ?_⟩
  intro i j hi hj
  have h := h3 i j hi hj
  have hv : (NanInt.val 1 * ∑ _l ∈ Finset.range 4, (NanInt.val 1 * NanInt.val 1 : NanInt))
      = NanInt.val 4 := by decide
  have ea : args_6x16_nan.c + i * args_6x16_nan.rs_c0 + j * args_6x16_nan.cs_c0
      = i + j * 6 := by
    show 0 + i * 1 + j * 6 = i + j * 6
    omega
  rw [ea] at h
  exact ⟨h.1, h.2.trans hv⟩

/-- The carrier `NanInt` tells a store from a load followed by a multiplication by zero.
On a C filled with `nan` and the accumulators of the scenario above, the load paths
`.SROWSTORED` and `.SCOLSTORED`, run with `beta = 0` in `ymm3`, leave `nan` in the first
element of the tile, and so does the kernel called with `beta = 2`; the kernel called with
`beta = 0` leaves the product 4. -/
theorem nan_tells_load_from_store :
    srowstored (fun _ => NanInt.nan) 0 16 (fun _ => 0)
      ((accumulate args_6x16_nan (fun _ => NanInt.val 1) (fun _ => NanInt.val 1)).scale
        (NanInt.val 1)) 0 = NanInt.nan ∧
    scolstored (fun _ => NanInt.nan) 0 4 6 18 30 42 (fun _ => 0)
      ((accumulate args_6x16_nan (fun _ => NanInt.val 1) (fun _ => NanInt.val 1)).scale
        (NanInt.val 1)) 0 = NanInt.nan ∧
    asm_6x16 { args_6x16_nan with beta := NanInt.val 2 } (fun _ => NanInt.val 1)
      (fun _ => NanInt.val 1) (fun _ => NanInt.nan) 0 = NanInt.nan ∧
    asm_6x16 args_6x16_nan (fun _ => NanInt.val 1) (fun _ => NanInt.val 1)
      (fun _ => NanInt.nan) 0 = NanInt.val 4 :=
  ⟨rfl, rfl, rfl, rfl⟩

end betazero

end Haswell

namespace Lpgemm

/-! ## Packing of B by the threads of an ic group -/

section c12

variable {R L : Type} [CommRing R]

/-- The pack buffer after `lpgemm_pack_b_f32f32f32of32` with the panel stride `NR * k`:
column `i` of the panel `it` holds column `it*NR + i` of the source block, or zeros past
its `n` columns, and nothing outside the `(n + NR - 1) / NR` panels is changed. -/
theorem pack_b_spec (src : Nat → R) (ib : Nat) (buf : Nat → R) (dst n k rs_b cs_b NR : Nat)
    (hNR : 0 < NR) :
    (∀ it i l, it < (n + NR - 1) / NR → i < NR → l < k →
      lpgemm_pack_b_f32f32f32of32 src ib buf dst n k rs_b cs_b (NR * k) NR
          (dst + it * (NR * k) + i + l * NR)
        = if it * NR + i < n then src (ib + (it * NR + i) * cs_b + l * rs_b) else 0) ∧
    (∀ t, t < dst ∨ dst + (n + NR - 1) / NR * (NR * k) ≤ t →
      lpgemm_pack_b_f32f32f32of32 src ib buf dst n k rs_b cs_b (NR * k) NR t = buf t) :=
  pack_a_spec src ib buf dst n k cs_b rs_b NR hNR

theorem countP_range_eq (n j : Nat) :
    (List.range n).countP (fun it => decide (it = j)) = if j < n then 1 else 0 := by
  induction n with
  | zero => simp
  | succ n ih =>
    rw [List.range_succ, List.countP_append, ih]
    by_cases h1 : j < n
    · have : ¬ n = j := by omega
      simp [h1, this, Nat.lt_succ_of_lt h1]
    · by_cases h2 : n = j
      · subst h2
        simp
      · have : ¬ j < n + 1 := by omega
        simp [h1, h2, this]

/-- The number of chunks of width `NR` needed for `w` columns: chunk `it` exists iff it
starts below `w`. -/
theorem lt_ceil_div_iff (w NR it : Nat) (hNR : 0 < NR) :
    it < ceil_div w NR ↔ it * NR < w := by
  unfold ceil_div
  have h := Nat.le_div_iff_mul_le hNR (x := it + 1) (y := w + NR - 1)
  rw [Nat.add_mul, Nat.one_mul] at h
  constructor
  · intro h1
    have := h.1 h1
    omega
  · intro h1
    exact h.2 (by omega)

/-- In a partition of `[0, n)` into ranges whose starts are multiples of `NR`, a non-empty
range ends at `n` or at a multiple of `NR`. -/
theorem range_end_aligned (r : Nat → Nat × Nat) (T n NR : Nat)
    (hpart : IsRangePartition r T n) (hal : ∀ t, t < T → NR ∣ (r t).1)
    (t : Nat) (ht : t < T) (hne : (r t).1 < (r t).2) :
    (r t).2 = n ∨ NR ∣ (r t).2 := by
  have hle := hpart.1 t ht
  by_cases hn : (r t).2 = n
  · exact Or.inl hn
  · right
    obtain ⟨t2, ht2, ⟨h1, h2⟩, _⟩ := hpart.2 (r t).2 (by omega)
    by_cases hs : (r t2).1 = (r t).2
    · rw [← hs]; exact hal t2 ht2
    · exfalso
      obtain ⟨t3, _, _, huniq⟩ := hpart.2 ((r t).2 - 1) (by omega)
      have a1 := huniq t ht ⟨by omega, by omega⟩
      have a2 := huniq t2 ht2 ⟨by omega, by omega⟩
      rw [← a2] at a1
      subst a1
      omega

omit [CommRing R] in
/-- The `packm_cxk` calls a thread makes for one (column block, K-slice) when B is packed
on the fly: those of the loop of its one call of `lpgemm_pack_b_f32f32f32of32`, if it
makes it. -/
theorem packed_b_panels_eq [One R] (blk : BlockSizes) (thr : ThreadInfo) (x : Args R L)
    (jc pc nc0 kc0 fuel : Nat)
    (hpack : x.mtag_b = AOCL_MEMORY_TAG.PACK ∧ x.should_pack_B = true)
    (hNR : 0 < blk.NR)
    (hf : (thr.packb_range nc0).2 - (thr.packb_range nc0).1 ≤ fuel) :
    packed_b_panels blk thr x jc pc nc0 kc0 fuel
      = some (if (thr.packb_range nc0).2 > (thr.packb_range nc0).1 ∧
            (thr.packb_range nc0).1 < jc + nc0 then
          (List.range (ceil_div ((thr.packb_range nc0).2 - (thr.packb_range nc0).1)
              blk.NR)).map
            (pack_b_chunk
              (x.b + x.rs_b * pc + x.cs_b * jc + x.cs_b * (thr.packb_range nc0).1)
              ((thr.packb_range nc0).1 * kc0)
              ((thr.packb_range nc0).2 - (thr.packb_range nc0).1)
              kc0 x.rs_b x.cs_b (blk.NR * kc0) blk.NR)
        else []) := by
  have hrun := pack_b_run_eq (R := R)
    (x.b + x.rs_b * pc + x.cs_b * jc + x.cs_b * (thr.packb_range nc0).1)
    ((thr.packb_range nc0).1 * kc0)
    ((thr.packb_range nc0).2 - (thr.packb_range nc0).1)
    kc0 x.rs_b x.cs_b (blk.NR * kc0) blk.NR fuel
    (Nat.le_trans (ceil_div_le hNR) hf)
  unfold packed_b_panels
  rw [b_select_packed blk thr x jc pc nc0 kc0 jc 0 0 hpack]
  simp only [List.foldl_append, List.foldl_cons, List.foldl_nil]
  have h1 : (if thr.am_ochief = true then
        [(Event.alloc_b (sizeof_float * make_multiple_of_n nc0 blk.NR * kc0) : Event R L)]
      else []).foldl
        (fun acc e => acc.bind (fun l => (Event.packm_b fuel e).map (fun c => l ++ c)))
        (some []) = some ([] : List (PackmCxkCall R)) := by
    split <;> simp [Event.packm_b]
  rw [h1]
  split
  · simp [Event.packm_b, hrun]
  · simp [Event.packm_b]

/-- The pack buffer of B after the B part of the body of the `pc` loop of a thread, when B
is packed on the fly: the buffer after its call of `lpgemm_pack_b_f32f32f32of32`, if it
makes it. -/
theorem b_select_pack_mem (blk : BlockSizes) (thr : ThreadInfo) (x : Args R L)
    (jc pc nc0 kc0 : Nat) (A B : Nat → R) (st : MemState R)
    (hpack : x.mtag_b = AOCL_MEMORY_TAG.PACK ∧ x.should_pack_B = true) :
    (exec_events blk.MR A B (b_select blk thr x jc pc nc0 kc0 jc 0 0).1 st).pack_b
      = if (thr.packb_range nc0).2 > (thr.packb_range nc0).1 ∧
            (thr.packb_range nc0).1 < jc + nc0 then
          lpgemm_pack_b_f32f32f32of32 B
            (x.b + x.rs_b * pc + x.cs_b * jc + x.cs_b * (thr.packb_range nc0).1)
            st.pack_b ((thr.packb_range nc0).1 * kc0)
            ((thr.packb_range nc0).2 - (thr.packb_range nc0).1)
            kc0 x.rs_b x.cs_b (blk.NR * kc0) blk.NR
        else st.pack_b := by
  rw [b_select_packed blk thr x jc pc nc0 kc0 jc 0 0 hpack]
  simp only [exec_events, List.foldl_append, List.foldl_cons, List.foldl_nil]
  have h1 : (if thr.am_ochief = true then
        [(Event.alloc_b (sizeof_float * make_multiple_of_n nc0 blk.NR * kc0) : Event R L)]
      else []).foldl (exec_event blk.MR A B) st = st := by
    split <;> simp [exec_event]
  rw [h1]
  split <;> simp [exec_event]

omit [CommRing R] in
/-- The panels a thread packs are the ones whose first column lies in its pack range:
among the `packm_cxk` calls of the thread exactly one writes to the buffer offset
`q*NR*kc0` when `q*NR` lies in the range and none otherwise, and that call is the call for
the micro-panel `q`, cut at the end of the pack range of the thread. -/
theorem thread_panel_calls [One R] (blk : BlockSizes) (thr : ThreadInfo) (x : Args R L)
    (jc pc nc0 kc0 fuel q : Nat)
    (hpack : x.mtag_b = AOCL_MEMORY_TAG.PACK ∧ x.should_pack_B = true)
    (hNR : 0 < blk.NR) (hkc : 0 < kc0) (hal : blk.NR ∣ (thr.packb_range nc0).1)
    (he : (thr.packb_range nc0).2 ≤ nc0) (hf : nc0 ≤ fuel) :
    ∃ calls : List (PackmCxkCall R),
      packed_b_panels blk thr x jc pc nc0 kc0 fuel = some calls ∧
      calls.countP (fun c => decide (c.p = q * blk.NR * kc0))
        = (if (thr.packb_range nc0).1 ≤ q * blk.NR ∧ q * blk.NR < (thr.packb_range nc0).2
          then 1 else 0) ∧
      ∀ c ∈ calls, c.p = q * blk.NR * kc0 →
        c = { panel_chunk blk x jc pc nc0 kc0 q with
              panel_dim := min blk.NR ((thr.packb_range nc0).2 - q * blk.NR) } := by
  refine ⟨_, packed_b_panels_eq blk thr x jc pc nc0 kc0 fuel hpack hNR (by omega), ?_, ?_⟩
  · obtain ⟨s1, hs1⟩ := hal
    generalize (thr.packb_range nc0).2 = e at *
    generalize (thr.packb_range nc0).1 = s at *
    subst hs1
    have hpos : 0 < blk.NR * kc0 := Nat.mul_pos hNR hkc
    by_cases hne : e > blk.NR * s1 ∧ blk.NR * s1 < jc + nc0
    · rw [if_pos hne, List.countP_map]
      have hpred : ∀ it, ((fun c : PackmCxkCall R => decide (c.p = q * blk.NR * kc0)) ∘
          (pack_b_chunk (x.b + x.rs_b * pc + x.cs_b * jc + x.cs_b * (blk.NR * s1))
            (blk.NR * s1 * kc0) (e - blk.NR * s1) kc0 x.rs_b x.cs_b (blk.NR * kc0)
            blk.NR)) it
          = decide (s1 ≤ q ∧ it = q - s1) := by
        intro it
        simp only [Function.comp, pack_b_chunk]
        have e1 : blk.NR * s1 * kc0 + it * (blk.NR * kc0) = (s1 + it) * (blk.NR * kc0) := by
          ring
        have e2 : q * blk.NR * kc0 = q * (blk.NR * kc0) := by ring
        apply decide_eq_decide.2
        rw [e1, e2, Nat.mul_left_inj (Nat.pos_iff_ne_zero.1 hpos)]
        omega
      rw [List.countP_congr (fun it _ => by rw [hpred it])]
      by_cases hq : s1 ≤ q
      · have hp2 : ∀ it, decide (s1 ≤ q ∧ it = q - s1) = decide (it = q - s1) := by
          intro it
          apply decide_eq_decide.2
          exact ⟨fun h => h.2, fun h => ⟨hq, h⟩⟩
        simp only [hp2]
        rw [countP_range_eq]
        have hc := lt_ceil_div_iff (e - blk.NR * s1) blk.NR (q - s1) hNR
        have h1 : blk.NR * s1 ≤ q * blk.NR := by
          rw [Nat.mul_comm]; exact Nat.mul_le_mul_right _ hq
        have h2 : (q - s1) * blk.NR = q * blk.NR - blk.NR * s1 := by
          rw [Nat.sub_mul, Nat.mul_comm s1]
        rw [h2] at hc
        by_cases hlt : q * blk.NR < e
        · rw [if_pos (hc.2 (by omega)), if_pos ⟨h1, hlt⟩]
        · rw [if_neg (fun h => hlt (by have := hc.1 h; omega)), if_neg (fun h => hlt h.2)]
      · have hp2 : ∀ it, decide (s1 ≤ q ∧ it = q - s1) = false := by
          intro it
          exact decide_eq_false (fun h => hq h.1)
        simp only [hp2]
        have h1 : ¬ blk.NR * s1 ≤ q * blk.NR := by
          intro h
          rw [Nat.mul_comm] at h
          exact hq (Nat.le_of_mul_le_mul_right h hNR)
        rw [if_neg (fun h => h1 h.1)]
        simp
    · rw [if_neg hne, if_neg (by omega)]
      rfl
  · intro c hc hp
    obtain ⟨s1, hs1⟩ := hal
    generalize (thr.packb_range nc0).2 = e at *
    generalize (thr.packb_range nc0).1 = s at *
    subst hs1
    have hpos : 0 < blk.NR * kc0 := Nat.mul_pos hNR hkc
    split at hc
    · simp only [List.mem_map, List.mem_range] at hc
      obtain ⟨it, _, rfl⟩ := hc
      simp only [pack_b_chunk] at hp
      have e1 : blk.NR * s1 * kc0 + it * (blk.NR * kc0) = (s1 + it) * (blk.NR * kc0) := by
        ring
      have e2 : q * blk.NR * kc0 = q * (blk.NR * kc0) := by ring
      rw [e1, e2, Nat.mul_left_inj (Nat.pos_iff_ne_zero.1 hpos)] at hp
      subst hp
      simp only [panel_chunk, pack_b_chunk, PackmCxkCall.mk.injEq, and_true, true_and]
      refine ⟨?_, ?_, ?_⟩
      · congr 1
        rw [Nat.sub_sub, Nat.add_mul, Nat.mul_comm blk.NR s1]
      · ring
      · ring
    · simp at hc

/-- The micro-panel `q` in the pack buffer after the B part of a thread whose pack range
holds the column `q*NR`: column `i` of the panel holds the column `jc + q*NR + i` of the
K-slice of B, or zeros past the end of the column block. -/
theorem thread_panel_mem (blk : BlockSizes) (thr : ThreadInfo) (x : Args R L)
    (jc pc nc0 kc0 q : Nat) (A B : Nat → R) (st : MemState R)
    (hpack : x.mtag_b = AOCL_MEMORY_TAG.PACK ∧ x.should_pack_B = true)
    (hNR : 0 < blk.NR) (hal : blk.NR ∣ (thr.packb_range nc0).1)
    (he : (thr.packb_range nc0).2 ≤ nc0)
    (hend : (thr.packb_range nc0).2 = nc0 ∨ blk.NR ∣ (thr.packb_range nc0).2)
    (hin : (thr.packb_range nc0).1 ≤ q * blk.NR ∧ q * blk.NR < (thr.packb_range nc0).2)
    (i l : Nat) (hi : i < blk.NR) (hl : l < kc0) :
    (exec_events blk.MR A B (b_select blk thr x jc pc nc0 kc0 jc 0 0).1 st).pack_b
        (q * blk.NR * kc0 + i + l * blk.NR)
      = if q * blk.NR + i < nc0 then
          B (x.b + x.rs_b * (pc + l) + x.cs_b * (jc + q * blk.NR + i))
        else 0 := by
  rw [b_select_pack_mem blk thr x jc pc nc0 kc0 A B st hpack]
  obtain ⟨s1, hs1⟩ := hal
  generalize (thr.packb_range nc0).2 = e at *
  generalize (thr.packb_range nc0).1 = s at *
  subst hs1
  rw [if_pos ⟨by omega, by omega⟩]
  have hq : s1 ≤ q := by
    have h := hin.1
    rw [Nat.mul_comm] at h
    exact Nat.le_of_mul_le_mul_right h hNR
  obtain ⟨d, rfl⟩ := Nat.exists_eq_add_of_le hq
  have hd : d < (e - blk.NR * s1 + blk.NR - 1) / blk.NR := by
    have h := (lt_ceil_div_iff (e - blk.NR * s1) blk.NR d hNR).2
    unfold ceil_div at h
    apply h
    have h2 := hin.2
    rw [Nat.add_mul, Nat.mul_comm s1] at h2
    omega
  have haddr : (s1 + d) * blk.NR * kc0 + i + l * blk.NR
      = blk.NR * s1 * kc0 + d * (blk.NR * kc0) + i + l * blk.NR := by ring
  rw [haddr, (pack_b_spec B _ st.pack_b _ _ kc0 x.rs_b x.cs_b blk.NR hNR).1 d i l hd hi hl]
  have hsrc : x.b + x.rs_b * pc + x.cs_b * jc + x.cs_b * (blk.NR * s1)
        + (d * blk.NR + i) * x.cs_b + l * x.rs_b
      = x.b + x.rs_b * (pc + l) + x.cs_b * (jc + (s1 + d) * blk.NR + i) := by ring
  rw [hsrc]
  have h2 : (s1 + d) * blk.NR = blk.NR * s1 + d * blk.NR := by ring
  rw [h2] at hin ⊢
  by_cases hlt : blk.NR * s1 + d * blk.NR + i < nc0
  · rw [if_pos hlt, if_pos]
    rcases hend with h | ⟨e1, rfl⟩
    · omega
    · have h4 : s1 + d < e1 := by
        have h5 : (s1 + d) * blk.NR < e1 * blk.NR := by
          rw [Nat.add_mul, Nat.mul_comm s1, Nat.mul_comm e1]
          exact hin.2
        exact Nat.lt_of_mul_lt_mul_right h5
      have h5 : (s1 + d + 1) * blk.NR ≤ e1 * blk.NR := Nat.mul_le_mul_right _ h4
      rw [Nat.add_mul, Nat.add_mul, Nat.one_mul, Nat.mul_comm s1, Nat.mul_comm e1] at h5
      omega
  · rw [if_neg hlt, if_neg (by omega)]

/-- The micro-panel `q` in the pack buffer is left as it was by the B part of a thread
whose pack range does not hold the column `q*NR`. -/
theorem thread_panel_frame (blk : BlockSizes) (thr : ThreadInfo) (x : Args R L)
    (jc pc nc0 kc0 q : Nat) (A B : Nat → R) (st : MemState R)
    (hpack : x.mtag_b = AOCL_MEMORY_TAG.PACK ∧ x.should_pack_B = true)
    (hNR : 0 < blk.NR) (hal : blk.NR ∣ (thr.packb_range nc0).1)
    (hend : (thr.packb_range nc0).1 < (thr.packb_range nc0).2 →
      (thr.packb_range nc0).2 = nc0 ∨ blk.NR ∣ (thr.packb_range nc0).2)
    (hq : q * blk.NR < nc0)
    (hout : ¬ ((thr.packb_range nc0).1 ≤ q * blk.NR ∧ q * blk.NR < (thr.packb_range nc0).2))
    (i l : Nat) (hi : i < blk.NR) (hl : l < kc0) :
    (exec_events blk.MR A B (b_select blk thr x jc pc nc0 kc0 jc 0 0).1 st).pack_b
        (q * blk.NR * kc0 + i + l * blk.NR)
      = st.pack_b (q * blk.NR * kc0 + i + l * blk.NR) := by
  rw [b_select_pack_mem blk thr x jc pc nc0 kc0 A B st hpack]
  obtain ⟨s1, hs1⟩ := hal
  generalize (thr.packb_range nc0).2 = e at *
  generalize (thr.packb_range nc0).1 = s at *
  subst hs1
  split
  · rename_i hc
    have hil : i + l * blk.NR < blk.NR * kc0 := by
      have h1 : (l + 1) * blk.NR ≤ kc0 * blk.NR := Nat.mul_le_mul_right _ hl
      rw [Nat.add_mul, Nat.one_mul] at h1
      rw [Nat.mul_comm blk.NR kc0]
      omega
    have eq1 : q * blk.NR * kc0 = q * (blk.NR * kc0) := by ring
    have eq2 : blk.NR * s1 * kc0 = s1 * (blk.NR * kc0) := by ring
    apply (pack_b_spec B _ st.pack_b _ _ kc0 x.rs_b x.cs_b blk.NR hNR).2
    by_cases hlow : q * blk.NR < blk.NR * s1
    · left
      have h4 : q < s1 := by
        rw [Nat.mul_comm blk.NR s1] at hlow
        exact Nat.lt_of_mul_lt_mul_right hlow
      have h5 : (q + 1) * (blk.NR * kc0) ≤ s1 * (blk.NR * kc0) := Nat.mul_le_mul_right _ h4
      rw [Nat.add_mul, Nat.one_mul] at h5
      rw [eq1, eq2]
      omega
    · right
      have hge : e ≤ q * blk.NR := by omega
      rcases hend hc.1 with h | ⟨e1, rfl⟩
      · omega
      · have h4 : e1 ≤ q := by
          rw [Nat.mul_comm] at hge
          exact Nat.le_of_mul_le_mul_right hge hNR
        have h6 : s1 ≤ e1 := by
          have h7 := hc.1
          exact Nat.le_of_lt (Nat.lt_of_mul_lt_mul_left h7)
        have h5 : (blk.NR * e1 - blk.NR * s1 + blk.NR - 1) / blk.NR ≤ e1 - s1 := by
          have h := (ceil_div_spec (a := blk.NR * e1 - blk.NR * s1) hNR (e1 - s1)).2
          unfold ceil_div at h
          apply h
          rw [Nat.sub_mul, Nat.mul_comm e1, Nat.mul_comm s1]
        have h8 : (blk.NR * e1 - blk.NR * s1 + blk.NR - 1) / blk.NR * (blk.NR * kc0)
            ≤ (e1 - s1) * (blk.NR * kc0) := Nat.mul_le_mul_right _ h5
        have h9 : (e1 - s1) * (blk.NR * kc0) = e1 * (blk.NR * kc0) - s1 * (blk.NR * kc0) :=
          Nat.sub_mul _ _ _
        have h10 : s1 * (blk.NR * kc0) ≤ e1 * (blk.NR * kc0) := Nat.mul_le_mul_right _ h6
        have h11 : e1 * (blk.NR * kc0) ≤ q * (blk.NR * kc0) := Nat.mul_le_mul_right _ h4
        rw [eq1, eq2]
        omega
  · rfl

/-- C12. When B is packed on the fly (`mtag_b == PACK` with the pack flag set) and the pack
ranges `[jc_packb_start, jc_packb_end)` of the `T` threads of the ic group partition
`[0, nc0)` with every start a multiple of `NR`, then for one column block `jc` and one
K-slice `pc` every micro-panel `q` (`q*NR < nc0`) is packed by exactly one thread `t` of
the group:

* the loop of the packer `lpgemm_pack_b_f32f32f32of32`, run for the B part of thread `t`,
  ends and makes exactly one `packm_cxk` call with the destination `q*NR*kc0`, the call
  from the source `b + rs_b*pc + cs_b*(jc + q*NR)` with leading dimension `NR`;
* the packer runs of every other thread of the group end without such a call;
* after the B part of thread `t` the pack buffer holds, at `q*NR*kc0 + i + l*NR`, the
  element `(pc + l, jc + q*NR + i)` of B (zero past the end of the column block), and the
  B part of every other thread leaves these places as they were;
* a single thread packing the whole block makes the same call and leaves the same panel;
* `q*NR*kc0` is the offset `b_use + jr*kc0`, `jr = q*NR`, which every micro-kernel call of
  the micro-column receives, with the strides `(NR, 1)`: it reads the element `(l, i)` of
  its B tile at `q*NR*kc0 + i + l*NR` of the pack buffer. -/
theorem pack_b_panel_once (blk : BlockSizes) (x : Args R L) (T : Nat) (thr : Nat → ThreadInfo)
    (jc pc nc0 kc0 fuel : Nat) (A B : Nat → R) (st : MemState R)
    (hpack : x.mtag_b = AOCL_MEMORY_TAG.PACK ∧ x.should_pack_B = true)
    (hNR : 0 < blk.NR) (hkc : 0 < kc0)
    (hpart : IsRangePartition (fun t => (thr t).packb_range nc0) T nc0)
    (hal : ∀ t, t < T → blk.NR ∣ ((thr t).packb_range nc0).1)
    (hf : nc0 ≤ fuel) (q : Nat) (hq : q * blk.NR < nc0) :
    ∃ t, t < T ∧
      (∃ calls : List (PackmCxkCall R),
        packed_b_panels blk (thr t) x jc pc nc0 kc0 fuel = some calls ∧
        calls.countP (fun c => decide (c.p = q * blk.NR * kc0)) = 1 ∧
        ∀ c ∈ calls, c.p = q * blk.NR * kc0 → c = panel_chunk blk x jc pc nc0 kc0 q) ∧
      (∀ t2, t2 < T → t2 ≠ t →
        ∃ calls : List (PackmCxkCall R),
          packed_b_panels blk (thr t2) x jc pc nc0 kc0 fuel = some calls ∧
          calls.countP (fun c => decide (c.p = q * blk.NR * kc0)) = 0) ∧
      (∀ i l, i < blk.NR → l < kc0 →
        (exec_events blk.MR A B (b_select blk (thr t) x jc pc nc0 kc0 jc 0 0).1 st).pack_b
            (q * blk.NR * kc0 + i + l * blk.NR)
          = if q * blk.NR + i < nc0 then
              B (x.b + x.rs_b * (pc + l) + x.cs_b * (jc + q * blk.NR + i))
            else 0) ∧
      (∀ t2, t2 < T → t2 ≠ t → ∀ i l, i < blk.NR → l < kc0 →
        (exec_events blk.MR A B (b_select blk (thr t2) x jc pc nc0 kc0 jc 0 0).1 st).pack_b
            (q * blk.NR * kc0 + i + l * blk.NR)
          = st.pack_b (q * blk.NR * kc0 + i + l * blk.NR)) ∧
      (∃ calls : List (PackmCxkCall R),
        packed_b_panels blk (single_thread x.m x.n) x jc pc nc0 kc0 fuel = some calls ∧
        calls.countP (fun c => decide (c.p = q * blk.NR * kc0)) = 1 ∧
        ∀ c ∈ calls, c.p = q * blk.NR * kc0 → c = panel_chunk blk x jc pc nc0 kc0 q) ∧
      (∀ i l, i < blk.NR → l < kc0 →
        (exec_events blk.MR A B
            (b_select blk (single_thread x.m x.n) x jc pc nc0 kc0 jc 0 0).1 st).pack_b
            (q * blk.NR * kc0 + i + l * blk.NR)
          = (exec_events blk.MR A B
              (b_select blk (thr t) x jc pc nc0 kc0 jc 0 0).1 st).pack_b
              (q * blk.NR * kc0 + i + l * blk.NR)) ∧
      ∀ (t2 : Nat) (au : AUse) (ic mc0 : Nat),
        (kernel_call blk x au (b_select blk (thr t2) x jc pc nc0 kc0 jc 0 0).2
            jc pc ic (q * blk.NR) nc0 kc0 mc0).b = ⟨Region.packbuf, q * blk.NR * kc0⟩ ∧
        (kernel_call blk x au (b_select blk (thr t2) x jc pc nc0 kc0 jc 0 0).2
            jc pc ic (q * blk.NR) nc0 kc0 mc0).rs_b = blk.NR ∧
        (kernel_call blk x au (b_select blk (thr t2) x jc pc nc0 kc0 jc 0 0).2
            jc pc ic (q * blk.NR) nc0 kc0 mc0).cs_b = 1 ∧
        ∀ (M : Nat → R) (i l : Nat),
          read_at B M
              (kernel_call blk x au (b_select blk (thr t2) x jc pc nc0 kc0 jc 0 0).2
                jc pc ic (q * blk.NR) nc0 kc0 mc0).b
              (l * (kernel_call blk x au (b_select blk (thr t2) x jc pc nc0 kc0 jc 0 0).2
                  jc pc ic (q * blk.NR) nc0 kc0 mc0).rs_b
                + i * (kernel_call blk x au
                  (b_select blk (thr t2) x jc pc nc0 kc0 jc 0 0).2
                  jc pc ic (q * blk.NR) nc0 kc0 mc0).cs_b)
            = M (q * blk.NR * kc0 + i + l * blk.NR) := by
  obtain ⟨t, ht, hin0, huniq⟩ := hpart.2 (q * blk.NR) hq
  have hin : ((thr t).packb_range nc0).1 ≤ q * blk.NR ∧
      q * blk.NR < ((thr t).packb_range nc0).2 := hin0
  have hend : ∀ t2, t2 < T → ((thr t2).packb_range nc0).1 < ((thr t2).packb_range nc0).2 →
      ((thr t2).packb_range nc0).2 = nc0 ∨ blk.NR ∣ ((thr t2).packb_range nc0).2 :=
    fun t2 ht2 hne => range_end_aligned _ T nc0 blk.NR hpart hal t2 ht2 hne
  have hdim : ∀ e, q * blk.NR < e → e ≤ nc0 → (e = nc0 ∨ blk.NR ∣ e) →
      min blk.NR (e - q * blk.NR) = min blk.NR (nc0 - q * blk.NR) := by
    intro e h1 h2 h3
    rcases h3 with h3 | ⟨e1, rfl⟩
    · rw [h3]
    · have h4 : q < e1 := by
        rw [Nat.mul_comm] at h1
        exact Nat.lt_of_mul_lt_mul_left h1
      have h5 : (q + 1) * blk.NR ≤ e1 * blk.NR := Nat.mul_le_mul_right _ h4
      rw [Nat.add_mul, Nat.one_mul, Nat.mul_comm e1] at h5
      rw [Nat.min_eq_left (by omega), Nat.min_eq_left (by omega)]
  have hmem_t := thread_panel_mem blk (thr t) x jc pc nc0 kc0 q A B st hpack hNR (hal t ht)
    (hpart.1 t ht) (hend t ht (by omega)) hin
  have hmem_1 := thread_panel_mem blk (single_thread x.m x.n) x jc pc nc0 kc0 q A B st
    hpack hNR (Nat.dvd_zero _) (le_refl _) (Or.inl rfl) ⟨Nat.zero_le _, hq⟩
  refine ⟨t, ht, ?_, ?_, hmem_t, ?_, ?_, ?_, ?_⟩
  · obtain ⟨calls, h1, h2, h3⟩ := thread_panel_calls (R := R) blk (thr t) x jc pc nc0 kc0
      fuel q hpack hNR hkc (hal t ht) (hpart.1 t ht) hf
    refine ⟨calls, h1, ?_, ?_⟩
    · rw [h2, if_pos hin]
    · intro c hc hp
      rw [h3 c hc hp]
      have := hdim _ hin.2 (hpart.1 t ht) (hend t ht (by omega))
      simp only [panel_chunk, PackmCxkCall.mk.injEq, and_true, true_and]
      exact this
  · intro t2 ht2 hne
    obtain ⟨calls, h1, h2, _⟩ := thread_panel_calls (R := R) blk (thr t2) x jc pc nc0 kc0
      fuel q hpack hNR hkc (hal t2 ht2) (hpart.1 t2 ht2) hf
    refine ⟨calls, h1, ?_⟩
    rw [h2, if_neg (fun h => hne (huniq t2 ht2 h))]
  · intro t2 ht2 hne i l hi hl
    exact thread_panel_frame blk (thr t2) x jc pc nc0 kc0 q A B st hpack hNR (hal t2 ht2)
      (hend t2 ht2) hq (fun h => hne (huniq t2 ht2 h)) i l hi hl
  · obtain ⟨calls, h1, h2, h3⟩ := thread_panel_calls (R := R) blk (single_thread x.m x.n)
      x jc pc nc0 kc0 fuel q hpack hNR hkc (Nat.dvd_zero _) (le_refl _) hf
    refine ⟨calls, h1, ?_, ?_⟩
    · rw [h2, if_pos ⟨Nat.zero_le _, hq⟩]
    · intro c hc hp
      rw [h3 c hc hp]
      rfl
  · intro i l hi hl
    rw [hmem_1 i l hi hl, hmem_t i l hi hl]
  · intro t2 au ic mc0
    simp only [kernel_call, b_select, if_pos hpack, Nat.zero_add, read_at, Nat.mul_one,
      true_and]
    intro M i l
    congr 1
    ring

/-- For `NR = 2`, a column block of width 4 at `jc = 0`, the K-slice `pc = 0`, `kc0 = 3`,
B holding its own addresses and two threads packing the columns `[0, 2)` and `[2, 4)`: the
micro-panel 1 is packed by one thread only, by one call of `packm_cxk`, to the buffer
offset 6, and the panel then holds the columns 2 and 3 of the three rows of B:
`2, 3, 7, 8, 12, 13`. -/
theorem pack_b_panel_once_witness :
    ∃ t, t < 2 ∧
      (∃ calls : List (PackmCxkCall Int),
        packed_b_panels blk_small (pack_threads_2 t) args_3x5_pack_b 0 0 4 3 4 = some calls ∧
        calls.countP (fun c => decide (c.p = 6)) = 1 ∧
        ∀ c ∈ calls, c.p = 6 →
          c = { conjc := conj_t.BLIS_NO_CONJUGATE
                schema := pack_t.BLIS_PACKED_COL_PANELS
                panel_dim := 2, panel_dim_max := 2, panel_len := 3, panel_len_max := 3
                kappa := 1, a := 2, inca := 1, lda := 5, p := 6, ldp := 2 }) ∧
      (∀ t2, t2 < 2 → t2 ≠ t →
        ∃ calls : List (PackmCxkCall Int),
          packed_b_panels blk_small (pack_threads_2 t2) args_3x5_pack_b 0 0 4 3 4
            = some calls ∧
          calls.countP (fun c => decide (c.p = 6)) = 0) ∧
      (∀ i l, i < 2 → l < 3 →
        (exec_events 2 (fun _ => 1) (fun p => (p : Int))
            (b_select blk_small (pack_threads_2 t) args_3x5_pack_b 0 0 4 3 0 0 0).1
            mem_zero).pack_b (6 + i + l * 2)
          = ((5 * l + (2 + i) : Nat) : Int)) ∧
      (∀ t2, t2 < 2 → t2 ≠ t → ∀ i l, i < 2 → l < 3 →
        (exec_events 2 (fun _ => 1) (fun p => (p : Int))
            (b_select blk_small (pack_threads_2 t2) args_3x5_pack_b 0 0 4 3 0 0 0).1
            mem_zero).pack_b (6 + i + l * 2) = 0) := by
  obtain ⟨t, ht, h1, h2, h3, h4, _⟩ := pack_b_panel_once blk_small args_3x5_pack_b 2
    pack_threads_2 0 0 4 3 4 (fun _ => 1) (fun p => (p : Int)) mem_zero ⟨rfl, rfl⟩
    (by decide) (by decide) (by unfold IsRangePartition; decide) (by decide) (by decide)
    1 (by decide)
  refine ⟨t, ht, h1, h2, ?_, ?_⟩
  · intro i l hi hl
    have h := h3 i l hi hl
    have hc : 1 * blk_small.NR + i < 4 := by
      show 1 * 2 + i < 4
      omega
    have e : args_3x5_pack_b.b + args_3x5_pack_b.rs_b * (0 + l)
        + args_3x5_pack_b.cs_b * (0 + 1 * blk_small.NR + i) = 5 * l + (2 + i) := by
      show 0 + 5 * (0 + l) + 1 * (0 + 1 * 2 + i) = 5 * l + (2 + i)
      omega
    rw [if_pos hc, e] at h
    exact h
  · intro t2 ht2 hne i l hi hl
    exact h4 t2 ht2 hne i l hi hl

end c12

end Lpgemm

namespace Lpgemm

/-! ## The path of an operand: tag and pack flag -/

section c22

variable {R L : Type} [One R]

/-- C22, with the pack flags taken into account. With a B that is not REORDERED (positive
block sizes, enough fuel) the driver returns, and for every micro-kernel call among its
events, made at the loop indices `jc, pc, ic, jr`:

* when `mtag_b = PACK` and the pack-B flag is set, the call reads the pack buffer at
  `jr*kc0` with the strides `(NR, 1)`, and it comes after the two barriers of its K-slice,
  between which the thread packs its own part of the panel (when that part is not empty),
  with no barrier and no packing of B between the second barrier and the call;
* otherwise (tag NATIVE, or tag PACK without the flag) B is never packed and the call is
  handed a pointer into the caller's operand, the caller's pointer `b` itself for the
  first tile (`jc = pc = jr = 0`), with the caller's strides;
* when A is not REORDERED and the pack-A flag is set (tag NATIVE or PACK), the call reads
  the pack buffer of A with the strides `(1, MR)` and the panel stride `MR*kc0`, and it
  comes after the call of `lpgemm_pack_a_f32f32f32of32` that packs the `mc0 x kc0` block
  of its row block and K-slice, with only micro-kernel calls in between;
* when A is not REORDERED and the pack-A flag is unset (tag NATIVE or PACK), A is never
  packed and the call is handed a pointer into the caller's operand, the caller's pointer
  `a` itself for the first block (`ic = pc = 0`), with the caller's strides. -/
theorem operand_path_by_tag_and_flag (blk : BlockSizes) (nav : ReorderNav) (thr : ThreadInfo)
    (x : Args R L) (fuel : Nat) (hB : x.mtag_b ≠ AOCL_MEMORY_TAG.REORDERED)
    (hNR : 0 < blk.NR) (hNC : 0 < blk.NC) (hMC : 0 < blk.MC) (hKC : 0 < blk.KC)
    (hf1 : thr.jc_end - thr.jc_start ≤ fuel) (hf2 : thr.ic_end - thr.ic_start ≤ fuel)
    (hf3 : x.k ≤ fuel) :
    ∃ evs, lpgemm_rowvar_f32f32f32of32 blk nav thr x fuel = some evs ∧
      (x.mtag_b = AOCL_MEMORY_TAG.PACK ∧ x.should_pack_B = true →
        ∀ jc pc ic jr call, Event.kernel jc pc ic jr call ∈ evs →
          call.b = ⟨Region.packbuf, jr * min (x.k - pc) blk.KC⟩ ∧
          call.rs_b = blk.NR ∧ call.cs_b = 1 ∧
          ∃ pre mid post,
            evs = pre ++ [Event.barrier Comm.ic thr.jc_work_id] ++
              (if (thr.packb_range (min (thr.jc_end - jc) blk.NC)).2
                    > (thr.packb_range (min (thr.jc_end - jc) blk.NC)).1 ∧
                  (thr.packb_range (min (thr.jc_end - jc) blk.NC)).1
                    < jc + min (thr.jc_end - jc) blk.NC then
                [Event.pack_b
                  { src := x.b + x.rs_b * pc + x.cs_b * jc +
                      x.cs_b * (thr.packb_range (min (thr.jc_end - jc) blk.NC)).1
                    dst := (thr.packb_range (min (thr.jc_end - jc) blk.NC)).1 *
                      min (x.k - pc) blk.KC
                    mn := (thr.packb_range (min (thr.jc_end - jc) blk.NC)).2 -
                      (thr.packb_range (min (thr.jc_end - jc) blk.NC)).1
                    k := min (x.k - pc) blk.KC
                    rs := x.rs_b
                    cs := x.cs_b
                    ps_p := blk.NR * min (x.k - pc) blk.KC
                    XR := blk.NR }]
              else []) ++
              [Event.barrier Comm.ic thr.jc_work_id] ++ mid ++
              [Event.kernel jc pc ic jr call] ++ post ∧
            ∀ e ∈ mid, Event.is_barrier e = false ∧ Event.is_pack_b e = false) ∧
      (¬ (x.mtag_b = AOCL_MEMORY_TAG.PACK ∧ x.should_pack_B = true) →
        evs.countP Event.is_pack_b = 0 ∧
        ∀ jc pc ic jr call, Event.kernel jc pc ic jr call ∈ evs →
          call.b.region = Region.operand ∧
          (jc = 0 → pc = 0 → jr = 0 → call.b.addr = x.b) ∧
          call.rs_b = x.rs_b ∧ call.cs_b = x.cs_b) ∧
      (x.mtag_a ≠ AOCL_MEMORY_TAG.REORDERED ∧ x.should_pack_A = true →
        ∀ jc pc ic jr call, Event.kernel jc pc ic jr call ∈ evs →
          call.a = ⟨Region.packbuf, 0⟩ ∧ call.rs_a = 1 ∧ call.cs_a = blk.MR ∧
          call.ps_a = blk.MR * min (x.k - pc) blk.KC ∧
          ∃ pcall pre mid post,
            (pcall.dst = 0 ∧ pcall.mn = min (thr.ic_end - ic) blk.MC ∧
              pcall.k = min (x.k - pc) blk.KC ∧ pcall.rs = x.rs_a ∧ pcall.cs = x.cs_a ∧
              pcall.ps_p = blk.MR * min (x.k - pc) blk.KC ∧ pcall.XR = blk.MR) ∧
            evs = pre ++ [Event.pack_a pcall] ++ mid ++ [Event.kernel jc pc ic jr call]
              ++ post ∧
            ∀ e ∈ mid, Event.is_kernel e = true) ∧
      (x.mtag_a ≠ AOCL_MEMORY_TAG.REORDERED ∧ x.should_pack_A = false →
        evs.countP Event.is_pack_a = 0 ∧
        ∀ jc pc ic jr call, Event.kernel jc pc ic jr call ∈ evs →
          call.a.region = Region.operand ∧
          (ic = 0 → pc = 0 → call.a.addr = x.a) ∧
          call.rs_a = x.rs_a ∧ call.cs_a = x.cs_a) := by
  refine ⟨_, lpgemm_events_eq blk nav thr x fuel hB hNR hNC hMC hKC hf1 hf2 hf3, ?_, ?_, ?_, ?_⟩
  · intro hp jc pc ic jr call hmem
    have hl : Event.kernel jc pc ic jr call ∈ loop_events blk thr x := by
      rcases List.mem_append.1 hmem with h | h
      · exact h
      · exact absurd h (kernel_not_mem_release thr x _ jc pc ic jr call)
    obtain ⟨_, _, _, _, hcall⟩ := (kernel_mem_loop_events blk thr x jc pc ic jr call).1 hl
    obtain ⟨pre, mid_b, mid_a, post, hctx, hq1, hq2⟩ :=
      kernel_event_context blk thr x jc pc ic jr call hl
    rw [b_select_packed blk thr x _ _ _ _ _ _ _ hp] at hcall hctx
    refine ⟨?_, ?_, ?_, ?_⟩
    · rw [hcall]; simp [kernel_call]
    · rw [hcall]; rfl
    · rw [hcall]; rfl
    · refine ⟨pre ++ (if thr.am_ochief = true then
          [Event.alloc_b (sizeof_float * make_multiple_of_n (min (thr.jc_end - jc) blk.NC)
            blk.NR * min (x.k - pc) blk.KC)] else []),
        mid_b ++ (a_select blk x pc ic (min (x.k - pc) blk.KC)
          (min (thr.ic_end - ic) blk.MC)).1 ++ mid_a,
        post ++ release_events thr x (loop_events blk thr x), ?_, ?_⟩
      · rw [hctx]
        simp only [List.append_assoc]
      · intro e he
        rcases List.mem_append.1 he with h | h
        · rcases List.mem_append.1 h with h | h
          · exact hq1 e h
          · exact a_select_events_quiet blk x _ _ _ _ e h
        · exact kernel_quiet e (hq2 e h)
  · intro hp
    constructor
    · rw [List.countP_append, (is_pack_release thr x _).2,
        no_pack_b_loop_events blk thr x hB hp]
    · intro jc pc ic jr call hmem
      have hl : Event.kernel jc pc ic jr call ∈ loop_events blk thr x := by
        rcases List.mem_append.1 hmem with h | h
        · exact h
        · exact absurd h (kernel_not_mem_release thr x _ jc pc ic jr call)
      obtain ⟨_, _, _, _, hcall⟩ := (kernel_mem_loop_events blk thr x jc pc ic jr call).1 hl
      rw [b_select_not_packed blk thr x _ _ _ _ _ _ _ hB hp] at hcall
      refine ⟨?_, ?_, ?_, ?_⟩
      · rw [hcall]; rfl
      · intro h1 h2 h3
        rw [hcall, h1, h2, h3]
        simp [kernel_call]
      · rw [hcall]; rfl
      · rw [hcall]; rfl
  · rintro ⟨hA, hp⟩ jc pc ic jr call hmem
    have hl : Event.kernel jc pc ic jr call ∈ loop_events blk thr x := by
      rcases List.mem_append.1 hmem with h | h
      · exact h
      · exact absurd h (kernel_not_mem_release thr x _ jc pc ic jr call)
    obtain ⟨_, _, _, _, hcall⟩ := (kernel_mem_loop_events blk thr x jc pc ic jr call).1 hl
    obtain ⟨pre, mid_b, mid_a, post, hctx, _, hq2⟩ :=
      kernel_event_context blk thr x jc pc ic jr call hl
    rw [a_select_packed blk x _ _ _ _ hA hp] at hcall hctx
    refine ⟨?_, ?_, ?_, ?_, ?_⟩
    · rw [hcall]; rfl
    · rw [hcall]; rfl
    · rw [hcall]; rfl
    · rw [hcall]; rfl
    · refine ⟨{ src := x.a + x.rs_a * ic + pc
                dst := 0
                mn := min (thr.ic_end - ic) blk.MC
                k := min (x.k - pc) blk.KC
                rs := x.rs_a
                cs := x.cs_a
                ps_p := blk.MR * min (x.k - pc) blk.KC
                XR := blk.MR },
        pre ++ (b_select blk thr x jc pc (min (thr.jc_end - jc) blk.NC)
            (min (x.k - pc) blk.KC) jc 0 0).1 ++ mid_b ++
          [Event.alloc_a (sizeof_float *
            (((min (thr.ic_end - ic) blk.MC + blk.MR - 1) / blk.MR) * blk.MR) *
            min (x.k - pc) blk.KC)],
        mid_a, post ++ release_events thr x (loop_events blk thr x),
        ⟨rfl, rfl, rfl, rfl, rfl, rfl, rfl⟩, ?_, hq2⟩
      rw [hctx]
      simp only [List.append_assoc, List.singleton_append, List.cons_append, List.nil_append]
  · rintro ⟨hA, hp⟩
    constructor
    · rw [List.countP_append, (is_pack_release thr x _).1,
        no_pack_a_loop_events blk thr x hA hp]
    · intro jc pc ic jr call hmem
      have hl : Event.kernel jc pc ic jr call ∈ loop_events blk thr x := by
        rcases List.mem_append.1 hmem with h | h
        · exact h
        · exact absurd h (kernel_not_mem_release thr x _ jc pc ic jr call)
      obtain ⟨_, _, _, _, hcall⟩ := (kernel_mem_loop_events blk thr x jc pc ic jr call).1 hl
      rw [a_select_not_packed blk x _ _ _ _ hA hp] at hcall
      refine ⟨?_, ?_, ?_, ?_⟩
      · rw [hcall]; rfl
      · intro h1 h2
        rw [hcall, h1, h2]
        simp [kernel_call]
      · rw [hcall]; rfl
      · rw [hcall]; rfl

end c22

section c22_concrete

/-- In the run `M = 3, N = 5, K = 4` with B tagged PACK, the pack-B flag and the pack-A flag
set, the call for the first tile of the K-slice `pc = 3` reads both pack buffers, B with
the strides `(NR, 1) = (2, 1)` and A with the strides `(1, MR) = (1, 2)`. -/
theorem operand_path_by_tag_and_flag_witness :
    ∃ evs call,
      lpgemm_rowvar_f32f32f32of32 blk_small nav_id (single_thread 3 5) args_3x5_pack_ab 5
        = some evs ∧
      Event.kernel 0 3 0 0 call ∈ evs ∧
      call.b = ⟨Region.packbuf, 0⟩ ∧ call.rs_b = 2 ∧ call.cs_b = 1 ∧
      call.a = ⟨Region.packbuf, 0⟩ ∧ call.rs_a = 1 ∧ call.cs_a = 2 := by
  obtain ⟨evs, h1, hb, _, ha, _⟩ := operand_path_by_tag_and_flag blk_small nav_id
    (single_thread 3 5) args_3x5_pack_ab 5 (by decide) (by decide) (by decide) (by decide)
    (by decide) (by decide) (by decide) (by decide)
  have h0 := lpgemm_events_eq blk_small nav_id (single_thread 3 5) args_3x5_pack_ab 5
    (by decide) (by decide) (by decide) (by decide) (by decide) (by decide) (by decide)
    (by decide)
  have hmem : Event.kernel 0 3 0 0 (kernel_call blk_small args_3x5_pack_ab
        (a_select blk_small args_3x5_pack_ab 3 0 (min (4 - 3) 3) (min (3 - 0) 2)).2
        (b_select blk_small (single_thread 3 5) args_3x5_pack_ab 0 3 (min (5 - 0) 4)
          (min (4 - 3) 3) 0 0 0).2
        0 3 0 0 (min (5 - 0) 4) (min (4 - 3) 3) (min (3 - 0) 2))
      ∈ loop_events blk_small (single_thread 3 5) args_3x5_pack_ab ++
        release_events (single_thread 3 5) args_3x5_pack_ab
          (loop_events blk_small (single_thread 3 5) args_3x5_pack_ab) := by
    refine List.mem_append_left _
      ((kernel_mem_loop_events blk_small (single_thread 3 5) args_3x5_pack_ab 0 3 0 0 _).2
        ⟨?_, ?_, ?_, ?_, rfl⟩)
    · exact (mem_starts_iff (by decide) _ _).2 (by decide)
    · exact (mem_starts_iff (by decide) _ _).2 (by decide)
    · exact (mem_starts_iff (by decide) _ _).2 (by decide)
    · exact (mem_starts_iff (by decide) _ _).2 (by decide)
  rw [← Option.some.inj (h0.symm.trans h1)] at hb ha
  obtain ⟨b1, b2, b3, _⟩ := hb ⟨rfl, rfl⟩ 0 3 0 0 _ hmem
  obtain ⟨a1, a2, a3, _⟩ := ha ⟨by decide, rfl⟩ 0 3 0 0 _ hmem
  exact ⟨_, _, h0, hmem, b1, b2, b3, a1, a2, a3⟩

/-- Operands tagged PACK are not packed when the pack flags are unset, and an operand
tagged NATIVE is packed when its flag is set.  In the call `M = N = K = 1` with
`mtag_a = mtag_b = PACK` and both flags unset the driver makes no call of a packer, and
its micro-kernel call is handed the caller's A and B with the caller's strides; in the
same call with `mtag_a = NATIVE` and the pack-A flag set the driver packs A once and the
micro-kernel call reads the pack buffer with the strides `(1, MR) = (1, 6)`. -/
theorem pack_tag_without_flag_not_packed :
    args_1x1_tag_pack.mtag_a = AOCL_MEMORY_TAG.PACK ∧
    args_1x1_tag_pack.mtag_b = AOCL_MEMORY_TAG.PACK ∧
    (lpgemm_rowvar_f32f32f32of32 blk_6x16 nav_id (single_thread 1 1) args_1x1_tag_pack 1).map
        (fun evs => (evs.countP Event.is_pack_a, evs.countP Event.is_pack_b,
          evs.filterMap Event.a_info, evs.filterMap Event.b_info))
      = some (0, 0, [(0, 0, 0, 0, ⟨Region.operand, 0⟩, 1, 1)],
          [(0, 0, 0, 0, ⟨Region.operand, 0⟩, 1, 1)]) ∧
    args_1x1_flag_a.mtag_a = AOCL_MEMORY_TAG.NATIVE ∧
    (lpgemm_rowvar_f32f32f32of32 blk_6x16 nav_id (single_thread 1 1) args_1x1_flag_a 1).map
        (fun evs => (evs.countP Event.is_pack_a, evs.filterMap Event.a_info))
      = some (1, [(0, 0, 0, 0, ⟨Region.packbuf, 0⟩, 1, 6)]) :=
  ⟨rfl, rfl, rfl, rfl, rfl⟩

end c22_concrete

end Lpgemm

namespace Haswell

/-! ## The edge path never selects the kernel 6x16 -/

section c28

variable {R : Type} [CommRing R] [DecidableEq R]

/-- C28, for tiles inside the tables. On the edge path (`m0 < 6` or `n0 < 16`) of a tile
with at most 13 rows and 43 columns (the sums of the entries of `mrs` and of `nrs`) the call
returns, and among all the calls it makes none goes to `kmap[0][0]`: a call at the row
index 0 has `6 <= m0` and a call at the column index 0 has `16 <= n0`.  Every call goes to
the entry of `kmap` at its indices, which is never the kernel `6x16` itself, and the chunk
`(mr_cur, nr_cur)` it is given is the nominal shape of that kernel. -/
theorem edge_never_selects_6x16 (x : SupArgs R) (A B C : Nat → R)
    (hedge : x.m0 < 6 ∨ x.n0 < 16) (hm : x.m0 ≤ 13) (hn : x.n0 ≤ 43) :
    ∃ calls, bli_sgemmsup_rv_haswell_asm_6x16 x A B C = Outcome.edge (some calls) ∧
      ∀ c ∈ calls,
        (kmap.get? c.i).bind (fun row => row.get? c.j) = some c.ker_fp ∧
        (c.i = 0 → 6 ≤ x.m0) ∧ (c.j = 0 → 16 ≤ x.n0) ∧
        ¬ (c.i = 0 ∧ c.j = 0) ∧
        c.ker_fp ≠ SupKernel.rv_haswell_asm 6 16 ∧
        c.ker_fp.shape = (c.m, c.n) := by
  refine ⟨edge_calls_made x, ?_, ?_⟩
  · simp only [bli_sgemmsup_rv_haswell_asm_6x16, if_pos hedge]
    rw [edge_path_eq_trace x, if_pos (edge_trace_ends x hm hn)]
  · intro c hc
    obtain ⟨col, hcol, hc2⟩ := List.mem_flatMap.1 hc
    obtain ⟨hw, hcalls⟩ := edge_calls_made_spec x col hcol
    obtain ⟨a1, a2, a3, _, _, _, a7, a8, a9, _⟩ := hcalls c hc2
    obtain ⟨s1, s2⟩ := kmap_shape c.i c.j c.ker_fp c.m c.n a7 a8 a9
    have hi : c.i = 0 → 6 ≤ x.m0 := by
      intro h0
      rw [h0] at a8
      simp only [mrs, List.get?_cons_zero, Option.some.injEq] at a8
      omega
    have hj : c.j = 0 → 16 ≤ x.n0 := by
      intro h0
      rw [h0] at a9
      simp only [nrs, List.get?_cons_zero, Option.some.injEq] at a9
      omega
    have hij : ¬ (c.i = 0 ∧ c.j = 0) := by
      rintro ⟨h1, h2⟩
      have := hi h1
      have := hj h2
      omega
    exact ⟨a7, hi, hj, hij, fun hk => hij (s2 hk), s1⟩

/-- For `m0 = 5`, `n0 = 15` the edge path makes six calls, for the column chunks of width
12, 2, 1 and the row chunks of height 4, 1; none of them is at `kmap[0][0]`, and each
kernel has the shape of its chunk. -/
theorem edge_never_selects_6x16_witness :
    ∃ calls,
      bli_sgemmsup_rv_haswell_asm_6x16 args_5x15 (fun _ => 1) (fun _ => 1) (fun _ => 0)
        = Outcome.edge (some calls) ∧
      calls.map (fun c => (c.ker_fp, c.i, c.j))
        = [(.rv_haswell_asm 4 12, 1, 1), (.rv_haswell_asm 1 12, 3, 1),
           (.rv_haswell_asm 4 2, 1, 4), (.rv_haswell_asm 1 2, 3, 4),
           (.r_haswell_ref 4 1, 1, 5), (.r_haswell_ref 1 1, 3, 5)] ∧
      ∀ c ∈ calls,
        c.ker_fp ≠ SupKernel.rv_haswell_asm 6 16 ∧ c.ker_fp.shape = (c.m, c.n) := by
  obtain ⟨calls, h1, h2⟩ := edge_never_selects_6x16 args_5x15 (fun _ => 1) (fun _ => 1)
    (fun _ => 0) (Or.inl (by decide)) (by decide) (by decide)
  have h0 : bli_sgemmsup_rv_haswell_asm_6x16 args_5x15 (fun _ => 1) (fun _ => 1)
      (fun _ => 0) = Outcome.edge (some (edge_calls_made args_5x15)) := rfl
  have e : calls = edge_calls_made args_5x15 := by
    rw [h0] at h1
    injection h1 with h1
    injection h1 with h1
    exact h1.symm
  subst e
  refine ⟨_, h0, rfl, ?_⟩
  intro c hc
  obtain ⟨_, _, _, _, a5, a6⟩ := h2 c hc
  exact ⟨a5, a6⟩

/-- The tables do not determine every call of the edge path.  For `m0 = 1`, `n0 = 44` the
`n` loop uses the six entries of `nrs`, making for each the one call of the row `kmap[3]`
(`1x16, 1x12, 1x8, 1x4, 1x2, 1x1`, 43 columns in all), has one column left and goes on
with `j = 6`: it reads `nrs[6]`, past the end of the table, and `kmap[3][6]` is no entry
of `kmap`.  The kernel for the last column, if one is called, and its shape are not
defined by the tables, and the edge path has no defined result. -/
theorem edge_call_past_kmap :
    (1 ≤ args_1x44.m0 ∧ 1 ≤ args_1x44.n0 ∧ args_1x44.m0 < 6) ∧
    (edge_calls_made args_1x44).map (fun c => (c.ker_fp, c.i, c.j, c.s, c.n))
      = [(.rv_haswell_asm 1 16, 3, 0, 0, 16), (.rv_haswell_asm 1 12, 3, 1, 16, 12),
         (.rv_haswell_asm 1 8, 3, 2, 28, 8), (.rv_haswell_asm 1 4, 3, 3, 36, 4),
         (.rv_haswell_asm 1 2, 3, 4, 40, 2), (.r_haswell_ref 1 1, 3, 5, 42, 1)] ∧
    (edge_trace args_1x44).2 = false ∧
    edge_n_loop args_1x44 [] 6 1 43 43 43 = none ∧
    nrs.get? 6 = none ∧
    (kmap.get? 3).bind (fun row => row.get? 6) = none ∧
    bli_sgemmsup_rv_haswell_asm_6x16 args_1x44 (fun _ => 1) (fun _ => 1) (fun _ => 0)
      = Outcome.edge none :=
  ⟨by decide, rfl, rfl, rfl, rfl, rfl, rfl⟩

end c28

end Haswell

